import Mathlib

/-!
# Yash job control: a shallow embedding of `job.c`

The job list, the current/previous job numbers and the functions of `job.c`
that maintain them are rendered as pure functions on an explicit state
`JobTable`.  Wide strings are lists of characters, `size_t` job numbers are
natural numbers, process-group ids are integers.
-/

namespace Yash

/-! ## Data model -/

/-- Job and process status, the enumeration `jobstatus_T` used by `job.c`. -/
inductive jobstatus_T where
  | JS_RUNNING
  | JS_STOPPED
  | JS_DONE
deriving DecidableEq, Repr

open jobstatus_T

/-- Modelled from the spec: the declaration of `process_T` lives in `job.h`,
which is not among the sources; the fields are those `job.c` reads and writes
(`pr_pid`, `pr_status`, `pr_statuscode`, `pr_name`). -/
structure process_T where
  pr_pid : Int
  pr_status : jobstatus_T
  pr_statuscode : Int
  pr_name : List Char
deriving DecidableEq, Repr

/-- Modelled from the spec: the declaration of `job_T` lives in `job.h`, which
is not among the sources; the fields are those `job.c` reads and writes.  The
flexible array `j_procs` together with its length `j_pcount` is a list. -/
structure job_T where
  j_pgid : Int
  j_status : jobstatus_T
  j_statuschanged : Bool
  j_nonotify : Bool
  j_procs : List process_T
deriving DecidableEq, Repr

/-- The file-scope state of `job.c`: `joblist` (a pointer list whose entries
may be `NULL`), `current_jobnumber` and `previous_jobnumber`. -/
structure JobTable where
  joblist : List (Option job_T)
  current_jobnumber : Nat
  previous_jobnumber : Nat
deriving DecidableEq, Repr

/-- The number of the slot that holds the job under construction. -/
def ACTIVE_JOBNO : Nat := 0

/-! ## Accessors -/

/-- `get_job`: the job of the given number, `none` for `NULL`. -/
def get_job (s : JobTable) (jobnumber : Nat) : Option job_T :=
  if jobnumber < s.joblist.length then s.joblist.getD jobnumber none else none

/-- `stopped_job_count`: the number of slots (slot 0 included) that hold a
stopped job. -/
def stopped_job_count (s : JobTable) : Nat :=
  s.joblist.countP (fun slot =>
    match slot with
    | some job => decide (job.j_status = JS_STOPPED)
    | none => false)

/-- The test `job != NULL && job->j_status == JS_STOPPED` on slot `jobnumber`. -/
def is_stopped_job (s : JobTable) (jobnumber : Nat) : Bool :=
  match get_job s jobnumber with
  | some job => decide (job.j_status = JS_STOPPED)
  | none => false

/-! ## Status reconciliation (`do_wait`) -/

/-- What the `W*` macros of `<sys/wait.h>` report about a raw status word. -/
structure WaitStatus where
  code : Int
  exited : Bool
  signaled : Bool
  stopped : Bool
  continued : Bool
deriving DecidableEq, Repr

/-- The loop of `do_wait` over `job->j_procs`, carrying
`(anyrunning, anystopped)`; a running member leaves the loop at once. -/
def scan_procs : List process_T → Bool × Bool → Bool × Bool
  | [], acc => acc
  | p :: ps, (anyrunning, anystopped) =>
    match p.pr_status with
    | JS_RUNNING => (true, anystopped)
    | JS_STOPPED => scan_procs ps (anyrunning, true)
    | JS_DONE => scan_procs ps (anyrunning, anystopped)

/-- The job status `do_wait` decides from the process statuses. -/
def decide_job_status (procs : List process_T) : jobstatus_T :=
  let r := scan_procs procs (false, false)
  if r.1 then JS_RUNNING else if r.2 then JS_STOPPED else JS_DONE

/-- The assignments to `pr->pr_statuscode` and `pr->pr_status` under the label
`found:`; later tests override earlier ones. -/
def record_status (pr : process_T) (status : WaitStatus) : process_T :=
  let pr := { pr with pr_statuscode := status.code }
  let pr := if status.exited || status.signaled then { pr with pr_status := JS_DONE } else pr
  let pr := if status.stopped then { pr with pr_status := JS_STOPPED } else pr
  if status.continued then { pr with pr_status := JS_RUNNING } else pr

/-- The inner search loop of `do_wait`: index of the first process of the job
whose pid is `pid`. -/
def find_pnumber : List process_T → Int → Nat → Option Nat
  | [], _, _ => none
  | p :: ps, pid, pnumber =>
    if p.pr_pid = pid then some pnumber else find_pnumber ps pid (pnumber + 1)

/-- The outer search loop of `do_wait`: the first `(jobnumber, pnumber)` whose
process has the given pid. -/
def find_process : List (Option job_T) → Int → Nat → Option (Nat × Nat)
  | [], _, _ => none
  | none :: rest, pid, jobnumber => find_process rest pid (jobnumber + 1)
  | some job :: rest, pid, jobnumber =>
    match find_pnumber job.j_procs pid 0 with
    | some pnumber => some (jobnumber, pnumber)
    | none => find_process rest pid (jobnumber + 1)

/-- The code of `do_wait` from the label `found:` to `goto start`, applied to
the job that owns the process. -/
def update_job (job : job_T) (pnumber : Nat) (status : WaitStatus) : job_T :=
  let procs := job.j_procs.modify (fun pr => record_status pr status) pnumber
  let oldstatus := job.j_status
  let newstatus := decide_job_status procs
  { job with
    j_procs := procs,
    j_status := newstatus,
    j_statuschanged := if newstatus ≠ oldstatus then true else job.j_statuschanged }

/-- One round of `do_wait` in which `waitpid` reported `(pid, status)`:
an unknown pid is ignored. -/
def do_wait_step (s : JobTable) (pid : Int) (status : WaitStatus) : JobTable :=
  match find_process s.joblist pid 0 with
  | none => s
  | some (jobnumber, pnumber) =>
    let update := fun (slot : Option job_T) => slot.map (fun job => update_job job pnumber status)
    { s with joblist := s.joblist.modify update jobnumber }

/-- The function `do_wait`: the rounds are repeated for every report `waitpid`
has pending, and the function returns when `waitpid` has nothing more. -/
def do_wait (s : JobTable) (reports : List (Int × WaitStatus)) : JobTable :=
  reports.foldl (fun s r => do_wait_step s r.1 r.2) s

/-! ## Current and previous job selection -/

/-- The first loop of `find_next_job`: `jobnumber` is the value before
`--jobnumber > 0` is evaluated; the highest stopped job other than `excl`.
The job list always has its slot 0, so the loop starts from a length of at
least 1 and the decrement does not wrap around. -/
def find_next_stopped (s : JobTable) (excl : Nat) : Nat → Option Nat
  | 0 => none
  | 1 => none
  | jobnumber + 2 =>
    if jobnumber + 1 ≠ excl ∧ is_stopped_job s (jobnumber + 1) = true then
      some (jobnumber + 1)
    else find_next_stopped s excl (jobnumber + 1)

/-- The second loop of `find_next_job`: the highest job other than `excl`. -/
def find_next_any (s : JobTable) (excl : Nat) : Nat → Option Nat
  | 0 => none
  | 1 => none
  | jobnumber + 2 =>
    if jobnumber + 1 ≠ excl ∧ (get_job s (jobnumber + 1)).isSome = true then
      some (jobnumber + 1)
    else find_next_any s excl (jobnumber + 1)

/-- `find_next_job`: an arbitrary job number except `excl`, 0 if there is
none; the previous job if stopped, else the highest stopped job, else the
highest job. -/
def find_next_job (s : JobTable) (excl : Nat) : Nat :=
  if s.previous_jobnumber ≠ excl ∧ is_stopped_job s s.previous_jobnumber = true then
    s.previous_jobnumber
  else
    match find_next_stopped s excl s.joblist.length with
    | some jobnumber => jobnumber
    | none =>
      match find_next_any s excl s.joblist.length with
      | some jobnumber => jobnumber
      | none => 0

/-- The condition `newcurrent == NULL || (stopcount > 0 &&
newcurrent->j_status != JS_STOPPED)` that `set_current_jobnumber` tests on each
candidate for the current job. -/
def bad_current (s : JobTable) (stopcount jobnumber : Nat) : Bool :=
  match get_job s jobnumber with
  | none => true
  | some newcurrent => decide (stopcount > 0) && decide (newcurrent.j_status ≠ JS_STOPPED)

/-- The condition `newprevious == NULL || jobnumber == current_jobnumber ||
(stopcount > 1 && newprevious->j_status != JS_STOPPED)` that
`set_current_jobnumber` tests on each candidate for the previous job. -/
def bad_previous (s : JobTable) (stopcount jobnumber : Nat) : Bool :=
  match get_job s jobnumber with
  | none => true
  | some newprevious =>
    decide (jobnumber = s.current_jobnumber) ||
      (decide (stopcount > 1) && decide (newprevious.j_status ≠ JS_STOPPED))

/-- `set_current_jobnumber`. -/
def set_current_jobnumber (s : JobTable) (jobnumber : Nat) : JobTable :=
  let stopcount := stopped_job_count s
  let jobnumber :=
    if bad_current s stopcount jobnumber then
      if bad_current s stopcount s.current_jobnumber then
        if bad_current s stopcount s.previous_jobnumber then find_next_job s 0
        else s.previous_jobnumber
      else s.current_jobnumber
    else jobnumber
  let s1 : JobTable :=
    if jobnumber ≠ s.current_jobnumber then { s with current_jobnumber := jobnumber } else s
  let jobnumber :=
    if jobnumber ≠ s.current_jobnumber then s.current_jobnumber else s.previous_jobnumber
  let jobnumber :=
    if bad_previous s1 stopcount jobnumber then
      if bad_previous s1 stopcount s1.previous_jobnumber then
        find_next_job s1 s1.current_jobnumber
      else s1.previous_jobnumber
    else jobnumber
  { s1 with previous_jobnumber := jobnumber }

/-! ## Adding jobs -/

/-- The search loop of `add_job` over the slots from `jobnumber` on: the value
of `jobnumber` when the loop is left, which is the first empty slot or, if
there is none, `joblist.length`. -/
def first_empty : List (Option job_T) → Nat → Nat
  | [], jobnumber => jobnumber
  | none :: _, jobnumber => jobnumber
  | some _ :: rest, jobnumber => first_empty rest (jobnumber + 1)

/-- The slot `add_job` puts the active job in. -/
def add_job_number (s : JobTable) : Nat :=
  first_empty (s.joblist.drop 1) 1

/-- The job list after `add_job` has moved `job` out of slot 0: the slot found
by the loop is filled, or the job is appended by `pl_add`. -/
def add_job_list (s : JobTable) (job : job_T) : List (Option job_T) :=
  let contents := s.joblist.set ACTIVE_JOBNO none
  let jobnumber := add_job_number s
  if jobnumber < contents.length then contents.set jobnumber (some job)
  else contents ++ [some job]

/-- `add_job`: `none` when the assertion `job != NULL` fails. -/
def add_job (s : JobTable) (current : Bool) : Option JobTable :=
  match get_job s ACTIVE_JOBNO with
  | none => none
  | some job =>
    let jobnumber := add_job_number s
    let s1 : JobTable := { s with joblist := add_job_list s job }
    if job.j_status = JS_STOPPED ∨ current = true then
      some (set_current_jobnumber s1 jobnumber)
    else
      some (set_current_jobnumber s1 s1.current_jobnumber)

/-- `neglect_all_jobs`. -/
def neglect_all_jobs (s : JobTable) : JobTable :=
  { joblist := s.joblist.map (fun slot =>
      match slot with
      | some job =>
        if job.j_pgid ≥ 0 then
          some { job with j_pgid := if job.j_pgid > 0 then -job.j_pgid else -1 }
        else some job
      | none => none),
    current_jobnumber := 0,
    previous_jobnumber := 0 }

/-! ## Job-id strings -/

/-- Limits of the integer types of the platform. -/
structure Limits where
  ULONG_MAX : Nat
  SIZE_MAX : Nat
deriving DecidableEq, Repr

/-- The limits of an LP64 platform. -/
def LP64 : Limits := { ULONG_MAX := 2 ^ 64 - 1, SIZE_MAX := 2 ^ 64 - 1 }

/-- `iswdigit`: the decimal digits. -/
def iswdigit (c : Char) : Bool :=
  decide ('0'.toNat ≤ c.toNat) && decide (c.toNat ≤ '9'.toNat)

/-- The digit scan of `wcstoul` in base 10: the value of the longest prefix of
digits (starting from `acc`) and the rest of the string. -/
def wcstoul_digits : List Char → Nat → Nat × List Char
  | [], acc => (acc, [])
  | c :: cs, acc =>
    if iswdigit c = true then wcstoul_digits cs (10 * acc + (c.toNat - '0'.toNat))
    else (acc, c :: cs)

/-- Modelled from the spec: `xwcstoul` is defined in `util.c`, which is not
among the sources.  The job-id grammar has a "decimal integer" form; on a
string that starts with a digit, which is how `get_jobnumber_from_name` calls
it, the conversion is that of the C function `wcstoul` in base 10, and it
succeeds when the value fits `unsigned long` and no character is left over. -/
def xwcstoul (lim : Limits) (s : List Char) : Option Nat :=
  let r := wcstoul_digits s 0
  if s ≠ [] ∧ r.1 ≤ lim.ULONG_MAX ∧ r.2 = [] then some r.1 else none

/-- Modelled from the spec: `matchwcsprefix` is defined in `strbuf.c`, which is
not among the sources; the job-id grammar says "starts with": the result is
non-`NULL` exactly when `s` starts with `pre`. -/
def matchwcsprefix (s pre : List Char) : Bool :=
  pre.isPrefixOf s

/-- The C library function `wcsstr`, as a test for non-`NULL`: `sub` occurs in
`s`. -/
def wcsstr : List Char → List Char → Bool
  | [], sub => sub.isEmpty
  | c :: cs, sub => sub.isPrefixOf (c :: cs) || wcsstr cs sub

/-- The loop of `get_job_name` over the processes of a pipeline. -/
def get_job_name_loop : List process_T → Nat → List Char → List Char
  | [], _, buf => buf
  | p :: ps, i, buf =>
    let buf := if i > 0 then buf ++ [' ', '|', ' '] else buf
    get_job_name_loop ps (i + 1) (buf ++ p.pr_name)

/-- `get_job_name`: the name of the only process, or the names of all the
processes joined by `" | "`. -/
def get_job_name (job : job_T) : List Char :=
  match job.j_procs with
  | [p] => p.pr_name
  | procs => get_job_name_loop procs 0 []

/-- The test `(contain ? wcsstr : matchwcsprefix)(jobname, name)`. -/
def job_matches (contain : Bool) (name : List Char) (job : job_T) : Bool :=
  if contain then wcsstr (get_job_name job) name
  else matchwcsprefix (get_job_name job) name

/-- The search loop of `get_jobnumber_from_name` over the slots from `i` on;
`n` is the match found so far and `len` is `joblist.length`. -/
def match_jobs (len : Nat) (contain : Bool) (name : List Char) :
    List (Option job_T) → Nat → Nat → Nat
  | [], _, n => n
  | none :: rest, i, n => match_jobs len contain name rest (i + 1) n
  | some job :: rest, i, n =>
    if job_matches contain name job = true then
      if n ≠ 0 then len
      else match_jobs len contain name rest (i + 1) i
    else match_jobs len contain name rest (i + 1) n

/-- The guard `iswdigit(name[0]) && xwcstoul(name, 10, &num)` of
`get_jobnumber_from_name`, with the converted number. -/
def numeric_jobid (lim : Limits) (name : List Char) : Option Nat :=
  if iswdigit (name.headD (Char.ofNat 0)) = true then xwcstoul lim name else none

/-- `get_jobnumber_from_name`. -/
def get_jobnumber_from_name (lim : Limits) (s : JobTable) (name : List Char) : Nat :=
  if name = [] ∨ name = ['%'] ∨ name = ['+'] then s.current_jobnumber
  else if name = ['-'] then s.previous_jobnumber
  else
    match numeric_jobid lim name with
    | some num => if num ≤ lim.SIZE_MAX ∧ (get_job s num).isSome = true then num else 0
    | none =>
      let contain := decide (name.headD (Char.ofNat 0) = '?')
      let name := if contain then name.drop 1 else name
      match_jobs s.joblist.length contain name (s.joblist.drop 1) 1 0

/-! ## Notions of the specification and sample tables -/

/-- The value of a string of decimal digits, read as the specification's
"decimal integer". -/
def decimal_value (name : List Char) : Nat :=
  name.foldl (fun acc c => 10 * acc + (c.toNat - '0'.toNat)) 0

/-- The name of the first process of a job, the specification's "leading
process name"; empty for a job without processes. -/
def leading_process_name (job : job_T) : List Char :=
  match job.j_procs with
  | [] => []
  | p :: _ => p.pr_name

/-- The numbers, from `i` on, of the jobs of a list of slots whose name matches
the job-id `name`. -/
def matching_jobs (contain : Bool) (name : List Char) : List (Option job_T) → Nat → List Nat
  | [], _ => []
  | none :: rest, i => matching_jobs contain name rest (i + 1)
  | some job :: rest, i =>
    if job_matches contain name job = true then i :: matching_jobs contain name rest (i + 1)
    else matching_jobs contain name rest (i + 1)

/-- The job-id `name` selects a job called `jobname`: `?sub` asks that `sub`
occurs in `jobname`, any other string asks that `jobname` starts with it. -/
def job_id_selects (name jobname : List Char) : Prop :=
  match name with
  | '?' :: sub => sub <:+: jobname
  | _ => name <+: jobname

/-- A process with the given pid, status and name. -/
def sample_process (pid : Int) (status : jobstatus_T) (name : String) : process_T :=
  { pr_pid := pid, pr_status := status, pr_statuscode := 0, pr_name := name.data }

/-- A job-controlled job of one process. -/
def sample_job (pid : Int) (status : jobstatus_T) (name : String) : job_T :=
  { j_pgid := pid, j_status := status, j_statuschanged := false, j_nonotify := false,
    j_procs := [sample_process pid status name] }

/-- A pipeline of a finished and a running process. -/
def pipeline_job : job_T :=
  { j_pgid := 10, j_status := JS_RUNNING, j_statuschanged := false, j_nonotify := false,
    j_procs := [sample_process 10 JS_DONE "cat", sample_process 11 JS_RUNNING "grep"] }

/-- A table whose only job, job 1, is the pipeline. -/
def pipeline_table : JobTable :=
  { joblist := [none, some pipeline_job], current_jobnumber := 1, previous_jobnumber := 0 }

/-- The report of `waitpid` for a process that was stopped. -/
def stop_report : WaitStatus :=
  { code := 4991, exited := false, signaled := false, stopped := true, continued := false }

/-- A table whose active job (slot 0) is stopped while jobs 1 and 2 run. -/
def active_stopped_table : JobTable :=
  { joblist := [some (sample_job 10 JS_STOPPED "a"), some (sample_job 11 JS_RUNNING "b"),
      some (sample_job 12 JS_RUNNING "c")],
    current_jobnumber := 1, previous_jobnumber := 2 }

/-- A table whose active job and job 1 are stopped while job 2 runs. -/
def two_stopped_table : JobTable :=
  { joblist := [some (sample_job 10 JS_STOPPED "a"), some (sample_job 11 JS_STOPPED "b"),
      some (sample_job 12 JS_RUNNING "c")],
    current_jobnumber := 1, previous_jobnumber := 2 }

/-- A table whose active job and jobs 1 and 2 are stopped. -/
def three_stopped_table : JobTable :=
  { joblist := [some (sample_job 10 JS_STOPPED "a"), some (sample_job 11 JS_STOPPED "b"),
      some (sample_job 12 JS_STOPPED "c")],
    current_jobnumber := 1, previous_jobnumber := 2 }

/-- A table with jobs 1 and 3 stopped and job 2 running, no active job. -/
def stopped_jobs_table : JobTable :=
  { joblist := [none, some (sample_job 11 JS_STOPPED "a"), some (sample_job 12 JS_RUNNING "b"),
      some (sample_job 13 JS_STOPPED "c")],
    current_jobnumber := 2, previous_jobnumber := 0 }

/-- A running active job next to a stopped current job 1. -/
def running_beside_stopped : JobTable :=
  { joblist := [some (sample_job 10 JS_RUNNING "a"), some (sample_job 11 JS_STOPPED "b")],
    current_jobnumber := 1, previous_jobnumber := 0 }

/-- A stopped active job, running jobs 1 and 3, and a free slot 2. -/
def stopped_active_with_hole : JobTable :=
  { joblist := [some (sample_job 10 JS_STOPPED "a"), some (sample_job 11 JS_RUNNING "b"), none,
      some (sample_job 13 JS_RUNNING "c")],
    current_jobnumber := 1, previous_jobnumber := 3 }

/-- A running active job, running jobs 1 and 3, a free slot 2, and the current
job 1. -/
def running_with_hole : JobTable :=
  { joblist := [some (sample_job 10 JS_RUNNING "a"), some (sample_job 11 JS_RUNNING "b"), none,
      some (sample_job 13 JS_RUNNING "c")],
    current_jobnumber := 1, previous_jobnumber := 3 }

/-- The table `running_with_hole` after `neglect_all_jobs` has reset the
current and previous job numbers. -/
def neglected_with_hole : JobTable :=
  { joblist := [some (sample_job 10 JS_RUNNING "a"), some (sample_job (-11) JS_RUNNING "b"), none,
      some (sample_job (-13) JS_RUNNING "c")],
    current_jobnumber := 0, previous_jobnumber := 0 }

/-- A running active job and a stopped job 1, with no current job recorded. -/
def neglected_stopped : JobTable :=
  { joblist := [some (sample_job 10 JS_RUNNING "a"), some (sample_job (-11) JS_STOPPED "b")],
    current_jobnumber := 0, previous_jobnumber := 0 }

/-- A running active job, a stopped job 1 and a running job 2 that is recorded
as the current job. -/
def stale_current : JobTable :=
  { joblist := [some (sample_job 10 JS_RUNNING "a"), some (sample_job 11 JS_STOPPED "b"),
      some (sample_job 12 JS_RUNNING "c")],
    current_jobnumber := 2, previous_jobnumber := 0 }

/-- A running active job and a running job 1 that is recorded as the previous
job while no current job is recorded. -/
def previous_only : JobTable :=
  { joblist := [some (sample_job 10 JS_RUNNING "a"), some (sample_job 11 JS_RUNNING "b")],
    current_jobnumber := 0, previous_jobnumber := 1 }

/-- A table that holds the active job only. -/
def only_active : JobTable :=
  { joblist := [some (sample_job 10 JS_RUNNING "a")],
    current_jobnumber := 0, previous_jobnumber := 0 }

/-- A table whose job 1 is named by a numeral beyond `unsigned long`. -/
def big_name_table : JobTable :=
  { joblist := [none, some (sample_job 100 JS_RUNNING "18446744073709551616")],
    current_jobnumber := 1, previous_jobnumber := 0 }

/-! ## Resolving a job-id to a process group -/

/-- The three messages `get_job_pgid` prints with `xerror` before it returns
`-1`. -/
inductive pgid_error where
  | ambiguous
  | no_such_job
  | not_job_controlled
deriving DecidableEq, Repr

/-- `get_job_pgid`: the process-group id of the job named by `jobname`, which
may begin with `%`; `Except.error e` stands for the message `e` being printed
and `-1` being returned. -/
def get_job_pgid (lim : Limits) (s : JobTable) (jobname : List Char) : Except pgid_error Int :=
  let jobnumber := get_jobnumber_from_name lim s
    (if jobname.headD (Char.ofNat 0) = '%' then jobname.drop 1 else jobname)
  if jobnumber ≥ s.joblist.length then Except.error pgid_error.ambiguous
  else if jobnumber = 0 then Except.error pgid_error.no_such_job
  else
    match s.joblist.getD jobnumber none with
    | none => Except.error pgid_error.no_such_job
    | some job =>
      if job.j_pgid < 0 then Except.error pgid_error.no_such_job
      else if job.j_pgid = 0 then Except.error pgid_error.not_job_controlled
      else Except.ok job.j_pgid

/-! ## Brace expansion (`expand.c`)

A word is a list of characters and its splittability string a list of
booleans (`true` for a non-zero byte).  A pointer into the word is the index
of the character it points to.  Lengths and differences of pointers are
natural numbers: the `int` and `unsigned` variables of the source are taken
not to overflow. -/

/-- The C library function `iswspace` in the C locale. -/
def iswspace (c : Char) : Bool :=
  c == ' ' || c == '\t' || c == '\n' || c == Char.ofNat 11 || c == Char.ofNat 12 || c == '\r'

/-- The C library function `wcschr` on a string without its terminator: the
index of the first occurrence of `ch`. -/
def wcschr : List Char → Char → Option Nat
  | [], _ => none
  | c :: cs, ch => if c = ch then some 0 else (wcschr cs ch).map (· + 1)

/-- The value of a character as a digit of a numeral in base 8, 10 or 16. -/
def digit_value (c : Char) : Option Nat :=
  if '0'.toNat ≤ c.toNat ∧ c.toNat ≤ '9'.toNat then some (c.toNat - '0'.toNat)
  else if 'a'.toNat ≤ c.toNat ∧ c.toNat ≤ 'f'.toNat then some (c.toNat - 'a'.toNat + 10)
  else if 'A'.toNat ≤ c.toNat ∧ c.toNat ≤ 'F'.toNat then some (c.toNat - 'A'.toNat + 10)
  else none

/-- The character is a digit of the given base. -/
def is_digit (base : Nat) (c : Char) : Bool :=
  match digit_value c with
  | some d => decide (d < base)
  | none => false

/-- What `wcstol` hands back: the value, the number of characters between the
start of the string and the end pointer, and whether `errno` was set to
`ERANGE`. -/
structure wcstol_result where
  value : Int
  consumed : Nat
  range_error : Bool
deriving DecidableEq, Repr

/-- The parts of a numeral as `wcstol` reads it with base 0: the sign, the
base, the number of characters in front of the digits and the digits. -/
structure numeral where
  negative : Bool
  base : Nat
  skipped : Nat
  digits : List Char
deriving DecidableEq, Repr

/-- The text starts with the mark of a hexadecimal numeral: `0x` or `0X` in
front of a hexadecimal digit. -/
def hex_mark : List Char → Bool
  | '0' :: x :: h :: _ => (x == 'x' || x == 'X') && is_digit 16 h
  | _ => false

/-- The scan of the C library function `wcstol` called with base 0 in the C
locale: white space, an optional sign, an optional `0x` (hexadecimal, when a
hexadecimal digit follows) or `0` (octal), and the longest run of digits of
the base. -/
def scan_numeral (s : List Char) : numeral :=
  let spaces := s.takeWhile iswspace
  let s1 := s.dropWhile iswspace
  let signlen := if s1.head? = some '+' ∨ s1.head? = some '-' then 1 else 0
  let s2 := s1.drop signlen
  let base := if hex_mark s2 = true then 16 else if s2.head? = some '0' then 8 else 10
  let s3 := if hex_mark s2 = true then s2.drop 2 else s2
  { negative := decide (s1.head? = some '-'),
    base := base,
    skipped := spaces.length + signlen + (if hex_mark s2 = true then 2 else 0),
    digits := s3.takeWhile (is_digit base) }

/-- The C library function `wcstol` called with base 0 in the C locale, for a
`long` that ranges over `-long_max - 1 .. long_max`.  Without a digit nothing
is consumed; a value out of range is replaced by the nearest bound and
reported as a range error. -/
def wcstol (long_max : Nat) (s : List Char) : wcstol_result :=
  let parts := scan_numeral s
  let magnitude :=
    parts.digits.foldl (fun acc c => acc * parts.base + (digit_value c).getD 0) 0
  let consumed := parts.skipped + parts.digits.length
  if parts.digits = [] then { value := 0, consumed := 0, range_error := false }
  else if parts.negative = true then
    if magnitude > long_max + 1 then
      { value := -((long_max : Int) + 1), consumed := consumed, range_error := true }
    else { value := -(magnitude : Int), consumed := consumed, range_error := false }
  else
    if magnitude > long_max then
      { value := (long_max : Int), consumed := consumed, range_error := true }
    else { value := (magnitude : Int), consumed := consumed, range_error := false }

/-- `has_leading_zero`: whether the number at `s` starts with `0`, paired with
the new value of `*sign`, which becomes `true` when the number has a `+`. -/
def has_leading_zero (s : List Char) (sign : Bool) : Bool × Bool :=
  match s.dropWhile iswspace with
  | '+' :: r => (decide (r.head? = some '0'), true)
  | '-' :: r => (decide (r.head? = some '0'), sign)
  | r => (decide (r.head? = some '0'), sign)

/-- The text `wb_wprintf` appends for the format `%0*ld` (or `%0+*ld` when
`sign` is set) with the width `len`: the sign, zeros up to the width, the
decimal digits. -/
def wprintf_ld (sign : Bool) (len : Nat) (value : Int) : List Char :=
  let digits := Nat.toDigits 10 value.natAbs
  let mark : List Char := if value < 0 then ['-'] else if sign then ['+'] else []
  mark ++ List.replicate (len - (mark.length + digits.length)) '0' ++ digits

/-- `escaped_wcspbrk`: the index of the first character of `wcs` that is in
`accept` and is not escaped by a backslash. -/
def escaped_wcspbrk : List Char → List Char → Option Nat
  | [], _ => none
  | c :: rest, accept =>
    if c = '\\' then
      match rest with
      | [] => none
      | _ :: rest' => (escaped_wcspbrk rest' accept).map (· + 2)
    else if c ∈ accept then some 0
    else (escaped_wcspbrk rest accept).map (· + 1)

/-- The loop `for (;;)` of `tryexpand_brace_sequence`: the values taken by
`value`, which starts at `start` and moves towards `endv` until it is equal to
it; `fuel` bounds the number of rounds. -/
def sequence_loop (start endv : Int) : Nat → Int → List Int
  | 0, _ => []
  | fuel + 1, value =>
    value :: (if value = endv then []
      else sequence_loop start endv fuel (if start < endv then value + 1 else value - 1))

/-- `tryexpand_brace_sequence`: `none` for `false`; otherwise the words, with
their splittability strings, that are handed to `expand_brace` in turn.
`startc` is the index of the character after the opening brace. -/
def tryexpand_brace_sequence (long_max : Nat) (word : List Char) (split : List Bool)
    (startc : Nat) : Option (List (List Char × List Bool)) :=
  let c := word.drop startc
  match wcschr c '.' with
  | none => none
  | some dotexpect =>
    if dotexpect = 0 then none
    else
      let zero1 := has_leading_zero c false
      let startlen := if zero1.1 then dotexpect else 0
      let start := wcstol long_max c
      if start.range_error = true ∨ start.consumed ≠ dotexpect ∨
          c.getD (dotexpect + 1) (Char.ofNat 0) ≠ '.' then none
      else
        let c2 := word.drop (startc + dotexpect + 2)
        match wcschr c2 '}' with
        | none => none
        | some braceexpect =>
          if braceexpect = 0 then none
          else
            let zero2 := has_leading_zero c2 zero1.2
            let endlen := if zero2.1 then braceexpect else 0
            let endv := wcstol long_max c2
            if endv.range_error = true ∨ endv.consumed ≠ braceexpect then none
            else
              let sign := zero2.2
              let len := if startlen > endlen then startlen else endlen
              let after := startc + dotexpect + 2 + braceexpect + 1
              some ((sequence_loop start.value endv.value
                  ((endv.value - start.value).natAbs + 1) start.value).map fun value =>
                let number := wprintf_ld sign len value
                (word.take (startc - 1) ++ number ++ word.drop after,
                  split.take (startc - 1) ++ List.replicate number.length false ++
                    (split.drop after).take (word.length - after)))

/-- The loop `while ((c = escaped_wcspbrk(c, L"{,}")))` of `expand_brace` with
the search written out: `rest` is the text at index `c`, `elemlist` holds the
indices of the starts of the elements.  The result is the final `elemlist` at
the label `done`, or `none` when control reaches the label `restart`. -/
def scan_elements : List Char → Nat → Nat → List Nat → Option (List Nat)
  | [], _, _, _ => none
  | ch :: rest, c, nest, elemlist =>
    if ch = '\\' then
      match rest with
      | [] => none
      | _ :: rest' => scan_elements rest' (c + 2) nest elemlist
    else if ch = '{' then scan_elements rest (c + 1) (nest + 1) elemlist
    else if ch = ',' then
      scan_elements rest (c + 1) nest (if nest = 0 then elemlist ++ [c + 1] else elemlist)
    else if ch = '}' then
      if nest > 0 then scan_elements rest (c + 1) (nest - 1) elemlist
      else if elemlist.length = 1 then none
      else some (elemlist ++ [c + 1])
    else scan_elements rest (c + 1) nest elemlist

/-- The loop `for (size_t i = 0; i < lastelemindex; i++)` of `expand_brace`
over the consecutive entries of `elemlist`: the words, with their
splittability strings, that are handed to `expand_brace` in turn.  `last` is
the final entry of `elemlist`, the index after the closing brace. -/
def list_words (word : List Char) (split : List Bool) (headlength last : Nat) :
    List Nat → List (List Char × List Bool)
  | p :: q :: elemlist =>
    (word.take headlength ++ (word.drop p).take (q - p - 1) ++ word.drop last,
      split.take headlength ++ (split.drop p).take (q - p - 1) ++
        (split.drop last).take (word.length - last)) ::
      list_words word split headlength last (q :: elemlist)
  | _ => []

/-- What `expand_brace` does with a word: it adds the word as it is, or it
calls itself on each of a list of words. -/
inductive brace_step where
  | literal
  | expand (words : List (List Char × List Bool))
deriving DecidableEq, Repr

/-- The loop of `expand_brace` from the label `start` with the search
`escaped_wcspbrk(c, L"{")` written out: `rest` is the text at index `c`. -/
def find_brace (long_max : Nat) (word : List Char) (split : List Bool) :
    List Char → Nat → brace_step
  | [], _ => brace_step.literal
  | ch :: rest, c =>
    if ch = '\\' then
      match rest with
      | [] => brace_step.literal
      | _ :: rest' => find_brace long_max word split rest' (c + 2)
    else if ch = '{' then
      if rest.isEmpty then brace_step.literal
      else
        match tryexpand_brace_sequence long_max word split (c + 1) with
        | some words => brace_step.expand words
        | none =>
          match scan_elements rest (c + 1) 0 [c + 1] with
          | some elemlist =>
            brace_step.expand
              (list_words word split (elemlist.headD 0 - 1) (elemlist.getLastD 0) elemlist)
          | none => find_brace long_max word split rest (c + 1)
    else find_brace long_max word split rest (c + 1)

/-- The results of the recursive calls put one after the other; `none` when a
call ran out of depth. -/
def concat_results : List (Option (List (List Char × List Bool))) →
    Option (List (List Char × List Bool))
  | [] => some []
  | none :: _ => none
  | some r :: rest => (concat_results rest).map (r ++ ·)

/-- `expand_brace` with a bound on the depth of the recursion: the words added
to `valuelist`, each with the string added to `splitlist`. -/
def expand_brace_depth (long_max : Nat) : Nat → List Char → List Bool →
    Option (List (List Char × List Bool))
  | 0, _, _ => none
  | depth + 1, word, split =>
    match find_brace long_max word split word 0 with
    | brace_step.literal => some [(word, split)]
    | brace_step.expand words =>
      concat_results (words.map fun w => expand_brace_depth long_max depth w.1 w.2)

/-- `expand_brace`: every recursive call works on a word with fewer brace
characters, so the number of them bounds the depth. -/
def expand_brace (long_max : Nat) (word : List Char) (split : List Bool) :
    Option (List (List Char × List Bool)) :=
  expand_brace_depth long_max (word.count '{' + 1) word split

/-- The value of `LONG_MAX` on an LP64 platform. -/
def LONG_MAX_LP64 : Nat := 2 ^ 63 - 1

/-! ## Field splitting (`expand.c`) -/

/-- The loop `while (str[index])` of `fieldsplit` together with its inner
`do ... while` loop, as one machine that reads the text from `index` on:
`rest` pairs each character of `str` from `index` on with its byte of `split`.
The mode is `none` at the test of the outer loop and `some (splitonnonspace,
nonspace)` at the top of the body of the inner loop.  The result is the final
`(index, startindex, dest)`, where `dest` lists the fields added so far. -/
def fieldsplit_loop (str ifs : List Char) :
    List (Char × Bool) → Option (Bool × Bool) → Nat → Nat → List (List Char) →
      Nat × Nat × List (List Char)
  | [], _, index, startindex, dest => (index, startindex, dest)
  | (ch, sp) :: rest, mode, index, startindex, dest =>
    let entered : Option (Bool × Bool × List (List Char)) :=
      match mode with
      | some (splitonnonspace, nonspace) => some (splitonnonspace, nonspace, dest)
      | none =>
        if ch ≠ '\\' ∧ sp = true ∧ ch ∈ ifs then
          if startindex < index then
            some (false, false, dest ++ [(str.drop startindex).take (index - startindex)])
          else some (true, false, dest)
        else none
    match entered with
    | some (splitonnonspace, nonspace, dest) =>
      let dest := if !iswspace ch ∧ splitonnonspace = true then dest ++ [[]] else dest
      let splitonnonspace := if !iswspace ch then true else splitonnonspace
      let nonspace := if !iswspace ch then true else nonspace
      match rest with
      | [] =>
        (index + 1, index + 1,
          if nonspace = true ∧ startindex < index + 1 then dest ++ [[]] else dest)
      | (ch', sp') :: _ =>
        if sp' = true ∧ ch' ∈ ifs then
          fieldsplit_loop str ifs rest (some (splitonnonspace, nonspace)) (index + 1)
            startindex dest
        else fieldsplit_loop str ifs rest none (index + 1) (index + 1) dest
    | none =>
      if ch = '\\' then
        match rest with
        | [] => (index + 1, startindex, dest)
        | _ :: rest' => fieldsplit_loop str ifs rest' none (index + 2) startindex dest
      else fieldsplit_loop str ifs rest none (index + 1) startindex dest

/-- The end of `fieldsplit`, after the loop: `none` when the assertion
`startindex == 0` fails. -/
def fieldsplit_finish (str : List Char) (final : Nat × Nat × List (List Char)) :
    Option (List (List Char)) :=
  if final.2.2 = [] then
    if final.2.1 = 0 then some [str] else none
  else if final.2.1 < final.1 then
    some (final.2.2 ++ [(str.drop final.2.1).take (final.1 - final.2.1)])
  else some final.2.2

/-- `fieldsplit`: the fields added to `dest` for the word `str` with the
splittability string `split`, which has the length of `str`; `none` when the
assertion fails. -/
def fieldsplit (str : List Char) (split : List Bool) (ifs : List Char) :
    Option (List (List Char)) :=
  fieldsplit_finish str (fieldsplit_loop str ifs (str.zip split) none 0 0 [])

/-! ## Notions of the specification for brace expansion and field splitting -/

/-- No character of `accept` occurs in the string outside an escape, an escape
being a backslash with the character after it. -/
def free_of (accept : List Char) : List Char → Bool
  | [] => true
  | c :: rest =>
    if c = '\\' then
      match rest with
      | [] => true
      | _ :: rest' => free_of accept rest'
    else !decide (c ∈ accept) && free_of accept rest

/-- The string is `free_of accept` and is made of whole escapes: it does not
end in a backslash that would escape what follows the string. -/
def plain (accept : List Char) : List Char → Bool
  | [] => true
  | c :: rest =>
    if c = '\\' then
      match rest with
      | [] => false
      | _ :: rest' => plain accept rest'
    else !decide (c ∈ accept) && plain accept rest

/-- The integers from `a` to `b` inclusive, ascending if `a ≤ b` and
descending otherwise. -/
def integers_from_to (a b : Int) : List Int :=
  (List.range ((b - a).natAbs + 1)).map fun (i : Nat) =>
    if a ≤ b then a + (i : Int) else a - (i : Int)

/-- The text is accepted as an endpoint of a sequence that is followed by the
character `stop`: it is not empty, does not contain `stop`, and `wcstol`
converts all of it to `value` without a range error. -/
def accepted_endpoint (long_max : Nat) (text : List Char) (stop : Char) (value : Int) : Prop :=
  text ≠ [] ∧ stop ∉ text ∧
    ∀ rest, wcstol long_max (text ++ stop :: rest) =
      { value := value, consumed := text.length, range_error := false }

/-- The text `e1,e2,...,en}` of a brace list after its opening brace. -/
def brace_list_body : List (List Char) → List Char
  | [] => ['}']
  | [e] => e ++ ['}']
  | e :: es => e ++ ',' :: brace_list_body es

/-- The flag `sign` that `tryexpand_brace_sequence` ends up with for the
endpoints `A` and `B`: one of them has a `+` in front. -/
def sequence_sign (A B : List Char) : Bool :=
  (has_leading_zero B (has_leading_zero A false).2).2

/-- The width `len` that `tryexpand_brace_sequence` prints with for the
endpoints `A` and `B`: the greatest length of an endpoint that starts with
`0`, and 0 when none does. -/
def sequence_width (A B : List Char) : Nat :=
  max (if (has_leading_zero A false).1 = true then A.length else 0)
    (if (has_leading_zero B false).1 = true then B.length else 0)

/-- The indices after the separators that end the elements of a brace list
whose first element starts at index `c`. -/
def element_ends : Nat → List (List Char) → List Nat
  | _, [] => []
  | c, e :: es => (c + e.length + 1) :: element_ends (c + e.length + 1) es

/-- The characters `wcstol` can consume: white space, signs, digits of a base
up to 16 and the `x` of the hexadecimal mark. -/
def wcs_numeric (c : Char) : Bool :=
  iswspace c || c == '+' || c == '-' || c == 'x' || c == 'X' || (digit_value c).isSome

/-- The characters of a number printed by a sequence: signs and decimal
digits. -/
def number_chars : List Char := "+-0123456789".data

/-- An output word and its splittability string are in step with the input:
they have the same length, and every character of the output, with its flag,
is a character of the input with the flag it has there, or a character of a
generated number flagged as not splittable. -/
def flags_in_step (word : List Char) (split : List Bool) (w : List Char × List Bool) : Prop :=
  w.1.length = w.2.length ∧
  ∀ p ∈ w.1.zip w.2, p ∈ word.zip split ∨ (p.1 ∈ number_chars ∧ p.2 = false)

/-- The flags of the elements of a brace list whose first element starts at
index `c`: for each element the part of `split` at its position. -/
def element_flags (split : List Bool) : Nat → List (List Char) → List (List Bool)
  | _, [] => []
  | c, e :: es => (split.drop c).take e.length :: element_flags split (c + e.length + 1) es

/-- A word, as the list of its characters with their splittability flags, made
of the token `t0` followed by runs of splittable characters, each with the
token after it. -/
def separated_word : List (Char × Bool) → List (List Char × List (Char × Bool)) →
    List (Char × Bool)
  | t0, [] => t0
  | t0, (run, t) :: segs => t0 ++ ((run.map fun c => (c, true)) ++ separated_word t segs)

/-- A word, as the list of its characters with their splittability flags, made
of the token `t0` and further tokens, each after the splittable character
`c`. -/
def joined_word (c : Char) : List (Char × Bool) → List (List (Char × Bool)) →
    List (Char × Bool)
  | t0, [] => t0
  | t0, t :: ts => t0 ++ (c, true) :: joined_word c t ts

/-- A token of field splitting: no character of it is a backslash or in IFS. -/
def token_chars (ifs : List Char) (t : List (Char × Bool)) : Prop :=
  ∀ x ∈ t, x.1 ≠ '\\' ∧ x.1 ∉ ifs

/-! ## Field splitting of a list of words (`expand.c`) -/

/-- The loop `while (*s)` of `fieldsplit_all`: the fields that `fieldsplit`
adds to `dest` for the words of `valuelist`, each with its entry of
`splitlist`, one word after the other; `none` when an assertion of `fieldsplit`
fails. -/
def fieldsplit_each (ifs : List Char) :
    List (List Char) → List (List Bool) → Option (List (List Char))
  | s :: valuelist, t :: splitlist =>
    match fieldsplit s t ifs with
    | none => none
    | some fields => (fieldsplit_each ifs valuelist splitlist).map (fields ++ ·)
  | _, _ => some []

/-- `fieldsplit_all`: `ifs_value` is what `getvar(VAR_IFS)` returns, `none`
for the null pointer of an unset variable, in whose place the string of
space, tab and newline is used. -/
def fieldsplit_all (ifs_value : Option (List Char)) (valuelist : List (List Char))
    (splitlist : List (List Bool)) : Option (List (List Char)) :=
  let ifs := match ifs_value with
    | some ifs => ifs
    | none => [' ', '\t', '\n']
  fieldsplit_each ifs valuelist splitlist

/-! ## Word expansion (`expand.c`): data model

The types of `parser.h`, `expand.h`, `variable.h` and `wfnmatch.h` are not
among the sources; they are written down here the way `expand.c` uses them. -/

/-- Modelled from the spec: the type `tildetype_T` of `expand.h`, the kind of
tilde expansion that `expand_word` performs. -/
inductive tildetype_T where
  | tt_none
  | tt_single
  | tt_multi
deriving DecidableEq, Repr

/-- Modelled from the spec: the operator of a parameter expansion, which is the
part of `pe_type` under `PT_MASK` (`parser.h`).  In the words of the
specification `PT_MINUS` is UseDefault, `PT_PLUS` UseAlt, `PT_ASSIGN`
AssignDefault and `PT_ERROR` ErrorIfUnset. -/
inductive paramexp_op where
  | PT_NONE
  | PT_MINUS
  | PT_PLUS
  | PT_ASSIGN
  | PT_ERROR
  | PT_MATCH
  | PT_SUBST
deriving DecidableEq, Repr

/-- Modelled from the spec: the type `paramexptype_T` of `parser.h`, as the
operator under `PT_MASK` and one field for each flag bit that `expand.c`
tests. -/
structure paramexptype_T where
  op : paramexp_op
  PT_NEST : Bool
  PT_COLON : Bool
  PT_NUMBER : Bool
  PT_MATCHHEAD : Bool
  PT_MATCHTAIL : Bool
  PT_MATCHLONGEST : Bool
  PT_SUBSTALL : Bool
deriving DecidableEq, Repr

mutual
/-- Modelled from the spec: the type `wordunit_T` of `parser.h`.  A word is the
list of its units linked by `next`; `null` is the null pointer that ends it.
A command substitution and an arithmetic expansion carry their source text. -/
inductive wordunit_T where
  | null
  | WT_STRING (wu_string : List Char) (next : wordunit_T)
  | WT_PARAM (wu_param : paramexp_T) (next : wordunit_T)
  | WT_CMDSUB (wu_cmdsub : List Char) (next : wordunit_T)
  | WT_ARITH (wu_arith : List Char) (next : wordunit_T)
/-- Modelled from the spec: the type `paramexp_T` of `parser.h`.  With
`PT_NEST` the expansion is of the word `pe_nest`, else of the variable
`pe_name`. -/
inductive paramexp_T where
  | mk (pe_type : paramexptype_T) (pe_name : List Char)
      (pe_nest pe_match pe_subst : wordunit_T)
end

/-- Modelled from the spec: the results of `wfnmatchl` (`wfnmatch.h`), the
constants `WFNM_ERROR` and `WFNM_NOMATCH` or the length of the match. -/
inductive wfnm_result where
  | WFNM_ERROR
  | WFNM_NOMATCH
  | matched (length : Nat)
deriving DecidableEq, Repr

/-- Modelled from the spec: the type `enum wfnmtype` of `wfnmatch.h`. -/
inductive wfnmtype where
  | WFNM_WHOLE
  | WFNM_LONGEST
  | WFNM_SHORTEST
deriving DecidableEq, Repr

/-- The functions and global variables of the other modules (`variable.c`,
`exec.c`, `path.c`, `wfnmatch.c`, `option.c`) that `expand.c` uses, over a
type `σ` of states of the shell.
* `get_variable` gives the array of the variable, `none` for the null pointer,
  and the value that `concat` has after the call;
* `getvar` gives the value of a scalar variable, `none` for the null pointer;
* `set_variable` gives the new state and whether the assignment succeeded;
* `exec_command_substitution` gives the new state and the output of the
  command, `none` for the null pointer;
* `wchar_first_byte` gives the first byte of a wide character in memory,
  which is what `((char *) list[0])[0]` reads. -/
structure environment (σ : Type) where
  get_variable : σ → List Char → Option (List (List Char)) × Bool
  getvar : σ → List Char → Option (List Char)
  set_variable : σ → List Char → List Char → σ × Bool
  is_name : List Char → Bool
  exec_command_substitution : σ → List Char → σ × Option (List Char)
  get_home_directory : List Char → Option (List Char)
  shortest_match_length : List Char → Bool → Nat
  wfnmatchl : List Char → List Char → Bool → wfnmtype → Nat → wfnm_result
  wchar_first_byte : Char → Nat
  posixly_correct : Bool
  is_interactive : Bool
  shopt_nocaseglob : Bool

/-- The name of the variable IFS (`VAR_IFS`). -/
def VAR_IFS : List Char := ['I', 'F', 'S']

/-- The name of the variable HOME (`VAR_HOME`). -/
def VAR_HOME : List Char := ['H', 'O', 'M', 'E']

/-- The name of the variable PWD (`VAR_PWD`). -/
def VAR_PWD : List Char := ['P', 'W', 'D']

/-- The name of the variable OLDPWD (`VAR_OLDPWD`). -/
def VAR_OLDPWD : List Char := ['O', 'L', 'D', 'P', 'W', 'D']

/-- The characters with a special meaning in brace expansion and globbing
(`ESCAPED_CHARS`). -/
def ESCAPED_CHARS : List Char := ['\\', '{', ',', '}']

/-- The characters that a backslash escapes inside double quotes
(`ESCAPABLE_CHARS`). -/
def ESCAPABLE_CHARS : List Char := ['$', '\x60', '"', '\\']

/-- How a call ends: it returns a value, or the shell leaves through
`exit(EXIT_EXPERROR)`, or it comes to no result: an assertion fails or, in
`match_tail_shortest_each` only, the code reads outside a string. -/
inductive outcome (α : Type) where
  | returns (a : α)
  | exits
  | aborts
deriving DecidableEq, Repr

/-- What follows a call that returns. -/
def outcome.bind {α β : Type} (x : outcome α) (f : α → outcome β) : outcome β :=
  match x with
  | outcome.returns a => f a
  | outcome.exits => outcome.exits
  | outcome.aborts => outcome.aborts

/-! ## Word expansion (`expand.c`): escaping, joining, tilde expansion -/

/-- `escape`: a backslash is put in front of every character of `s` that is in
`t`, and in front of every character when `t` is the null pointer (`none`). -/
def escape (t : Option (List Char)) : List Char → List Char
  | [] => []
  | c :: s =>
    if (match t with
        | none => true
        | some chars => decide (c ∈ chars)) = true
    then '\\' :: c :: escape t s
    else c :: escape t s

/-- `unescape`: the backslash escapes are removed; a backslash at the end of the
string is dropped. -/
def unescape : List Char → List Char
  | [] => []
  | ['\\'] => []
  | '\\' :: c :: s => c :: unescape s
  | c :: s => c :: unescape s

/-- `reescape`: from a string in which some characters are escaped by a
backslash to the string in which every character is. -/
def reescape : List Char → List Char
  | [] => []
  | ['\\'] => ['\\']
  | '\\' :: c :: s => '\\' :: c :: reescape s
  | c :: s => '\\' :: c :: reescape s

/-- `reescape_full_array`: `reescape` on every string of the array. -/
def reescape_full_array (wcsarray : List (List Char)) : List (List Char) :=
  wcsarray.map reescape

/-- Modelled from the spec: `joinwcsarray` (`util.c`, not among the sources),
the strings of the array put one after the other with `padding` between
them. -/
def joinwcsarray : List (List Char) → List Char → List Char
  | [], _ => []
  | [s], _ => s
  | s :: rest, padding => s ++ padding ++ joinwcsarray rest padding

/-- The string `padding` that joins the fields of an array: the first character
of IFS, nothing if IFS is empty, a space if IFS is not set
(`{ ifs ? ifs[0] : L' ', L'\0' }`). -/
def ifs_padding (ifs : Option (List Char)) : List Char :=
  match ifs with
  | none => [' ']
  | some [] => []
  | some (c :: _) => [c]

/-- Modelled from the spec: `wcspbrk` of the C library, the index of the first
character of `s` that is in `accept`. -/
def wcspbrk : List Char → List Char → Option Nat
  | [], _ => none
  | c :: s, accept => if c ∈ accept then some 0 else (wcspbrk s accept).map (· + 1)

/-- `expand_tilde` on the string `*ss`: `none` for the null pointer, else the
home directory and the number of characters that `*ss` advances by. -/
def expand_tilde {σ : Type} (env : environment σ) (st : σ) (ss : List Char)
    (hasnextwordunit : Bool) (tt : tildetype_T) : Option (List Char × Nat) :=
  match ss with
  | '~' :: s =>
    let endp := wcspbrk s (if tt = tildetype_T.tt_single then ['/'] else ['/', ':'])
    let usernamelen : Option Nat :=
      match endp with
      | some e => some e
      | none => if hasnextwordunit then none else some s.length
    match usernamelen with
    | none => none
    | some usernamelen =>
      let username := s.take usernamelen
      let home : Option (List Char) :=
        if username = [] then env.getvar st VAR_HOME
        else if (wcspbrk username ['"', '\'', '\\']).isSome then none
        else if ¬ env.posixly_correct ∧ username = ['+'] then env.getvar st VAR_PWD
        else if ¬ env.posixly_correct ∧ username = ['-'] then env.getvar st VAR_OLDPWD
        else env.get_home_directory username
      match home with
      | none => none
      | some home => some (home, 1 + usernamelen)
  | _ => none

/-- `subst_length_each`: every string is replaced by the decimal numeral of its
length (`malloc_wprintf(L"%zu", wcslen(str))`). -/
def subst_length_each (slist : List (List Char)) : List (List Char) :=
  slist.map fun str => Nat.toDigits 10 str.length

/-! ## Word expansion (`expand.c`): removing and replacing matches -/

/-- The loop of `match_head_each`: the match at the head of each string is
removed; an error of the matcher ends the loop. -/
def match_head_loop {σ : Type} (env : environment σ) (pattern : List Char)
    (type : wfnmtype) (minlen : Nat) : List (List Char) → List (List Char)
  | [] => []
  | str :: slist =>
    match env.wfnmatchl pattern str env.shopt_nocaseglob type minlen with
    | wfnm_result.WFNM_ERROR => str :: slist
    | wfnm_result.WFNM_NOMATCH => str :: match_head_loop env pattern type minlen slist
    | wfnm_result.matched m =>
      (if m > 0 then str.drop m else str) :: match_head_loop env pattern type minlen slist

/-- `match_head_each`. -/
def match_head_each {σ : Type} (env : environment σ) (slist : List (List Char))
    (pattern : List Char) (longest : Bool) : List (List Char) :=
  match_head_loop env pattern
    (if longest = true then wfnmtype.WFNM_LONGEST else wfnmtype.WFNM_SHORTEST)
    (env.shortest_match_length pattern env.shopt_nocaseglob) slist

/-- What a search for a matching tail of one string ends with. -/
inductive tail_search where
  | error
  | nomatch
  | found (index : Nat)
deriving DecidableEq, Repr

/-- The loop `while (minlen + index <= len)` of `match_tail_longest_each` and of
`subst_tail_each`, which tries the tails of the string from the longest one
on: `rest` is the string from `index` on. -/
def tail_search_up {σ : Type} (env : environment σ) (pattern : List Char)
    (minlen len : Nat) : List Char → Nat → tail_search
  | rest, index =>
    if minlen + index ≤ len then
      match env.wfnmatchl pattern rest env.shopt_nocaseglob wfnmtype.WFNM_WHOLE minlen with
      | wfnm_result.WFNM_ERROR => tail_search.error
      | wfnm_result.matched _ => tail_search.found index
      | wfnm_result.WFNM_NOMATCH =>
        match rest with
        | [] => tail_search.nomatch
        | _ :: rest' => tail_search_up env pattern minlen len rest' (index + 1)
    else tail_search.nomatch

/-- The loop `do ... while (index--)` of `match_tail_shortest_each`, which tries
the tails of the string at `index`, `index - 1`, ..., 0.  The matcher gets the
string from `index` on; for an index beyond the end of the string the code
reads outside the string and no result is defined, which is `none`. -/
def tail_search_down {σ : Type} (env : environment σ) (pattern : List Char)
    (minlen : Nat) (str : List Char) : Nat → Option tail_search
  | 0 =>
    match env.wfnmatchl pattern str env.shopt_nocaseglob wfnmtype.WFNM_WHOLE minlen with
    | wfnm_result.WFNM_ERROR => some tail_search.error
    | wfnm_result.matched _ => some (tail_search.found 0)
    | wfnm_result.WFNM_NOMATCH => some tail_search.nomatch
  | index + 1 =>
    if str.length < index + 1 then none
    else
      match env.wfnmatchl pattern (str.drop (index + 1)) env.shopt_nocaseglob
          wfnmtype.WFNM_WHOLE minlen with
      | wfnm_result.WFNM_ERROR => some tail_search.error
      | wfnm_result.matched _ => some (tail_search.found (index + 1))
      | wfnm_result.WFNM_NOMATCH => tail_search_down env pattern minlen str index

/-- The outer loop of `match_tail_longest_each`: each string is cut at the first
index whose tail matches; an error of the matcher ends the function. -/
def match_tail_longest_loop {σ : Type} (env : environment σ) (pattern : List Char)
    (minlen : Nat) : List (List Char) → List (List Char)
  | [] => []
  | str :: slist =>
    match tail_search_up env pattern minlen str.length str 0 with
    | tail_search.error => str :: slist
    | tail_search.nomatch => str :: match_tail_longest_loop env pattern minlen slist
    | tail_search.found index =>
      str.take index :: match_tail_longest_loop env pattern minlen slist

/-- `match_tail_longest_each`. -/
def match_tail_longest_each {σ : Type} (env : environment σ) (slist : List (List Char))
    (pattern : List Char) : List (List Char) :=
  match_tail_longest_loop env pattern
    (env.shortest_match_length pattern env.shopt_nocaseglob) slist

/-- The outer loop of `match_tail_shortest_each`: each string is cut at the last
index whose tail matches.  The first index is `len - minlen` in the arithmetic
of `size_t`.  The result is `none` when the search reads outside a string. -/
def match_tail_shortest_loop {σ : Type} (lim : Limits) (env : environment σ)
    (pattern : List Char) (minlen : Nat) : List (List Char) → Option (List (List Char))
  | [] => some []
  | str :: slist =>
    match tail_search_down env pattern minlen str
        ((str.length + (lim.SIZE_MAX + 1 - minlen % (lim.SIZE_MAX + 1))) %
          (lim.SIZE_MAX + 1)) with
    | none => none
    | some tail_search.error => some (str :: slist)
    | some tail_search.nomatch =>
      (match_tail_shortest_loop lim env pattern minlen slist).map (fun rest => str :: rest)
    | some (tail_search.found index) =>
      (match_tail_shortest_loop lim env pattern minlen slist).map
        (fun rest => str.take index :: rest)

/-- `match_tail_shortest_each`; `none` when it reads outside a string. -/
def match_tail_shortest_each {σ : Type} (lim : Limits) (env : environment σ)
    (slist : List (List Char)) (pattern : List Char) : Option (List (List Char)) :=
  match_tail_shortest_loop lim env pattern
    (env.shortest_match_length pattern env.shopt_nocaseglob) slist

/-- `match_each`; `none` when the assertion `type & PT_MATCHTAIL` fails, and
when `match_tail_shortest_each` reads outside a string. -/
def match_each {σ : Type} (lim : Limits) (env : environment σ) (slist : List (List Char))
    (pattern : List Char) (type : paramexptype_T) : Option (List (List Char)) :=
  if type.PT_MATCHHEAD = true then
    some (match_head_each env slist pattern type.PT_MATCHLONGEST)
  else if type.PT_MATCHTAIL = true then
    if type.PT_MATCHLONGEST = true then some (match_tail_longest_each env slist pattern)
    else match_tail_shortest_each lim env slist pattern
  else none

/-- The loop of `subst_whole_each`: a string that matches as a whole is replaced
by `subst`. -/
def subst_whole_loop {σ : Type} (env : environment σ) (pattern subst : List Char)
    (minlen : Nat) : List (List Char) → List (List Char)
  | [] => []
  | str :: slist =>
    match env.wfnmatchl pattern str env.shopt_nocaseglob wfnmtype.WFNM_WHOLE minlen with
    | wfnm_result.WFNM_ERROR => str :: slist
    | wfnm_result.WFNM_NOMATCH => str :: subst_whole_loop env pattern subst minlen slist
    | wfnm_result.matched _ => subst :: subst_whole_loop env pattern subst minlen slist

/-- The loop of `subst_head_each`: the longest match at the head of a string is
replaced by `subst`. -/
def subst_head_loop {σ : Type} (env : environment σ) (pattern subst : List Char)
    (minlen : Nat) : List (List Char) → List (List Char)
  | [] => []
  | str :: slist =>
    match env.wfnmatchl pattern str env.shopt_nocaseglob wfnmtype.WFNM_LONGEST minlen with
    | wfnm_result.WFNM_ERROR => str :: slist
    | wfnm_result.WFNM_NOMATCH => str :: subst_head_loop env pattern subst minlen slist
    | wfnm_result.matched m =>
      (subst ++ str.drop m) :: subst_head_loop env pattern subst minlen slist

/-- The outer loop of `subst_tail_each`: the longest matching tail of a string
is replaced by `subst`. -/
def subst_tail_loop {σ : Type} (env : environment σ) (pattern subst : List Char)
    (minlen : Nat) : List (List Char) → List (List Char)
  | [] => []
  | str :: slist =>
    match tail_search_up env pattern minlen str.length str 0 with
    | tail_search.error => str :: slist
    | tail_search.nomatch => str :: subst_tail_loop env pattern subst minlen slist
    | tail_search.found index =>
      (str.take index ++ subst) :: subst_tail_loop env pattern subst minlen slist

/-- The loop `while (str[index])` of `subst_generic_each` on one string, from
`index` on with the text `buf` built so far: `none` when the matcher reports an
error.  `fuel` bounds the number of rounds; the length of the string is
enough, since every round moves `index` forward. -/
def subst_generic_scan {σ : Type} (env : environment σ) (pattern subst : List Char)
    (substall : Bool) (minlen : Nat) (str : List Char) :
    Nat → Nat → List Char → Option (List Char)
  | 0, _, buf => some buf
  | fuel + 1, index, buf =>
    match str.drop index with
    | [] => some buf
    | ch :: _ =>
      match env.wfnmatchl pattern (str.drop index) env.shopt_nocaseglob
          wfnmtype.WFNM_LONGEST minlen with
      | wfnm_result.WFNM_ERROR => none
      | wfnm_result.WFNM_NOMATCH =>
        subst_generic_scan env pattern subst substall minlen str fuel (index + 1) (buf ++ [ch])
      | wfnm_result.matched m =>
        if m > 0 then
          if substall = true then
            subst_generic_scan env pattern subst substall minlen str fuel (index + m)
              (buf ++ subst)
          else some (buf ++ subst ++ str.drop (index + m))
        else
          subst_generic_scan env pattern subst substall minlen str fuel (index + 1)
            (buf ++ [ch])

/-- The outer loop of `subst_generic_each`. -/
def subst_generic_loop {σ : Type} (env : environment σ) (pattern subst : List Char)
    (substall : Bool) (minlen : Nat) : List (List Char) → List (List Char)
  | [] => []
  | str :: slist =>
    match subst_generic_scan env pattern subst substall minlen str str.length 0 [] with
    | none => str :: slist
    | some buf => buf :: subst_generic_loop env pattern subst substall minlen slist

/-- `subst_each`. -/
def subst_each {σ : Type} (env : environment σ) (slist : List (List Char))
    (pattern subst : List Char) (type : paramexptype_T) : List (List Char) :=
  let minlen := env.shortest_match_length pattern env.shopt_nocaseglob
  if type.PT_MATCHHEAD = true then
    if type.PT_MATCHTAIL = true then subst_whole_loop env pattern subst minlen slist
    else subst_head_loop env pattern subst minlen slist
  else if type.PT_MATCHTAIL = true then subst_tail_loop env pattern subst minlen slist
  else subst_generic_loop env pattern subst type.PT_SUBSTALL minlen slist

/-! ## Word expansion (`expand.c`): `expand_word` and `expand_param` -/

/-- The local variables of `expand_word` and the entries it has added to
`valuelist` and `splitlist` so far.  The model keeps the splittability strings
also when `splitlist` is the null pointer; the caller then ignores them. -/
structure expand_word_state where
  ok : Bool
  indq : Bool
  first : Bool
  force : Bool
  suppress : Bool
  buf : List Char
  sbuf : List Bool
  valuelist : List (List Char)
  splitlist : List (List Bool)
deriving DecidableEq, Repr

/-- The values of the local variables at the start of `expand_word`. -/
def expand_word_init : expand_word_state :=
  { ok := true, indq := false, first := true, force := false, suppress := false,
    buf := [], sbuf := [], valuelist := [], splitlist := [] }

/-- `FILL_SBUF(c)`: `sbuf` is filled up to the length of `buf` with `c`. -/
def FILL_SBUF (c : Bool) (s : expand_word_state) : expand_word_state :=
  { s with sbuf := s.sbuf ++ List.replicate (s.buf.length - s.sbuf.length) c }

/-- Where the loop `while (*str)` over a `WT_STRING` unit stands: at the
`switch`, inside the loop of `add_sq` between single quotes, or before `n`
characters that `expand_tilde` has consumed. -/
inductive string_mode where
  | normal
  | quoted
  | skip (n : Nat)
deriving DecidableEq, Repr

/-- The loop `while (*str)` of `expand_word` over the text of a `WT_STRING`
unit, with the loop of `add_sq` in it, character by character; `aborts` when
the assertion of `add_sq` fails at the end of the string. -/
def expand_word_string {σ : Type} (env : environment σ) (st : σ) (tilde : tildetype_T)
    (hasnext : Bool) : List Char → string_mode → expand_word_state → outcome expand_word_state
  | [], string_mode.quoted, _ => outcome.aborts
  | [], _, s => outcome.returns s
  | _ :: str, string_mode.skip (n + 1), s =>
    expand_word_string env st tilde hasnext str (string_mode.skip n) s
  | c :: str, string_mode.quoted, s =>
    if c = '\'' then
      expand_word_string env st tilde hasnext str string_mode.normal (FILL_SBUF false s)
    else
      expand_word_string env st tilde hasnext str string_mode.quoted
        { s with buf := s.buf ++ ['\\', c] }
  | c :: str, _, s =>
    if c = '"' then
      expand_word_string env st tilde hasnext str string_mode.normal
        { s with indq := !s.indq, force := true }
    else if c = '\'' ∧ s.indq = false then
      expand_word_string env st tilde hasnext str string_mode.quoted { s with force := true }
    else if c = '\\' ∧ ¬ (s.indq = true ∧
        (match str with
          | [] => false
          | c' :: _ => decide (c' ∉ ESCAPABLE_CHARS)) = true) then
      match str with
      | [] => outcome.returns (FILL_SBUF false { s with buf := s.buf ++ ['\\'] })
      | c' :: str' =>
        expand_word_string env st tilde hasnext str' string_mode.normal
          (FILL_SBUF false { s with buf := s.buf ++ ['\\', c'] })
    else if c = ':' ∧ s.indq = false ∧ tilde = tildetype_T.tt_multi then
      match expand_tilde env st str hasnext tilde with
      | some (home, n) =>
        expand_word_string env st tilde hasnext str (string_mode.skip n)
          (FILL_SBUF false { s with buf := s.buf ++ [':'] ++ escape (some ESCAPED_CHARS) home })
      | none =>
        expand_word_string env st tilde hasnext str string_mode.normal
          (FILL_SBUF false { s with buf := s.buf ++ [':'] })
    else
      expand_word_string env st tilde hasnext str string_mode.normal
        (FILL_SBUF false
          { s with buf := s.buf ++ (if s.indq = true then ['\\', c] else [c]) })

/-- Whether a pointer to a word unit is not null, as in the argument `w->next`
of `expand_tilde`. -/
def wordunit_T.nonnull : wordunit_T → Bool
  | wordunit_T.null => false
  | _ => true

/-- A `WT_STRING` unit of `expand_word`: the tilde expansion at the start of the
first unit, then the loop over the characters. -/
def expand_word_string_unit {σ : Type} (env : environment σ) (st : σ) (tilde : tildetype_T)
    (hasnext : Bool) (str : List Char) (s : expand_word_state) : outcome expand_word_state :=
  if s.first = true ∧ tilde ≠ tildetype_T.tt_none then
    match expand_tilde env st str hasnext tilde with
    | some (home, n) =>
      expand_word_string env st tilde hasnext (str.drop n) string_mode.normal
        (FILL_SBUF false { s with buf := s.buf ++ escape (some ESCAPED_CHARS) home })
    | none => expand_word_string env st tilde hasnext str string_mode.normal s
  else expand_word_string env st tilde hasnext str string_mode.normal s

/-- The loop `for (void **a = array; ; )` of `expand_word` over an array that is
not empty: each string goes to `buf`, flagged as splittable, and between two
strings `buf` and `sbuf` are added to the lists and start anew. -/
def expand_word_array : List (List Char) → expand_word_state → expand_word_state
  | [], s => s
  | [a], s => FILL_SBUF true { s with buf := s.buf ++ a }
  | a :: rest, s =>
    let s1 := FILL_SBUF true { s with buf := s.buf ++ a }
    expand_word_array rest
      { s1 with buf := [], sbuf := [], valuelist := s1.valuelist ++ [s1.buf],
                splitlist := s1.splitlist ++ [s1.sbuf] }

/-- What `expand_word` hands back: its return value `ok` and the entries it has
added to `valuelist` and `splitlist`. -/
structure expand_word_result where
  ok : Bool
  valuelist : List (List Char)
  splitlist : List (List Bool)
deriving DecidableEq, Repr

/-- The end of `expand_word`, after the loop over the units: `buf` is added when
it is not empty, or when nothing has been added, `force` is set and `suppress`
is not. -/
def expand_word_finish (s : expand_word_state) : expand_word_result :=
  if s.buf.length > 0 ∨ (s.valuelist.length = 0 ∧ s.force = true ∧ s.suppress = false) then
    { ok := s.ok, valuelist := s.valuelist ++ [s.buf], splitlist := s.splitlist ++ [s.sbuf] }
  else { ok := s.ok, valuelist := s.valuelist, splitlist := s.splitlist }

/-- The part of `expand_single` after the call of `expand_word`: `none` for the
null pointer. -/
def expand_single_finish {σ : Type} (env : environment σ) (st : σ)
    (r : expand_word_result) : outcome (Option (List Char)) :=
  if r.ok = false then
    if env.is_interactive = false then outcome.exits else outcome.returns none
  else if r.valuelist.length ≠ 1 then
    outcome.returns (some (joinwcsarray r.valuelist (ifs_padding (env.getvar st VAR_IFS))))
  else outcome.returns (some (r.valuelist.headD []))

/-- The end of `expand_param`, from the comment that the list holds raw
strings on: joining the elements if `concat`, `PT_NUMBER`, escaping, and the
empty result outside double quotes. -/
def expand_param_finish {σ : Type} (env : environment σ) (st : σ) (pe_type : paramexptype_T)
    (indq : Bool) (list : List (List Char)) (concat : Bool) : List (List Char) :=
  let list1 := if concat = true then [joinwcsarray list (ifs_padding (env.getvar st VAR_IFS))]
    else list
  let list2 := if pe_type.PT_NUMBER = true then subst_length_each list1 else list1
  let list3 := list2.map (escape (if indq = true then none else some ESCAPED_CHARS))
  if indq = false ∧ list3 = [[]] then [] else list3

/-- The test `!list[0] || (!((char *) list[0])[0] && !list[1])` of
`expand_param` under `PT_COLON`: the list is empty, or it has one string and
the first byte of that string is zero, which it is for the empty string, whose
first wide character is the terminator. -/
def colon_tests_empty {σ : Type} (env : environment σ) (list : List (List Char)) : Bool :=
  match list with
  | [] => true
  | [[]] => true
  | [c :: _] => decide (env.wchar_first_byte c = 0)
  | _ => false

mutual
/-- The loop `while (w)` of `expand_word` over the units of the word, from the
local variables `s` and the state `st` of the shell. -/
def expand_word_units {σ : Type} (lim : Limits) (env : environment σ) :
    wordunit_T → tildetype_T → expand_word_state → σ → outcome (expand_word_state × σ)
  | wordunit_T.null, _, s, st => outcome.returns (s, st)
  | wordunit_T.WT_STRING wu_string next, tilde, s, st =>
    match expand_word_string_unit env st tilde next.nonnull wu_string s with
    | outcome.returns s1 =>
      expand_word_units lim env next tilde { s1 with first := false } st
    | outcome.exits => outcome.exits
    | outcome.aborts => outcome.aborts
  | wordunit_T.WT_PARAM wu_param next, tilde, s, st =>
    match expand_param lim env wu_param s.indq tilde st with
    | outcome.returns (some array, st1) =>
      expand_word_units lim env next tilde
        (if array = [] then { s with suppress := true, first := false }
         else { expand_word_array array { s with force := true } with first := false }) st1
    | outcome.returns (none, st1) =>
      expand_word_units lim env next tilde { s with ok := false, first := false } st1
    | outcome.exits => outcome.exits
    | outcome.aborts => outcome.aborts
  | wordunit_T.WT_CMDSUB wu_cmdsub next, tilde, s, st =>
    match env.exec_command_substitution st wu_cmdsub with
    | (st1, some out) =>
      expand_word_units lim env next tilde
        { FILL_SBUF true
            { s with buf := s.buf ++
                escape (if s.indq = true then none else some ESCAPED_CHARS) out }
          with first := false } st1
    | (st1, none) =>
      expand_word_units lim env next tilde { s with ok := false, first := false } st1
  | wordunit_T.WT_ARITH _ next, tilde, s, st =>
    expand_word_units lim env next tilde { s with ok := false, first := false } st

/-- `expand_param`: `none` for the null pointer, with the state of the shell
after the call. -/
def expand_param {σ : Type} (lim : Limits) (env : environment σ) :
    paramexp_T → Bool → tildetype_T → σ → outcome (Option (List (List Char)) × σ)
  | paramexp_T.mk pe_type pe_name pe_nest pe_match pe_subst, indq, tilde, st =>
    -- the contents of the variable or of the nested expansion
    let base : outcome (Option (List (List Char) × Bool × Bool) × σ) :=
      if pe_type.PT_NEST = true then
        match expand_word_units lim env pe_nest tilde expand_word_init st with
        | outcome.returns (s1, st1) =>
          if (expand_word_finish s1).ok = false then outcome.returns (none, st1)
          else outcome.returns
            (some ((expand_word_finish s1).valuelist.map unescape, true, false), st1)
        | outcome.exits => outcome.exits
        | outcome.aborts => outcome.aborts
      else
        match env.get_variable st pe_name with
        | (some list, concat) => outcome.returns (some (list, concat, false), st)
        | (none, concat) => outcome.returns (some ([[]], concat, true), st)
    match base with
    | outcome.exits => outcome.exits
    | outcome.aborts => outcome.aborts
    | outcome.returns (none, st1) => outcome.returns (none, st1)
    | outcome.returns (some (list, concat, unset0), st1) =>
      let unset : Bool :=
        if pe_type.PT_COLON = true ∧ colon_tests_empty env list = true then true else unset0
      -- the label `subst`
      let subst_result : outcome (Option (List (List Char)) × σ) :=
        match expand_word_units lim env pe_subst tildetype_T.tt_single expand_word_init st1 with
        | outcome.returns (s2, st2) =>
          if (expand_word_finish s2).ok = true then
            outcome.returns
              (some (if indq = true then reescape_full_array (expand_word_finish s2).valuelist
                else (expand_word_finish s2).valuelist), st2)
          else outcome.returns (none, st2)
        | outcome.exits => outcome.exits
        | outcome.aborts => outcome.aborts
      match pe_type.op with
      | paramexp_op.PT_PLUS =>
        if unset = false then subst_result
        else outcome.returns (some (expand_param_finish env st1 pe_type indq list concat), st1)
      | paramexp_op.PT_MINUS =>
        if unset = true then subst_result
        else outcome.returns (some (expand_param_finish env st1 pe_type indq list concat), st1)
      | paramexp_op.PT_ASSIGN =>
        if unset = true then
          if pe_type.PT_NEST = true then outcome.returns (none, st1)
          else if env.is_name pe_name = false then outcome.returns (none, st1)
          else
            match expand_word_units lim env pe_subst tildetype_T.tt_single expand_word_init
                st1 with
            | outcome.returns (s2, st2) =>
              match expand_single_finish env st2 (expand_word_finish s2) with
              | outcome.returns none => outcome.returns (none, st2)
              | outcome.returns (some subst) =>
                if (env.set_variable st2 pe_name (unescape subst)).2 = false then
                  outcome.returns (none, (env.set_variable st2 pe_name (unescape subst)).1)
                else
                  outcome.returns
                    (some (expand_param_finish env
                      (env.set_variable st2 pe_name (unescape subst)).1 pe_type indq
                      [unescape subst] concat),
                      (env.set_variable st2 pe_name (unescape subst)).1)
              | outcome.exits => outcome.exits
              | outcome.aborts => outcome.aborts
            | outcome.exits => outcome.exits
            | outcome.aborts => outcome.aborts
        else outcome.returns (some (expand_param_finish env st1 pe_type indq list concat), st1)
      | paramexp_op.PT_ERROR =>
        if unset = true then
          -- `print_subst_as_error`
          match pe_subst with
          | wordunit_T.null => outcome.returns (none, st1)
          | _ =>
            match expand_word_units lim env pe_subst tildetype_T.tt_single expand_word_init
                st1 with
            | outcome.returns (s2, st2) =>
              match expand_single_finish env st2 (expand_word_finish s2) with
              | outcome.returns _ => outcome.returns (none, st2)
              | outcome.exits => outcome.exits
              | outcome.aborts => outcome.aborts
            | outcome.exits => outcome.exits
            | outcome.aborts => outcome.aborts
        else outcome.returns (some (expand_param_finish env st1 pe_type indq list concat), st1)
      | paramexp_op.PT_MATCH =>
        match expand_word_units lim env pe_match tildetype_T.tt_single expand_word_init st1 with
        | outcome.returns (s2, st2) =>
          match expand_single_finish env st2 (expand_word_finish s2) with
          | outcome.returns none => outcome.returns (none, st2)
          | outcome.returns (some pattern) =>
            match match_each lim env list pattern pe_type with
            -- the assertion of `match_each` fails, or it reads outside a string
            | none => outcome.aborts
            | some list1 =>
              outcome.returns (some (expand_param_finish env st2 pe_type indq list1 concat), st2)
          | outcome.exits => outcome.exits
          | outcome.aborts => outcome.aborts
        | outcome.exits => outcome.exits
        | outcome.aborts => outcome.aborts
      | paramexp_op.PT_SUBST =>
        match expand_word_units lim env pe_match tildetype_T.tt_single expand_word_init st1 with
        | outcome.returns (s2, st2) =>
          match expand_single_finish env st2 (expand_word_finish s2) with
          | outcome.returns pattern =>
            match expand_word_units lim env pe_subst tildetype_T.tt_single expand_word_init
                st2 with
            | outcome.returns (s3, st3) =>
              match expand_single_finish env st3 (expand_word_finish s3) with
              | outcome.returns subst =>
                match pattern, subst with
                | some pattern, some subst =>
                  outcome.returns
                    (some (expand_param_finish env st3 pe_type indq
                      (subst_each env list pattern (unescape subst) pe_type) concat), st3)
                | _, _ => outcome.returns (none, st3)
              | outcome.exits => outcome.exits
              | outcome.aborts => outcome.aborts
            | outcome.exits => outcome.exits
            | outcome.aborts => outcome.aborts
          | outcome.exits => outcome.exits
          | outcome.aborts => outcome.aborts
        | outcome.exits => outcome.exits
        | outcome.aborts => outcome.aborts
      | paramexp_op.PT_NONE =>
        outcome.returns (some (expand_param_finish env st1 pe_type indq list concat), st1)
end

/-- `expand_word`: the return value and the entries added to the lists, with
the state of the shell after the call. -/
def expand_word {σ : Type} (lim : Limits) (env : environment σ) (w : wordunit_T)
    (tilde : tildetype_T) (st : σ) : outcome (expand_word_result × σ) :=
  match expand_word_units lim env w tilde expand_word_init st with
  | outcome.returns (s, st1) => outcome.returns (expand_word_finish s, st1)
  | outcome.exits => outcome.exits
  | outcome.aborts => outcome.aborts

/-- `expand_single`: `none` for the null pointer. -/
def expand_single {σ : Type} (lim : Limits) (env : environment σ) (arg : wordunit_T)
    (tilde : tildetype_T) (st : σ) : outcome (Option (List Char) × σ) :=
  match expand_word lim env arg tilde st with
  | outcome.returns (r, st1) =>
    match expand_single_finish env st1 r with
    | outcome.returns result => outcome.returns (result, st1)
    | outcome.exits => outcome.exits
    | outcome.aborts => outcome.aborts
  | outcome.exits => outcome.exits
  | outcome.aborts => outcome.aborts

/-- The loop `while (*str)` of `expand_string` over the text of a `WT_STRING`
unit: with `esc` a backslash in front of `$`, a backquote or a backslash is
removed. -/
def expand_string_text (esc : Bool) : List Char → List Char
  | [] => []
  | [c] => [c]
  | c :: c' :: str =>
    if esc = true ∧ c = '\\' ∧ c' ∈ ['$', '\x60', '\\'] then c' :: expand_string_text esc str
    else c :: expand_string_text esc (c' :: str)

/-- The loop `while (w)` of `expand_string` over the units of the word: the
variable `ok`, the text in `buf` and the state of the shell. -/
def expand_string_units {σ : Type} (lim : Limits) (env : environment σ) (esc : Bool) :
    wordunit_T → Bool → List Char → σ → outcome (Bool × List Char × σ)
  | wordunit_T.null, ok, buf, st => outcome.returns (ok, buf, st)
  | wordunit_T.WT_STRING wu_string next, ok, buf, st =>
    expand_string_units lim env esc next ok (buf ++ expand_string_text esc wu_string) st
  | wordunit_T.WT_PARAM wu_param next, ok, buf, st =>
    match expand_param lim env wu_param false tildetype_T.tt_none st with
    | outcome.returns (some array, st1) =>
      expand_string_units lim env esc next ok
        (match array.map unescape with
          | [] => buf
          | [a] => buf ++ a
          | unescaped => buf ++ joinwcsarray unescaped (ifs_padding (env.getvar st1 VAR_IFS)))
        st1
    | outcome.returns (none, st1) => expand_string_units lim env esc next false buf st1
    | outcome.exits => outcome.exits
    | outcome.aborts => outcome.aborts
  | wordunit_T.WT_CMDSUB wu_cmdsub next, ok, buf, st =>
    match env.exec_command_substitution st wu_cmdsub with
    | (st1, some out) => expand_string_units lim env esc next ok (buf ++ out) st1
    | (st1, none) => expand_string_units lim env esc next false buf st1
  | wordunit_T.WT_ARITH _ next, _, buf, st =>
    expand_string_units lim env esc next false buf st

/-- `expand_string`: `none` for the null pointer. -/
def expand_string {σ : Type} (lim : Limits) (env : environment σ) (w : wordunit_T)
    (esc : Bool) (st : σ) : outcome (Option (List Char) × σ) :=
  match expand_string_units lim env esc w true [] st with
  | outcome.returns (ok, buf, st1) =>
    if ok = true then outcome.returns (some buf, st1)
    else if env.is_interactive = false then outcome.exits
    else outcome.returns (none, st1)
  | outcome.exits => outcome.exits
  | outcome.aborts => outcome.aborts

/-! ## Notions of the specification and samples for word expansion -/

/-- Modelled from the spec: a sample state of the variable store (§4.4), the
scalar variables with their values and the positional parameters. -/
structure sample_store where
  scalars : List (List Char × List Char)
  positional : List (List Char)
deriving DecidableEq, Repr

/-- Modelled from the spec: a sample of the other modules over `sample_store`.
The names `@` and `*` give the positional parameters, `*` and the scalar
variables are marked `concat` (§4.1); every assignment to a name succeeds; a
name is a letter or underscore followed by letters, digits and underscores;
there is no command substitution, home directory or pattern match; a wide
character is stored with its low byte first. -/
def sample_environment : environment sample_store :=
  { get_variable := fun st name =>
      if name = ['@'] then (some st.positional, false)
      else if name = ['*'] then (some st.positional, true)
      else match st.scalars.lookup name with
        | some value => (some [value], true)
        | none => (none, false),
    getvar := fun st name => st.scalars.lookup name,
    set_variable := fun st name value =>
      ({ st with scalars := (name, value) :: st.scalars.filter (fun v => v.1 ≠ name) }, true),
    is_name := fun name =>
      match name with
      | [] => false
      | c :: cs => (c.isAlpha || c == '_') && cs.all (fun d => d.isAlphanum || d == '_'),
    exec_command_substitution := fun st _ => (st, none),
    get_home_directory := fun _ => none,
    shortest_match_length := fun _ _ => 0,
    wfnmatchl := fun _ _ _ _ _ => wfnm_result.WFNM_NOMATCH,
    wchar_first_byte := fun c => c.toNat % 256,
    posixly_correct := false,
    is_interactive := true,
    shopt_nocaseglob := false }

/-- The type of a plain parameter expansion `$name`, without flags. -/
def plain_type : paramexptype_T :=
  { op := paramexp_op.PT_NONE, PT_NEST := false, PT_COLON := false, PT_NUMBER := false,
    PT_MATCHHEAD := false, PT_MATCHTAIL := false, PT_MATCHLONGEST := false,
    PT_SUBSTALL := false }

/-- The parameter expansion `$name`. -/
def plain_param (name : List Char) : paramexp_T :=
  paramexp_T.mk plain_type name wordunit_T.null wordunit_T.null wordunit_T.null

/-- The word `"$@"`: a double quote, the expansion of `@`, a double quote. -/
def quoted_at : wordunit_T :=
  wordunit_T.WT_STRING ['"']
    (wordunit_T.WT_PARAM (plain_param ['@']) (wordunit_T.WT_STRING ['"'] wordunit_T.null))

/-- The word `$name`: one unit, the plain expansion of the variable. -/
def param_word (name : List Char) : wordunit_T :=
  wordunit_T.WT_PARAM (plain_param name) wordunit_T.null

/-- The word `"$name"`: a double quote, the expansion of the variable, a double
quote. -/
def quoted_param_word (name : List Char) : wordunit_T :=
  wordunit_T.WT_STRING ['"']
    (wordunit_T.WT_PARAM (plain_param name) (wordunit_T.WT_STRING ['"'] wordunit_T.null))

/-- A sample state without positional parameters in which the variable `x` has
the given value. -/
def store_with_x (value : List Char) : sample_store :=
  { scalars := [(['x'], value)], positional := [] }

/-- A sample state without variables and with the given positional
parameters. -/
def store_with_positional (params : List (List Char)) : sample_store :=
  { scalars := [], positional := params }

/-- The word `$n1$n2...`: one unquoted plain expansion for each of the
names. -/
def param_words : List (List Char) → wordunit_T
  | [] => wordunit_T.null
  | name :: names => wordunit_T.WT_PARAM (plain_param name) (param_words names)

/-- The word `""$x`: an empty pair of double quotes, then the unquoted
expansion of `x`. -/
def empty_quotes_then_x : wordunit_T :=
  wordunit_T.WT_STRING ['"', '"'] (param_word ['x'])

/-- The sample state without variables and positional parameters. -/
def empty_store : sample_store := { scalars := [], positional := [] }

/-- The variable counts as unset for the operators of a parameter expansion:
it is not set, or, under `PT_COLON`, it has no string or is one empty
string. -/
def counts_as_unset (colon : Bool) (value : Option (List (List Char))) : Prop :=
  value = none ∨ (colon = true ∧ (value = some [] ∨ value = some [[]]))

/-- What `expand_param` returns when it hands back the expansion of
`subst_word`: the fields of `expand_word` in tilde mode `tt_single`, escaped in
full inside double quotes, or the null pointer when the expansion fails. -/
def subst_word_expansion {σ : Type} (lim : Limits) (env : environment σ)
    (pe_subst : wordunit_T) (indq : Bool) (st : σ) :
    outcome (Option (List (List Char)) × σ) :=
  (expand_word lim env pe_subst tildetype_T.tt_single st).bind fun r =>
    outcome.returns
      (if r.1.ok = true then
        some (if indq = true then reescape_full_array r.1.valuelist else r.1.valuelist)
       else none, r.2)

/-- The type of a parameter expansion with the operator `op`, with or without
the colon, and no other flag. -/
def operator_type (op : paramexp_op) (colon : Bool) : paramexptype_T :=
  { plain_type with op := op, PT_COLON := colon }

/-- The word of one string unit. -/
def string_word (s : List Char) : wordunit_T := wordunit_T.WT_STRING s wordunit_T.null

/-- The parameter expansion of `name` with the operator `op` and the word
`subst`, as in `${name:-subst}`. -/
def operator_param (op : paramexp_op) (colon : Bool) (name subst : List Char) : paramexp_T :=
  paramexp_T.mk (operator_type op colon) name wordunit_T.null wordunit_T.null
    (string_word subst)

/-- The word has an arithmetic-substitution unit among its units. -/
def wordunit_T.has_arith : wordunit_T → Bool
  | wordunit_T.null => false
  | wordunit_T.WT_STRING _ next => next.has_arith
  | wordunit_T.WT_PARAM _ next => next.has_arith
  | wordunit_T.WT_CMDSUB _ next => next.has_arith
  | wordunit_T.WT_ARITH _ _ => true

/-- The word `$((1+1))`: one arithmetic-substitution unit. -/
def arith_word : wordunit_T := wordunit_T.WT_ARITH ['1', '+', '1'] wordunit_T.null

/-- A sample state in which IFS is a colon and the positional parameters are
`a` and `b`. -/
def colon_ifs_store : sample_store :=
  { scalars := [(VAR_IFS, [':'])], positional := [['a'], ['b']] }

/-! ## The printf built-in (`builtins/printf.c`)

A multibyte string, such as the contents of an `xstrbuf_T`, is the list of its
bytes, each held in a `Char`; wide strings are lists of characters as before.
The encoding is taken to have no shift states, so that the `mbstate_t`
arguments are left out.  The global `xoptind` and the count of the error
messages that `xerror` has printed are fields of `printf_state`. -/

/-- The type `struct format_T`, one item of the parsed format; the pointer
`next` is left to the list that holds the items. -/
inductive format_T where
  | FT_NONE
  | FT_RAW (value : List Char)
  | FT_STRING (convspec : List Char)
  | FT_CHAR (convspec : List Char)
  | FT_INT (convspec : List Char)
  | FT_UINT (convspec : List Char)
  | FT_FLOAT (convspec : List Char)
  | FT_ECHO (left : Bool) (width max : Nat)
deriving DecidableEq, Repr

/-- The type `enum printf_result_T`. -/
inductive printf_result_T where
  | PR_OK
  | PR_OK_END
  | PR_ERROR
deriving DecidableEq, Repr

/-- Modelled from the spec: the exit statuses of `exec.h`. -/
inductive exit_status where
  | Exit_SUCCESS
  | Exit_FAILURE
  | Exit_ERROR
deriving DecidableEq, Repr

/-- Modelled from the spec: what the formatter takes from `strbuf.c` and the C
library.  `wcrtomb` is the conversion of a wide character behind `sb_wccat`,
`none` when it fails; the fields `sb_printf_*` are `sb_printf` called with a
conversion specification and a value of the type that goes with it, `none`
when it returns a negative number, the integer being handed over as the
`uintmax_t` that `printf_parse_integer` returns; `wcstold` (or `wcstod`) gives
the value, the number of characters up to the end pointer and whether `errno`
is set; `φ` is the type `long double`. -/
structure printf_library (φ : Type) where
  INTMAX_MAX : Nat
  UINTMAX_MAX : Nat
  wcrtomb : Char → Option (List Char)
  sb_printf_string : List Char → List Char → Option (List Char)
  sb_printf_char : List Char → Char → Option (List Char)
  sb_printf_integer : List Char → Nat → Option (List Char)
  sb_printf_float : List Char → φ → Option (List Char)
  wcstold : List Char → φ × Nat × Bool

/-- The C library function `wcstoimax` called with base 0 in the C locale: as
`wcstol`, for the type `intmax_t`. -/
def wcstoimax (intmax_max : Nat) (s : List Char) : wcstol_result :=
  wcstol intmax_max s

/-- The C library function `wcstoumax` called with base 0 in the C locale, for
a `uintmax_t` that ranges over `0 .. uintmax_max`: a value out of range is
replaced by `uintmax_max` and reported as a range error, and the value of a
numeral with a minus sign is negated in the type. -/
def wcstoumax (uintmax_max : Nat) (s : List Char) : wcstol_result :=
  let parts := scan_numeral s
  let magnitude :=
    parts.digits.foldl (fun acc c => acc * parts.base + (digit_value c).getD 0) 0
  let consumed := parts.skipped + parts.digits.length
  if parts.digits = [] then { value := 0, consumed := 0, range_error := false }
  else if magnitude > uintmax_max then
    { value := (uintmax_max : Int), consumed := consumed, range_error := true }
  else if parts.negative = true then
    { value := (((uintmax_max + 1 - magnitude) % (uintmax_max + 1) : Nat) : Int),
      consumed := consumed, range_error := false }
  else { value := (magnitude : Int), consumed := consumed, range_error := false }

/-- The character is an octal digit: `L'0' <= c && c <= L'7'`. -/
def is_octal (c : Char) : Bool :=
  decide ('0'.toNat ≤ c.toNat ∧ c.toNat ≤ '7'.toNat)

/-- The digits that the loop of an octal escape reads at `s`: at most `n`
octal digits. -/
def octal_run (n : Nat) (s : List Char) : List Char :=
  (s.take n).takeWhile is_octal

/-- The value of the digits of an octal escape. -/
def octal_value (digits : List Char) : Nat :=
  digits.foldl (fun value d => value * 8 + (d.toNat - '0'.toNat)) 0

/-- `TO_CHAR(value)`: the value as one byte. -/
def TO_CHAR (value : Nat) : Char := Char.ofNat (value % 256)

/-- The character that the escape sequence of a backslash and `c` stands for in
`echo_parse_escape`, but for `\c` and `\0`. -/
def echo_escape_char (c : Char) : Option Char :=
  match c with
  | 'a' => some (Char.ofNat 7)
  | 'b' => some (Char.ofNat 8)
  | 'f' => some (Char.ofNat 12)
  | 'n' => some '\n'
  | 'r' => some '\r'
  | 't' => some '\t'
  | 'v' => some (Char.ofNat 11)
  | '\\' => some '\\'
  | _ => none

/-- The bytes `out` in front of what the rest of a loop appends. -/
def sb_append (out : List Char) (r : printf_result_T × List Char) :
    printf_result_T × List Char :=
  (r.1, out ++ r.2)

/-- The loop of `echo_parse_escape`, character by character, in front of `skip`
characters that an escape sequence has consumed: the result and the bytes
appended to the buffer. -/
def echo_parse_escape_loop {φ : Type} (lib : printf_library φ) :
    List Char → Nat → printf_result_T × List Char
  | [], _ => (printf_result_T.PR_OK, [])
  | _ :: s, skip + 1 => echo_parse_escape_loop lib s skip
  | c :: s, 0 =>
    let normal : printf_result_T × List Char :=
      match lib.wcrtomb c with
      | none => (printf_result_T.PR_ERROR, [])
      | some bytes => sb_append bytes (echo_parse_escape_loop lib s 0)
    if c ≠ '\\' then normal
    else
      match s with
      | [] => normal
      | 'c' :: _ => (printf_result_T.PR_OK_END, [])
      | '0' :: digits =>
        sb_append [TO_CHAR (octal_value (octal_run 3 digits))]
          (echo_parse_escape_loop lib s (1 + (octal_run 3 digits).length))
      | e :: _ =>
        match echo_escape_char e with
        | some x =>
          match lib.wcrtomb x with
          | none => (printf_result_T.PR_ERROR, [])
          | some bytes => sb_append bytes (echo_parse_escape_loop lib s 1)
        | none => normal

/-- `echo_parse_escape`: the result and the bytes appended to `buf`. -/
def echo_parse_escape {φ : Type} (lib : printf_library φ) (s : List Char) :
    printf_result_T × List Char :=
  echo_parse_escape_loop lib s 0

/-- The value that `strtoul` reads in base 10 from a run of digits. -/
def strtoul_digits (lim : Limits) (digits : List Char) : Nat :=
  min (digits.foldl (fun value d => value * 10 + (d.toNat - '0'.toNat)) 0) lim.ULONG_MAX

/-- `printf_parse_percent_b` on the conversion specification without its
specifier: `%`, flags, width and precision.  After the flags the text starts
with a digit, with `.` or is at its end, so that `strtoul` reads digits
only. -/
def printf_parse_percent_b (lim : Limits) (convspec : List Char) : format_T :=
  let s0 := convspec.drop 1
  let flags := s0.takeWhile (fun c => decide (c ∈ ['#', '0', '+', ' ', '-']))
  let s1 := s0.drop flags.length
  let s2 := s1.dropWhile iswdigit
  format_T.FT_ECHO (decide ('-' ∈ flags)) (strtoul_digits lim (s1.takeWhile iswdigit))
    (if s2.head? = some '.' then strtoul_digits lim ((s2.drop 1).takeWhile iswdigit)
     else lim.ULONG_MAX)

/-- `printf_parse_percent` on the text that starts with `%`: `none` for the
null pointer, else the item and the number of characters that `*formatp`
advances by. -/
def printf_parse_percent (lim : Limits) (format : List Char) : Option (format_T × Nat) :=
  let s0 := format.drop 1
  let flags := s0.takeWhile (fun c => decide (c ∈ ['#', '0', '-', '+', ' ']))
  let s1 := s0.drop flags.length
  let width := s1.takeWhile iswdigit
  let s2 := s1.drop width.length
  let precision := if s2.head? = some '.' then '.' :: (s2.drop 1).takeWhile iswdigit else []
  let s3 := s2.drop precision.length
  let buf := '%' :: (flags ++ width ++ precision)
  let hashflag := decide ('#' ∈ flags)
  let zeroflag := decide ('0' ∈ flags)
  match s3.head? with
  | none => none
  | some c =>
    if c = 'd' ∨ c = 'i' then
      if hashflag = true then none else some (format_T.FT_INT (buf ++ ['j', c]), buf.length + 1)
    else if c = 'u' then
      if hashflag = true then none else some (format_T.FT_UINT (buf ++ ['j', c]), buf.length + 1)
    else if c = 'o' ∨ c = 'x' ∨ c = 'X' then
      some (format_T.FT_UINT (buf ++ ['j', c]), buf.length + 1)
    else if c = 'f' ∨ c = 'F' ∨ c = 'e' ∨ c = 'E' ∨ c = 'g' ∨ c = 'G' then
      some (format_T.FT_FLOAT (buf ++ ['L', c]), buf.length + 1)
    else if c = 'c' then
      if hashflag = true ∨ zeroflag = true then none
      else some (format_T.FT_CHAR (buf ++ ['l', c]), buf.length + 1)
    else if c = 's' then
      if hashflag = true ∨ zeroflag = true then none
      else some (format_T.FT_STRING (buf ++ ['l', c]), buf.length + 1)
    else if c = 'b' then
      if hashflag = true ∨ zeroflag = true then none
      else some (printf_parse_percent_b lim buf, buf.length + 1)
    else if c = '%' then
      if buf.length ≠ 1 then none else some (format_T.FT_NONE, buf.length + 1)
    else none

/-- The character that the escape sequence of a backslash and `c` stands for in
`printf_parse_format`, but for the octal escapes. -/
def printf_escape_char (c : Char) : Option Char :=
  match c with
  | 'a' => some (Char.ofNat 7)
  | 'b' => some (Char.ofNat 8)
  | 'f' => some (Char.ofNat 12)
  | 'n' => some '\n'
  | 'r' => some '\r'
  | 't' => some '\t'
  | 'v' => some (Char.ofNat 11)
  | '\\' => some '\\'
  | '"' => some '"'
  | '\'' => some '\''
  | _ => none

/-- `MAKE_STRING`: the literal text gathered in `buf` becomes an `FT_RAW` item
if it is not empty. -/
def MAKE_STRING (buf : List Char) : List format_T :=
  if buf.length > 0 then [format_T.FT_RAW buf] else []

/-- The loop of `printf_parse_format`, character by character, in front of
`skip` characters that an escape sequence or a conversion specification has
consumed, with the literal text gathered in `buf`: `none` when the function
returns false. -/
def printf_parse_format_loop {φ : Type} (lib : printf_library φ) (lim : Limits) :
    List Char → Nat → List Char → Option (List format_T)
  | [], _, buf => some (MAKE_STRING buf)
  | _ :: format, skip + 1, buf => printf_parse_format_loop lib lim format skip buf
  | c :: format, 0, buf =>
    let normal : Option (List format_T) :=
      match lib.wcrtomb c with
      | none => none
      | some bytes => printf_parse_format_loop lib lim format 0 (buf ++ bytes)
    if c = '%' then
      match printf_parse_percent lim (c :: format) with
      | none => none
      | some (item, consumed) =>
        match printf_parse_format_loop lib lim format (consumed - 1) [] with
        | none => none
        | some items => some (MAKE_STRING buf ++ item :: items)
    else if c = '\\' then
      match format with
      | [] => normal
      | e :: _ =>
        if is_octal e = true then
          printf_parse_format_loop lib lim format (octal_run 3 format).length
            (buf ++ [TO_CHAR (octal_value (octal_run 3 format))])
        else
          match printf_escape_char e with
          | some x => printf_parse_format_loop lib lim format 1 (buf ++ [x])
          | none => normal
    else normal

/-- `printf_parse_format`: `none` when it returns false, else the items
assigned to `*resultp`. -/
def printf_parse_format {φ : Type} (lib : printf_library φ) (lim : Limits)
    (format : List Char) : Option (List format_T) :=
  printf_parse_format_loop lib lim format 0 []

/-- The global `xoptind`, the buffer `buf` of `printf_builtin` and the number
of error messages printed. -/
structure printf_state where
  xoptind : Nat
  buf : List Char
  errors : Nat
deriving DecidableEq, Repr

/-- `printf_parse_integer`: the value as a `uintmax_t`, with `xoptind` and the
error messages. -/
def printf_parse_integer {φ : Type} (lib : printf_library φ) (arg : Option (List Char))
    (is_signed : Bool) (s : printf_state) : Nat × printf_state :=
  let s1 := if arg.isSome = true then { s with xoptind := s.xoptind + 1 } else s
  let arg1 := arg.getD ['0']
  if arg1.head? = some '"' ∨ arg1.head? = some '\'' then
    (match arg1.drop 1 with
      | [] => 0
      | c :: _ => c.toNat, s1)
  else
    let r := if is_signed = true then wcstoimax lib.INTMAX_MAX arg1
      else wcstoumax lib.UINTMAX_MAX arg1
    ((r.value % ((lib.UINTMAX_MAX : Int) + 1)).toNat,
      if r.range_error = true ∨ arg1 = [] ∨ r.consumed ≠ arg1.length then
        { s1 with errors := s1.errors + 1 }
      else s1)

/-- The end of a case of `printf_printf` that calls `sb_printf`: `PR_ERROR` when
it fails, else the text is appended to `buf`. -/
def sb_printf_result (out : Option (List Char)) (s : printf_state) :
    printf_result_T × printf_state :=
  match out with
  | none => (printf_result_T.PR_ERROR, s)
  | some text => (printf_result_T.PR_OK, { s with buf := s.buf ++ text })

/-- `printf_print_escape` for an `FT_ECHO` item: the result and the bytes
appended to `buf`. -/
def printf_print_escape {φ : Type} (lib : printf_library φ) (left : Bool) (width max : Nat)
    (s : List Char) : printf_result_T × List Char :=
  let parsed := echo_parse_escape lib s
  let subbuf := if max < parsed.2.length then parsed.2.take max else parsed.2
  (parsed.1,
    if width ≤ subbuf.length then subbuf
    else if left = true then subbuf ++ List.replicate (width - subbuf.length) ' '
    else List.replicate (width - subbuf.length) ' ' ++ subbuf)

/-- `printf_printf`: the item `format` is applied to the argument `arg`, `none`
for the null pointer. -/
def printf_printf {φ : Type} (lib : printf_library φ) (format : format_T)
    (arg : Option (List Char)) (s : printf_state) : printf_result_T × printf_state :=
  match format with
  | format_T.FT_NONE => (printf_result_T.PR_OK, { s with buf := s.buf ++ ['%'] })
  | format_T.FT_RAW value => (printf_result_T.PR_OK, { s with buf := s.buf ++ value })
  | format_T.FT_STRING convspec =>
    sb_printf_result (lib.sb_printf_string convspec (arg.getD []))
      (if arg.isSome = true then { s with xoptind := s.xoptind + 1 } else s)
  | format_T.FT_CHAR convspec =>
    match arg with
    | some a =>
      sb_printf_result (lib.sb_printf_char convspec (a.headD (Char.ofNat 0)))
        { s with xoptind := s.xoptind + 1 }
    | none => (printf_result_T.PR_OK, s)
  | format_T.FT_INT convspec =>
    sb_printf_result (lib.sb_printf_integer convspec (printf_parse_integer lib arg true s).1)
      (printf_parse_integer lib arg true s).2
  | format_T.FT_UINT convspec =>
    sb_printf_result (lib.sb_printf_integer convspec (printf_parse_integer lib arg false s).1)
      (printf_parse_integer lib arg false s).2
  | format_T.FT_FLOAT convspec =>
    let s1 := if arg.isSome = true then { s with xoptind := s.xoptind + 1 } else s
    let arg1 := arg.getD ['0']
    let r := lib.wcstold arg1
    sb_printf_result (lib.sb_printf_float convspec r.1)
      (if r.2.2 = true ∨ arg1 = [] ∨ r.2.1 ≠ arg1.length then
        { s1 with errors := s1.errors + 1 }
       else s1)
  | format_T.FT_ECHO left width max =>
    let s1 := if arg.isSome = true then { s with xoptind := s.xoptind + 1 } else s
    let r := printf_print_escape lib left width max (arg.getD [])
    (r.1, { s1 with buf := s1.buf ++ r.2 })

/-- The loop `for (f = format; f != NULL; f = f->next)` of `printf_builtin`:
one pass over the items, `ARGV(xoptind)` being `argv[xoptind]` or the null
pointer at the end of `argv`. -/
def printf_pass {φ : Type} (lib : printf_library φ) (argv : List (List Char)) :
    List format_T → printf_state → printf_result_T × printf_state
  | [], s => (printf_result_T.PR_OK, s)
  | f :: format, s =>
    match printf_printf lib f (argv.get? s.xoptind) s with
    | (printf_result_T.PR_OK, s1) => printf_pass lib argv format s1
    | (result, s1) => (result, s1)

/-- The loop `do ... while (xoptind < argc && xoptind != oldoptind)` of
`printf_builtin`, for at most `fuel` passes: `none` when they do not
suffice. -/
def printf_operands {φ : Type} (lib : printf_library φ) (argv : List (List Char))
    (format : List format_T) : Nat → printf_state → Option (printf_result_T × printf_state)
  | 0, _ => none
  | fuel + 1, s =>
    match printf_pass lib argv format s with
    | (printf_result_T.PR_OK, s1) =>
      if s1.xoptind < argv.length ∧ s1.xoptind ≠ s.xoptind then
        printf_operands lib argv format fuel s1
      else some (printf_result_T.PR_OK, s1)
    | (result, s1) => some (result, s1)

/-- What a built-in leaves behind: the exit status and the bytes written to
the standard output. -/
structure builtin_result where
  status : exit_status
  stdout : List Char
deriving DecidableEq, Repr

/-- `printf_builtin` from the test `xoptind == argc` on, after the options:
`operands` are the words `argv[xoptind]` and after, the format first.  Writing
to the standard output is taken to succeed and no error message to have been
counted before; `none` when the passes run out. -/
def printf_builtin {φ : Type} (lib : printf_library φ) (lim : Limits)
    (operands : List (List Char)) : Option builtin_result :=
  match operands with
  | [] => some { status := exit_status.Exit_ERROR, stdout := [] }
  | format :: _ =>
    match printf_parse_format lib lim format with
    | none => some { status := exit_status.Exit_FAILURE, stdout := [] }
    | some items =>
      match printf_operands lib operands items (operands.length + 1)
          { xoptind := 1, buf := [], errors := 0 } with
      | none => none
      | some (printf_result_T.PR_ERROR, _) =>
        some { status := exit_status.Exit_FAILURE, stdout := [] }
      | some (_, s) =>
        some { status := if s.errors = 0 then exit_status.Exit_SUCCESS
                 else exit_status.Exit_FAILURE,
               stdout := s.buf }

/-! ## Notions of the specification and samples for the printf built-in -/

/-- Modelled from the spec: a sample of the library for the C locale on an LP64
machine, restricted to the conversions `%s`, `%c`, `%d`, `%i` and `%u` without
flags, width and precision; there is no floating-point conversion. -/
def sample_library : printf_library Unit :=
  { INTMAX_MAX := 2 ^ 63 - 1,
    UINTMAX_MAX := 2 ^ 64 - 1,
    wcrtomb := fun c => if c.toNat < 128 then some [c] else none,
    sb_printf_string := fun convspec arg => if convspec = ['%', 'l', 's'] then some arg else none,
    sb_printf_char := fun convspec c => if convspec = ['%', 'l', 'c'] then some [c] else none,
    sb_printf_integer := fun convspec value =>
      if convspec = ['%', 'j', 'd'] ∨ convspec = ['%', 'j', 'i'] then
        some (if value ≤ 2 ^ 63 - 1 then Nat.toDigits 10 value
          else '-' :: Nat.toDigits 10 (2 ^ 64 - value))
      else if convspec = ['%', 'j', 'u'] then some (Nat.toDigits 10 value)
      else none,
    sb_printf_float := fun _ _ => none,
    wcstold := fun _ => ((), 0, true) }

/-- The item takes an argument: it is a conversion other than `%%`. -/
def format_T.consumes : format_T → Bool
  | format_T.FT_NONE => false
  | format_T.FT_RAW _ => false
  | _ => true

/-- The number of argument-consuming conversions of a format. -/
def conversions (format : List format_T) : Nat :=
  format.countP format_T.consumes

/-- The arguments in consecutive groups of `k`: `ceil(n/k)` groups for `n`
arguments, the last one with what is left, and one group without an argument
when there is none. -/
def argument_groups (k : Nat) (args : List (List Char)) : List (List (List Char)) :=
  (List.range (if args = [] then 1 else (args.length + k - 1) / k)).map
    (fun (i : Nat) => (args.drop (i * k)).take k)

/-- One application of the format to the arguments `group`: a pass over the
items with `group` as the arguments left. -/
def apply_format {φ : Type} (lib : printf_library φ) (format : List format_T)
    (group : List (List Char)) : printf_result_T × printf_state :=
  printf_pass lib group format { xoptind := 0, buf := [], errors := 0 }

/-- The text of a format without argument-consuming conversions: its literal
text, with `%` for `%%`. -/
def literal_text : List format_T → List Char
  | [] => []
  | format_T.FT_NONE :: format => '%' :: literal_text format
  | format_T.FT_RAW value :: format => value ++ literal_text format
  | _ :: format => literal_text format

/-- The state before anything is consumed, appended or counted. -/
def printf_state.zero : printf_state := { xoptind := 0, buf := [], errors := 0 }

/-- The state `s` after the arguments consumed, the bytes appended and the
error messages counted in `d`. -/
def printf_state.add (s d : printf_state) : printf_state :=
  { xoptind := s.xoptind + d.xoptind, buf := s.buf ++ d.buf, errors := s.errors + d.errors }

/-! ## Notions of the specification and samples for removing matches -/

/-- The first index of `match_tail_shortest_each`: the value `len - minlen` of
the `size_t index`. -/
def match_tail_shortest_start (lim : Limits) (len minlen : Nat) : Nat :=
  (len + (lim.SIZE_MAX + 1 - minlen % (lim.SIZE_MAX + 1))) % (lim.SIZE_MAX + 1)

/-- The indices at which the loop `while (minlen + index <= len)` of
`match_tail_longest_each` calls the matcher, in the order of the calls: the
loop of `tail_search_up` with the index of each call written down. -/
def tail_search_up_probes {σ : Type} (env : environment σ) (pattern : List Char)
    (minlen len : Nat) : List Char → Nat → List Nat
  | [], index => if minlen + index ≤ len then [index] else []
  | c :: rest, index =>
    if minlen + index ≤ len then
      index ::
        match env.wfnmatchl pattern (c :: rest) env.shopt_nocaseglob wfnmtype.WFNM_WHOLE
            minlen with
        | wfnm_result.WFNM_NOMATCH => tail_search_up_probes env pattern minlen len rest (index + 1)
        | _ => []
    else []

/-- The indices at which the loop `do ... while (index--)` of
`match_tail_shortest_each` calls the matcher, in the order of the calls: the
loop of `tail_search_down` with the index of each call written down.  After a
call with an index beyond the end of the string nothing more is defined, and
the list ends there. -/
def tail_search_down_probes {σ : Type} (env : environment σ) (pattern : List Char)
    (minlen : Nat) (str : List Char) : Nat → List Nat
  | 0 => [0]
  | index + 1 =>
    (index + 1) ::
      if str.length < index + 1 then []
      else
        match env.wfnmatchl pattern (str.drop (index + 1)) env.shopt_nocaseglob
            wfnmtype.WFNM_WHOLE minlen with
        | wfnm_result.WFNM_ERROR => []
        | wfnm_result.matched _ => []
        | wfnm_result.WFNM_NOMATCH => tail_search_down_probes env pattern minlen str index

/-- The matcher finds that the whole of `s` matches the pattern. -/
def whole_match {σ : Type} (env : environment σ) (pattern : List Char) (s : List Char) : Bool :=
  match env.wfnmatchl pattern s env.shopt_nocaseglob wfnmtype.WFNM_WHOLE
      (env.shortest_match_length pattern env.shopt_nocaseglob) with
  | wfnm_result.matched _ => true
  | _ => false

/-- The string cut at the smallest index whose suffix satisfies `p`: the
longest such suffix is removed; the string itself if no suffix does. -/
def truncate_at_first (p : List Char → Bool) (str : List Char) : List Char :=
  match (List.range (str.length + 1)).find? (fun i => p (str.drop i)) with
  | some i => str.take i
  | none => str

/-- The string cut at the largest index whose suffix satisfies `p`: the
shortest such suffix is removed; the string itself if no suffix does. -/
def truncate_at_last (p : List Char → Bool) (str : List Char) : List Char :=
  match (List.range (str.length + 1)).reverse.find? (fun i => p (str.drop i)) with
  | some i => str.take i
  | none => str

/-- Modelled from the spec: a sample of the other modules in which the pattern
`p` stands for the glob `p*`: a string matches when it starts with `p`, the
shortest match has the length of `p` and the longest is the whole string. -/
def prefix_environment : environment sample_store :=
  { sample_environment with
    shortest_match_length := fun pattern _ => pattern.length,
    wfnmatchl := fun pattern s _ type _ =>
      if pattern.isPrefixOf s = true then
        wfnm_result.matched
          (match type with
            | wfnmtype.WFNM_SHORTEST => pattern.length
            | _ => s.length)
      else wfnm_result.WFNM_NOMATCH }

/-! ## Expansion of a word into fields (`expand.c`) -/

/-- `expand_brace_each`: the words that `expand_brace` adds for each of the
values, one value after the other; `none` when the depth bound of the model of
`expand_brace` is used up. -/
def expand_brace_each (long_max : Nat) :
    List (List Char) → List (List Bool) → Option (List (List Char × List Bool))
  | value :: values, split :: splits =>
    match expand_brace long_max value split with
    | none => none
    | some words => (expand_brace_each long_max values splits).map (words ++ ·)
  | _, _ => some []

/-- `expand_word_and_split`: the return value and the fields added to `list`,
with the state of the shell after the call.  `shopt_braceexpand` is the shell
option of that name.  The call aborts when the assertion of `fieldsplit`
fails. -/
def expand_word_and_split {σ : Type} (lim : Limits) (long_max : Nat) (env : environment σ)
    (shopt_braceexpand : Bool) (w : wordunit_T) (st : σ) :
    outcome ((Bool × List (List Char)) × σ) :=
  match expand_word lim env w tildetype_T.tt_single st with
  | outcome.returns (r, st1) =>
    if r.ok = false then outcome.returns ((false, []), st1)
    else
      let lists :=
        if shopt_braceexpand = true then expand_brace_each long_max r.valuelist r.splitlist
        else some (r.valuelist.zip r.splitlist)
      match lists with
      | none => outcome.aborts
      | some words =>
        match fieldsplit_all (env.getvar st1 VAR_IFS) (words.map Prod.fst)
            (words.map Prod.snd) with
        | none => outcome.aborts
        | some fields => outcome.returns ((true, fields), st1)
  | outcome.exits => outcome.exits
  | outcome.aborts => outcome.aborts

/-! ## The echo built-in (`builtins/printf.c`) -/

/-- Modelled from the spec: `sb_wcscat` of `strbuf.c`, which appends a wide
string to the buffer as bytes: the bytes appended, or `none` when a character
cannot be converted, in which case the function returns a pointer to that
character instead of the null pointer. -/
def sb_wcscat {φ : Type} (lib : printf_library φ) : List Char → Option (List Char)
  | [] => some []
  | c :: s =>
    match lib.wcrtomb c with
    | none => none
    | some bytes => (sb_wcscat lib s).map (bytes ++ ·)

/-- The `switch` of `echo_builtin` on the first character of `$ECHO_STYLE`:
the values of `escape`, `noption` and `eoption`.  The argument is what
`getvar` returns, `none` for the null pointer. -/
def echo_style_flags (echo_style : Option (List Char)) : Bool × Bool × Bool :=
  let first :=
    match echo_style with
    | some (c :: _) => c
    | _ => Char.ofNat 0
  if first = 'S' ∨ first = 's' ∨ first = 'X' ∨ first = 'x' then (true, false, false)
  else if first = 'B' ∨ first = 'b' then (false, true, false)
  else if first = 'G' ∨ first = 'g' then (false, true, true)
  else if first = 'Z' ∨ first = 'z' then (true, true, true)
  else if first = 'D' ∨ first = 'd' then (true, true, false)
  else if first = 'R' ∨ first = 'r' then (false, false, false)
  else (true, false, false)

/-- The loop `for (index = 1; index < argc; index++)` of `echo_builtin`, which
parses the options when `eoption` is set: the values of `nonewline` and
`escape` after the loop and the arguments from `index` on. -/
def echo_parse_options : List (List Char) → Bool → Bool → Bool × Bool × List (List Char)
  | [], nonewline, escape => (nonewline, escape, [])
  | arg :: args, nonewline, escape =>
    if arg.head? ≠ some '-' then (nonewline, escape, arg :: args)
    else if (arg.drop 1).dropWhile (fun c => decide (c ∈ ['n', 'e', 'E'])) ≠ [] then
      (nonewline, escape, arg :: args)
    else
      echo_parse_options args
        ((arg.drop 1).foldl (fun n opt => if opt = 'n' then true else n) nonewline)
        ((arg.drop 1).foldl
          (fun e opt => if opt = 'e' then true else if opt = 'E' then false else e) escape)

/-- The part `parse options` of `echo_builtin`: the values of `nonewline` and
`escape` after it and the arguments from `index` on; `args` are the arguments
after the name of the command. -/
def echo_options (echo_style : Option (List Char)) (args : List (List Char)) :
    Bool × Bool × List (List Char) :=
  let escape := (echo_style_flags echo_style).1
  let noption := (echo_style_flags echo_style).2.1
  let eoption := (echo_style_flags echo_style).2.2
  if eoption = true then echo_parse_options args false escape
  else if noption = true ∧ args.head? = some ['-', 'n'] then (true, escape, args.drop 1)
  else (false, escape, args)

/-- One argument in the loop `for (;;)` of `echo_builtin`: with `escape` it is
read by `echo_parse_escape`, else it is appended by `sb_wcscat`. -/
def echo_argument {φ : Type} (lib : printf_library φ) (escape : Bool) (arg : List Char) :
    printf_result_T × List Char :=
  if escape = true then echo_parse_escape lib arg
  else
    match sb_wcscat lib arg with
    | some bytes => (printf_result_T.PR_OK, bytes)
    | none => (printf_result_T.PR_ERROR, [])

/-- The loop `for (;;)` of `echo_builtin` over the arguments from `index` on:
`none` at `goto error`, else whether the loop ended at `goto print` and the
bytes in `buf`. -/
def echo_arguments {φ : Type} (lib : printf_library φ) (escape : Bool) :
    List (List Char) → Option (Bool × List Char)
  | [] => some (false, [])
  | arg :: args =>
    match echo_argument lib escape arg with
    | (printf_result_T.PR_ERROR, _) => none
    | (printf_result_T.PR_OK_END, bytes) => some (true, bytes)
    | (printf_result_T.PR_OK, bytes) =>
      match args with
      | [] => some (false, bytes)
      | _ :: _ =>
        match lib.wcrtomb ' ' with
        | none => none
        | some space =>
          match echo_arguments lib escape args with
          | none => none
          | some (ended, more) => some (ended, bytes ++ space ++ more)

/-- The part of `echo_builtin` from `parse arguments` on: the exit status and
the bytes written.  Writing to the standard output is taken to succeed. -/
def echo_print {φ : Type} (lib : printf_library φ) (nonewline escape : Bool)
    (args : List (List Char)) : builtin_result :=
  match echo_arguments lib escape args with
  | none => { status := exit_status.Exit_FAILURE, stdout := [] }
  | some (true, bytes) => { status := exit_status.Exit_SUCCESS, stdout := bytes }
  | some (false, bytes) =>
    if nonewline = true then { status := exit_status.Exit_SUCCESS, stdout := bytes }
    else
      match lib.wcrtomb '\n' with
      | none => { status := exit_status.Exit_FAILURE, stdout := [] }
      | some newline => { status := exit_status.Exit_SUCCESS, stdout := bytes ++ newline }

/-- `echo_builtin`: `echo_style` is what `getvar` returns for `$ECHO_STYLE`,
`none` for the null pointer, and `args` are the arguments after the name of
the command. -/
def echo_builtin {φ : Type} (lib : printf_library φ) (echo_style : Option (List Char))
    (args : List (List Char)) : builtin_result :=
  echo_print lib (echo_options echo_style args).1 (echo_options echo_style args).2.1
    (echo_options echo_style args).2.2

/-! ## Notions of the specification for the end of printf and for echo -/

/-- The state after `n` passes of the loop of `printf_builtin` that each end
with `PR_OK` and are followed by another pass; `none` if one of them does not
end so. -/
def printf_complete_passes {φ : Type} (lib : printf_library φ) (argv : List (List Char))
    (format : List format_T) : Nat → printf_state → Option printf_state
  | 0, s => some s
  | n + 1, s =>
    match printf_pass lib argv format s with
    | (printf_result_T.PR_OK, s1) =>
      if s1.xoptind < argv.length ∧ s1.xoptind ≠ s.xoptind then
        printf_complete_passes lib argv format n s1
      else none
    | _ => none

/-- An option of echo in the styles that take `-n`, `-e` and `-E`: the
argument is `-` with one or more of the letters `n`, `e` and `E`. -/
def echo_option_argument (arg : List Char) : Bool :=
  match arg with
  | '-' :: c :: letters => (c :: letters).all (fun x => decide (x ∈ ['n', 'e', 'E']))
  | _ => false

/-- The option letters of the arguments, each argument without its `-`, in
their order. -/
def echo_option_letters (opts : List (List Char)) : List Char :=
  (opts.map (List.drop 1)).flatten

/-- Whether escape sequences are read after the option letters: the last of
the letters `e` and `E` decides, and without one of them the value of the
style stays. -/
def echo_escape_setting (style_value : Bool) (letters : List Char) : Bool :=
  match letters.reverse.find? (fun c => decide (c = 'e' ∨ c = 'E')) with
  | some c => decide (c = 'e')
  | none => style_value

/-- The texts joined with single spaces. -/
def echo_joined (texts : List (List Char)) : List Char :=
  List.intercalate [' '] texts

/-! ## Notions of the specification for the end of brace expansion -/

/-- The number of opening braces of the word that are not escaped, an escape
being a backslash with the character after it. -/
def unescaped_braces : List Char → Nat
  | [] => 0
  | c :: rest =>
    if c = '\\' then
      match rest with
      | [] => 0
      | _ :: rest' => unescaped_braces rest'
    else (if c = '{' then 1 else 0) + unescaped_braces rest

/-! ## Notions of the specification for the endpoints of a sequence -/

/-- The digits of the text of an integer: the text without its sign. -/
def numeral_digits : List Char → List Char
  | '+' :: digits => digits
  | '-' :: digits => digits
  | digits => digits

/-- The integer that a text writes, the specification's "integer" endpoint of a
sequence: an optional sign `+` or `-` followed by one or more decimal digits,
read in base 10; `none` for any other text. -/
def integer_text (text : List Char) : Option Int :=
  if numeral_digits text ≠ [] ∧ (numeral_digits text).all iswdigit = true then
    some (if text.head? = some '-' then -(decimal_value (numeral_digits text) : Int)
      else (decimal_value (numeral_digits text) : Int))
  else none

theorem scan_procs_fst (procs : List process_T) (a b : Bool) :
    (scan_procs procs (a, b)).1 = (a || procs.any (fun p => decide (p.pr_status = JS_RUNNING))) := by
  induction procs generalizing a b with
  | nil => simp [scan_procs]
  | cons p ps ih =>
    cases hp : p.pr_status <;> simp [scan_procs, hp, ih]

theorem scan_procs_snd (procs : List process_T) (a b : Bool)
    (h : ∀ p ∈ procs, p.pr_status ≠ JS_RUNNING) :
    (scan_procs procs (a, b)).2 = (b || procs.any (fun p => decide (p.pr_status = JS_STOPPED))) := by
  induction procs generalizing a b with
  | nil => simp [scan_procs]
  | cons p ps ih =>
    have hps : ∀ q ∈ ps, q.pr_status ≠ JS_RUNNING := fun q hq => h q (List.mem_cons_of_mem _ hq)
    have hp0 := h p (List.mem_cons_self _ _)
    cases hp : p.pr_status
    · exact absurd hp hp0
    · simp [scan_procs, hp, ih _ _ hps]
    · simp [scan_procs, hp, ih _ _ hps]

theorem decide_job_status_eq (procs : List process_T) :
    decide_job_status procs =
      if ∃ p ∈ procs, p.pr_status = JS_RUNNING then JS_RUNNING
      else if ∃ p ∈ procs, p.pr_status = JS_STOPPED then JS_STOPPED
      else JS_DONE := by
  unfold decide_job_status
  by_cases hr : ∃ p ∈ procs, p.pr_status = JS_RUNNING
  · have : (scan_procs procs (false, false)).1 = true := by
      rw [scan_procs_fst]; simpa using hr
    simp [this, hr]
  · have hno : ∀ p ∈ procs, p.pr_status ≠ JS_RUNNING := by
      intro p hp h; exact hr ⟨p, hp, h⟩
    have h1 : (scan_procs procs (false, false)).1 = false := by
      rw [scan_procs_fst]; simpa using hno
    have h2 := scan_procs_snd procs false false hno
    by_cases hs : ∃ p ∈ procs, p.pr_status = JS_STOPPED
    · have : (scan_procs procs (false, false)).2 = true := by
        rw [h2]; simpa using hs
      simp [h1, this, hr, hs]
    · have : (scan_procs procs (false, false)).2 = false := by
        rw [h2]; simpa using hs
      simp [h1, this, hr, hs]

theorem get_job_eq (s : JobTable) (n : Nat) : get_job s n = (s.joblist[n]?).join := by
  unfold get_job
  by_cases h : n < s.joblist.length
  · simp [h, List.getD, List.getElem?_eq_getElem h]
  · simp [h, List.getElem?_eq_none (Nat.le_of_not_lt h)]

/-- The search loop of `do_wait` over the processes of a job finds a process
with the given pid. -/
theorem find_pnumber_some (ps : List process_T) (pid : Int) :
    ∀ (k n : Nat), find_pnumber ps pid k = some n →
    k ≤ n ∧ ∃ p, ps[n - k]? = some p ∧ p.pr_pid = pid := by
  induction ps with
  | nil => intro k n h; simp [find_pnumber] at h
  | cons p ps ih =>
    intro k n h
    rw [find_pnumber] at h
    by_cases hp : p.pr_pid = pid
    · rw [if_pos hp] at h
      simp only [Option.some.injEq] at h
      subst h
      exact ⟨le_refl _, p, by simp, hp⟩
    · rw [if_neg hp] at h
      obtain ⟨h1, q, h2, h3⟩ := ih (k + 1) n h
      refine ⟨by omega, q, ?_, h3⟩
      have : n - k = (n - (k + 1)) + 1 := by omega
      rw [this]
      simpa using h2

/-- The search loops of `do_wait` find a job and one of its processes, which
has the given pid. -/
theorem find_process_member (l : List (Option job_T)) (pid : Int) (k jn pn : Nat)
    (h : find_process l pid k = some (jn, pn)) :
    k ≤ jn ∧ ∃ job p, l[jn - k]? = some (some job) ∧ job.j_procs[pn]? = some p ∧
      p.pr_pid = pid := by
  induction l generalizing k with
  | nil => simp [find_process] at h
  | cons slot rest ih =>
    cases slot with
    | none =>
      simp only [find_process] at h
      obtain ⟨h1, job, p, h2, h3⟩ := ih _ h
      refine ⟨by omega, job, p, ?_, h3⟩
      have : jn - k = (jn - (k + 1)) + 1 := by omega
      rw [this]; simpa using h2
    | some job0 =>
      simp only [find_process] at h
      cases hf : find_pnumber job0.j_procs pid 0 with
      | some pnum =>
        rw [hf] at h
        simp at h
        obtain ⟨rfl, rfl⟩ := h
        obtain ⟨-, p, hp1, hp2⟩ := find_pnumber_some _ _ _ _ hf
        exact ⟨le_refl _, job0, p, by simp, by simpa using hp1, hp2⟩
      | none =>
        rw [hf] at h
        obtain ⟨h1, job, p, h2, h3⟩ := ih _ h
        refine ⟨by omega, job, p, ?_, h3⟩
        have : jn - k = (jn - (k + 1)) + 1 := by omega
        rw [this]; simpa using h2

/-- Changing the element at a position of a list by a function replaces that
element by its image. -/
theorem modify_eq_set_of_getElem? {α : Type} (f : α → α) (l : List α) (n : Nat) (a : α)
    (h : l[n]? = some a) : l.modify f n = l.set n (f a) := by
  induction l generalizing n with
  | nil => simp at h
  | cons x xs ih =>
    cases n with
    | zero =>
      simp only [List.getElem?_cons_zero, Option.some.injEq] at h
      subst h
      rfl
    | succ n =>
      simp only [List.getElem?_cons_succ] at h
      simp only [List.modify_succ_cons, List.set_cons_succ, ih n h]

/-- What `do_wait` records in a process for a status word: the status code, and
the status that the last of the tests `WIFEXITED || WIFSIGNALED`, `WIFSTOPPED`
and `WIFCONTINUED` that holds stands for. -/
theorem record_status_eq (pr : process_T) (status : WaitStatus) :
    record_status pr status =
      { pr with
        pr_statuscode := status.code,
        pr_status :=
          if status.continued = true then JS_RUNNING
          else if status.stopped = true then JS_STOPPED
          else if status.exited = true ∨ status.signaled = true then JS_DONE
          else pr.pr_status } := by
  rcases status with ⟨code, e, sg, st, c⟩
  cases e <;> cases sg <;> cases st <;> cases c <;> rfl

/-- C1: in `do_wait`, once the status of the process found for `pid` has been
recorded, the status of the job that owns it is recomputed from its members:
the members are those the job had, with the status code and the reported
status recorded in the process found, and the status of the job is running if
some member is running, otherwise stopped if some member is stopped, otherwise
done.  The flag `j_statuschanged` is set when the status has changed, and
nothing else changes in the table. -/
theorem do_wait_job_status (s : JobTable) (pid : Int) (status : WaitStatus)
    (jobnumber pnumber : Nat)
    (h : find_process s.joblist pid 0 = some (jobnumber, pnumber)) :
    ∃ old pr job,
      get_job s jobnumber = some old ∧ old.j_procs[pnumber]? = some pr ∧ pr.pr_pid = pid ∧
      get_job (do_wait_step s pid status) jobnumber = some job ∧
      job.j_procs = old.j_procs.set pnumber
        { pr with
          pr_statuscode := status.code,
          pr_status :=
            if status.continued = true then JS_RUNNING
            else if status.stopped = true then JS_STOPPED
            else if status.exited = true ∨ status.signaled = true then JS_DONE
            else pr.pr_status } ∧
      job.j_status =
        (if ∃ p ∈ job.j_procs, p.pr_status = JS_RUNNING then JS_RUNNING
        else if ∃ p ∈ job.j_procs, p.pr_status = JS_STOPPED then JS_STOPPED
        else JS_DONE) ∧
      job.j_statuschanged = (old.j_statuschanged || decide (job.j_status ≠ old.j_status)) ∧
      job.j_pgid = old.j_pgid ∧ job.j_nonotify = old.j_nonotify ∧
      (∀ n, n ≠ jobnumber → get_job (do_wait_step s pid status) n = get_job s n) ∧
      (do_wait_step s pid status).current_jobnumber = s.current_jobnumber ∧
      (do_wait_step s pid status).previous_jobnumber = s.previous_jobnumber := by
  obtain ⟨-, old, pr, hj, hp, hpid⟩ := find_process_member _ _ _ _ _ h
  simp only [Nat.sub_zero] at hj
  have hprocs := modify_eq_set_of_getElem? (fun pr => record_status pr status) _ _ _ hp
  simp only at hprocs
  refine ⟨old, pr, update_job old pnumber status, ?_, hp, hpid, ?_, ?_, ?_, ?_, rfl, rfl,
    ?_, ?_, ?_⟩
  · rw [get_job_eq, hj]; rfl
  · rw [get_job_eq]
    simp [do_wait_step, h, List.getElem?_modify, hj]
  · simp only [update_job]
    rw [hprocs, record_status_eq]
  · simp only [update_job]
    exact decide_job_status_eq _
  · simp only [update_job]
    cases old.j_statuschanged <;> simp
  · intro n hn
    rw [get_job_eq, get_job_eq]
    simp [do_wait_step, h, List.getElem?_modify, Ne.symm hn]
  · simp [do_wait_step, h]
  · simp [do_wait_step, h]

/-! ## Theorems: current and previous job, adding jobs, job-ids -/

theorem is_stopped_job_iff (s : JobTable) (n : Nat) :
    is_stopped_job s n = true ↔ ∃ job, get_job s n = some job ∧ job.j_status = JS_STOPPED := by
  unfold is_stopped_job
  cases h : get_job s n <;> simp

theorem get_job_lt (s : JobTable) (n : Nat) (job : job_T) (h : get_job s n = some job) :
    n < s.joblist.length := by
  unfold get_job at h
  by_contra hn
  simp [hn] at h

theorem is_stopped_job_lt (s : JobTable) (n : Nat) (h : is_stopped_job s n = true) :
    n < s.joblist.length := by
  obtain ⟨job, hj, -⟩ := (is_stopped_job_iff s n).1 h
  exact get_job_lt s n job hj

theorem find_next_stopped_some (s : JobTable) (excl k n : Nat)
    (h : find_next_stopped s excl k = some n) :
    n ≠ excl ∧ is_stopped_job s n = true ∧ 1 ≤ n ∧ n < k := by
  induction k using Nat.strong_induction_on with
  | _ k ih =>
    match k, h with
    | 0, h => simp [find_next_stopped] at h
    | 1, h => simp [find_next_stopped] at h
    | j + 2, h =>
      simp only [find_next_stopped] at h
      split at h
      · rename_i hc
        simp at h
        subst h
        exact ⟨hc.1, hc.2, by omega, by omega⟩
      · obtain ⟨h1, h2, h3, h4⟩ := ih (j + 1) (by omega) h
        exact ⟨h1, h2, h3, by omega⟩

theorem find_next_stopped_isSome (s : JobTable) (excl k i : Nat)
    (h1 : 1 ≤ i) (h2 : i < k) (h3 : i ≠ excl) (h4 : is_stopped_job s i = true) :
    ∃ n, find_next_stopped s excl k = some n := by
  induction k using Nat.strong_induction_on with
  | _ k ih =>
    match k, h2 with
    | 0, h2 => omega
    | 1, h2 => omega
    | j + 2, h2 =>
      simp only [find_next_stopped]
      split
      · exact ⟨_, rfl⟩
      · rename_i hc
        have : i ≠ j + 1 := by
          intro he; subst he; exact hc ⟨h3, h4⟩
        exact ih (j + 1) (by omega) (by omega)

theorem find_next_job_stopped (s : JobTable) (excl i : Nat)
    (h1 : 1 ≤ i) (h3 : i ≠ excl) (h4 : is_stopped_job s i = true) :
    find_next_job s excl ≠ excl ∧ is_stopped_job s (find_next_job s excl) = true := by
  unfold find_next_job
  split
  · rename_i hc; exact hc
  · obtain ⟨n, hn⟩ := find_next_stopped_isSome s excl s.joblist.length i h1
      (is_stopped_job_lt s i h4) h3 h4
    rw [hn]
    obtain ⟨a, b, -, -⟩ := find_next_stopped_some s excl _ n hn
    exact ⟨a, b⟩

theorem stopped_job_count_pos (s : JobTable) (i : Nat) (h : is_stopped_job s i = true) :
    0 < stopped_job_count s := by
  obtain ⟨job, hj, hs⟩ := (is_stopped_job_iff s i).1 h
  rw [get_job_eq] at hj
  unfold stopped_job_count
  rw [List.countP_pos_iff]
  have hlt := is_stopped_job_lt s i h
  rw [List.getElem?_eq_getElem hlt] at hj
  refine ⟨s.joblist[i], List.getElem_mem _, ?_⟩
  simp at hj
  simp [hj, hs]

theorem not_bad_current (s : JobTable) (sc n : Nat) (hsc : 0 < sc)
    (h : bad_current s sc n = false) : is_stopped_job s n = true := by
  unfold bad_current at h
  unfold is_stopped_job
  cases hg : get_job s n with
  | none => simp [hg] at h
  | some job =>
    simp [hg, hsc] at h
    simp [h]

theorem set_current_jobnumber_joblist (s : JobTable) (n : Nat) :
    (set_current_jobnumber s n).joblist = s.joblist := by
  unfold set_current_jobnumber
  simp only
  split_ifs <;> rfl

/-- The candidate that the first cascade of `set_current_jobnumber` settles on. -/
theorem set_current_jobnumber_current (s : JobTable) (n : Nat) :
    (set_current_jobnumber s n).current_jobnumber =
      if bad_current s (stopped_job_count s) n then
        if bad_current s (stopped_job_count s) s.current_jobnumber then
          if bad_current s (stopped_job_count s) s.previous_jobnumber then find_next_job s 0
          else s.previous_jobnumber
        else s.current_jobnumber
      else n := by
  unfold set_current_jobnumber
  simp only
  split_ifs <;> simp_all

theorem is_stopped_job_congr (s t : JobTable) (h : t.joblist = s.joblist) (n : Nat) :
    is_stopped_job t n = is_stopped_job s n := by
  unfold is_stopped_job get_job
  rw [h]

theorem set_current_jobnumber_current_stopped (s : JobTable) (n i : Nat)
    (h1 : 1 ≤ i) (h2 : is_stopped_job s i = true) :
    is_stopped_job s (set_current_jobnumber s n).current_jobnumber = true := by
  have hsc := stopped_job_count_pos s i h2
  rw [set_current_jobnumber_current]
  split_ifs with a b c
  · exact (find_next_job_stopped s 0 i h1 (by omega) h2).2
  · exact not_bad_current s _ _ hsc (by simpa using c)
  · exact not_bad_current s _ _ hsc (by simpa using b)
  · exact not_bad_current s _ _ hsc (by simpa using a)

/-- The job number `find_next_job` returns is not 0 when a stopped job other
than `excl` stands in a slot `≥ 1` and the previous job number is not 0 or the
active job of slot 0 is not stopped. -/
theorem find_next_job_pos (s : JobTable) (excl i : Nat)
    (h1 : 1 ≤ i) (h3 : i ≠ excl) (h4 : is_stopped_job s i = true)
    (h0 : is_stopped_job s ACTIVE_JOBNO = false ∨ 1 ≤ s.previous_jobnumber) :
    1 ≤ find_next_job s excl := by
  unfold find_next_job
  split
  · rename_i hc
    rcases h0 with h0 | h0
    · rcases Nat.eq_zero_or_pos s.previous_jobnumber with hz | hz
      · rw [hz] at hc
        have := hc.2
        simp only [ACTIVE_JOBNO] at h0
        rw [h0] at this
        exact absurd this (by decide)
      · exact hz
    · exact h0
  · obtain ⟨n, hn⟩ := find_next_stopped_isSome s excl s.joblist.length i h1
      (is_stopped_job_lt s i h4) h3 h4
    rw [hn]
    obtain ⟨-, -, c, -⟩ := find_next_stopped_some s excl _ n hn
    exact c

/-- The current job number after `set_current_jobnumber` is not 0 when a
stopped job stands in a slot `≥ 1` and the active job is not stopped or no job
number that is proposed is 0. -/
theorem set_current_jobnumber_current_pos (s : JobTable) (n i : Nat)
    (h1 : 1 ≤ i) (h2 : is_stopped_job s i = true)
    (h0 : is_stopped_job s ACTIVE_JOBNO = false ∨
      (1 ≤ n ∧ 1 ≤ s.current_jobnumber ∧ 1 ≤ s.previous_jobnumber)) :
    1 ≤ (set_current_jobnumber s n).current_jobnumber := by
  rcases h0 with h0 | ⟨hn, hc, hp⟩
  · have := set_current_jobnumber_current_stopped s n i h1 h2
    rcases Nat.eq_zero_or_pos (set_current_jobnumber s n).current_jobnumber with hz | hz
    · rw [hz] at this
      simp only [ACTIVE_JOBNO] at h0
      rw [h0] at this
      exact absurd this (by decide)
    · exact hz
  · rw [set_current_jobnumber_current]
    split_ifs
    · exact find_next_job_pos s 0 i h1 (by omega) h2 (Or.inr hp)
    · exact hp
    · exact hc
    · exact hn

/-- C2 (amended): for every job table and every argument `n`, if some job in
a slot `≥ 1` is stopped, then after `set_current_jobnumber n` the slot of the
current job number holds a stopped job; and the current job number is not 0,
so that it designates this job, when the active job of slot 0 is not stopped
or none of `n`, the old current job number and the old previous job number
is 0. -/
theorem set_current_jobnumber_current_is_stopped (s : JobTable) (n : Nat)
    (h : ∃ i job, 1 ≤ i ∧ get_job s i = some job ∧ job.j_status = JS_STOPPED) :
    (∃ job, get_job (set_current_jobnumber s n) (set_current_jobnumber s n).current_jobnumber
        = some job ∧ job.j_status = JS_STOPPED) ∧
    (((∀ job, get_job s ACTIVE_JOBNO = some job → job.j_status ≠ JS_STOPPED) ∨
        (1 ≤ n ∧ 1 ≤ s.current_jobnumber ∧ 1 ≤ s.previous_jobnumber)) →
      1 ≤ (set_current_jobnumber s n).current_jobnumber) := by
  obtain ⟨i, job, h1, hj, hs⟩ := h
  have h2 : is_stopped_job s i = true := (is_stopped_job_iff s i).2 ⟨job, hj, hs⟩
  have := set_current_jobnumber_current_stopped s n i h1 h2
  rw [← is_stopped_job_congr s _ (set_current_jobnumber_joblist s n)] at this
  refine ⟨(is_stopped_job_iff _ _).1 this, ?_⟩
  intro h0
  apply set_current_jobnumber_current_pos s n i h1 h2
  rcases h0 with h0 | h0
  · left
    cases hb : is_stopped_job s ACTIVE_JOBNO with
    | false => rfl
    | true =>
      obtain ⟨a, ha, hst⟩ := (is_stopped_job_iff s _).1 hb
      exact absurd hst (h0 a ha)
  · exact Or.inr h0


theorem countP_two_le {α : Type} (p : α → Bool) (l : List α) (i j : Nat) (a b : α)
    (hij : i < j) (hi : l[i]? = some a) (hj : l[j]? = some b)
    (pa : p a = true) (pb : p b = true) : 2 ≤ l.countP p := by
  induction l generalizing i j with
  | nil => simp at hi
  | cons x t ih =>
    obtain ⟨j', rfl⟩ : ∃ j', j = j' + 1 := ⟨j - 1, by omega⟩
    simp only [List.getElem?_cons_succ] at hj
    cases i with
    | zero =>
      simp at hi
      subst hi
      have : 0 < t.countP p := by
        rw [List.countP_pos_iff]
        exact ⟨b, List.getElem?_mem hj, pb⟩
      rw [List.countP_cons_of_pos _ _ pa]
      omega
    | succ i' =>
      simp only [List.getElem?_cons_succ] at hi
      have := ih i' j' (by omega) hi hj
      have := List.countP_cons p x t
      split_ifs at this <;> omega

theorem stopped_job_count_two (s : JobTable) (i j : Nat) (hij : i ≠ j)
    (hi : is_stopped_job s i = true) (hj : is_stopped_job s j = true) :
    2 ≤ stopped_job_count s := by
  obtain ⟨ji, hgi, hsi⟩ := (is_stopped_job_iff s i).1 hi
  obtain ⟨jj, hgj, hsj⟩ := (is_stopped_job_iff s j).1 hj
  have hli := is_stopped_job_lt s i hi
  have hlj := is_stopped_job_lt s j hj
  rw [get_job_eq, List.getElem?_eq_getElem hli] at hgi
  rw [get_job_eq, List.getElem?_eq_getElem hlj] at hgj
  simp at hgi hgj
  unfold stopped_job_count
  rcases Nat.lt_or_gt_of_ne hij with h | h
  · exact countP_two_le _ _ i j (some ji) (some jj) h
      (by rw [List.getElem?_eq_getElem hli, hgi]) (by rw [List.getElem?_eq_getElem hlj, hgj])
      (by simp [hsi]) (by simp [hsj])
  · exact countP_two_le _ _ j i (some jj) (some ji) h
      (by rw [List.getElem?_eq_getElem hlj, hgj]) (by rw [List.getElem?_eq_getElem hli, hgi])
      (by simp [hsj]) (by simp [hsi])

theorem not_bad_previous (s : JobTable) (sc n : Nat) (hsc : 1 < sc)
    (h : bad_previous s sc n = false) :
    n ≠ s.current_jobnumber ∧ is_stopped_job s n = true := by
  unfold bad_previous at h
  unfold is_stopped_job
  cases hg : get_job s n with
  | none => simp [hg] at h
  | some job =>
    simp [hg, hsc] at h
    simp [h]

/-- The candidate that the second cascade of `set_current_jobnumber` settles
on, relative to the table in which the current job has been updated. -/
theorem set_current_jobnumber_previous (s : JobTable) (n : Nat) :
    (bad_previous { s with current_jobnumber := (set_current_jobnumber s n).current_jobnumber }
        (stopped_job_count s) (set_current_jobnumber s n).previous_jobnumber = false) ∨
    (set_current_jobnumber s n).previous_jobnumber =
      find_next_job { s with current_jobnumber := (set_current_jobnumber s n).current_jobnumber }
        (set_current_jobnumber s n).current_jobnumber := by
  unfold set_current_jobnumber
  simp only
  split_ifs <;> simp_all

theorem set_current_jobnumber_previous_stopped (s : JobTable) (n i j : Nat)
    (hi1 : 1 ≤ i) (hj1 : 1 ≤ j) (hij : i ≠ j)
    (hi : is_stopped_job s i = true) (hj : is_stopped_job s j = true) :
    (set_current_jobnumber s n).previous_jobnumber ≠ (set_current_jobnumber s n).current_jobnumber
      ∧ is_stopped_job s (set_current_jobnumber s n).previous_jobnumber = true := by
  have hsc := stopped_job_count_two s i j hij hi hj
  have hcong : ∀ k, is_stopped_job
      { s with current_jobnumber := (set_current_jobnumber s n).current_jobnumber } k
      = is_stopped_job s k := fun k => is_stopped_job_congr s _ rfl k
  rcases set_current_jobnumber_previous s n with h | h
  · have := not_bad_previous _ _ _ (by omega) h
    rw [hcong] at this
    exact this
  · rw [h]
    by_cases hic : i = (set_current_jobnumber s n).current_jobnumber
    · have := find_next_job_stopped
        { s with current_jobnumber := (set_current_jobnumber s n).current_jobnumber }
        (set_current_jobnumber s n).current_jobnumber j hj1 (by omega) (by rw [hcong]; exact hj)
      rw [hcong] at this
      exact this
    · have := find_next_job_stopped
        { s with current_jobnumber := (set_current_jobnumber s n).current_jobnumber }
        (set_current_jobnumber s n).current_jobnumber i hi1 hic (by rw [hcong]; exact hi)
      rw [hcong] at this
      exact this

/-- The candidates of the second cascade of `set_current_jobnumber`. -/
theorem set_current_jobnumber_previous_cases (s : JobTable) (n : Nat) :
    (set_current_jobnumber s n).previous_jobnumber = s.current_jobnumber ∨
    (set_current_jobnumber s n).previous_jobnumber = s.previous_jobnumber ∨
    (set_current_jobnumber s n).previous_jobnumber =
      find_next_job { s with current_jobnumber := (set_current_jobnumber s n).current_jobnumber }
        (set_current_jobnumber s n).current_jobnumber := by
  unfold set_current_jobnumber
  simp only
  split_ifs <;> simp_all

/-- The previous job number after `set_current_jobnumber` is not 0 when two
stopped jobs stand in slots `≥ 1` and the active job is not stopped or no job
number that is proposed is 0. -/
theorem set_current_jobnumber_previous_pos (s : JobTable) (n i j : Nat)
    (hi1 : 1 ≤ i) (hj1 : 1 ≤ j) (hij : i ≠ j)
    (hi : is_stopped_job s i = true) (hj : is_stopped_job s j = true)
    (h0 : is_stopped_job s ACTIVE_JOBNO = false ∨
      (1 ≤ n ∧ 1 ≤ s.current_jobnumber ∧ 1 ≤ s.previous_jobnumber)) :
    1 ≤ (set_current_jobnumber s n).previous_jobnumber := by
  rcases h0 with h0 | ⟨hn, hc, hp⟩
  · have := (set_current_jobnumber_previous_stopped s n i j hi1 hj1 hij hi hj).2
    rcases Nat.eq_zero_or_pos (set_current_jobnumber s n).previous_jobnumber with hz | hz
    · rw [hz] at this
      simp only [ACTIVE_JOBNO] at h0
      rw [h0] at this
      exact absurd this (by decide)
    · exact hz
  · rcases set_current_jobnumber_previous_cases s n with h | h | h
    · rw [h]; exact hc
    · rw [h]; exact hp
    · rw [h]
      have hcong : ∀ k, is_stopped_job
          { s with current_jobnumber := (set_current_jobnumber s n).current_jobnumber } k
          = is_stopped_job s k := fun k => is_stopped_job_congr s _ rfl k
      by_cases hic : i = (set_current_jobnumber s n).current_jobnumber
      · exact find_next_job_pos _ _ j hj1 (by omega) (by rw [hcong]; exact hj) (Or.inr hp)
      · exact find_next_job_pos _ _ i hi1 hic (by rw [hcong]; exact hi) (Or.inr hp)

/-- C3 (amended): for every job table and every argument `n`, if two different
slots `≥ 1` hold stopped jobs, then after `set_current_jobnumber n` the previous
job number differs from the current one and the slots of both hold stopped
jobs; and neither number is 0, so that they designate these jobs, when the
active job of slot 0 is not stopped or none of `n`, the old current job number
and the old previous job number is 0. -/
theorem set_current_jobnumber_previous_is_stopped (s : JobTable) (n : Nat)
    (h : ∃ i j ji jj, 1 ≤ i ∧ 1 ≤ j ∧ i ≠ j ∧
      get_job s i = some ji ∧ ji.j_status = JS_STOPPED ∧
      get_job s j = some jj ∧ jj.j_status = JS_STOPPED) :
    (set_current_jobnumber s n).previous_jobnumber ≠ (set_current_jobnumber s n).current_jobnumber ∧
    (∃ job, get_job (set_current_jobnumber s n) (set_current_jobnumber s n).current_jobnumber
        = some job ∧ job.j_status = JS_STOPPED) ∧
    (∃ job, get_job (set_current_jobnumber s n) (set_current_jobnumber s n).previous_jobnumber
        = some job ∧ job.j_status = JS_STOPPED) ∧
    (((∀ job, get_job s ACTIVE_JOBNO = some job → job.j_status ≠ JS_STOPPED) ∨
        (1 ≤ n ∧ 1 ≤ s.current_jobnumber ∧ 1 ≤ s.previous_jobnumber)) →
      1 ≤ (set_current_jobnumber s n).current_jobnumber ∧
      1 ≤ (set_current_jobnumber s n).previous_jobnumber) := by
  obtain ⟨i, j, ji, jj, hi1, hj1, hij, hgi, hsi, hgj, hsj⟩ := h
  have hi : is_stopped_job s i = true := (is_stopped_job_iff s i).2 ⟨ji, hgi, hsi⟩
  have hj : is_stopped_job s j = true := (is_stopped_job_iff s j).2 ⟨jj, hgj, hsj⟩
  have hp := set_current_jobnumber_previous_stopped s n i j hi1 hj1 hij hi hj
  have hc := set_current_jobnumber_current_stopped s n i hi1 hi
  rw [← is_stopped_job_congr s _ (set_current_jobnumber_joblist s n)] at hc
  rw [← is_stopped_job_congr s _ (set_current_jobnumber_joblist s n)] at hp
  refine ⟨hp.1, (is_stopped_job_iff _ _).1 hc, (is_stopped_job_iff _ _).1 hp.2, ?_⟩
  intro h0
  have h0' : is_stopped_job s ACTIVE_JOBNO = false ∨
      (1 ≤ n ∧ 1 ≤ s.current_jobnumber ∧ 1 ≤ s.previous_jobnumber) := by
    rcases h0 with h0 | h0
    · left
      cases hb : is_stopped_job s ACTIVE_JOBNO with
      | false => rfl
      | true =>
        obtain ⟨a, ha, hst⟩ := (is_stopped_job_iff s _).1 hb
        exact absurd hst (h0 a ha)
    · exact Or.inr h0
  exact ⟨set_current_jobnumber_current_pos s n i hi1 hi h0',
    set_current_jobnumber_previous_pos s n i j hi1 hj1 hij hi hj h0'⟩


theorem first_empty_spec (l : List (Option job_T)) (j : Nat) :
    j ≤ first_empty l j ∧ first_empty l j ≤ j + l.length ∧
    (∀ i, i < first_empty l j - j → ∃ job, l[i]? = some (some job)) ∧
    (first_empty l j - j < l.length → l[first_empty l j - j]? = some none) := by
  induction l generalizing j with
  | nil => simp [first_empty]
  | cons slot rest ih =>
    cases slot with
    | none => simp [first_empty]
    | some job0 =>
      simp only [first_empty]
      obtain ⟨h1, h2, h3, h4⟩ := ih (j + 1)
      refine ⟨by omega, by simp; omega, ?_, ?_⟩
      · intro i hi
        cases i with
        | zero => exact ⟨job0, by simp⟩
        | succ i' =>
          obtain ⟨job, hjob⟩ := h3 i' (by omega)
          exact ⟨job, by simpa using hjob⟩
      · intro hlt
        have e : first_empty rest (j + 1) - j = (first_empty rest (j + 1) - (j + 1)) + 1 := by omega
        rw [e]
        simp only [List.getElem?_cons_succ]
        apply h4
        simp at hlt
        omega

theorem add_job_number_spec (s : JobTable) (h : 0 < s.joblist.length) :
    1 ≤ add_job_number s ∧ add_job_number s ≤ s.joblist.length ∧
    get_job s (add_job_number s) = none ∧
    (∀ i, 1 ≤ i → i < add_job_number s → ∃ job, get_job s i = some job) := by
  obtain ⟨h1, h2, h3, h4⟩ := first_empty_spec (s.joblist.drop 1) 1
  simp only [List.length_drop] at h2 h4
  change 1 ≤ add_job_number s at h1
  change add_job_number s ≤ _ at h2
  change ∀ i, i < add_job_number s - 1 → _ at h3
  change add_job_number s - 1 < _ → (List.drop 1 s.joblist)[add_job_number s - 1]? = _ at h4
  refine ⟨h1, by omega, ?_, ?_⟩
  · rw [get_job_eq]
    by_cases hk : add_job_number s < s.joblist.length
    · have := h4 (by omega)
      rw [List.getElem?_drop] at this
      have e : 1 + (add_job_number s - 1) = add_job_number s := by omega
      rw [e] at this
      simp [this]
    · rw [List.getElem?_eq_none (by omega)]
      rfl
  · intro i hi1 hik
    obtain ⟨job, hjob⟩ := h3 (i - 1) (by omega)
    rw [List.getElem?_drop] at hjob
    have e : 1 + (i - 1) = i := by omega
    rw [e] at hjob
    exact ⟨job, by rw [get_job_eq, hjob]; rfl⟩

theorem add_job_list_length (s : JobTable) (job : job_T) :
    (add_job_list s job).length =
      if add_job_number s < s.joblist.length then s.joblist.length
      else s.joblist.length + 1 := by
  unfold add_job_list
  simp only [List.length_set]
  split_ifs <;> simp

theorem add_job_list_get (s : JobTable) (job : job_T) (h : 0 < s.joblist.length) (i : Nat) :
    ((add_job_list s job)[i]?).join =
      if i = add_job_number s then some job
      else if i = 0 then none
      else (s.joblist[i]?).join := by
  obtain ⟨h1, h2, -, -⟩ := add_job_number_spec s h
  unfold add_job_list ACTIVE_JOBNO
  simp only [List.length_set]
  by_cases hk : add_job_number s < s.joblist.length
  · rw [if_pos hk]
    by_cases hik : i = add_job_number s
    · subst hik
      simp [List.getElem?_set, hk]
    · by_cases hi0 : i = 0
      · subst hi0
        simp [List.getElem?_set, hik, h, Ne.symm hik]
      · simp [List.getElem?_set, hik, hi0, Ne.symm hik, Ne.symm hi0]
  · rw [if_neg hk]
    have hk' : add_job_number s = s.joblist.length := by omega
    by_cases hik : i = add_job_number s
    · subst hik
      rw [hk']
      simp [List.getElem?_append_right]
    · by_cases hi0 : i = 0
      · subst hi0
        have e0 : (s.joblist.set 0 none ++ [some job])[0]? = some none := by
          rw [List.getElem?_append_left (by simpa using h)]
          simp [List.getElem?_set, h]
        rw [e0]
        simp [hik]
      · by_cases hil : i < s.joblist.length
        · simp [List.getElem?_append, List.getElem?_set, hil, hik, hi0, Ne.symm hi0]
        · have : s.joblist.length < i := by omega
          have e : (s.joblist[i]?) = none := List.getElem?_eq_none (by omega)
          have e2 : ((s.joblist.set 0 none ++ [some job])[i]?) = none :=
            List.getElem?_eq_none (by simp; omega)
          simp [hik, hi0, e, e2]

theorem get_job_zero_length (s : JobTable) (job : job_T) (h : get_job s ACTIVE_JOBNO = some job) :
    0 < s.joblist.length := get_job_lt s 0 job h

theorem add_job_eq (s : JobTable) (current : Bool) (job : job_T)
    (h : get_job s ACTIVE_JOBNO = some job) :
    add_job s current = some (set_current_jobnumber { s with joblist := add_job_list s job }
      (if job.j_status = JS_STOPPED ∨ current = true then add_job_number s
       else s.current_jobnumber)) := by
  unfold add_job
  rw [h]
  simp only
  split_ifs <;> rfl

/-- C4: `add_job` moves the active job of slot 0 into the lowest-numbered
empty slot `≥ 1` (every slot between 1 and it is occupied), the list grows by
one slot only when no slot in `1 .. length - 1` is empty; afterwards slot 0 is
empty and every other slot holds what it held before. -/
theorem add_job_moves_active_job (s : JobTable) (current : Bool) (job : job_T)
    (h : get_job s ACTIVE_JOBNO = some job) :
    ∃ s', add_job s current = some s' ∧
      1 ≤ add_job_number s ∧ add_job_number s ≤ s.joblist.length ∧
      get_job s (add_job_number s) = none ∧
      (∀ i, 1 ≤ i → i < add_job_number s → ∃ other, get_job s i = some other) ∧
      (s'.joblist.length =
        if add_job_number s < s.joblist.length then s.joblist.length
        else s.joblist.length + 1) ∧
      get_job s' (add_job_number s) = some job ∧
      get_job s' ACTIVE_JOBNO = none ∧
      (∀ i, 1 ≤ i → i ≠ add_job_number s → get_job s' i = get_job s i) := by
  have hlen := get_job_zero_length s job h
  obtain ⟨h1, h2, h3, h4⟩ := add_job_number_spec s hlen
  refine ⟨_, add_job_eq s current job h, h1, h2, h3, h4, ?_, ?_, ?_, ?_⟩
  · rw [set_current_jobnumber_joblist]
    exact add_job_list_length s job
  · rw [get_job_eq, set_current_jobnumber_joblist]
    simp only
    rw [add_job_list_get s job hlen]
    simp
  · rw [get_job_eq, set_current_jobnumber_joblist]
    simp only
    rw [add_job_list_get s job hlen]
    have : ¬ (0 = add_job_number s) := by omega
    simp [this, ACTIVE_JOBNO]
  · intro i hi hik
    rw [get_job_eq, set_current_jobnumber_joblist]
    simp only
    rw [add_job_list_get s job hlen, get_job_eq]
    have : i ≠ 0 := by omega
    simp [hik, this]


theorem get_job_add_job_list (s : JobTable) (job : job_T) (h : 0 < s.joblist.length) (i : Nat) :
    get_job { s with joblist := add_job_list s job } i =
      if i = add_job_number s then some job
      else if i = 0 then none
      else get_job s i := by
  rw [get_job_eq, get_job_eq]
  exact add_job_list_get s job h i

theorem stopped_job_count_eq_zero (s : JobTable)
    (h : ∀ i job, get_job s i = some job → job.j_status ≠ JS_STOPPED) :
    stopped_job_count s = 0 := by
  unfold stopped_job_count
  rw [List.countP_eq_zero]
  intro slot hmem
  obtain ⟨n, hn⟩ := List.mem_iff_getElem?.1 hmem
  cases slot with
  | none => simp
  | some job =>
    have := h n job (by rw [get_job_eq, hn]; rfl)
    simp [this]

theorem bad_current_of_job (s : JobTable) (sc n : Nat) (job : job_T)
    (hg : get_job s n = some job) (h : sc = 0 ∨ job.j_status = JS_STOPPED) :
    bad_current s sc n = false := by
  unfold bad_current
  rw [hg]
  rcases h with h | h <;> simp [h]

theorem set_current_jobnumber_accepts (s : JobTable) (n : Nat) (job : job_T)
    (hg : get_job s n = some job)
    (h : stopped_job_count s = 0 ∨ job.j_status = JS_STOPPED) :
    (set_current_jobnumber s n).current_jobnumber = n := by
  rw [set_current_jobnumber_current, bad_current_of_job s _ n job hg h]
  simp

/-- C5: for every job table and either value of `current`, if the job that
`add_job` commits is stopped, then afterwards `current_jobnumber` is the number
of the slot the job was placed in. -/
theorem add_job_stopped_becomes_current (s : JobTable) (current : Bool) (job : job_T)
    (h : get_job s ACTIVE_JOBNO = some job) (hs : job.j_status = JS_STOPPED) :
    ∃ s', add_job s current = some s' ∧ s'.current_jobnumber = add_job_number s ∧
      get_job s' (add_job_number s) = some job := by
  have hlen := get_job_zero_length s job h
  have hg : get_job { s with joblist := add_job_list s job } (add_job_number s) = some job := by
    rw [get_job_add_job_list s job hlen]; simp
  refine ⟨_, add_job_eq s current job h, ?_, ?_⟩
  · rw [if_pos (Or.inl hs)]
    exact set_current_jobnumber_accepts _ _ job hg (Or.inr hs)
  · rw [get_job_eq, set_current_jobnumber_joblist, ← get_job_eq]
    exact hg

theorem add_job_list_no_stopped (s : JobTable) (job : job_T)
    (hg : get_job s ACTIVE_JOBNO = some job)
    (h : ∀ i other, get_job s i = some other → other.j_status ≠ JS_STOPPED) :
    stopped_job_count { s with joblist := add_job_list s job } = 0 := by
  have hlen := get_job_zero_length s job hg
  apply stopped_job_count_eq_zero
  intro i other hi
  rw [get_job_add_job_list s job hlen] at hi
  split_ifs at hi with a b
  · simp at hi; subst hi; exact h _ _ hg
  · exact h i other hi

/-- C6 (amended): when no job in the table is stopped, `add_job` called with
`current = true` makes the committed job the current job. -/
theorem add_job_current_without_stopped (s : JobTable) (job : job_T)
    (h : get_job s ACTIVE_JOBNO = some job)
    (hno : ∀ i other, get_job s i = some other → other.j_status ≠ JS_STOPPED) :
    ∃ s', add_job s true = some s' ∧ s'.current_jobnumber = add_job_number s ∧
      get_job s' (add_job_number s) = some job := by
  have hlen := get_job_zero_length s job h
  have hg : get_job { s with joblist := add_job_list s job } (add_job_number s) = some job := by
    rw [get_job_add_job_list s job hlen]; simp
  refine ⟨_, add_job_eq s true job h, ?_, ?_⟩
  · rw [if_pos (Or.inr rfl)]
    exact set_current_jobnumber_accepts _ _ job hg (Or.inl (add_job_list_no_stopped s job h hno))
  · rw [get_job_eq, set_current_jobnumber_joblist, ← get_job_eq]
    exact hg

theorem find_next_any_some (s : JobTable) (excl k n : Nat)
    (h : find_next_any s excl k = some n) :
    n ≠ excl ∧ (get_job s n).isSome = true ∧ 1 ≤ n ∧ n < k := by
  induction k using Nat.strong_induction_on with
  | _ k ih =>
    match k, h with
    | 0, h => simp [find_next_any] at h
    | 1, h => simp [find_next_any] at h
    | j + 2, h =>
      simp only [find_next_any] at h
      split at h
      · rename_i hc
        simp at h
        subst h
        exact ⟨hc.1, hc.2, by omega, by omega⟩
      · obtain ⟨h1, h2, h3, h4⟩ := ih (j + 1) (by omega) h
        exact ⟨h1, h2, h3, by omega⟩

theorem find_next_any_isSome (s : JobTable) (excl k i : Nat)
    (h1 : 1 ≤ i) (h2 : i < k) (h3 : i ≠ excl) (h4 : (get_job s i).isSome = true) :
    ∃ n, find_next_any s excl k = some n := by
  induction k using Nat.strong_induction_on with
  | _ k ih =>
    match k, h2 with
    | 0, h2 => omega
    | 1, h2 => omega
    | j + 2, h2 =>
      simp only [find_next_any]
      split
      · exact ⟨_, rfl⟩
      · rename_i hc
        have : i ≠ j + 1 := by
          intro he; subst he; exact hc ⟨h3, h4⟩
        exact ih (j + 1) (by omega) (by omega)

theorem find_next_job_isSome (s : JobTable) (excl i : Nat)
    (h1 : 1 ≤ i) (h3 : i ≠ excl) (h4 : (get_job s i).isSome = true) :
    (get_job s (find_next_job s excl)).isSome = true := by
  unfold find_next_job
  split
  · rename_i hc
    obtain ⟨job, hj, -⟩ := (is_stopped_job_iff _ _).1 hc.2
    simp [hj]
  · cases hst : find_next_stopped s excl s.joblist.length with
    | some n =>
      obtain ⟨-, b, -, -⟩ := find_next_stopped_some s excl _ n hst
      obtain ⟨job, hj, -⟩ := (is_stopped_job_iff _ _).1 b
      simp [hj]
    | none =>
      have hlt : i < s.joblist.length := by
        cases hg : get_job s i with
        | none => simp [hg] at h4
        | some job => exact get_job_lt s i job hg
      obtain ⟨n, hn⟩ := find_next_any_isSome s excl s.joblist.length i h1 hlt h3 h4
      obtain ⟨-, b, -, -⟩ := find_next_any_some s excl _ n hn
      simp only [hn]
      exact b

theorem bad_current_isSome (s : JobTable) (sc n : Nat) (h : bad_current s sc n = false) :
    (get_job s n).isSome = true := by
  unfold bad_current at h
  cases hg : get_job s n with
  | none => simp [hg] at h
  | some job => rfl

theorem set_current_jobnumber_current_isSome (s : JobTable) (n i : Nat)
    (h1 : 1 ≤ i) (h4 : (get_job s i).isSome = true) :
    (get_job s (set_current_jobnumber s n).current_jobnumber).isSome = true := by
  rw [set_current_jobnumber_current]
  split_ifs with a b c
  · exact find_next_job_isSome s 0 i h1 (by omega) h4
  · exact bad_current_isSome s _ _ (by simpa using c)
  · exact bad_current_isSome s _ _ (by simpa using b)
  · exact bad_current_isSome s _ _ (by simpa using a)


theorem find_next_any_max (s : JobTable) (excl k n : Nat)
    (h : find_next_any s excl k = some n) :
    ∀ i, n < i → i < k → i ≠ excl → get_job s i = none := by
  induction k using Nat.strong_induction_on with
  | _ k ih =>
    match k, h with
    | 0, h => simp [find_next_any] at h
    | 1, h => simp [find_next_any] at h
    | j + 2, h =>
      simp only [find_next_any] at h
      split at h
      · simp at h
        subst h
        intro i h1 h2 _
        omega
      · rename_i hc
        intro i h1 h2 h3
        by_cases e : i = j + 1
        · subst e
          cases hg : get_job s (j + 1) with
          | none => rfl
          | some job => exact absurd ⟨h3, by simp [hg]⟩ hc
        · exact ih (j + 1) (by omega) h i h1 (by omega) h3

theorem find_next_job_highest (s : JobTable) (k : Nat) (hk : 1 ≤ k)
    (hjob : (get_job s k).isSome = true)
    (hno : ∀ i, is_stopped_job s i = false)
    (habove : ∀ i, k < i → get_job s i = none) :
    find_next_job s 0 = k := by
  unfold find_next_job
  rw [if_neg (by simp [hno])]
  cases hst : find_next_stopped s 0 s.joblist.length with
  | some n =>
    obtain ⟨-, b, -, -⟩ := find_next_stopped_some s 0 _ n hst
    rw [hno] at b
    exact absurd b (by simp)
  | none =>
    have hlt : k < s.joblist.length := by
      cases hg : get_job s k with
      | none => simp [hg] at hjob
      | some job => exact get_job_lt s k job hg
    obtain ⟨n, hn⟩ := find_next_any_isSome s 0 s.joblist.length k hk hlt (by omega) hjob
    obtain ⟨-, b, -, -⟩ := find_next_any_some s 0 _ n hn
    have hmax := find_next_any_max s 0 _ n hn
    simp only [hn]
    rcases Nat.lt_trichotomy n k with hlt' | heq | hgt
    · have := hmax k hlt' hlt (by omega)
      rw [this] at hjob
      simp at hjob
    · exact heq
    · rw [habove n hgt] at b
      simp at b

theorem is_stopped_job_of_count_zero (s : JobTable) (h : stopped_job_count s = 0) (i : Nat) :
    is_stopped_job s i = false := by
  cases hs : is_stopped_job s i with
  | false => rfl
  | true =>
    have := stopped_job_count_pos s i hs
    omega

theorem bad_current_zero (s : JobTable) (n : Nat) :
    bad_current s 0 n = !(get_job s n).isSome := by
  unfold bad_current
  cases get_job s n <;> simp

/-- C7 (amended): `add_job` called with `current = false` on a job that is not
stopped.  The current job number is unchanged when it designates a job in a
slot `≥ 1` and either no job is stopped or that job is stopped.  When some job
is stopped and the current job number does not designate a stopped job, a
stopped job in a slot `≥ 1` becomes the current job, so the number changes.
When no job is stopped and the current job number designates no job, the new
job becomes the current job, in the tables in which the current or the previous
job number is the number of the new job, or the previous job number designates
no job and no job occupies a slot above the one the new job is placed in. -/
theorem add_job_not_current (s : JobTable) (job : job_T)
    (h : get_job s ACTIVE_JOBNO = some job) (hs : job.j_status ≠ JS_STOPPED) :
    ∃ s', add_job s false = some s' ∧
      (∀ cur, 1 ≤ s.current_jobnumber → get_job s s.current_jobnumber = some cur →
        ((∀ i other, get_job s i = some other → other.j_status ≠ JS_STOPPED) ∨
          cur.j_status = JS_STOPPED) →
        s'.current_jobnumber = s.current_jobnumber) ∧
      ((∃ i other, get_job s i = some other ∧ other.j_status = JS_STOPPED) →
        (∀ cur, get_job s s.current_jobnumber = some cur → cur.j_status ≠ JS_STOPPED) →
        1 ≤ s'.current_jobnumber ∧ s'.current_jobnumber ≠ s.current_jobnumber ∧
          ∃ next, get_job s' s'.current_jobnumber = some next ∧
            next.j_status = JS_STOPPED) ∧
      ((∀ i other, get_job s i = some other → other.j_status ≠ JS_STOPPED) →
        (s.current_jobnumber = 0 ∨ get_job s s.current_jobnumber = none) →
        (s.current_jobnumber = add_job_number s ∨ s.previous_jobnumber = add_job_number s ∨
          ((s.previous_jobnumber = 0 ∨ get_job s s.previous_jobnumber = none) ∧
            ∀ i, add_job_number s < i → get_job s i = none)) →
        s'.current_jobnumber = add_job_number s ∧
          get_job s' (add_job_number s) = some job) := by
  have hlen := get_job_zero_length s job h
  obtain ⟨k1, k2, k3, k4⟩ := add_job_number_spec s hlen
  have hg : get_job { s with joblist := add_job_list s job } (add_job_number s) = some job := by
    rw [get_job_add_job_list s job hlen]; simp
  have hcond : ¬ (job.j_status = JS_STOPPED ∨ false = true) := by simp [hs]
  refine ⟨_, add_job_eq s false job h, ?_, ?_, ?_⟩
  · intro cur hc1 hcur hor
    rw [if_neg hcond]
    have hck : s.current_jobnumber ≠ add_job_number s := by
      intro e; rw [e, k3] at hcur; simp at hcur
    have hg' : get_job { s with joblist := add_job_list s job } s.current_jobnumber = some cur := by
      rw [get_job_add_job_list s job hlen]
      have : s.current_jobnumber ≠ 0 := by omega
      simp [hck, this, hcur]
    apply set_current_jobnumber_accepts _ _ cur hg'
    rcases hor with hno | hst
    · exact Or.inl (add_job_list_no_stopped s job h hno)
    · exact Or.inr hst
  · rintro ⟨i, other, hi, hst⟩ hcur
    rw [if_neg hcond]
    have hi0 : i ≠ 0 := by
      intro e
      rw [e] at hi
      simp only [ACTIVE_JOBNO] at h
      rw [h] at hi
      simp only [Option.some.injEq] at hi
      rw [hi] at hs
      exact hs hst
    have hin : i ≠ add_job_number s := by
      intro e; rw [e, k3] at hi; simp at hi
    have hstop : is_stopped_job { s with joblist := add_job_list s job } i = true := by
      rw [is_stopped_job_iff]
      refine ⟨other, ?_, hst⟩
      rw [get_job_add_job_list s job hlen]
      simp [hi0, hin, hi]
    have hzero : is_stopped_job { s with joblist := add_job_list s job } ACTIVE_JOBNO = false := by
      unfold is_stopped_job
      rw [get_job_add_job_list s job hlen]
      have : (0 : Nat) ≠ add_job_number s := by omega
      simp [this, ACTIVE_JOBNO]
    have hold : is_stopped_job { s with joblist := add_job_list s job } s.current_jobnumber
        = false := by
      unfold is_stopped_job
      rw [get_job_add_job_list s job hlen]
      split_ifs with a b
      · simp [hs]
      · rfl
      · cases hc : get_job s s.current_jobnumber with
        | none => rfl
        | some cur => simp [hcur cur hc]
    have h1 := set_current_jobnumber_current_stopped _ s.current_jobnumber i (by omega) hstop
    have h2 := set_current_jobnumber_current_pos _ s.current_jobnumber i (by omega) hstop
      (Or.inl hzero)
    refine ⟨h2, ?_, ?_⟩
    · intro e
      rw [e, hold] at h1
      exact Bool.false_ne_true h1
    · rw [← is_stopped_job_congr _ _ (set_current_jobnumber_joblist _ s.current_jobnumber)] at h1
      exact (is_stopped_job_iff _ _).1 h1
  · intro hno hcur hnew
    rw [if_neg hcond]
    refine ⟨?_, ?_⟩
    · have hsc := add_job_list_no_stopped s job h hno
      have hsome : ∀ x, (x = 0 ∨ get_job s x = none) →
          (get_job { s with joblist := add_job_list s job } x).isSome = true →
          x = add_job_number s := by
        intro x hx hx'
        rw [get_job_add_job_list s job hlen] at hx'
        by_contra hne
        rw [if_neg hne] at hx'
        rcases hx with hx | hx
        · simp [hx] at hx'
        · split_ifs at hx' with a
          · simp at hx'
          · simp [hx] at hx'
      rw [set_current_jobnumber_current, hsc]
      simp only [bad_current_zero]
      split_ifs with a b
      · rcases hnew with e | e | ⟨hprev, habove⟩
        · have hg1 := hg
          rw [← e] at hg1
          simp [hg1] at a
        · have hg1 := hg
          rw [← e] at hg1
          simp [hg1] at b
        · apply find_next_job_highest _ _ k1 (by rw [hg]; rfl)
            (is_stopped_job_of_count_zero _ hsc)
          intro i hi
          rw [get_job_add_job_list s job hlen]
          have h1 : i ≠ add_job_number s := by omega
          have h2 : i ≠ 0 := by omega
          simp [h1, h2, habove i hi]
      · rcases hnew with e | e | ⟨hprev, -⟩
        · have hg1 := hg
          rw [← e] at hg1
          simp [hg1] at a
        · exact e
        · exact hsome _ hprev (by simpa [Option.isSome_iff_ne_none] using b)
      · exact hsome _ hcur (by simpa [Option.isSome_iff_ne_none] using a)
    · rw [get_job_eq, set_current_jobnumber_joblist, ← get_job_eq]
      exact hg


theorem no_stopped_of_count_zero (s : JobTable) (h : stopped_job_count s = 0) :
    ∀ i other, get_job s i = some other → other.j_status ≠ JS_STOPPED := by
  intro i other hg hst
  have := (is_stopped_job_iff s i).2 ⟨other, hg, hst⟩
  rw [is_stopped_job_of_count_zero s h i] at this
  exact Bool.false_ne_true this


/-- C8: `neglect_all_jobs` maps the process-group id `p` of every job to `-p`
when `p > 0`, to `-1` when `p = 0` and leaves a negative one unchanged, so that
afterwards every job has a negative pgid; the current and previous job numbers
are both 0. -/
theorem neglect_all_jobs_negates_pgid (s : JobTable) :
    (neglect_all_jobs s).current_jobnumber = 0 ∧
    (neglect_all_jobs s).previous_jobnumber = 0 ∧
    (neglect_all_jobs s).joblist.length = s.joblist.length ∧
    (∀ i, get_job (neglect_all_jobs s) i =
      (get_job s i).map (fun job =>
        { job with j_pgid :=
            if job.j_pgid > 0 then -job.j_pgid
            else if job.j_pgid = 0 then -1
            else job.j_pgid })) ∧
    (∀ i job, get_job (neglect_all_jobs s) i = some job → job.j_pgid < 0) := by
  have key : ∀ i, get_job (neglect_all_jobs s) i =
      (get_job s i).map (fun job =>
        { job with j_pgid :=
            if job.j_pgid > 0 then -job.j_pgid
            else if job.j_pgid = 0 then -1
            else job.j_pgid }) := by
    intro i
    rw [get_job_eq, get_job_eq]
    simp only [neglect_all_jobs, List.getElem?_map]
    cases hi : s.joblist[i]? with
    | none => rfl
    | some slot =>
      cases slot with
      | none => rfl
      | some job =>
        simp only [Option.map_some', Option.join]
        by_cases h0 : job.j_pgid > 0
        · have : job.j_pgid ≥ 0 := by omega
          simp [h0, this]
        · by_cases h1 : job.j_pgid = 0
          · simp [h1]
          · have : ¬ job.j_pgid ≥ 0 := by omega
            simp [h0, h1, this]
  refine ⟨rfl, rfl, by simp [neglect_all_jobs], key, ?_⟩
  intro i job hj
  rw [key] at hj
  cases hg : get_job s i with
  | none => simp [hg] at hj
  | some job0 =>
    simp [hg] at hj
    subst hj
    simp only
    split_ifs <;> omega


theorem wcstoul_digits_all (name : List Char) (acc : Nat)
    (h : ∀ c ∈ name, iswdigit c = true) :
    wcstoul_digits name acc =
      (name.foldl (fun acc c => 10 * acc + (c.toNat - '0'.toNat)) acc, []) := by
  induction name generalizing acc with
  | nil => rfl
  | cons c cs ih =>
    have hc := h c (List.mem_cons_self _ _)
    simp only [wcstoul_digits, hc, if_true, List.foldl_cons]
    exact ih _ (fun d hd => h d (List.mem_cons_of_mem _ hd))

theorem numeric_jobid_digits (lim : Limits) (name : List Char) (hne : name ≠ [])
    (h : ∀ c ∈ name, iswdigit c = true) (hv : decimal_value name ≤ lim.ULONG_MAX) :
    numeric_jobid lim name = some (decimal_value name) := by
  unfold numeric_jobid xwcstoul
  rw [wcstoul_digits_all name 0 h]
  cases name with
  | nil => exact absurd rfl hne
  | cons c cs =>
    have hc := h c (List.mem_cons_self _ _)
    simp only [List.headD_cons, hc, if_true]
    have hv' : decimal_value (c :: cs) ≤ lim.ULONG_MAX := hv
    unfold decimal_value at hv' ⊢
    simp only [List.foldl_cons] at hv' ⊢
    simp at hv'
    simp [hv']

theorem digits_not_special (name : List Char) (hne : name ≠ [])
    (h : ∀ c ∈ name, iswdigit c = true) :
    ¬ (name = [] ∨ name = ['%'] ∨ name = ['+']) ∧ name ≠ ['-'] := by
  refine ⟨?_, ?_⟩
  · rintro (h0 | h0 | h0)
    · exact hne h0
    · subst h0
      have := h '%' (by simp)
      revert this; decide
    · subst h0
      have := h '+' (by simp)
      revert this; decide
  · intro h0
    subst h0
    have := h '-' (by simp)
    revert this; decide

/-- C9 (amended): `get_jobnumber_from_name` returns the current job number for
the job-ids `""`, `"%"` and `"+"`, the previous job number for `"-"`, and for a
string of decimal digits whose value `n` fits `unsigned long` it returns `n`
when slot `n` holds a job and 0 otherwise.  The length of the job list is a
`size_t`. -/
theorem get_jobnumber_from_name_basic (lim : Limits) (s : JobTable)
    (hlen : s.joblist.length ≤ lim.SIZE_MAX) :
    get_jobnumber_from_name lim s [] = s.current_jobnumber ∧
    get_jobnumber_from_name lim s ['%'] = s.current_jobnumber ∧
    get_jobnumber_from_name lim s ['+'] = s.current_jobnumber ∧
    get_jobnumber_from_name lim s ['-'] = s.previous_jobnumber ∧
    (∀ name : List Char, name ≠ [] → (∀ c ∈ name, iswdigit c = true) →
      decimal_value name ≤ lim.ULONG_MAX →
      get_jobnumber_from_name lim s name =
        if (get_job s (decimal_value name)).isSome = true then decimal_value name else 0) := by
  refine ⟨by simp [get_jobnumber_from_name], by simp [get_jobnumber_from_name],
    by simp [get_jobnumber_from_name], by simp [get_jobnumber_from_name], ?_⟩
  intro name hne hd hv
  obtain ⟨n1, n2⟩ := digits_not_special name hne hd
  unfold get_jobnumber_from_name
  rw [if_neg n1, if_neg n2, numeric_jobid_digits lim name hne hd hv]
  simp only
  by_cases hg : (get_job s (decimal_value name)).isSome = true
  · have : decimal_value name ≤ lim.SIZE_MAX := by
      cases hj : get_job s (decimal_value name) with
      | none => simp [hj] at hg
      | some job =>
        have := get_job_lt s _ job hj
        omega
    simp [hg, this]
  · simp [hg]

/-- Counterexample to C9 as stated, which fails for a numeral beyond `unsigned long`: slot `2 ^ 64`
holds no job, but the string is not converted and selects job 1 by its name. -/
theorem get_jobnumber_from_name_big_numeral :
    ("18446744073709551616".data ≠ [] ∧
      (∀ c ∈ "18446744073709551616".data, iswdigit c = true) ∧
      decimal_value "18446744073709551616".data = 2 ^ 64 ∧
      get_job big_name_table (2 ^ 64) = none ∧
      get_jobnumber_from_name LP64 big_name_table "18446744073709551616".data = 1) := by
  decide


theorem wcsstr_iff (s sub : List Char) : wcsstr s sub = true ↔ sub <:+: s := by
  induction s with
  | nil => simp [wcsstr]
  | cons c cs ih =>
    simp only [wcsstr, Bool.or_eq_true, List.isPrefixOf_iff_prefix, ih, List.infix_cons_iff]

theorem job_matches_iff (name : List Char) (job : job_T) (hne : name ≠ []) :
    job_matches (decide (name.headD (Char.ofNat 0) = '?'))
      (if decide (name.headD (Char.ofNat 0) = '?') = true then name.drop 1 else name) job = true ↔
    job_id_selects name (get_job_name job) := by
  cases name with
  | nil => exact absurd rfl hne
  | cons c cs =>
    by_cases hc : c = '?'
    · subst hc
      simp [job_matches, job_id_selects, wcsstr_iff]
    · have : job_id_selects (c :: cs) (get_job_name job) ↔ (c :: cs) <+: get_job_name job := by
        unfold job_id_selects
        split
        · rename_i heq
          simp at heq
          exact absurd heq.1 hc
        · rfl
      rw [this]
      simp [job_matches, hc, matchwcsprefix]

theorem matching_jobs_mem (contain : Bool) (name : List Char) (l : List (Option job_T))
    (i k : Nat) :
    k ∈ matching_jobs contain name l i ↔
      i ≤ k ∧ ∃ job, l[k - i]? = some (some job) ∧ job_matches contain name job = true := by
  induction l generalizing i with
  | nil => simp [matching_jobs]
  | cons slot rest ih =>
    have shift : ∀ (hk : i + 1 ≤ k), (slot :: rest)[k - i]? = rest[k - (i + 1)]? := by
      intro hk
      have e : k - i = (k - (i + 1)) + 1 := by omega
      rw [e, List.getElem?_cons_succ]
    cases slot with
    | none =>
      simp only [matching_jobs, ih]
      constructor
      · rintro ⟨hk, job, hj, hm⟩
        exact ⟨by omega, job, by rw [shift hk]; exact hj, hm⟩
      · rintro ⟨hk, job, hj, hm⟩
        have hne : k ≠ i := by
          intro e; subst e; simp at hj
        have hk' : i + 1 ≤ k := by omega
        exact ⟨hk', job, by rw [← shift hk']; exact hj, hm⟩
    | some job0 =>
      simp only [matching_jobs]
      split
      · rename_i hm0
        simp only [List.mem_cons, ih]
        constructor
        · rintro (rfl | ⟨hk, job, hj, hm⟩)
          · exact ⟨le_refl _, job0, by simp, hm0⟩
          · exact ⟨by omega, job, by rw [shift hk]; exact hj, hm⟩
        · rintro ⟨hk, job, hj, hm⟩
          by_cases e : k = i
          · exact Or.inl e
          · have hk' : i + 1 ≤ k := by omega
            exact Or.inr ⟨hk', job, by rw [← shift hk']; exact hj, hm⟩
      · rename_i hm0
        simp only [ih]
        constructor
        · rintro ⟨hk, job, hj, hm⟩
          exact ⟨by omega, job, by rw [shift hk]; exact hj, hm⟩
        · rintro ⟨hk, job, hj, hm⟩
          have hne : k ≠ i := by
            intro e; subst e
            simp at hj
            subst hj
            exact hm0 hm
          have hk' : i + 1 ≤ k := by omega
          exact ⟨hk', job, by rw [← shift hk']; exact hj, hm⟩

theorem matching_jobs_nodup (contain : Bool) (name : List Char) (l : List (Option job_T))
    (i : Nat) : (matching_jobs contain name l i).Nodup := by
  induction l generalizing i with
  | nil => simp [matching_jobs]
  | cons slot rest ih =>
    cases slot with
    | none => simpa [matching_jobs] using ih (i + 1)
    | some job0 =>
      simp only [matching_jobs]
      split
      · rw [List.nodup_cons]
        refine ⟨?_, ih (i + 1)⟩
        intro hmem
        have := ((matching_jobs_mem contain name rest (i + 1) i).1 hmem).1
        omega
      · exact ih (i + 1)

theorem match_jobs_found (len : Nat) (contain : Bool) (name : List Char)
    (l : List (Option job_T)) (i n : Nat) (hn : n ≠ 0) :
    match_jobs len contain name l i n =
      if matching_jobs contain name l i = [] then n else len := by
  induction l generalizing i with
  | nil => simp [match_jobs, matching_jobs]
  | cons slot rest ih =>
    cases slot with
    | none => simpa [match_jobs, matching_jobs] using ih (i + 1)
    | some job0 =>
      by_cases hm : job_matches contain name job0 = true
      · simp [match_jobs, matching_jobs, hm, hn]
      · simp [match_jobs, matching_jobs, hm, ih (i + 1)]

theorem match_jobs_zero (len : Nat) (contain : Bool) (name : List Char)
    (l : List (Option job_T)) (i : Nat) (hi : 1 ≤ i) :
    match_jobs len contain name l i 0 =
      match matching_jobs contain name l i with
      | [] => 0
      | [a] => a
      | _ :: _ :: _ => len := by
  induction l generalizing i with
  | nil => simp [match_jobs, matching_jobs]
  | cons slot rest ih =>
    cases slot with
    | none => simpa [match_jobs, matching_jobs] using ih (i + 1) (by omega)
    | some job0 =>
      by_cases hm : job_matches contain name job0 = true
      · simp only [match_jobs, matching_jobs, hm, if_true]
        rw [if_neg (by simp), match_jobs_found len contain name rest (i + 1) i (by omega)]
        cases hrest : matching_jobs contain name rest (i + 1) with
        | nil => simp
        | cons b bs => simp
      · simp only [match_jobs, matching_jobs, hm]
        simpa using ih (i + 1) (by omega)

/-- C10 (amended): for a job-id that is not empty, not `"%"`, `"+"`, `"-"` and
not numeric, `get_jobnumber_from_name` returns 0 when no job in a slot `≥ 1` has
a job name (the name of its only process, or the names of all its processes
joined by `" | "`) that starts with the job-id, the number of that job when
exactly one has, and `joblist.length` when more than one has; for `?sub` the
same holds with "the job name contains `sub`". -/
theorem get_jobnumber_from_name_by_name (lim : Limits) (s : JobTable) (name : List Char)
    (h1 : name ≠ []) (h2 : name ≠ ['%']) (h3 : name ≠ ['+']) (h4 : name ≠ ['-'])
    (h5 : numeric_jobid lim name = none) :
    ((∀ i job, 1 ≤ i → get_job s i = some job → ¬ job_id_selects name (get_job_name job)) →
      get_jobnumber_from_name lim s name = 0) ∧
    (∀ i job, 1 ≤ i → get_job s i = some job → job_id_selects name (get_job_name job) →
      ((∀ i' job', 1 ≤ i' → get_job s i' = some job' →
          job_id_selects name (get_job_name job') → i' = i) →
        get_jobnumber_from_name lim s name = i) ∧
      ((∃ i' job', 1 ≤ i' ∧ i' ≠ i ∧ get_job s i' = some job' ∧
          job_id_selects name (get_job_name job')) →
        get_jobnumber_from_name lim s name = s.joblist.length)) := by
  have hmem : ∀ k, k ∈ matching_jobs (decide (name.headD (Char.ofNat 0) = '?'))
      (if decide (name.headD (Char.ofNat 0) = '?') = true then name.drop 1 else name)
      (s.joblist.drop 1) 1 ↔
      1 ≤ k ∧ ∃ job, get_job s k = some job ∧ job_id_selects name (get_job_name job) := by
    intro k
    rw [matching_jobs_mem]
    constructor
    · rintro ⟨hk, job, hj, hm⟩
      refine ⟨hk, job, ?_, (job_matches_iff name job h1).1 hm⟩
      rw [List.getElem?_drop] at hj
      have e : 1 + (k - 1) = k := by omega
      rw [e] at hj
      rw [get_job_eq, hj]; rfl
    · rintro ⟨hk, job, hj, hm⟩
      refine ⟨hk, job, ?_, (job_matches_iff name job h1).2 hm⟩
      rw [List.getElem?_drop]
      have e : 1 + (k - 1) = k := by omega
      rw [e]
      rw [get_job_eq] at hj
      cases hx : s.joblist[k]? with
      | none => simp [hx] at hj
      | some slot =>
        cases slot with
        | none => simp [hx] at hj
        | some job1 => simp [hx] at hj; rw [hj]
  have hnd := matching_jobs_nodup (decide (name.headD (Char.ofNat 0) = '?'))
      (if decide (name.headD (Char.ofNat 0) = '?') = true then name.drop 1 else name)
      (s.joblist.drop 1) 1
  have hres : get_jobnumber_from_name lim s name =
      match matching_jobs (decide (name.headD (Char.ofNat 0) = '?'))
        (if decide (name.headD (Char.ofNat 0) = '?') = true then name.drop 1 else name)
        (s.joblist.drop 1) 1 with
      | [] => 0
      | [a] => a
      | _ :: _ :: _ => s.joblist.length := by
    unfold get_jobnumber_from_name
    rw [if_neg (by simp [h1, h2, h3]), if_neg h4, h5]
    exact match_jobs_zero _ _ _ _ 1 (le_refl 1)
  rw [hres]
  cases hM : matching_jobs (decide (name.headD (Char.ofNat 0) = '?'))
      (if decide (name.headD (Char.ofNat 0) = '?') = true then name.drop 1 else name)
      (s.joblist.drop 1) 1 with
  | nil =>
    rw [hM] at hmem
    refine ⟨fun _ => rfl, ?_⟩
    intro i job hi hg hsel
    have := (hmem i).2 ⟨hi, job, hg, hsel⟩
    simp at this
  | cons a rest =>
    rw [hM] at hmem hnd
    cases rest with
    | nil =>
      refine ⟨?_, ?_⟩
      · intro hnone
        obtain ⟨ha, job, hg, hsel⟩ := (hmem a).1 (by simp)
        exact absurd hsel (hnone a job ha hg)
      · intro i job hi hg hsel
        have hia : i = a := by simpa using (hmem i).2 ⟨hi, job, hg, hsel⟩
        refine ⟨fun _ => hia.symm, ?_⟩
        rintro ⟨i', job', hi', hne, hg', hsel'⟩
        have : i' = a := by simpa using (hmem i').2 ⟨hi', job', hg', hsel'⟩
        omega
    | cons b rest2 =>
      have hab : a ≠ b := by
        intro e
        rw [List.nodup_cons] at hnd
        exact hnd.1 (by simp [e])
      obtain ⟨ha, ja, hga, hsa⟩ := (hmem a).1 (by simp)
      obtain ⟨hb, jb, hgb, hsb⟩ := (hmem b).1 (by simp)
      refine ⟨?_, ?_⟩
      · intro hnone
        exact absurd hsa (hnone a ja ha hga)
      · intro i job hi hg hsel
        refine ⟨?_, fun _ => rfl⟩
        intro huniq
        have e1 := huniq a ja ha hga hsa
        have e2 := huniq b jb hb hgb hsb
        omega


/-! ## The theorems at sample tables -/

/-- Witness of C1 at a sample table: the running member of the pipeline job 1 is reported stopped. -/
theorem do_wait_job_status_witness :
    find_process pipeline_table.joblist 11 0 = some (1, 1) ∧
    ∃ old pr job,
      get_job pipeline_table 1 = some old ∧ old.j_procs[1]? = some pr ∧ pr.pr_pid = 11 ∧
      get_job (do_wait_step pipeline_table 11 stop_report) 1 = some job ∧
      job.j_procs = old.j_procs.set 1
        { pr with
          pr_statuscode := stop_report.code,
          pr_status :=
            if stop_report.continued = true then JS_RUNNING
            else if stop_report.stopped = true then JS_STOPPED
            else if stop_report.exited = true ∨ stop_report.signaled = true then JS_DONE
            else pr.pr_status } ∧
      job.j_status =
        (if ∃ p ∈ job.j_procs, p.pr_status = JS_RUNNING then JS_RUNNING
        else if ∃ p ∈ job.j_procs, p.pr_status = JS_STOPPED then JS_STOPPED
        else JS_DONE) ∧
      job.j_statuschanged = (old.j_statuschanged || decide (job.j_status ≠ old.j_status)) ∧
      job.j_pgid = old.j_pgid ∧ job.j_nonotify = old.j_nonotify ∧
      (∀ n, n ≠ 1 → get_job (do_wait_step pipeline_table 11 stop_report) n =
        get_job pipeline_table n) ∧
      (do_wait_step pipeline_table 11 stop_report).current_jobnumber =
        pipeline_table.current_jobnumber ∧
      (do_wait_step pipeline_table 11 stop_report).previous_jobnumber =
        pipeline_table.previous_jobnumber :=
  ⟨by decide, do_wait_job_status pipeline_table 11 stop_report 1 1 (by decide)⟩

/-- Counterexample to C2 as stated, which fails when the only stopped job is the active job of slot 0:
the table holds a stopped job, yet `set_current_jobnumber 1` makes the running
job 2 the current job. -/
theorem set_current_jobnumber_active_stopped :
    (∃ i job, get_job active_stopped_table i = some job ∧ job.j_status = JS_STOPPED) ∧
    (set_current_jobnumber active_stopped_table 1).current_jobnumber = 2 ∧
    ¬ ∃ job, get_job (set_current_jobnumber active_stopped_table 1)
        (set_current_jobnumber active_stopped_table 1).current_jobnumber = some job ∧
      job.j_status = JS_STOPPED := by
  refine ⟨⟨0, sample_job 10 JS_STOPPED "a", by decide, by decide⟩, by decide, ?_⟩
  rw [← is_stopped_job_iff]
  decide

/-- Witness of C2 (amended) at a sample table with stopped jobs 1 and 3 and no
active job. -/
theorem set_current_jobnumber_current_is_stopped_witness :
    (∃ i job, 1 ≤ i ∧ get_job stopped_jobs_table i = some job ∧ job.j_status = JS_STOPPED) ∧
    (∀ job, get_job stopped_jobs_table ACTIVE_JOBNO = some job → job.j_status ≠ JS_STOPPED) ∧
    (∃ job, get_job (set_current_jobnumber stopped_jobs_table 2)
        (set_current_jobnumber stopped_jobs_table 2).current_jobnumber = some job ∧
      job.j_status = JS_STOPPED) ∧
    1 ≤ (set_current_jobnumber stopped_jobs_table 2).current_jobnumber :=
  ⟨⟨1, sample_job 11 JS_STOPPED "a", by decide, by decide, by decide⟩,
    by decide,
    (set_current_jobnumber_current_is_stopped stopped_jobs_table 2
      ⟨1, sample_job 11 JS_STOPPED "a", by decide, by decide, by decide⟩).1,
    (set_current_jobnumber_current_is_stopped stopped_jobs_table 2
      ⟨1, sample_job 11 JS_STOPPED "a", by decide, by decide, by decide⟩).2
      (Or.inl (by decide))⟩

/-- The active job is taken for the current job when it is stopped and its
number 0 is proposed: in the table `two_stopped_table`, whose active job and
job 1 are stopped, `set_current_jobnumber 0` leaves 0 as the current job
number, which stands for no current job. -/
theorem set_current_jobnumber_keeps_zero :
    (∃ i job, 1 ≤ i ∧ get_job two_stopped_table i = some job ∧ job.j_status = JS_STOPPED) ∧
    (set_current_jobnumber two_stopped_table 0).current_jobnumber = 0 ∧
    (set_current_jobnumber two_stopped_table 0).previous_jobnumber = 1 :=
  ⟨⟨1, sample_job 11 JS_STOPPED "b", by decide, by decide, by decide⟩, by decide, by decide⟩

/-- Counterexample to C3 as stated, which fails when one of two stopped jobs is the active job of slot
0: two jobs are stopped, yet `set_current_jobnumber 1` leaves the running job 2
as the previous job. -/
theorem set_current_jobnumber_two_stopped :
    stopped_job_count two_stopped_table = 2 ∧
    (set_current_jobnumber two_stopped_table 1).current_jobnumber = 1 ∧
    (set_current_jobnumber two_stopped_table 1).previous_jobnumber = 2 ∧
    ¬ ∃ job, get_job (set_current_jobnumber two_stopped_table 1)
        (set_current_jobnumber two_stopped_table 1).previous_jobnumber = some job ∧
      job.j_status = JS_STOPPED := by
  refine ⟨by decide, by decide, by decide, ?_⟩
  rw [← is_stopped_job_iff]
  decide

/-- Witness of C3 (amended) at a sample table with stopped jobs 1 and 3 and no
active job. -/
theorem set_current_jobnumber_previous_is_stopped_witness :
    (∀ job, get_job stopped_jobs_table ACTIVE_JOBNO = some job → job.j_status ≠ JS_STOPPED) ∧
    (set_current_jobnumber stopped_jobs_table 2).previous_jobnumber ≠
      (set_current_jobnumber stopped_jobs_table 2).current_jobnumber ∧
    (∃ job, get_job (set_current_jobnumber stopped_jobs_table 2)
        (set_current_jobnumber stopped_jobs_table 2).current_jobnumber = some job ∧
      job.j_status = JS_STOPPED) ∧
    (∃ job, get_job (set_current_jobnumber stopped_jobs_table 2)
        (set_current_jobnumber stopped_jobs_table 2).previous_jobnumber = some job ∧
      job.j_status = JS_STOPPED) ∧
    1 ≤ (set_current_jobnumber stopped_jobs_table 2).current_jobnumber ∧
    1 ≤ (set_current_jobnumber stopped_jobs_table 2).previous_jobnumber :=
  have h := set_current_jobnumber_previous_is_stopped stopped_jobs_table 2
    ⟨1, 3, sample_job 11 JS_STOPPED "a", sample_job 13 JS_STOPPED "c",
      by decide, by decide, by decide, by decide, by decide, by decide, by decide⟩
  ⟨by decide, h.1, h.2.1, h.2.2.1, h.2.2.2 (Or.inl (by decide))⟩

/-- The same with three stopped jobs: in the table `three_stopped_table`, whose
active job and jobs 1 and 2 are stopped, `set_current_jobnumber 0` leaves 0 as
the current job number and makes job 1 the previous job. -/
theorem set_current_jobnumber_keeps_zero_beside_two :
    (set_current_jobnumber three_stopped_table 0).current_jobnumber = 0 ∧
    (set_current_jobnumber three_stopped_table 0).previous_jobnumber = 1 :=
  ⟨by decide, by decide⟩

/-- Witness of C4 at a sample table with the free slot 2. -/
theorem add_job_moves_active_job_witness :
    ∃ s', add_job running_with_hole false = some s' ∧
      1 ≤ add_job_number running_with_hole ∧
      add_job_number running_with_hole ≤ running_with_hole.joblist.length ∧
      get_job running_with_hole (add_job_number running_with_hole) = none ∧
      (∀ i, 1 ≤ i → i < add_job_number running_with_hole →
        ∃ other, get_job running_with_hole i = some other) ∧
      (s'.joblist.length =
        if add_job_number running_with_hole < running_with_hole.joblist.length
        then running_with_hole.joblist.length
        else running_with_hole.joblist.length + 1) ∧
      get_job s' (add_job_number running_with_hole) = some (sample_job 10 JS_RUNNING "a") ∧
      get_job s' ACTIVE_JOBNO = none ∧
      (∀ i, 1 ≤ i → i ≠ add_job_number running_with_hole →
        get_job s' i = get_job running_with_hole i) :=
  add_job_moves_active_job running_with_hole false (sample_job 10 JS_RUNNING "a") (by decide)

/-- Witness of C5 at a sample table: the stopped active job goes to slot 2 and becomes
the current job. -/
theorem add_job_stopped_becomes_current_witness :
    add_job_number stopped_active_with_hole = 2 ∧
    ∃ s', add_job stopped_active_with_hole false = some s' ∧
      s'.current_jobnumber = add_job_number stopped_active_with_hole ∧
      get_job s' (add_job_number stopped_active_with_hole) = some (sample_job 10 JS_STOPPED "a") :=
  ⟨by decide, add_job_stopped_becomes_current stopped_active_with_hole false
    (sample_job 10 JS_STOPPED "a") (by decide) (by decide)⟩

/-- Counterexample to C6 as stated, which fails when another job is stopped: the running job committed
with `current = true` goes to slot 2 while the stopped job 1 stays the current
job. -/
theorem add_job_current_beside_stopped :
    (∃ job, get_job running_beside_stopped ACTIVE_JOBNO = some job ∧
      job.j_status ≠ JS_STOPPED) ∧
    add_job_number running_beside_stopped = 2 ∧
    (add_job running_beside_stopped true).map (fun s' => s'.current_jobnumber) = some 1 ∧
    ¬ ∃ s', add_job running_beside_stopped true = some s' ∧
      s'.current_jobnumber = add_job_number running_beside_stopped := by
  refine ⟨⟨sample_job 10 JS_RUNNING "a", by decide, by decide⟩, by decide, by decide, ?_⟩
  rintro ⟨s', h1, h2⟩
  have h3 : (add_job running_beside_stopped true).map (fun s' => s'.current_jobnumber) = some 1 := by
    decide
  rw [h1] at h3
  have h4 : add_job_number running_beside_stopped = 2 := by decide
  simp at h3
  omega

/-- Witness of C6 (amended) at a sample table without stopped jobs. -/
theorem add_job_current_without_stopped_witness :
    add_job_number running_with_hole = 2 ∧
    ∃ s', add_job running_with_hole true = some s' ∧
      s'.current_jobnumber = add_job_number running_with_hole ∧
      get_job s' (add_job_number running_with_hole) = some (sample_job 10 JS_RUNNING "a") :=
  ⟨by decide, add_job_current_without_stopped running_with_hole (sample_job 10 JS_RUNNING "a")
    (by decide) (no_stopped_of_count_zero _ (by decide))⟩

/-- Counterexample to C7 as stated, which fails when a job is stopped and the
current job number does not designate a stopped job: a running job is added
next to the stopped job 1, and the current job number changes to 1, from 0 in
the table `neglected_stopped` and from the running job 2 in the table
`stale_current`. -/
theorem add_job_not_current_fails :
    ((get_job neglected_stopped ACTIVE_JOBNO).map (fun job => job.j_status) = some JS_RUNNING ∧
      stopped_job_count neglected_stopped = 1 ∧
      neglected_stopped.current_jobnumber = 0 ∧
      (add_job neglected_stopped false).map (fun s' => s'.current_jobnumber) = some 1) ∧
    ((get_job stale_current ACTIVE_JOBNO).map (fun job => job.j_status) = some JS_RUNNING ∧
      stopped_job_count stale_current = 1 ∧
      stale_current.current_jobnumber = 2 ∧
      (add_job stale_current false).map (fun s' => s'.current_jobnumber) = some 1) := by
  decide

/-- With no stopped job and no current job, `add_job false` passes over the new
job, against the comment above `add_job`: in the table `neglected_with_hole`,
which `neglect_all_jobs` leaves behind, the new job is placed in slot 2 and job
3 becomes the current job; in the table `previous_only` the previous job 1
becomes the current job. -/
theorem add_job_passes_over_new_job :
    ((get_job neglected_with_hole ACTIVE_JOBNO).map (fun job => job.j_status) = some JS_RUNNING ∧
      stopped_job_count neglected_with_hole = 0 ∧
      neglected_with_hole.current_jobnumber = 0 ∧
      add_job_number neglected_with_hole = 2 ∧
      (add_job neglected_with_hole false).map (fun s' => s'.current_jobnumber) = some 3) ∧
    ((get_job previous_only ACTIVE_JOBNO).map (fun job => job.j_status) = some JS_RUNNING ∧
      stopped_job_count previous_only = 0 ∧
      previous_only.current_jobnumber = 0 ∧
      add_job_number previous_only = 2 ∧
      (add_job previous_only false).map (fun s' => s'.current_jobnumber) = some 1) := by
  decide

/-- Witness of C7 (amended) at three sample tables: the current job 1 is kept
in a table without stopped job, the stopped job 1 replaces the running current
job 2, and in a table that holds the active job only the new job becomes the
current job. -/
theorem add_job_not_current_witness :
    (∃ s', add_job running_with_hole false = some s' ∧
      s'.current_jobnumber = running_with_hole.current_jobnumber) ∧
    (∃ s', add_job stale_current false = some s' ∧
      1 ≤ s'.current_jobnumber ∧ s'.current_jobnumber ≠ stale_current.current_jobnumber ∧
      ∃ next, get_job s' s'.current_jobnumber = some next ∧ next.j_status = JS_STOPPED) ∧
    (∃ s', add_job only_active false = some s' ∧
      s'.current_jobnumber = add_job_number only_active ∧
      get_job s' (add_job_number only_active) = some (sample_job 10 JS_RUNNING "a")) := by
  refine ⟨?_, ?_, ?_⟩
  · obtain ⟨s', h1, h2, -⟩ := add_job_not_current running_with_hole
      (sample_job 10 JS_RUNNING "a") (by decide) (by decide)
    exact ⟨s', h1, h2 (sample_job 11 JS_RUNNING "b") (by decide) (by decide)
      (Or.inl (no_stopped_of_count_zero _ (by decide)))⟩
  · obtain ⟨s', h1, -, h2, -⟩ := add_job_not_current stale_current
      (sample_job 10 JS_RUNNING "a") (by decide) (by decide)
    refine ⟨s', h1, h2 ⟨1, sample_job 11 JS_STOPPED "b", by decide, by decide⟩ ?_⟩
    intro cur hcur
    have : get_job stale_current stale_current.current_jobnumber =
        some (sample_job 12 JS_RUNNING "c") := by decide
    rw [this] at hcur
    simp only [Option.some.injEq] at hcur
    rw [← hcur]
    decide
  · obtain ⟨s', h1, -, -, h3⟩ := add_job_not_current only_active
      (sample_job 10 JS_RUNNING "a") (by decide) (by decide)
    refine ⟨s', h1, h3 (no_stopped_of_count_zero _ (by decide)) (Or.inl (by decide))
      (Or.inr (Or.inr ⟨Or.inl (by decide), ?_⟩))⟩
    intro i hi
    rw [get_job_eq]
    have : add_job_number only_active = 1 := by decide
    have hlen : only_active.joblist.length = 1 := by decide
    rw [List.getElem?_eq_none (by omega)]
    rfl

/-- Witness of C9 (amended) at a sample table on an LP64 platform. -/
theorem get_jobnumber_from_name_basic_witness :
    pipeline_table.joblist.length ≤ LP64.SIZE_MAX ∧
    get_jobnumber_from_name LP64 pipeline_table [] = pipeline_table.current_jobnumber ∧
    get_jobnumber_from_name LP64 pipeline_table ['%'] = pipeline_table.current_jobnumber ∧
    get_jobnumber_from_name LP64 pipeline_table ['+'] = pipeline_table.current_jobnumber ∧
    get_jobnumber_from_name LP64 pipeline_table ['-'] = pipeline_table.previous_jobnumber ∧
    get_jobnumber_from_name LP64 pipeline_table ['1'] = 1 ∧
    get_jobnumber_from_name LP64 pipeline_table ['7'] = 0 := by
  have h := get_jobnumber_from_name_basic LP64 pipeline_table (by decide)
  refine ⟨by decide, h.1, h.2.1, h.2.2.1, h.2.2.2.1, ?_, ?_⟩
  · rw [h.2.2.2.2 ['1'] (by decide) (by decide) (by decide)]
    decide
  · rw [h.2.2.2.2 ['7'] (by decide) (by decide) (by decide)]
    decide

/-- Counterexample to C10 as stated, which fails for a pipeline: the job-ids `cat | g` and `?grep`
select job 1 through its job name `cat | grep`, although the name `cat` of its
leading process neither starts with the one nor contains `grep`. -/
theorem get_jobnumber_from_name_pipeline :
    ("cat | g".data ≠ [] ∧ "cat | g".data ≠ ['%'] ∧ "cat | g".data ≠ ['+'] ∧
      "cat | g".data ≠ ['-'] ∧ numeric_jobid LP64 "cat | g".data = none) ∧
    get_job_name pipeline_job = "cat | grep".data ∧
    leading_process_name pipeline_job = "cat".data ∧
    (∀ i job, 1 ≤ i → get_job pipeline_table i = some job →
      ¬ job_id_selects "cat | g".data (leading_process_name job)) ∧
    get_jobnumber_from_name LP64 pipeline_table "cat | g".data = 1 ∧
    (∀ i job, 1 ≤ i → get_job pipeline_table i = some job →
      ¬ job_id_selects "?grep".data (leading_process_name job)) ∧
    get_jobnumber_from_name LP64 pipeline_table "?grep".data = 1 := by
  have hjob : ∀ i job, 1 ≤ i → get_job pipeline_table i = some job → job = pipeline_job := by
    intro i job hi hg
    have hlt : i < 2 := get_job_lt _ _ _ hg
    have : i = 1 := by omega
    subst this
    have : get_job pipeline_table 1 = some pipeline_job := by decide
    rw [this] at hg
    exact (Option.some.inj hg).symm
  refine ⟨by decide, by decide, by decide, ?_, by decide, ?_, by decide⟩
  · intro i job hi hg
    rw [hjob i job hi hg]
    intro hsel
    have hle := List.IsPrefix.length_le hsel
    revert hle
    decide
  · intro i job hi hg
    rw [hjob i job hi hg]
    intro hsel
    have hle := List.IsInfix.length_le hsel
    revert hle
    decide

/-- Witness of C10 (amended) at a sample table: `cat` selects the pipeline job 1. -/
theorem get_jobnumber_from_name_by_name_witness :
    numeric_jobid LP64 "cat".data = none ∧
    get_jobnumber_from_name LP64 pipeline_table "cat".data = 1 := by
  refine ⟨by decide, ?_⟩
  have h := (get_jobnumber_from_name_by_name LP64 pipeline_table "cat".data
    (by decide) (by decide) (by decide) (by decide) (by decide)).2 1 pipeline_job
    (by decide) (by decide) (by
      show "cat".data <+: get_job_name pipeline_job
      rw [← List.isPrefixOf_iff_prefix]
      decide)
  apply h.1
  intro i' job' hi' hg' _
  have hlt : i' < 2 := get_job_lt _ _ _ hg'
  omega

/-! ## Theorems: resolving a job-id to a process group -/

theorem get_job_getD (s : JobTable) (n : Nat) (h : n < s.joblist.length) :
    s.joblist.getD n none = get_job s n := by
  unfold get_job
  rw [if_pos h]

/-- C11: with `n` the job number the resolver returns for the job-id (a leading
`%` removed), `get_job_pgid` returns a pgid exactly when `n` designates an
existing job (`0 < n < joblist.length`) whose pgid is positive, and then it is
that pgid; it fails with "ambiguous" when the resolver reports ambiguity
(`n ≥ joblist.length`), with "no such job" when `n` is 0, an empty slot or a job
with negative pgid, and with "not job-controlled job" when the pgid is 0. -/
theorem get_job_pgid_cases (lim : Limits) (s : JobTable) (jobname : List Char) :
    (∀ p, get_job_pgid lim s jobname = Except.ok p ↔
      ∃ job, get_jobnumber_from_name lim s
          (if jobname.headD (Char.ofNat 0) = '%' then jobname.drop 1 else jobname) ≠ 0 ∧
        get_job s (get_jobnumber_from_name lim s
          (if jobname.headD (Char.ofNat 0) = '%' then jobname.drop 1 else jobname)) = some job ∧
        0 < job.j_pgid ∧ p = job.j_pgid) ∧
    (get_job_pgid lim s jobname = Except.error pgid_error.ambiguous ↔
      s.joblist.length ≤ get_jobnumber_from_name lim s
        (if jobname.headD (Char.ofNat 0) = '%' then jobname.drop 1 else jobname)) ∧
    (get_job_pgid lim s jobname = Except.error pgid_error.no_such_job ↔
      get_jobnumber_from_name lim s
          (if jobname.headD (Char.ofNat 0) = '%' then jobname.drop 1 else jobname)
        < s.joblist.length ∧
      (get_jobnumber_from_name lim s
          (if jobname.headD (Char.ofNat 0) = '%' then jobname.drop 1 else jobname) = 0 ∨
        get_job s (get_jobnumber_from_name lim s
          (if jobname.headD (Char.ofNat 0) = '%' then jobname.drop 1 else jobname)) = none ∨
        ∃ job, get_job s (get_jobnumber_from_name lim s
          (if jobname.headD (Char.ofNat 0) = '%' then jobname.drop 1 else jobname)) = some job ∧
          job.j_pgid < 0)) ∧
    (get_job_pgid lim s jobname = Except.error pgid_error.not_job_controlled ↔
      get_jobnumber_from_name lim s
          (if jobname.headD (Char.ofNat 0) = '%' then jobname.drop 1 else jobname) ≠ 0 ∧
      ∃ job, get_job s (get_jobnumber_from_name lim s
          (if jobname.headD (Char.ofNat 0) = '%' then jobname.drop 1 else jobname)) = some job ∧
        job.j_pgid = 0) := by
  generalize hn : get_jobnumber_from_name lim s
    (if jobname.headD (Char.ofNat 0) = '%' then jobname.drop 1 else jobname) = n
  have hdef : get_job_pgid lim s jobname =
      if n ≥ s.joblist.length then Except.error pgid_error.ambiguous
      else if n = 0 then Except.error pgid_error.no_such_job
      else
        match s.joblist.getD n none with
        | none => Except.error pgid_error.no_such_job
        | some job =>
          if job.j_pgid < 0 then Except.error pgid_error.no_such_job
          else if job.j_pgid = 0 then Except.error pgid_error.not_job_controlled
          else Except.ok job.j_pgid := by
    unfold get_job_pgid
    simp only [hn]
  rw [hdef]
  by_cases hlen : n ≥ s.joblist.length
  · have hnone : get_job s n = none := by
      unfold get_job; rw [if_neg (by omega)]
    simp [hlen, hnone]
  · rw [if_neg hlen]
    have hlt : n < s.joblist.length := by omega
    by_cases h0 : n = 0
    · subst h0
      have hne : s.joblist ≠ [] := by
        intro e; rw [e] at hlt; simp at hlt
      simp [hlt, hne]
    · rw [if_neg h0, get_job_getD s n hlt]
      cases hg : get_job s n with
      | none => simp [h0, hlt]
      | some job =>
        simp only
        by_cases hneg : job.j_pgid < 0
        · have h1 : ¬ 0 < job.j_pgid := by omega
          have h2 : ¬ job.j_pgid = 0 := by omega
          simp [hneg, h0, hlt, h1, h2]
        · by_cases hz : job.j_pgid = 0
          · simp [hz, h0, hlt]
          · have hpos : 0 < job.j_pgid := by omega
            simp [hneg, hz, h0, hlt, hpos]
            intro p
            exact eq_comm

/-! ## Theorems: brace expansion -/

theorem list_two_step {α : Type} {P : List α → Prop} (h0 : P []) (h1 : ∀ a, P [a])
    (h2 : ∀ a b l, P l → P (b :: l) → P (a :: b :: l)) : ∀ l, P l := by
  intro l
  have key : ∀ n, ∀ l : List α, l.length ≤ n → P l := by
    intro n
    induction n with
    | zero =>
      intro l hl
      cases l with
      | nil => exact h0
      | cons a t => simp at hl
    | succ n ih =>
      intro l hl
      match l, hl with
      | [], _ => exact h0
      | [a], _ => exact h1 a
      | a :: b :: t, hl =>
        simp at hl
        exact h2 a b t (ih t (by omega)) (ih (b :: t) (by simp; omega))
  exact key l.length l (le_refl _)

theorem plain_cons_ne (accept : List Char) (a : Char) (rest : List Char) (ha : a ≠ '\\') :
    plain accept (a :: rest) = (!decide (a ∈ accept) && plain accept rest) := by
  cases rest <;> simp [plain, *]

theorem plain_cons_esc (accept : List Char) (b : Char) (rest : List Char) :
    plain accept ('\\' :: b :: rest) = plain accept rest := by
  cases rest <;> simp [plain, *]

theorem plain_backslash (accept : List Char) : plain accept ['\\'] = false := by
  simp [plain]

theorem free_of_cons_ne (accept : List Char) (a : Char) (rest : List Char) (ha : a ≠ '\\') :
    free_of accept (a :: rest) = (!decide (a ∈ accept) && free_of accept rest) := by
  cases rest <;> simp [free_of, *]

theorem free_of_cons_esc (accept : List Char) (b : Char) (rest : List Char) :
    free_of accept ('\\' :: b :: rest) = free_of accept rest := by
  cases rest <;> simp [free_of, *]

/-- Induction along the escapes of a plain string. -/
theorem plain_induction (accept : List Char) {P : List Char → Prop} (h0 : P [])
    (hesc : ∀ b l, plain accept l = true → P l → P ('\\' :: b :: l))
    (hchar : ∀ a l, a ≠ '\\' → a ∉ accept → plain accept l = true → P l → P (a :: l)) :
    ∀ s, plain accept s = true → P s := by
  intro s
  induction s using list_two_step with
  | h0 => intro _; exact h0
  | h1 a =>
    intro h
    by_cases ha : a = '\\'
    · subst ha; rw [plain_backslash] at h; exact absurd h (by simp)
    · rw [plain_cons_ne _ _ _ ha] at h
      simp only [Bool.and_eq_true, Bool.not_eq_true', decide_eq_false_iff_not] at h
      exact hchar a [] ha h.1 rfl h0
  | h2 a b l ih1 ih2 =>
    intro h
    by_cases ha : a = '\\'
    · subst ha
      rw [plain_cons_esc] at h
      exact hesc b l h (ih1 h)
    · rw [plain_cons_ne _ _ _ ha] at h
      simp only [Bool.and_eq_true, Bool.not_eq_true', decide_eq_false_iff_not] at h
      exact hchar a (b :: l) ha h.1 h.2 (ih2 h.2)

theorem plain_free_of (accept : List Char) (s : List Char) (h : plain accept s = true) :
    free_of accept s = true := by
  revert h
  apply plain_induction accept (P := fun s => free_of accept s = true)
  · rfl
  · intro b l _ ih
    rw [free_of_cons_esc]; exact ih
  · intro a l ha hacc _ ih
    rw [free_of_cons_ne _ _ _ ha]
    simp [hacc, ih]

theorem plain_append (accept : List Char) (p q : List Char) (hp : plain accept p = true) :
    plain accept (p ++ q) = plain accept q := by
  revert hp
  apply plain_induction accept (P := fun p => plain accept (p ++ q) = plain accept q)
  · rfl
  · intro b l _ ih
    simp only [List.cons_append]
    rw [plain_cons_esc]; exact ih
  · intro a l ha hacc _ ih
    simp only [List.cons_append]
    rw [plain_cons_ne _ _ _ ha]
    simp [hacc, ih]

theorem free_of_append (accept : List Char) (p q : List Char) (hp : plain accept p = true) :
    free_of accept (p ++ q) = free_of accept q := by
  revert hp
  apply plain_induction accept (P := fun p => free_of accept (p ++ q) = free_of accept q)
  · rfl
  · intro b l _ ih
    simp only [List.cons_append]
    rw [free_of_cons_esc]; exact ih
  · intro a l ha hacc _ ih
    simp only [List.cons_append]
    rw [free_of_cons_ne _ _ _ ha]
    simp [hacc, ih]

theorem plain_of_chars (accept : List Char) (s : List Char)
    (h : ∀ c ∈ s, c ≠ '\\' ∧ c ∉ accept) : plain accept s = true := by
  induction s with
  | nil => rfl
  | cons a t ih =>
    have ha := h a (List.mem_cons_self _ _)
    have ht := ih (fun c hc => h c (List.mem_cons_of_mem _ hc))
    rw [plain_cons_ne _ _ _ ha.1]
    simp [ha.2, ht]

theorem plain_mono (accept accept' : List Char) (s : List Char)
    (hsub : ∀ c ∈ accept', c ∈ accept) (h : plain accept s = true) :
    plain accept' s = true := by
  revert h
  apply plain_induction accept (P := fun s => plain accept' s = true)
  · rfl
  · intro b l _ ih
    rw [plain_cons_esc]; exact ih
  · intro a l ha hacc _ ih
    rw [plain_cons_ne _ _ _ ha]
    have : a ∉ accept' := fun hc => hacc (hsub a hc)
    simp [this, ih]

theorem find_brace_cons_other (long_max : Nat) (word : List Char) (split : List Bool)
    (a : Char) (rest : List Char) (c : Nat) (ha : a ≠ '\\') (hb : a ≠ '{') :
    find_brace long_max word split (a :: rest) c =
      find_brace long_max word split rest (c + 1) := by
  cases rest <;> simp [find_brace, *]

theorem find_brace_cons_esc (long_max : Nat) (word : List Char) (split : List Bool)
    (b : Char) (rest : List Char) (c : Nat) :
    find_brace long_max word split ('\\' :: b :: rest) c =
      find_brace long_max word split rest (c + 2) := by
  cases rest <;> simp [find_brace, *]

theorem find_brace_backslash (long_max : Nat) (word : List Char) (split : List Bool) (c : Nat) :
    find_brace long_max word split ['\\'] c = brace_step.literal := by
  simp [find_brace]

theorem find_brace_cons_brace (long_max : Nat) (word : List Char) (split : List Bool)
    (rest : List Char) (c : Nat) :
    find_brace long_max word split ('{' :: rest) c =
      if rest.isEmpty then brace_step.literal
      else
        match tryexpand_brace_sequence long_max word split (c + 1) with
        | some words => brace_step.expand words
        | none =>
          match scan_elements rest (c + 1) 0 [c + 1] with
          | some elemlist =>
            brace_step.expand
              (list_words word split (elemlist.headD 0 - 1) (elemlist.getLastD 0) elemlist)
          | none => find_brace long_max word split rest (c + 1) := by
  cases rest <;> simp [find_brace]

/-- A word in which no opening brace occurs unescaped is not expanded. -/
theorem find_brace_free_of (long_max : Nat) (word : List Char) (split : List Bool)
    (rest : List Char) (c : Nat) (h : free_of ['{'] rest = true) :
    find_brace long_max word split rest c = brace_step.literal := by
  induction rest using list_two_step generalizing c with
  | h0 => rfl
  | h1 a =>
    by_cases ha : a = '\\'
    · subst ha; exact find_brace_backslash _ _ _ _
    · rw [free_of_cons_ne _ _ _ ha] at h
      simp only [Bool.and_eq_true] at h
      have hb : a ≠ '{' := by simpa using h.1
      rw [find_brace_cons_other _ _ _ _ _ _ ha hb]
      rfl
  | h2 a b l ih1 ih2 =>
    by_cases ha : a = '\\'
    · subst ha
      rw [free_of_cons_esc] at h
      rw [find_brace_cons_esc]
      exact ih1 _ h
    · rw [free_of_cons_ne _ _ _ ha] at h
      simp only [Bool.and_eq_true] at h
      have hb : a ≠ '{' := by simpa using h.1
      rw [find_brace_cons_other _ _ _ _ _ _ ha hb]
      exact ih2 _ h.2

theorem expand_brace_depth_free_of (long_max : Nat) (depth : Nat) (word : List Char)
    (split : List Bool) (h : free_of ['{'] word = true) :
    expand_brace_depth long_max (depth + 1) word split = some [(word, split)] := by
  simp [expand_brace_depth, find_brace_free_of long_max word split word 0 h]

/-- In front of a brace that follows a plain text, the search arrives at the
brace. -/
theorem find_brace_plain_append (long_max : Nat) (word : List Char) (split : List Bool)
    (p rest : List Char) (c : Nat) (hp : plain ['{'] p = true) :
    find_brace long_max word split (p ++ rest) c =
      find_brace long_max word split rest (c + p.length) := by
  have key : ∀ p, plain ['{'] p = true → ∀ c,
      find_brace long_max word split (p ++ rest) c =
        find_brace long_max word split rest (c + p.length) := by
    apply plain_induction ['{'] (P := fun p => ∀ c,
      find_brace long_max word split (p ++ rest) c =
        find_brace long_max word split rest (c + p.length))
    · intro c; rfl
    · intro b l _ ih c
      simp only [List.cons_append, List.length_cons]
      rw [find_brace_cons_esc, ih]
      congr 1; omega
    · intro a l ha hacc _ ih c
      simp only [List.cons_append, List.length_cons]
      have hb : a ≠ '{' := by simpa using hacc
      rw [find_brace_cons_other _ _ _ _ _ _ ha hb, ih]
      congr 1; omega
  exact key p hp c

theorem wcschr_append (A : List Char) (ch : Char) (r : List Char) (h : ch ∉ A) :
    wcschr (A ++ ch :: r) ch = some A.length := by
  induction A with
  | nil => simp [wcschr]
  | cons a t ih =>
    have hne : a ≠ ch := fun e => h (by simp [e])
    have ht : ch ∉ t := fun e => h (List.mem_cons_of_mem _ e)
    simp [wcschr, hne, ih ht]

theorem dropWhile_iswspace_append (A : List Char) (stop : Char) (r : List Char)
    (hs : iswspace stop = false) :
    (A ++ stop :: r).dropWhile iswspace = A.dropWhile iswspace ++ stop :: r := by
  induction A with
  | nil => simp [List.dropWhile, hs]
  | cons a t ih =>
    by_cases ha : iswspace a = true
    · simp [List.dropWhile, ha, ih]
    · simp [List.dropWhile, ha]

theorem has_leading_zero_append (A : List Char) (stop : Char) (r : List Char) (sign : Bool)
    (hs : iswspace stop = false) (hp : stop ≠ '+') (hm : stop ≠ '-') (hz : stop ≠ '0') :
    has_leading_zero (A ++ stop :: r) sign = has_leading_zero A sign := by
  unfold has_leading_zero
  rw [dropWhile_iswspace_append A stop r hs]
  cases hA : A.dropWhile iswspace with
  | nil =>
    simp only [List.nil_append]
    split
    · rename_i heq; simp at heq; exact absurd heq.1 hp
    · rename_i heq; simp at heq; exact absurd heq.1 hm
    · simp [hz]
  | cons x t =>
    simp only [List.cons_append]
    by_cases hx : x = '+'
    · subst hx
      cases t <;> simp [hz]
    · by_cases hx' : x = '-'
      · subst hx'
        cases t <;> simp [hz]
      · split
        · rename_i heq; simp at heq; exact absurd heq.1 hx
        · rename_i heq; simp at heq; exact absurd heq.1 hx'
        · split
          · rename_i heq; simp at heq; exact absurd heq.1 hx
          · rename_i heq; simp at heq; exact absurd heq.1 hx'
          · simp

theorem has_leading_zero_fst (A : List Char) (sign : Bool) :
    (has_leading_zero A sign).1 = (has_leading_zero A false).1 := by
  unfold has_leading_zero
  split <;> rfl

theorem sequence_loop_up (a b : Int) (hab : a < b) (n : Nat) (v : Int) (hv : v + n = b) :
    sequence_loop a b (n + 1) v = (List.range (n + 1)).map fun (i : Nat) => v + (i : Int) := by
  induction n generalizing v with
  | zero =>
    have hvb : v = b := by simpa using hv
    subst hvb
    show v :: (if v = v then [] else _) = [v + ((0 : Nat) : Int)]
    rw [if_pos rfl]
    congr 1
    omega
  | succ n ih =>
    have hne : v ≠ b := by omega
    rw [sequence_loop]
    simp only [hne, if_false, hab, if_true]
    rw [ih (v + 1) (by push_cast at hv; omega)]
    rw [List.range_succ_eq_map (n + 1)]
    simp only [List.map_cons, List.map_map]
    congr 1
    · omega
    · apply List.map_congr_left
      intro i _
      simp only [Function.comp_apply]
      push_cast
      omega

theorem sequence_loop_down (a b : Int) (hab : ¬ a < b) (n : Nat) (v : Int) (hv : v - n = b) :
    sequence_loop a b (n + 1) v = (List.range (n + 1)).map fun (i : Nat) => v - (i : Int) := by
  induction n generalizing v with
  | zero =>
    have hvb : v = b := by simpa using hv
    subst hvb
    show v :: (if v = v then [] else _) = [v - ((0 : Nat) : Int)]
    rw [if_pos rfl]
    congr 1
    omega
  | succ n ih =>
    have hne : v ≠ b := by omega
    rw [sequence_loop]
    simp only [hne, if_false, hab]
    rw [ih (v - 1) (by push_cast at hv; omega)]
    rw [List.range_succ_eq_map (n + 1)]
    simp only [List.map_cons, List.map_map]
    congr 1
    · omega
    · apply List.map_congr_left
      intro i _
      simp only [Function.comp_apply]
      push_cast
      omega

/-- The loop of `tryexpand_brace_sequence` visits the integers from `start` to
`end` in order. -/
theorem sequence_loop_eq (a b : Int) :
    sequence_loop a b ((b - a).natAbs + 1) a = integers_from_to a b := by
  unfold integers_from_to
  by_cases hab : a < b
  · rw [sequence_loop_up a b hab _ a (by omega)]
    apply List.map_congr_left
    intro i _
    have : a ≤ b := by omega
    simp [this]
  · rw [sequence_loop_down a b hab _ a (by omega)]
    apply List.map_congr_left
    intro i hi
    by_cases hle : a ≤ b
    · have heq : a = b := by omega
      subst heq
      simp at hi
      simp [hi]
    · simp [hle]

theorem drop_append_cons (p : List Char) (x : Char) (r : List Char) :
    (p ++ x :: r).drop (p.length + 1) = r := by
  rw [List.append_cons]
  have : p.length + 1 = (p ++ [x]).length := by simp
  rw [this, List.drop_left]

theorem take_append_cons (p : List Char) (x : Char) (r : List Char) :
    (p ++ x :: r).take p.length = p := by
  rw [List.take_left]

/-- On a word `PRE{A..B}POST` whose endpoints are accepted,
`tryexpand_brace_sequence` succeeds with one word for each integer from the
value of `A` to the value of `B`. -/
theorem tryexpand_brace_sequence_accepted (long_max : Nat) (PRE A B POST : List Char)
    (a b : Int) (split : List Bool)
    (hA : accepted_endpoint long_max A '.' a) (hB : accepted_endpoint long_max B '}' b) :
    tryexpand_brace_sequence long_max (PRE ++ '{' :: (A ++ '.' :: '.' :: (B ++ '}' :: POST)))
        split (PRE.length + 1) =
      some ((integers_from_to a b).map fun value =>
        (PRE ++ wprintf_ld (sequence_sign A B) (sequence_width A B) value ++ POST,
          split.take PRE.length ++
            List.replicate (wprintf_ld (sequence_sign A B) (sequence_width A B) value).length
              false ++
            (split.drop (PRE.length + A.length + B.length + 4)).take POST.length)) := by
  obtain ⟨hA1, hA2, hA3⟩ := hA
  obtain ⟨hB1, hB2, hB3⟩ := hB
  have hd1 : (PRE ++ '{' :: (A ++ '.' :: '.' :: (B ++ '}' :: POST))).drop (PRE.length + 1) =
      A ++ '.' :: '.' :: (B ++ '}' :: POST) := drop_append_cons _ _ _
  have hd2 : (PRE ++ '{' :: (A ++ '.' :: '.' :: (B ++ '}' :: POST))).drop
      (PRE.length + 1 + A.length + 2) = B ++ '}' :: POST := by
    have e : PRE.length + 1 + A.length + 2 = (PRE ++ '{' :: (A ++ ['.'])).length + 1 := by
      simp; omega
    have w : PRE ++ '{' :: (A ++ '.' :: '.' :: (B ++ '}' :: POST)) =
        (PRE ++ '{' :: (A ++ ['.'])) ++ '.' :: (B ++ '}' :: POST) := by simp
    rw [e, w, drop_append_cons]
  have hd3 : (PRE ++ '{' :: (A ++ '.' :: '.' :: (B ++ '}' :: POST))).drop
      (PRE.length + 1 + A.length + 2 + B.length + 1) = POST := by
    have e : PRE.length + 1 + A.length + 2 + B.length + 1 =
        (PRE ++ '{' :: (A ++ '.' :: '.' :: B)).length + 1 := by
      simp; omega
    have w : PRE ++ '{' :: (A ++ '.' :: '.' :: (B ++ '}' :: POST)) =
        (PRE ++ '{' :: (A ++ '.' :: '.' :: B)) ++ '}' :: POST := by simp
    rw [e, w, drop_append_cons]
  have hlen : (PRE ++ '{' :: (A ++ '.' :: '.' :: (B ++ '}' :: POST))).length -
      (PRE.length + 1 + A.length + 2 + B.length + 1) = POST.length := by
    simp; omega
  have hget : (A ++ '.' :: '.' :: (B ++ '}' :: POST)).getD (A.length + 1) (Char.ofNat 0) = '.' := by
    rw [List.getD_eq_getElem?_getD, List.getElem?_append_right (by omega)]
    have : A.length + 1 - A.length = 1 := by omega
    rw [this]; simp
  have hz1 : has_leading_zero (A ++ '.' :: '.' :: (B ++ '}' :: POST)) false =
      has_leading_zero A false :=
    has_leading_zero_append A '.' _ false (by decide) (by decide) (by decide) (by decide)
  have hz2 : ∀ sg, has_leading_zero (B ++ '}' :: POST) sg = has_leading_zero B sg :=
    fun sg => has_leading_zero_append B '}' _ sg (by decide) (by decide) (by decide) (by decide)
  have hAne : A.length ≠ 0 := by
    intro e; exact hA1 (List.length_eq_zero.1 e)
  have hBne : B.length ≠ 0 := by
    intro e; exact hB1 (List.length_eq_zero.1 e)
  unfold tryexpand_brace_sequence
  simp only [hd1, wcschr_append A '.' _ hA2, hAne, if_false, hA3, hget, hz1, hd2,
    wcschr_append B '}' _ hB2, hBne, hB3, hz2, hd3, hlen, ne_eq, not_true_eq_false, or_self,
    Bool.false_eq_true, sequence_loop_eq, Nat.add_sub_cancel, take_append_cons]
  have hw : (if (if (has_leading_zero A false).1 = true then A.length else 0) >
        (if (has_leading_zero B (has_leading_zero A false).2).1 = true then B.length else 0)
      then (if (has_leading_zero A false).1 = true then A.length else 0)
      else (if (has_leading_zero B (has_leading_zero A false).2).1 = true then B.length else 0)) =
      sequence_width A B := by
    rw [has_leading_zero_fst B (has_leading_zero A false).2]
    show _ = max _ _
    generalize (if (has_leading_zero A false).1 = true then A.length else 0) = x
    generalize (if (has_leading_zero B false).1 = true then B.length else 0) = y
    split_ifs <;> omega
  have hs : (has_leading_zero B (has_leading_zero A false).2).2 = sequence_sign A B := rfl
  rw [hw, hs]
  have e5 : PRE.length + 1 + A.length + 2 + B.length + 1 = PRE.length + A.length + B.length + 4 := by
    omega
  rw [e5]

theorem digitChar_mem (d : Nat) (h : d < 10) : Nat.digitChar d ∈ "0123456789".data := by
  interval_cases d <;> decide

theorem toDigitsCore_mem (fuel n : Nat) (acc : List Char)
    (hacc : ∀ c ∈ acc, c ∈ "0123456789".data) :
    ∀ c ∈ Nat.toDigitsCore 10 fuel n acc, c ∈ "0123456789".data := by
  induction fuel generalizing n acc with
  | zero => simpa [Nat.toDigitsCore] using hacc
  | succ fuel ih =>
    have hd : ∀ c ∈ Nat.digitChar (n % 10) :: acc, c ∈ "0123456789".data := by
      intro c hc
      rcases List.mem_cons.1 hc with rfl | hc
      · exact digitChar_mem _ (Nat.mod_lt _ (by decide))
      · exact hacc c hc
    rw [Nat.toDigitsCore]
    split_ifs
    · exact hd
    · exact ih _ _ hd

theorem toDigits_mem (n : Nat) : ∀ c ∈ Nat.toDigits 10 n, c ∈ "0123456789".data :=
  toDigitsCore_mem _ _ [] (by simp)

theorem toDigitsCore_ne_nil (fuel n : Nat) (acc : List Char) :
    Nat.toDigitsCore 10 (fuel + 1) n acc ≠ [] := by
  induction fuel generalizing n acc with
  | zero =>
    rw [Nat.toDigitsCore]
    split_ifs <;> simp [Nat.toDigitsCore]
  | succ fuel ih =>
    rw [Nat.toDigitsCore]
    split_ifs
    · simp
    · exact ih _ _

theorem toDigits_ne_nil (n : Nat) : Nat.toDigits 10 n ≠ [] :=
  toDigitsCore_ne_nil n n []

/-- The characters of a printed number are signs and decimal digits. -/
theorem wprintf_ld_mem (sign : Bool) (len : Nat) (value : Int) :
    ∀ c ∈ wprintf_ld sign len value, c ∈ "+-0123456789".data := by
  intro c hc
  unfold wprintf_ld at hc
  simp only [List.mem_append, List.mem_replicate] at hc
  have hdig : ∀ c ∈ "0123456789".data, c ∈ "+-0123456789".data := by decide
  rcases hc with (hc | hc) | hc
  · split_ifs at hc
    · simp at hc; subst hc; decide
    · simp at hc; subst hc; decide
    · simp at hc
  · rw [hc.2]; decide
  · exact hdig c (toDigits_mem _ c hc)

theorem wprintf_ld_plain (accept : List Char) (sign : Bool) (len : Nat) (value : Int)
    (h : ∀ c ∈ "+-0123456789".data, c ∉ accept) :
    plain accept (wprintf_ld sign len value) = true := by
  apply plain_of_chars
  intro c hc
  have hm := wprintf_ld_mem sign len value c hc
  refine ⟨?_, h c hm⟩
  have : ∀ c ∈ "+-0123456789".data, c ≠ '\\' := by decide
  exact this c hm

theorem concat_results_singletons (f : List Char × List Bool → Option (List (List Char × List Bool)))
    (ws : List (List Char × List Bool)) (h : ∀ w ∈ ws, f w = some [w]) :
    concat_results (ws.map f) = some ws := by
  induction ws with
  | nil => rfl
  | cons w t ih =>
    have hw := h w (List.mem_cons_self _ _)
    have ht := ih (fun x hx => h x (List.mem_cons_of_mem _ hx))
    simp [concat_results, hw, ht]

theorem count_brace_succ (PRE rest : List Char) :
    ∃ k, (PRE ++ '{' :: rest).count '{' = k + 1 := by
  refine ⟨PRE.count '{' + rest.count '{', ?_⟩
  simp [List.count_append, List.count_cons]
  omega

/-- Brace expansion of `PRE{A..B}POST`, with accepted endpoints and no
unescaped opening brace in `PRE` and `POST`. -/
theorem expand_brace_sequence (long_max : Nat) (PRE A B POST : List Char)
    (a b : Int) (split : List Bool)
    (hPRE : plain ['{'] PRE = true) (hPOST : free_of ['{'] POST = true)
    (hA : accepted_endpoint long_max A '.' a) (hB : accepted_endpoint long_max B '}' b) :
    expand_brace long_max (PRE ++ '{' :: (A ++ '.' :: '.' :: (B ++ '}' :: POST))) split =
      some ((integers_from_to a b).map fun value =>
        (PRE ++ wprintf_ld (sequence_sign A B) (sequence_width A B) value ++ POST,
          split.take PRE.length ++
            List.replicate (wprintf_ld (sequence_sign A B) (sequence_width A B) value).length
              false ++
            (split.drop (PRE.length + A.length + B.length + 4)).take POST.length)) := by
  obtain ⟨k, hk⟩ := count_brace_succ PRE (A ++ '.' :: '.' :: (B ++ '}' :: POST))
  unfold expand_brace
  rw [hk, expand_brace_depth]
  have hfind : find_brace long_max (PRE ++ '{' :: (A ++ '.' :: '.' :: (B ++ '}' :: POST))) split
      (PRE ++ '{' :: (A ++ '.' :: '.' :: (B ++ '}' :: POST))) 0 =
      brace_step.expand ((integers_from_to a b).map fun value =>
        (PRE ++ wprintf_ld (sequence_sign A B) (sequence_width A B) value ++ POST,
          split.take PRE.length ++
            List.replicate (wprintf_ld (sequence_sign A B) (sequence_width A B) value).length
              false ++
            (split.drop (PRE.length + A.length + B.length + 4)).take POST.length)) := by
    rw [find_brace_plain_append _ _ _ PRE _ 0 hPRE, find_brace_cons_brace]
    have hne : (A ++ '.' :: '.' :: (B ++ '}' :: POST)).isEmpty = false := by
      cases A <;> simp
    rw [hne]
    simp only [Nat.zero_add, Bool.false_eq_true, if_false]
    rw [tryexpand_brace_sequence_accepted long_max PRE A B POST a b split hA hB]
  rw [hfind]
  simp only
  apply concat_results_singletons
  intro w hw
  obtain ⟨value, -, rfl⟩ := List.mem_map.1 hw
  apply expand_brace_depth_free_of
  simp only
  rw [List.append_assoc, free_of_append _ _ _ hPRE,
    free_of_append _ _ _ (wprintf_ld_plain ['{'] _ _ _ (by decide))]
  exact hPOST

theorem integers_from_to_length (a b : Int) :
    (integers_from_to a b).length = (a - b).natAbs + 1 := by
  unfold integers_from_to
  rw [List.length_map, List.length_range]
  congr 1
  omega

/-- C12: for every pair of texts `A` and `B` accepted as sequence endpoints,
with the integer values `a` and `b`, brace expansion of the word `{A..B}`
produces exactly `|a - b| + 1` words. -/
theorem expand_brace_sequence_count (long_max : Nat) (A B : List Char) (a b : Int)
    (split : List Bool)
    (hA : accepted_endpoint long_max A '.' a) (hB : accepted_endpoint long_max B '}' b) :
    ∃ out, expand_brace long_max ('{' :: (A ++ '.' :: '.' :: (B ++ ['}']))) split = some out ∧
      out.length = (a - b).natAbs + 1 := by
  have h := expand_brace_sequence long_max [] A B [] a b split rfl rfl hA hB
  simp only [List.nil_append] at h
  refine ⟨_, h, ?_⟩
  rw [List.length_map, integers_from_to_length]

theorem has_leading_zero_snd (A : List Char) (sign : Bool) :
    (has_leading_zero A sign).2 = (sign || decide ((A.dropWhile iswspace).head? = some '+')) := by
  unfold has_leading_zero
  generalize A.dropWhile iswspace = r
  cases r with
  | nil => simp
  | cons x t =>
    by_cases hx : x = '+'
    · subst hx; simp
    · by_cases hx' : x = '-'
      · subst hx'; simp
      · split
        · rename_i heq; simp at heq; exact absurd heq.1 hx
        · rename_i heq; simp at heq; exact absurd heq.1 hx'
        · simp [hx]

/-- C15: in a brace sequence `{A..B}` with accepted endpoints, when one of the
endpoints has a `+` in front (after white space) every generated number that
is not negative starts with `+`, and when neither has, no generated number
contains `+`. -/
theorem expand_brace_sequence_plus (long_max : Nat) (A B : List Char) (a b : Int)
    (split : List Bool)
    (hA : accepted_endpoint long_max A '.' a) (hB : accepted_endpoint long_max B '}' b) :
    (∃ out, expand_brace long_max ('{' :: (A ++ '.' :: '.' :: (B ++ ['}']))) split = some out ∧
      out.map Prod.fst =
        (integers_from_to a b).map fun n =>
          wprintf_ld (sequence_sign A B) (sequence_width A B) n) ∧
    (sequence_sign A B = true ↔
      (A.dropWhile iswspace).head? = some '+' ∨ (B.dropWhile iswspace).head? = some '+') ∧
    (sequence_sign A B = true → ∀ n : Int, 0 ≤ n →
      (wprintf_ld (sequence_sign A B) (sequence_width A B) n).head? = some '+') ∧
    (sequence_sign A B = false → ∀ n : Int,
      '+' ∉ wprintf_ld (sequence_sign A B) (sequence_width A B) n) := by
  have h := expand_brace_sequence long_max [] A B [] a b split rfl rfl hA hB
  simp only [List.nil_append, List.append_nil] at h
  refine ⟨⟨_, h, ?_⟩, ?_, ?_, ?_⟩
  · rw [List.map_map]
    rfl
  · unfold sequence_sign
    rw [has_leading_zero_snd, has_leading_zero_snd]
    simp
  · intro hs n hn
    rw [hs]
    unfold wprintf_ld
    have : ¬ n < 0 := by omega
    simp [this]
  · intro hs n
    rw [hs]
    unfold wprintf_ld
    simp only [List.mem_append, List.mem_replicate, not_or]
    refine ⟨⟨?_, ?_⟩, ?_⟩
    · split_ifs <;> simp_all
    · simp
    · intro hmem
      have := toDigits_mem _ _ hmem
      revert this
      decide

theorem scan_elements_cons_esc (b : Char) (rest : List Char) (c nest : Nat) (el : List Nat) :
    scan_elements ('\\' :: b :: rest) c nest el = scan_elements rest (c + 2) nest el := by
  cases rest <;> simp [scan_elements]

theorem scan_elements_cons_other (a : Char) (rest : List Char) (c nest : Nat) (el : List Nat)
    (h0 : a ≠ '\\') (h1 : a ≠ '{') (h2 : a ≠ ',') (h3 : a ≠ '}') :
    scan_elements (a :: rest) c nest el = scan_elements rest (c + 1) nest el := by
  cases rest <;> simp [scan_elements, *]

theorem scan_elements_cons_comma (rest : List Char) (c nest : Nat) (el : List Nat) :
    scan_elements (',' :: rest) c nest el =
      scan_elements rest (c + 1) nest (if nest = 0 then el ++ [c + 1] else el) := by
  cases rest <;> simp [scan_elements]

theorem scan_elements_cons_close (rest : List Char) (c : Nat) (el : List Nat) :
    scan_elements ('}' :: rest) c 0 el =
      if el.length = 1 then none else some (el ++ [c + 1]) := by
  cases rest <;> simp [scan_elements]

/-- The scan for `{`, `,` and `}` passes over a text that has none of them
unescaped. -/
theorem scan_elements_plain_append (e rest : List Char) (c nest : Nat) (el : List Nat)
    (he : plain ['{', ',', '}'] e = true) :
    scan_elements (e ++ rest) c nest el = scan_elements rest (c + e.length) nest el := by
  have key : ∀ e, plain ['{', ',', '}'] e = true → ∀ c,
      scan_elements (e ++ rest) c nest el = scan_elements rest (c + e.length) nest el := by
    apply plain_induction ['{', ',', '}'] (P := fun e => ∀ c,
      scan_elements (e ++ rest) c nest el = scan_elements rest (c + e.length) nest el)
    · intro c; rfl
    · intro b l _ ih c
      simp only [List.cons_append, List.length_cons]
      rw [scan_elements_cons_esc, ih]
      congr 1; omega
    · intro a l ha hacc _ ih c
      simp only [List.cons_append, List.length_cons]
      simp only [List.mem_cons, List.mem_singleton, not_or, List.not_mem_nil, or_false] at hacc
      rw [scan_elements_cons_other _ _ _ _ _ ha hacc.1 hacc.2.1 hacc.2.2, ih]
      congr 1; omega
  exact key e he c

/-- The scan of a brace list of plain elements collects the starts of the
elements and the index after the closing brace. -/
theorem scan_elements_brace_list (elems : List (List Char)) (POST : List Char)
    (hne : elems ≠ []) (hplain : ∀ e ∈ elems, plain ['{', ',', '}'] e = true) :
    ∀ (c : Nat) (el : List Nat), el.length + elems.length ≠ 2 →
      scan_elements (brace_list_body elems ++ POST) c 0 el = some (el ++ element_ends c elems) := by
  induction elems with
  | nil => exact absurd rfl hne
  | cons e es ih =>
    intro c el hlen
    have he := hplain e (List.mem_cons_self _ _)
    cases es with
    | nil =>
      simp only [brace_list_body, List.append_assoc, List.singleton_append]
      rw [scan_elements_plain_append _ _ _ _ _ he, scan_elements_cons_close]
      have : el.length ≠ 1 := by simpa using hlen
      rw [if_neg this]
      rfl
    | cons e' es' =>
      simp only [brace_list_body, List.append_assoc, List.cons_append]
      rw [scan_elements_plain_append _ _ _ _ _ he, scan_elements_cons_comma]
      simp only [if_true]
      have h1 := ih (by simp)
        (fun x hx => hplain x (List.mem_cons_of_mem _ hx)) (c + e.length + 1)
        (el ++ [c + e.length + 1]) (by simp at hlen ⊢; omega)
      simp only [brace_list_body, List.append_assoc, List.cons_append] at h1
      rw [h1]
      simp [element_ends]

theorem drop_add_of_drop_eq (word : List Char) (c : Nat) (e rest : List Char) (x : Char)
    (h : word.drop c = e ++ x :: rest) : word.drop (c + e.length + 1) = rest := by
  have : word.drop (c + e.length + 1) = (word.drop c).drop (e.length + 1) := by
    rw [List.drop_drop]; congr 1
  rw [this, h, drop_append_cons]

theorem take_of_drop_eq (word : List Char) (c : Nat) (e rest : List Char)
    (h : word.drop c = e ++ rest) : (word.drop c).take e.length = e := by
  rw [h, List.take_left]

/-- The words that the list loop of `expand_brace` builds from the scan of a
brace list. -/
theorem list_words_brace_list (word : List Char) (split : List Bool) (hl last : Nat)
    (POST : List Char) (elems : List (List Char)) (hne : elems ≠ []) :
    ∀ c, word.drop c = brace_list_body elems ++ POST →
      (list_words word split hl last (c :: element_ends c elems)).map Prod.fst =
        elems.map (fun e => word.take hl ++ e ++ word.drop last) ∧
      word.drop ((c :: element_ends c elems).getLastD 0) = POST := by
  induction elems with
  | nil => exact absurd rfl hne
  | cons e es ih =>
    intro c hc
    cases es with
    | nil =>
      simp only [brace_list_body, List.append_assoc, List.singleton_append] at hc
      simp only [element_ends, list_words, List.map_cons, List.map_nil]
      have e1 : c + e.length + 1 - c - 1 = e.length := by omega
      rw [e1, take_of_drop_eq word c e _ hc]
      refine ⟨rfl, ?_⟩
      simp only [List.getLastD_cons, List.getLastD_nil]
      exact drop_add_of_drop_eq word c e POST '}' hc
    | cons e' es' =>
      simp only [brace_list_body, List.append_assoc, List.cons_append] at hc
      have hq := drop_add_of_drop_eq word c e _ ',' hc
      obtain ⟨ih1, ih2⟩ := ih (by simp) (c + e.length + 1) (by
        simpa only [brace_list_body, List.append_assoc, List.cons_append] using hq)
      have e1 : c + e.length + 1 - c - 1 = e.length := by omega
      refine ⟨?_, ?_⟩
      · rw [element_ends]
        rw [list_words]
        simp only [List.map_cons]
        rw [e1, take_of_drop_eq word c e _ hc]
        congr 1
      · rw [element_ends]
        simpa only [List.getLastD_cons] using ih2

theorem takeWhile_all {α : Type} (p : α → Bool) (l : List α) :
    ∀ x ∈ l.takeWhile p, p x = true := by
  induction l with
  | nil => simp
  | cons a t ih =>
    intro x hx
    by_cases ha : p a = true
    · rw [List.takeWhile_cons_of_pos ha] at hx
      rcases List.mem_cons.1 hx with rfl | hx
      · exact ha
      · exact ih x hx
    · rw [List.takeWhile_cons_of_neg ha] at hx
      simp at hx

theorem is_digit_numeric (base : Nat) (c : Char) (h : is_digit base c = true) :
    wcs_numeric c = true := by
  unfold is_digit at h
  unfold wcs_numeric
  cases hd : digit_value c with
  | none => simp [hd] at h
  | some d => simp

theorem hex_mark_true (s : List Char) (h : hex_mark s = true) :
    ∃ x d t, s = '0' :: x :: d :: t ∧ (x = 'x' ∨ x = 'X') := by
  unfold hex_mark at h
  split at h
  · rename_i x d t
    simp only [Bool.and_eq_true, Bool.or_eq_true, beq_iff_eq] at h
    exact ⟨x, d, t, rfl, h.1⟩
  · exact absurd h (by simp)

/-- What `wcstol` scans is a prefix of its argument made of the characters of
numerals. -/
theorem scan_numeral_prefix (s : List Char) :
    ∃ pre tail, s = pre ++ (scan_numeral s).digits ++ tail ∧
      pre.length = (scan_numeral s).skipped ∧
      ∀ c ∈ pre ++ (scan_numeral s).digits, wcs_numeric c = true := by
  have hsp : s = s.takeWhile iswspace ++ s.dropWhile iswspace :=
    (List.takeWhile_append_dropWhile iswspace s).symm
  have hspaces : ∀ c ∈ s.takeWhile iswspace, wcs_numeric c = true := by
    intro c hc
    have := takeWhile_all iswspace s c hc
    simp [wcs_numeric, this]
  generalize hs1 : s.dropWhile iswspace = s1 at hsp
  -- the sign
  have hsign : ∃ sg s2, s1 = sg ++ s2 ∧
      sg.length = (if s1.head? = some '+' ∨ s1.head? = some '-' then 1 else 0) ∧
      s2 = s1.drop (if s1.head? = some '+' ∨ s1.head? = some '-' then 1 else 0) ∧
      ∀ c ∈ sg, wcs_numeric c = true := by
    cases s1 with
    | nil => exact ⟨[], [], rfl, by simp, by simp, by simp⟩
    | cons x t =>
      by_cases hx : x = '+' ∨ x = '-'
      · refine ⟨[x], t, rfl, by simp [hx], by simp [hx], ?_⟩
        intro c hc
        simp at hc
        subst hc
        rcases hx with rfl | rfl <;> decide
      · refine ⟨[], x :: t, rfl, by simp [hx], by simp [hx], by simp⟩
  obtain ⟨sg, s2, hs1eq, hsglen, hs2, hsg⟩ := hsign
  -- the base mark
  have hhex : ∃ hx s3, s2 = hx ++ s3 ∧
      hx.length = (if hex_mark s2 = true then 2 else 0) ∧
      s3 = (if hex_mark s2 = true then s2.drop 2 else s2) ∧
      ∀ c ∈ hx, wcs_numeric c = true := by
    by_cases hh : hex_mark s2 = true
    · rw [if_pos hh, if_pos hh]
      obtain ⟨x, d, t, rfl, hxx⟩ := hex_mark_true s2 hh
      refine ⟨['0', x], d :: t, rfl, rfl, rfl, ?_⟩
      intro c hc
      simp at hc
      rcases hc with rfl | rfl
      · decide
      · rcases hxx with rfl | rfl <;> decide
    · rw [if_neg hh, if_neg hh]
      exact ⟨[], s2, rfl, rfl, rfl, by simp⟩
  obtain ⟨hx, s3, hs2eq, hhxlen, hs3, hhx⟩ := hhex
  have hscan : scan_numeral s =
      { negative := decide (s1.head? = some '-'),
        base := (if hex_mark s2 = true then 16 else if s2.head? = some '0' then 8 else 10),
        skipped := (s.takeWhile iswspace).length +
          (if s1.head? = some '+' ∨ s1.head? = some '-' then 1 else 0) +
          (if hex_mark s2 = true then 2 else 0),
        digits := s3.takeWhile (is_digit
          (if hex_mark s2 = true then 16 else if s2.head? = some '0' then 8 else 10)) } := by
    unfold scan_numeral
    simp only [hs1, ← hs2, ← hs3]
  rw [hscan]
  simp only
  generalize (if hex_mark s2 = true then 16 else if s2.head? = some '0' then 8 else 10) = base
  refine ⟨s.takeWhile iswspace ++ sg ++ hx, s3.dropWhile (is_digit base), ?_, ?_, ?_⟩
  · have h3 : s3 = s3.takeWhile (is_digit base) ++ s3.dropWhile (is_digit base) :=
      (List.takeWhile_append_dropWhile _ s3).symm
    calc s = s.takeWhile iswspace ++ s1 := hsp
      _ = s.takeWhile iswspace ++ (sg ++ (hx ++ s3)) := by rw [hs1eq, hs2eq]
      _ = s.takeWhile iswspace ++ (sg ++ (hx ++ (s3.takeWhile (is_digit base) ++
            s3.dropWhile (is_digit base)))) := by rw [← h3]
      _ = _ := by simp only [List.append_assoc]
  · simp only [List.length_append, hsglen, hhxlen]
  · intro c hc
    simp only [List.mem_append] at hc
    rcases hc with ((hc | hc) | hc) | hc
    · exact hspaces c hc
    · exact hsg c hc
    · exact hhx c hc
    · exact is_digit_numeric base c (takeWhile_all _ _ c hc)

/-- The characters `wcstol` consumes are characters of numerals. -/
theorem wcstol_consumed_numeric (long_max : Nat) (s : List Char) (i : Nat)
    (hi : i < (wcstol long_max s).consumed) :
    ∃ c, s[i]? = some c ∧ wcs_numeric c = true := by
  obtain ⟨pre, tail, hs, hlen, hnum⟩ := scan_numeral_prefix s
  have hle : (wcstol long_max s).consumed ≤ (pre ++ (scan_numeral s).digits).length := by
    unfold wcstol
    simp only [List.length_append, hlen]
    split_ifs <;> simp
  have hi' : i < (pre ++ (scan_numeral s).digits).length := by omega
  refine ⟨(pre ++ (scan_numeral s).digits)[i], ?_, hnum _ (List.getElem_mem _)⟩
  conv_lhs => rw [hs]
  rw [List.getElem?_append_left hi', List.getElem?_eq_getElem hi']

theorem wcschr_some (s : List Char) (ch : Char) (d : Nat) (h : wcschr s ch = some d) :
    s[d]? = some ch := by
  induction s generalizing d with
  | nil => simp [wcschr] at h
  | cons a t ih =>
    by_cases ha : a = ch
    · simp [wcschr, ha] at h
      subst h; simp [ha]
    · simp only [wcschr, ha, if_false, Option.map_eq_some'] at h
      obtain ⟨d', hd', rfl⟩ := h
      simpa using ih d' hd'

/-- When `tryexpand_brace_sequence` succeeds, the text after the opening brace
starts with characters of numerals and dots up to a closing brace. -/
theorem tryexpand_brace_sequence_some (long_max : Nat) (word : List Char) (split : List Bool)
    (startc : Nat) (ws : List (List Char × List Bool))
    (h : tryexpand_brace_sequence long_max word split startc = some ws) :
    ∃ m : Nat, (∀ i : Nat, i < m → ∃ ch, (word.drop startc)[i]? = some ch ∧
        (wcs_numeric ch = true ∨ ch = '.')) ∧
      (word.drop startc)[m]? = some '}' := by
  unfold tryexpand_brace_sequence at h
  simp only at h
  cases hdot : wcschr (word.drop startc) '.' with
  | none => rw [hdot] at h; simp at h
  | some d =>
    rw [hdot] at h
    simp only at h
    by_cases h1 : d = 0
    · rw [if_pos h1] at h; simp at h
    rw [if_neg h1] at h
    by_cases h2 : (wcstol long_max (word.drop startc)).range_error = true ∨
        (wcstol long_max (word.drop startc)).consumed ≠ d ∨
        (word.drop startc).getD (d + 1) (Char.ofNat 0) ≠ '.'
    · rw [if_pos h2] at h; simp at h
    rw [if_neg h2] at h
    cases hbr : wcschr (word.drop (startc + d + 2)) '}' with
    | none => rw [hbr] at h; simp at h
    | some b =>
      rw [hbr] at h
      simp only at h
      by_cases h3 : b = 0
      · rw [if_pos h3] at h; simp at h
      rw [if_neg h3] at h
      by_cases h4 : (wcstol long_max (word.drop (startc + d + 2))).range_error = true ∨
          (wcstol long_max (word.drop (startc + d + 2))).consumed ≠ b
      · rw [if_pos h4] at h; simp at h
      simp only [not_or, not_not, Bool.not_eq_true] at h2 h4
      obtain ⟨-, hc1, hdot2⟩ := h2
      obtain ⟨-, hc2⟩ := h4
      have hdrop : word.drop (startc + d + 2) = (word.drop startc).drop (d + 2) := by
        rw [List.drop_drop]; congr 1
      refine ⟨d + 2 + b, ?_, ?_⟩
      · intro i hi
        by_cases hi1 : i < d
        · obtain ⟨ch, hch, hnum⟩ := wcstol_consumed_numeric long_max (word.drop startc) i
            (by rw [hc1]; exact hi1)
          exact ⟨ch, hch, Or.inl hnum⟩
        · by_cases hi2 : i = d
          · subst hi2
            exact ⟨'.', wcschr_some _ _ _ hdot, Or.inr rfl⟩
          · by_cases hi3 : i = d + 1
            · subst hi3
              refine ⟨'.', ?_, Or.inr rfl⟩
              rw [List.getD_eq_getElem?_getD] at hdot2
              cases hg : (word.drop startc)[d + 1]? with
              | none =>
                rw [hg] at hdot2
                simp at hdot2
              | some x =>
                rw [hg] at hdot2
                simp at hdot2
                rw [hdot2]
            · obtain ⟨ch, hch, hnum⟩ := wcstol_consumed_numeric long_max
                (word.drop (startc + d + 2)) (i - (d + 2)) (by rw [hc2]; omega)
              refine ⟨ch, ?_, Or.inl hnum⟩
              rw [hdrop, List.getElem?_drop] at hch
              have : d + 2 + (i - (d + 2)) = i := by omega
              rw [this] at hch
              exact hch
      · have := wcschr_some _ _ _ hbr
        rw [hdrop, List.getElem?_drop] at this
        exact this

theorem plain_getElem_not_mem (accept : List Char) (e : List Char)
    (he : plain accept e = true) (hacc : '\\' ∉ accept) :
    ∀ m : Nat, (∀ i : Nat, i < m → e[i]? ≠ some '\\') → ∀ x, e[m]? = some x → x ∉ accept := by
  intro m
  induction m generalizing e with
  | zero =>
    intro _ x hx
    cases e with
    | nil => simp at hx
    | cons a l =>
      simp at hx
      subst hx
      by_cases ha : a = '\\'
      · rw [ha]; exact hacc
      · rw [plain_cons_ne _ _ _ ha] at he
        simp only [Bool.and_eq_true, Bool.not_eq_true', decide_eq_false_iff_not] at he
        exact he.1
  | succ m ih =>
    intro hno x hx
    cases e with
    | nil => simp at hx
    | cons a l =>
      have ha : a ≠ '\\' := by
        intro e0
        exact hno 0 (by omega) (by simp [e0])
      rw [plain_cons_ne _ _ _ ha] at he
      simp only [Bool.and_eq_true] at he
      simp only [List.getElem?_cons_succ] at hx
      exact ih l he.2 (fun i hi => by
        have := hno (i + 1) (by omega)
        simpa using this) x hx

/-- A brace list of at least two plain elements is not a sequence. -/
theorem tryexpand_brace_sequence_list (long_max : Nat) (word : List Char) (split : List Bool)
    (startc : Nat) (e : List Char) (tail : List Char)
    (he : plain ['{', ',', '}'] e = true) (hdrop : word.drop startc = e ++ ',' :: tail) :
    tryexpand_brace_sequence long_max word split startc = none := by
  cases h : tryexpand_brace_sequence long_max word split startc with
  | none => rfl
  | some ws =>
    exfalso
    obtain ⟨m, hm1, hm2⟩ := tryexpand_brace_sequence_some long_max word split startc ws h
    rw [hdrop] at hm1 hm2
    have hharmless : ∀ ch, (wcs_numeric ch = true ∨ ch = '.') →
        ch ≠ '\\' ∧ ch ≠ ',' ∧ ch ≠ '}' := by
      intro ch hch
      refine ⟨?_, ?_, ?_⟩ <;> rintro rfl <;> revert hch <;> decide
    have hm_le : m ≤ e.length := by
      by_contra hgt
      obtain ⟨ch, hch, hnum⟩ := hm1 e.length (by omega)
      rw [List.getElem?_append_right (le_refl _)] at hch
      simp at hch
      exact (hharmless ch hnum).2.1 hch.symm
    rcases Nat.lt_or_eq_of_le hm_le with hlt | heq
    · rw [List.getElem?_append_left hlt] at hm2
      have := plain_getElem_not_mem ['{', ',', '}'] e he (by decide) m (by
        intro i hi hbs
        obtain ⟨ch, hch, hnum⟩ := hm1 i hi
        rw [List.getElem?_append_left (by omega)] at hch
        rw [hbs] at hch
        exact (hharmless ch hnum).1 (Option.some.inj hch).symm) '}' hm2
      exact this (by simp)
    · rw [heq, List.getElem?_append_right (le_refl _)] at hm2
      simp at hm2

theorem escaped_wcspbrk_cons_esc (accept : List Char) (b : Char) (rest : List Char) :
    escaped_wcspbrk ('\\' :: b :: rest) accept = (escaped_wcspbrk rest accept).map (· + 2) := by
  cases rest <;> simp [escaped_wcspbrk]

theorem escaped_wcspbrk_cons_ne (accept : List Char) (a : Char) (rest : List Char)
    (ha : a ≠ '\\') :
    escaped_wcspbrk (a :: rest) accept =
      if a ∈ accept then some 0 else (escaped_wcspbrk rest accept).map (· + 1) := by
  cases rest <;> simp [escaped_wcspbrk, ha]

/-- A string is `free_of accept` exactly when `escaped_wcspbrk` finds nothing
in it. -/
theorem escaped_wcspbrk_eq_none (accept : List Char) :
    ∀ s : List Char, escaped_wcspbrk s accept = none ↔ free_of accept s = true := by
  intro s
  induction s using list_two_step with
  | h0 => simp [escaped_wcspbrk, free_of]
  | h1 a =>
    by_cases ha : a = '\\'
    · subst ha; simp [escaped_wcspbrk, free_of]
    · rw [escaped_wcspbrk_cons_ne _ _ _ ha, free_of_cons_ne _ _ _ ha]
      by_cases hm : a ∈ accept <;> simp [hm, escaped_wcspbrk, free_of]
  | h2 a b l ih2 ih1 =>
    by_cases ha : a = '\\'
    · subst ha
      rw [escaped_wcspbrk_cons_esc, free_of_cons_esc, ← ih2]
      simp
    · rw [escaped_wcspbrk_cons_ne _ _ _ ha, free_of_cons_ne _ _ _ ha]
      by_cases hm : a ∈ accept
      · simp [hm]
      · simp only [hm, if_false, Option.map_eq_none', ih1]
        simp

/-- The loop of `expand_brace` from the label `start` goes to the place that
`escaped_wcspbrk(c, L"{")` finds, and adds the word as it is when there is
none. -/
theorem find_brace_search (long_max : Nat) (word : List Char) (split : List Bool) :
    ∀ (rest : List Char) (c : Nat),
    find_brace long_max word split rest c =
      match escaped_wcspbrk rest ['{'] with
      | none => brace_step.literal
      | some i => find_brace long_max word split (rest.drop i) (c + i) := by
  intro rest
  induction rest using list_two_step with
  | h0 => intro c; rfl
  | h1 a =>
    intro c
    by_cases ha : a = '\\'
    · subst ha; simp [find_brace, escaped_wcspbrk]
    · rw [escaped_wcspbrk_cons_ne _ _ _ ha]
      by_cases hb : a = '{'
      · subst hb; simp
      · rw [find_brace_cons_other _ _ _ _ _ _ ha hb]
        simp [hb, escaped_wcspbrk, find_brace]
  | h2 a b l ih2 ih1 =>
    intro c
    by_cases ha : a = '\\'
    · subst ha
      rw [find_brace_cons_esc, escaped_wcspbrk_cons_esc, ih2]
      cases escaped_wcspbrk l ['{'] with
      | none => rfl
      | some i =>
        simp only [Option.map_some', List.drop_succ_cons]
        congr 1
        omega
    · rw [escaped_wcspbrk_cons_ne _ _ _ ha]
      by_cases hb : a = '{'
      · subst hb; simp
      · rw [find_brace_cons_other _ _ _ _ _ _ ha hb, ih1]
        simp only [List.mem_singleton, hb, if_false]
        cases escaped_wcspbrk (b :: l) ['{'] with
        | none => rfl
        | some i =>
          simp only [Option.map_some', List.drop_succ_cons]
          congr 1
          omega

/-- The splittability strings that the list loop of `expand_brace` builds from
the scan of a brace list. -/
theorem list_words_brace_list_flags (word : List Char) (split : List Bool) (hl last : Nat)
    (POST : List Char) (elems : List (List Char)) (hne : elems ≠ []) :
    ∀ c, word.drop c = brace_list_body elems ++ POST →
      (list_words word split hl last (c :: element_ends c elems)).map Prod.snd =
        (element_flags split c elems).map (fun f =>
          split.take hl ++ f ++ (split.drop last).take (word.length - last)) := by
  induction elems with
  | nil => exact absurd rfl hne
  | cons e es ih =>
    intro c hc
    have e1 : c + e.length + 1 - c - 1 = e.length := by omega
    cases es with
    | nil =>
      simp only [element_ends, element_flags, list_words, List.map_cons, List.map_nil]
      rw [e1]
    | cons e' es' =>
      simp only [brace_list_body, List.append_assoc, List.cons_append] at hc
      have hq := drop_add_of_drop_eq word c e _ ',' hc
      have ih1 := ih (by simp) (c + e.length + 1) (by
        simpa only [brace_list_body, List.append_assoc, List.cons_append] using hq)
      rw [element_ends, list_words, element_flags]
      simp only [List.map_cons]
      rw [e1, ih1]

theorem getLastD_element_ends (elems : List (List Char)) (hne : elems ≠ []) :
    ∀ c, (c :: element_ends c elems).getLastD 0 = c + (brace_list_body elems).length := by
  induction elems with
  | nil => exact absurd rfl hne
  | cons e es ih =>
    intro c
    cases es with
    | nil => simp [element_ends, brace_list_body]; omega
    | cons e' es' =>
      have ih1 := ih (by simp) (c + e.length + 1)
      have hsame : ∀ (l : List Nat) (x d1 d2 : Nat), (x :: l).getLastD d1 = (x :: l).getLastD d2 := by
        intro l x d1 d2
        rw [List.getLastD_eq_getLast?, List.getLastD_eq_getLast?,
          List.getLast?_eq_getLast _ (List.cons_ne_nil x l)]
        rfl
      rw [element_ends, List.getLastD_cons, hsame _ _ c 0, ih1]
      simp only [brace_list_body, List.length_append, List.length_cons]
      omega

/-- The step of `expand_brace` at a brace list `PRE{e1,...,en}POST` of at least
two plain elements: the words `PRE ei POST`, in order, each with the flags of
its parts. -/
theorem find_brace_list (long_max : Nat) (PRE POST : List Char) (elems : List (List Char))
    (split : List Bool) (hn : 2 ≤ elems.length)
    (hPRE : plain ['{'] PRE = true)
    (helems : ∀ e ∈ elems, plain ['{', ',', '}'] e = true) :
    ∃ words, find_brace long_max (PRE ++ '{' :: (brace_list_body elems ++ POST)) split
        (PRE ++ '{' :: (brace_list_body elems ++ POST)) 0 = brace_step.expand words ∧
      words.map Prod.fst = elems.map (fun e => PRE ++ e ++ POST) ∧
      words.map Prod.snd = (element_flags split (PRE.length + 1) elems).map (fun f =>
        split.take PRE.length ++ f ++
          (split.drop (PRE.length + 1 + (brace_list_body elems).length)).take POST.length) := by
  have hne : elems ≠ [] := by
    intro h0; rw [h0] at hn; simp at hn
  have hdrop : (PRE ++ '{' :: (brace_list_body elems ++ POST)).drop (PRE.length + 1) =
      brace_list_body elems ++ POST := drop_append_cons PRE '{' _
  have htake : (PRE ++ '{' :: (brace_list_body elems ++ POST)).take PRE.length = PRE := by
    simp
  have hseq : tryexpand_brace_sequence long_max (PRE ++ '{' :: (brace_list_body elems ++ POST))
      split (PRE.length + 1) = none := by
    match elems, hn, helems with
    | e1 :: e2 :: es, _, helems =>
      apply tryexpand_brace_sequence_list long_max _ split _ e1
        (brace_list_body (e2 :: es) ++ POST) (helems e1 (List.mem_cons_self _ _))
      rw [drop_append_cons]
      simp [brace_list_body]
  have hscan := scan_elements_brace_list elems POST hne helems (PRE.length + 1) [PRE.length + 1]
    (by simp only [List.length_singleton]; omega)
  have hlastD := getLastD_element_ends elems hne (PRE.length + 1)
  obtain ⟨hwords, hlast⟩ := list_words_brace_list (PRE ++ '{' :: (brace_list_body elems ++ POST))
    split PRE.length
    (((PRE.length + 1) :: element_ends (PRE.length + 1) elems).getLastD 0) POST elems hne
    (PRE.length + 1) hdrop
  have hflags := list_words_brace_list_flags (PRE ++ '{' :: (brace_list_body elems ++ POST))
    split PRE.length
    (((PRE.length + 1) :: element_ends (PRE.length + 1) elems).getLastD 0) POST elems hne
    (PRE.length + 1) hdrop
  refine ⟨list_words (PRE ++ '{' :: (brace_list_body elems ++ POST)) split PRE.length
    (((PRE.length + 1) :: element_ends (PRE.length + 1) elems).getLastD 0)
    ((PRE.length + 1) :: element_ends (PRE.length + 1) elems), ?_, ?_, ?_⟩
  · rw [find_brace_plain_append _ _ _ PRE _ 0 hPRE, find_brace_cons_brace]
    have hemp : (brace_list_body elems ++ POST).isEmpty = false := by
      match elems, hn with
      | e1 :: e2 :: es, _ => cases e1 <;> simp [brace_list_body]
    rw [hemp]
    simp only [Nat.zero_add, Bool.false_eq_true, if_false]
    rw [hseq]
    simp only
    rw [hscan]
    simp only [List.singleton_append, List.headD_cons, Nat.add_sub_cancel]
  · rw [hwords, hlast, htake]
  · rw [hflags, hlastD]
    have hlen : (PRE ++ '{' :: (brace_list_body elems ++ POST)).length -
        (PRE.length + 1 + (brace_list_body elems).length) = POST.length := by
      simp only [List.length_append, List.length_cons]
      omega
    rw [hlen]

/-- Brace expansion of a list `PRE{e1,...,en}POST` of at least two plain
elements, with no unescaped opening brace in `PRE` and `POST`: the words and
their splittability strings. -/
theorem expand_brace_list_parts (long_max : Nat) (PRE POST : List Char)
    (elems : List (List Char)) (split : List Bool) (hn : 2 ≤ elems.length)
    (hPRE : plain ['{'] PRE = true) (hPOST : free_of ['{'] POST = true)
    (helems : ∀ e ∈ elems, plain ['{', ',', '}'] e = true) :
    ∃ out, expand_brace long_max (PRE ++ '{' :: (brace_list_body elems ++ POST)) split =
        some out ∧
      out.map Prod.fst = elems.map (fun e => PRE ++ e ++ POST) ∧
      out.map Prod.snd = (element_flags split (PRE.length + 1) elems).map (fun f =>
        split.take PRE.length ++ f ++
          (split.drop (PRE.length + 1 + (brace_list_body elems).length)).take POST.length) := by
  obtain ⟨k, hk⟩ := count_brace_succ PRE (brace_list_body elems ++ POST)
  obtain ⟨words, hfind, hwords, hflags⟩ :=
    find_brace_list long_max PRE POST elems split hn hPRE helems
  refine ⟨words, ?_, hwords, hflags⟩
  unfold expand_brace
  rw [hk, expand_brace_depth, hfind]
  simp only
  apply concat_results_singletons
  intro w hw
  have hw1 : w.1 ∈ words.map Prod.fst := List.mem_map_of_mem _ hw
  rw [hwords] at hw1
  obtain ⟨e, he, heq⟩ := List.mem_map.1 hw1
  have := expand_brace_depth_free_of long_max k w.1 w.2 (by
    rw [← heq, List.append_assoc, free_of_append _ _ _ hPRE,
      free_of_append _ _ _ (plain_mono ['{', ',', '}'] ['{'] e (by simp) (helems e he))]
    exact hPOST)
  exact this

/-- C16 (amended): for every `PRE`, `POST` and list of at least two elements
`e1..en`, where the elements have no unescaped brace or comma and do not end
in an unpaired backslash, `PRE` has no unescaped opening brace and does not
end in an unpaired backslash, and `POST` has no unescaped opening brace, brace
expansion of `PRE{e1,...,en}POST` yields exactly the `n` words `PRE e1 POST`,
..., `PRE en POST` in that order. -/
theorem expand_brace_list (long_max : Nat) (PRE POST : List Char) (elems : List (List Char))
    (split : List Bool) (hn : 2 ≤ elems.length)
    (hPRE : plain ['{'] PRE = true) (hPOST : free_of ['{'] POST = true)
    (helems : ∀ e ∈ elems, plain ['{', ',', '}'] e = true) :
    ∃ out, expand_brace long_max (PRE ++ '{' :: (brace_list_body elems ++ POST)) split =
        some out ∧
      out.map Prod.fst = elems.map (fun e => PRE ++ e ++ POST) := by
  obtain ⟨out, h1, h2, -⟩ :=
    expand_brace_list_parts long_max PRE POST elems split hn hPRE hPOST helems
  exact ⟨out, h1, h2⟩

/-- A brace pair around a plain text that is not a sequence is passed over: the
search resumes after its opening brace. -/
theorem find_brace_single (long_max : Nat) (word : List Char) (split : List Bool)
    (e POST : List Char) (c : Nat)
    (he : plain ['{', ',', '}'] e = true)
    (hseq : tryexpand_brace_sequence long_max word split (c + 1) = none) :
    find_brace long_max word split ('{' :: (e ++ '}' :: POST)) c =
      find_brace long_max word split (e ++ '}' :: POST) (c + 1) := by
  rw [find_brace_cons_brace]
  have hemp : (e ++ '}' :: POST).isEmpty = false := by cases e <;> simp
  rw [hemp, hseq]
  simp only [Bool.false_eq_true, if_false]
  rw [scan_elements_plain_append _ _ _ _ _ he, scan_elements_cons_close]
  simp

/-- C17: a brace pair without an unescaped comma at its own depth is not
expanded as a list and the scan resumes after its opening brace.  Brace
expansion of `{{a,b}}` yields exactly the two words `{a}` and `{b}`; a word
with no unescaped `{`, which is one where `escaped_wcspbrk` finds none, its
braces and commas all escaped by backslashes for instance, is returned
unchanged as a single word; and so is a word
`PRE{e}POST` whose only unescaped opening brace starts neither a sequence nor
a list. -/
theorem expand_brace_without_comma (long_max : Nat) :
    (∀ split : List Bool,
      (expand_brace long_max "{{a,b}}".data split).map (fun out => out.map Prod.fst) =
        some ["{a}".data, "{b}".data]) ∧
    (∀ (word : List Char) (split : List Bool), free_of ['{'] word = true →
      expand_brace long_max word split = some [(word, split)]) ∧
    (∀ word : List Char, free_of ['{'] word = true ↔ escaped_wcspbrk word ['{'] = none) ∧
    (∀ split : List Bool,
      expand_brace long_max ['a', '\\', '{', 'b', '\\', ',', 'c', '\\', '}'] split =
        some [(['a', '\\', '{', 'b', '\\', ',', 'c', '\\', '}'], split)]) ∧
    (∀ (PRE e POST : List Char) (split : List Bool),
      plain ['{'] PRE = true → plain ['{', ',', '}'] e = true → free_of ['{'] POST = true →
      tryexpand_brace_sequence long_max (PRE ++ '{' :: (e ++ '}' :: POST)) split
        (PRE.length + 1) = none →
      expand_brace long_max (PRE ++ '{' :: (e ++ '}' :: POST)) split =
        some [(PRE ++ '{' :: (e ++ '}' :: POST), split)]) := by
  refine ⟨?_, ?_, ?_, ?_, ?_⟩
  · intro split
    rfl
  · intro word split h
    exact expand_brace_depth_free_of long_max _ word split h
  · intro word
    exact (escaped_wcspbrk_eq_none ['{'] word).symm
  · intro split
    exact expand_brace_depth_free_of long_max _ _ split (by decide)
  · intro PRE e POST split hPRE he hPOST hseq
    obtain ⟨k, hk⟩ := count_brace_succ PRE (e ++ '}' :: POST)
    unfold expand_brace
    rw [hk, expand_brace_depth]
    have hfind : find_brace long_max (PRE ++ '{' :: (e ++ '}' :: POST)) split
        (PRE ++ '{' :: (e ++ '}' :: POST)) 0 = brace_step.literal := by
      rw [find_brace_plain_append _ _ _ PRE _ 0 hPRE, Nat.zero_add,
        find_brace_single _ _ _ _ _ _ he hseq]
      apply find_brace_free_of
      rw [free_of_append _ _ _ (plain_mono ['{', ',', '}'] ['{'] e (by simp) he)]
      rw [free_of_cons_ne _ _ _ (by decide)]
      simp [hPOST]
    rw [hfind]

/-! ## Theorems: brace expansion keeps the splittability strings in step -/

theorem flags_in_step_refl (word : List Char) (split : List Bool)
    (hlen : word.length = split.length) : flags_in_step word split (word, split) :=
  ⟨hlen, fun _ hp => Or.inl hp⟩

theorem flags_in_step_trans (word : List Char) (split : List Bool)
    (w1 w2 : List Char × List Bool) (h1 : flags_in_step word split w1)
    (h2 : flags_in_step w1.1 w1.2 w2) : flags_in_step word split w2 := by
  refine ⟨h2.1, fun p hp => ?_⟩
  rcases h2.2 p hp with h | h
  · exact h1.2 p h
  · exact Or.inr h

theorem zip_take_subset (word : List Char) (split : List Bool) (n : Nat)
    (p : Char × Bool) (hp : p ∈ (word.take n).zip (split.take n)) : p ∈ word.zip split := by
  rw [List.zip, ← List.take_zipWith] at hp
  exact List.mem_of_mem_take hp

theorem zip_drop_subset (word : List Char) (split : List Bool) (n : Nat)
    (p : Char × Bool) (hp : p ∈ (word.drop n).zip (split.drop n)) : p ∈ word.zip split := by
  rw [List.zip, ← List.drop_zipWith] at hp
  exact List.mem_of_mem_drop hp

theorem count_drop_le (word : List Char) (a : Char) (m n : Nat) (h : m ≤ n) :
    (word.drop n).count a ≤ (word.drop m).count a :=
  (List.drop_sublist_drop_left word h).count_le a

theorem count_drop_brace (word : List Char) (hl : Nat) (h : word[hl]? = some '{') :
    word.count '{' = (word.take hl).count '{' + 1 + (word.drop (hl + 1)).count '{' := by
  obtain ⟨hlt, hget⟩ := List.getElem?_eq_some_iff.1 h
  conv_lhs => rw [← List.take_append_drop hl word]
  rw [List.count_append, List.drop_eq_getElem_cons hlt, hget, List.count_cons_self]
  omega

/-- A word put together from the text before an opening brace, a text without
opening brace and parts of the input behind the brace, each with its flags. -/
theorem assembled_step (word : List Char) (split : List Bool) (hl p n last : Nat)
    (hlen : word.length = split.length) (hbrace : word[hl]? = some '{')
    (h1 : hl < p) (h2 : p + n ≤ last) :
    flags_in_step word split
      (word.take hl ++ (word.drop p).take n ++ word.drop last,
        split.take hl ++ (split.drop p).take n ++ (split.drop last).take (word.length - last)) ∧
    (word.take hl ++ (word.drop p).take n ++ word.drop last).count '{' < word.count '{' := by
  have htail : (split.drop last).take (word.length - last) = split.drop last := by
    apply List.take_of_length_le
    rw [List.length_drop, hlen]
  rw [htail]
  have hA : (word.take hl).length = (split.take hl).length := by
    rw [List.length_take, List.length_take, hlen]
  have hB : ((word.drop p).take n).length = ((split.drop p).take n).length := by
    rw [List.length_take, List.length_take, List.length_drop, List.length_drop, hlen]
  refine ⟨⟨?_, ?_⟩, ?_⟩
  · simp only [List.length_append, hA, hB, List.length_drop, hlen]
  · intro q hq
    left
    rw [List.zip_append (by simp only [List.length_append, hA, hB]),
      List.zip_append hA, List.mem_append, List.mem_append] at hq
    rcases hq with (hq | hq) | hq
    · exact zip_take_subset word split hl q hq
    · exact zip_drop_subset word split p q (zip_take_subset _ _ n q hq)
    · exact zip_drop_subset word split last q hq
  · rw [count_drop_brace word hl hbrace, List.count_append, List.count_append]
    have e1 : (word.drop p).count '{' ≤ (word.drop (hl + 1)).count '{' :=
      count_drop_le word '{' (hl + 1) p h1
    have e2 : (word.drop p).count '{' =
        ((word.drop p).take n).count '{' + ((word.drop p).drop n).count '{' := by
      conv_lhs => rw [← List.take_append_drop n (word.drop p)]
      rw [List.count_append]
    have e3 : (word.drop last).count '{' ≤ ((word.drop p).drop n).count '{' := by
      rw [List.drop_drop]
      exact count_drop_le word '{' (p + n) last h2
    omega

/-- A word put together from the text before an opening brace, a generated
number and the input behind the sequence. -/
theorem generated_step (word : List Char) (split : List Bool) (hl after : Nat)
    (number : List Char)
    (hlen : word.length = split.length) (hbrace : word[hl]? = some '{')
    (h1 : hl < after) (hnum : ∀ c ∈ number, c ∈ number_chars) :
    flags_in_step word split
      (word.take hl ++ number ++ word.drop after,
        split.take hl ++ List.replicate number.length false ++
          (split.drop after).take (word.length - after)) ∧
    (word.take hl ++ number ++ word.drop after).count '{' < word.count '{' := by
  have htail : (split.drop after).take (word.length - after) = split.drop after := by
    apply List.take_of_length_le
    rw [List.length_drop, hlen]
  rw [htail]
  have hA : (word.take hl).length = (split.take hl).length := by
    rw [List.length_take, List.length_take, hlen]
  have hB : number.length = (List.replicate number.length false).length := by
    rw [List.length_replicate]
  refine ⟨⟨?_, ?_⟩, ?_⟩
  · simp only [List.length_append, hA, List.length_replicate, List.length_drop, hlen]
  · intro q hq
    rw [List.zip_append (by simp only [List.length_append, hA, List.length_replicate]),
      List.zip_append hA, List.mem_append, List.mem_append] at hq
    rcases hq with (hq | hq) | hq
    · exact Or.inl (zip_take_subset word split hl q hq)
    · right
      obtain ⟨q1, q2⟩ := q
      have hq1 := (List.of_mem_zip hq).1
      have hq2 := (List.of_mem_zip hq).2
      exact ⟨hnum q1 hq1, List.eq_of_mem_replicate hq2⟩
    · exact Or.inl (zip_drop_subset word split after q hq)
  · rw [count_drop_brace word hl hbrace, List.count_append, List.count_append]
    have e1 : (word.drop after).count '{' ≤ (word.drop (hl + 1)).count '{' :=
      count_drop_le word '{' (hl + 1) after h1
    have e2 : number.count '{' = 0 := by
      apply List.count_eq_zero_of_not_mem
      intro hmem
      exact absurd (hnum _ hmem) (by decide)
    omega

/-- Every word of a sequence is in step with the input and has fewer opening
braces than it. -/
theorem tryexpand_brace_sequence_step (long_max : Nat) (word : List Char) (split : List Bool)
    (c : Nat) (ws : List (List Char × List Bool))
    (hlen : word.length = split.length) (hbrace : word[c]? = some '{')
    (h : tryexpand_brace_sequence long_max word split (c + 1) = some ws) :
    ∀ w ∈ ws, flags_in_step word split w ∧ w.1.count '{' < word.count '{' := by
  unfold tryexpand_brace_sequence at h
  simp only at h
  cases hdot : wcschr (word.drop (c + 1)) '.' with
  | none => rw [hdot] at h; simp at h
  | some d =>
    rw [hdot] at h
    simp only at h
    by_cases h1 : d = 0
    · rw [if_pos h1] at h; simp at h
    rw [if_neg h1] at h
    by_cases h2 : (wcstol long_max (word.drop (c + 1))).range_error = true ∨
        (wcstol long_max (word.drop (c + 1))).consumed ≠ d ∨
        (word.drop (c + 1)).getD (d + 1) (Char.ofNat 0) ≠ '.'
    · rw [if_pos h2] at h; simp at h
    rw [if_neg h2] at h
    cases hbr : wcschr (word.drop (c + 1 + d + 2)) '}' with
    | none => rw [hbr] at h; simp at h
    | some b =>
      rw [hbr] at h
      simp only at h
      by_cases h3 : b = 0
      · rw [if_pos h3] at h; simp at h
      rw [if_neg h3] at h
      by_cases h4 : (wcstol long_max (word.drop (c + 1 + d + 2))).range_error = true ∨
          (wcstol long_max (word.drop (c + 1 + d + 2))).consumed ≠ b
      · rw [if_pos h4] at h; simp at h
      rw [if_neg h4] at h
      simp only [Option.some.injEq, Nat.add_sub_cancel] at h
      intro w hw
      rw [← h] at hw
      obtain ⟨value, -, rfl⟩ := List.mem_map.1 hw
      exact generated_step word split c (c + 1 + d + 2 + b + 1) _ hlen hbrace (by omega)
        (fun x hx => wprintf_ld_mem _ _ _ x hx)

/-- The element scan of `expand_brace` goes to the place that
`escaped_wcspbrk(c, L"{,}")` finds, and reaches the label `restart` when
there is none. -/
theorem scan_elements_search : ∀ (rest : List Char) (c nest : Nat) (el : List Nat),
    scan_elements rest c nest el =
      match escaped_wcspbrk rest ['{', ',', '}'] with
      | none => none
      | some i => scan_elements (rest.drop i) (c + i) nest el := by
  intro rest
  induction rest using list_two_step with
  | h0 => intro c nest el; rfl
  | h1 a =>
    intro c nest el
    by_cases ha : a = '\\'
    · subst ha; simp [scan_elements, escaped_wcspbrk]
    · rw [escaped_wcspbrk_cons_ne _ _ _ ha]
      by_cases hm : a ∈ ['{', ',', '}']
      · simp [hm]
      · have hm' := hm
        simp only [List.mem_cons, List.mem_singleton, List.not_mem_nil, or_false,
          not_or] at hm'
        rw [scan_elements_cons_other _ _ _ _ _ ha hm'.1 hm'.2.1 hm'.2.2]
        simp [hm, escaped_wcspbrk, scan_elements]
  | h2 a b l ih2 ih1 =>
    intro c nest el
    by_cases ha : a = '\\'
    · subst ha
      rw [scan_elements_cons_esc, escaped_wcspbrk_cons_esc, ih2]
      cases escaped_wcspbrk l ['{', ',', '}'] with
      | none => rfl
      | some i =>
        simp only [Option.map_some', List.drop_succ_cons]
        congr 1
        omega
    · rw [escaped_wcspbrk_cons_ne _ _ _ ha]
      by_cases hm : a ∈ ['{', ',', '}']
      · simp [hm]
      · have hm' := hm
        simp only [List.mem_cons, List.mem_singleton, List.not_mem_nil, or_false,
          not_or] at hm'
        rw [scan_elements_cons_other _ _ _ _ _ ha hm'.1 hm'.2.1 hm'.2.2, ih1, if_neg hm]
        cases escaped_wcspbrk (b :: l) ['{', ',', '}'] with
        | none => rfl
        | some i =>
          simp only [Option.map_some', List.drop_succ_cons]
          congr 1
          omega

theorem scan_elements_backslash (c nest : Nat) (el : List Nat) :
    scan_elements ['\\'] c nest el = none := by
  simp [scan_elements]

theorem scan_elements_cons_ne (a : Char) (rest : List Char) (c nest : Nat) (el : List Nat)
    (ha : a ≠ '\\') :
    scan_elements (a :: rest) c nest el =
      if a = '{' then scan_elements rest (c + 1) (nest + 1) el
      else if a = ',' then
        scan_elements rest (c + 1) nest (if nest = 0 then el ++ [c + 1] else el)
      else if a = '}' then
        if nest > 0 then scan_elements rest (c + 1) (nest - 1) el
        else if el.length = 1 then none
        else some (el ++ [c + 1])
      else scan_elements rest (c + 1) nest el := by
  cases rest <;> simp [scan_elements, ha]

theorem pairwise_lt_snoc (el : List Nat) (c : Nat) (hp : el.Pairwise (· < ·))
    (hb : ∀ x ∈ el, x ≤ c) : (el ++ [c + 1]).Pairwise (· < ·) := by
  rw [List.pairwise_append]
  refine ⟨hp, List.pairwise_singleton _ _, ?_⟩
  intro x hx y hy
  simp only [List.mem_singleton] at hy
  have := hb x hx
  omega

/-- The entries of `elemlist` at the label `done` are the ones the scan started
with followed by greater ones, in increasing order. -/
theorem scan_elements_sorted : ∀ (n : Nat) (rest : List Char), rest.length ≤ n →
    ∀ (c nest : Nat) (el elemlist : List Nat),
    scan_elements rest c nest el = some elemlist →
    el.Pairwise (· < ·) → (∀ x ∈ el, x ≤ c) →
    elemlist.Pairwise (· < ·) ∧ ∃ more, elemlist = el ++ more ∧ ∀ x ∈ more, c < x := by
  intro n
  induction n with
  | zero =>
    intro rest hn c nest el elemlist h
    cases rest with
    | nil => simp [scan_elements] at h
    | cons a t => simp at hn
  | succ n ih =>
    intro rest hn c nest el elemlist h hp hb
    cases rest with
    | nil => simp [scan_elements] at h
    | cons a t =>
      simp only [List.length_cons, Nat.add_le_add_iff_right] at hn
      have hb1 : ∀ x ∈ el, x ≤ c + 1 := fun x hx => Nat.le_succ_of_le (hb x hx)
      have weaken : ∀ el0 : List Nat, (elemlist.Pairwise (· < ·) ∧
          ∃ more, elemlist = el0 ++ more ∧ ∀ x ∈ more, c + 1 < x) →
          elemlist.Pairwise (· < ·) ∧ ∃ more, elemlist = el0 ++ more ∧ ∀ x ∈ more, c < x := by
        rintro el0 ⟨h1, more, h2, h3⟩
        exact ⟨h1, more, h2, fun x hx => Nat.lt_of_succ_lt (h3 x hx)⟩
      by_cases ha : a = '\\'
      · subst ha
        cases t with
        | nil => rw [scan_elements_backslash] at h; simp at h
        | cons b t' =>
          rw [scan_elements_cons_esc] at h
          simp only [List.length_cons] at hn
          obtain ⟨h1, more, h2, h3⟩ := ih t' (by omega) (c + 2) nest el elemlist h hp
            (fun x hx => by have := hb x hx; omega)
          exact ⟨h1, more, h2, fun x hx => by have := h3 x hx; omega⟩
      · rw [scan_elements_cons_ne _ _ _ _ _ ha] at h
        split_ifs at h with h1 h2 h3 h4 h5 h6
        · exact weaken el (ih t hn (c + 1) (nest + 1) el elemlist h hp hb1)
        · obtain ⟨g1, more, g2, g3⟩ := ih t hn (c + 1) nest (el ++ [c + 1]) elemlist h
            (pairwise_lt_snoc el c hp hb) (by
              intro x hx
              rcases List.mem_append.1 hx with hx | hx
              · exact hb1 x hx
              · simp only [List.mem_singleton] at hx; omega)
          refine ⟨g1, (c + 1) :: more, by rw [g2]; simp, ?_⟩
          intro x hx
          rcases List.mem_cons.1 hx with hx | hx
          · omega
          · have := g3 x hx; omega
        · exact weaken el (ih t hn (c + 1) nest el elemlist h hp hb1)
        · exact weaken el (ih t hn (c + 1) (nest - 1) el elemlist h hp hb1)
        · simp only [Option.some.injEq] at h
          subst h
          exact ⟨pairwise_lt_snoc el c hp hb, [c + 1], rfl, by simp⟩
        · exact weaken el (ih t hn (c + 1) nest el elemlist h hp hb1)

theorem pairwise_lt_le_getLastD (l : List Nat) (hp : l.Pairwise (· < ·)) :
    ∀ x ∈ l, x ≤ l.getLastD 0 := by
  induction l with
  | nil => intro x hx; simp at hx
  | cons a t ih =>
    intro x hx
    rw [List.pairwise_cons] at hp
    cases t with
    | nil =>
      simp only [List.mem_singleton] at hx
      simp [hx]
    | cons b t' =>
      have hlast : (a :: b :: t').getLastD 0 = (b :: t').getLastD 0 := by simp
      rw [hlast]
      rcases List.mem_cons.1 hx with hx | hx
      · have h1 := hp.1 b (List.mem_cons_self _ _)
        have h2 := ih hp.2 b (List.mem_cons_self _ _)
        omega
      · exact ih hp.2 x hx

/-- Every word of the list loop is in step with the input and has fewer
opening braces than it. -/
theorem list_words_step (word : List Char) (split : List Bool) (hl last : Nat)
    (hlen : word.length = split.length) (hbrace : word[hl]? = some '{') :
    ∀ elemlist : List Nat, elemlist.Pairwise (· < ·) →
      (∀ x ∈ elemlist, hl < x ∧ x ≤ last) →
      ∀ w ∈ list_words word split hl last elemlist,
        flags_in_step word split w ∧ w.1.count '{' < word.count '{' := by
  intro elemlist
  induction elemlist with
  | nil => intro _ _ w hw; simp [list_words] at hw
  | cons p t ih =>
    intro hp hb w hw
    cases t with
    | nil => simp [list_words] at hw
    | cons q t' =>
      rw [list_words, List.mem_cons] at hw
      rw [List.pairwise_cons] at hp
      rcases hw with hw | hw
      · subst hw
        have hpq := hp.1 q (List.mem_cons_self _ _)
        have h1 := hb p (List.mem_cons_self _ _)
        have h2 := hb q (List.mem_cons_of_mem _ (List.mem_cons_self _ _))
        exact assembled_step word split hl p (q - p - 1) last hlen hbrace h1.1 (by omega)
      · exact ih hp.2 (fun x hx => hb x (List.mem_cons_of_mem _ hx)) w hw

/-- Every word that a step of `expand_brace` hands to the recursive calls is in
step with the input and has fewer opening braces than it. -/
theorem find_brace_step (long_max : Nat) (word : List Char) (split : List Bool)
    (hlen : word.length = split.length) :
    ∀ (n : Nat) (rest : List Char), rest.length ≤ n → ∀ (c : Nat), word.drop c = rest →
    ∀ words, find_brace long_max word split rest c = brace_step.expand words →
    ∀ w ∈ words, flags_in_step word split w ∧ w.1.count '{' < word.count '{' := by
  intro n
  induction n with
  | zero =>
    intro rest hn c _ words h
    cases rest with
    | nil => simp [find_brace] at h
    | cons a t => simp at hn
  | succ n ih =>
    intro rest hn c hdrop words h
    cases rest with
    | nil => simp [find_brace] at h
    | cons a t =>
      simp only [List.length_cons, Nat.add_le_add_iff_right] at hn
      have hnext : word.drop (c + 1) = t := by
        rw [← List.drop_drop, hdrop]; rfl
      by_cases ha : a = '\\'
      · subst ha
        cases t with
        | nil => rw [find_brace_backslash] at h; simp at h
        | cons b t' =>
          rw [find_brace_cons_esc] at h
          simp only [List.length_cons] at hn
          refine ih t' (by omega) (c + 2) ?_ words h
          rw [← List.drop_drop, hdrop]; rfl
      · by_cases hb : a = '{'
        · subst hb
          have hbrace : word[c]? = some '{' := by
            have := congrArg List.head? hdrop
            rw [List.head?_drop] at this
            simpa using this
          rw [find_brace_cons_brace] at h
          by_cases hemp : t.isEmpty = true
          · rw [if_pos hemp] at h; simp at h
          rw [if_neg hemp] at h
          cases hseq : tryexpand_brace_sequence long_max word split (c + 1) with
          | some ws =>
            rw [hseq] at h
            simp only [brace_step.expand.injEq] at h
            subst h
            exact tryexpand_brace_sequence_step long_max word split c ws hlen hbrace hseq
          | none =>
            rw [hseq] at h
            simp only at h
            cases hscan : scan_elements t (c + 1) 0 [c + 1] with
            | none =>
              rw [hscan] at h
              exact ih t hn (c + 1) hnext words h
            | some elemlist =>
              rw [hscan] at h
              simp only [brace_step.expand.injEq] at h
              subst h
              obtain ⟨hp, more, hmore, hgt⟩ := scan_elements_sorted t.length t (le_refl _)
                (c + 1) 0 [c + 1] elemlist hscan (List.pairwise_singleton _ _) (by simp)
              have hhead : elemlist.headD 0 - 1 = c := by rw [hmore]; simp
              rw [hhead]
              apply list_words_step word split c _ hlen hbrace elemlist hp
              intro x hx
              refine ⟨?_, pairwise_lt_le_getLastD elemlist hp x hx⟩
              rw [hmore] at hx
              rcases List.mem_append.1 hx with hx | hx
              · simp only [List.mem_singleton] at hx; omega
              · have := hgt x hx; omega
        · rw [find_brace_cons_other _ _ _ _ _ _ ha hb] at h
          exact ih t hn (c + 1) hnext words h

theorem concat_results_some (f : List Char × List Bool → Option (List (List Char × List Bool)))
    (P : List Char × List Bool → List Char × List Bool → Prop)
    (ws : List (List Char × List Bool))
    (h : ∀ w ∈ ws, ∃ r, f w = some r ∧ ∀ x ∈ r, P w x) :
    ∃ out, concat_results (ws.map f) = some out ∧ ∀ x ∈ out, ∃ w ∈ ws, P w x := by
  induction ws with
  | nil => exact ⟨[], rfl, fun x hx => by simp at hx⟩
  | cons w t ih =>
    obtain ⟨r, hr, hP⟩ := h w (List.mem_cons_self _ _)
    obtain ⟨out, hout, hQ⟩ := ih (fun x hx => h x (List.mem_cons_of_mem _ hx))
    refine ⟨r ++ out, by simp [concat_results, hr, hout], ?_⟩
    intro x hx
    rcases List.mem_append.1 hx with hx | hx
    · exact ⟨w, List.mem_cons_self _ _, hP x hx⟩
    · obtain ⟨w', hw', hx'⟩ := hQ x hx
      exact ⟨w', List.mem_cons_of_mem _ hw', hx'⟩

/-- With a depth above the number of its opening braces, `expand_brace`
returns, and every word it returns is in step with the input. -/
theorem expand_brace_depth_in_step (long_max : Nat) : ∀ (depth : Nat) (word : List Char)
    (split : List Bool), word.length = split.length → word.count '{' < depth →
    ∃ out, expand_brace_depth long_max depth word split = some out ∧
      ∀ w ∈ out, flags_in_step word split w := by
  intro depth
  induction depth with
  | zero => intro word split _ h; omega
  | succ depth ih =>
    intro word split hlen hcount
    rw [expand_brace_depth]
    cases hfind : find_brace long_max word split word 0 with
    | literal =>
      refine ⟨[(word, split)], rfl, ?_⟩
      intro w hw
      simp only [List.mem_singleton] at hw
      rw [hw]
      exact flags_in_step_refl word split hlen
    | expand words =>
      simp only
      have hstep := find_brace_step long_max word split hlen word.length word (le_refl _) 0
        rfl words hfind
      obtain ⟨out, hout, hall⟩ := concat_results_some
        (fun w => expand_brace_depth long_max depth w.1 w.2)
        (fun w x => flags_in_step w.1 w.2 x) words (by
          intro w hw
          exact ih w.1 w.2 (hstep w hw).1.1 (by have := (hstep w hw).2; omega))
      refine ⟨out, hout, ?_⟩
      intro x hx
      obtain ⟨w, hw, hwx⟩ := hall x hx
      exact flags_in_step_trans word split w x (hstep w hw).1 hwx

/-- C18: brace expansion keeps text and splittability map in step.  For every
input word and map of equal length `expand_brace` returns, and every output
word is paired with a map of the same length as that word, in which every
character carries the flag it has in the input or, as a character of a
generated number, the flag "not splittable".  By position: in a sequence
`PRE{A..B}POST` the characters of `PRE` and `POST` keep the flags of their
places and the generated number is flagged not splittable throughout; in a
list `PRE{e1,...,en}POST` the characters of `PRE`, of the element and of
`POST` keep the flags of their places. -/
theorem expand_brace_flags_in_step (long_max : Nat) (word : List Char) (split : List Bool)
    (hlen : word.length = split.length) :
    (∃ out, expand_brace long_max word split = some out ∧
      ∀ w ∈ out, w.1.length = w.2.length ∧
        ∀ p ∈ w.1.zip w.2, p ∈ word.zip split ∨ (p.1 ∈ number_chars ∧ p.2 = false)) ∧
    (∀ (PRE A B POST : List Char) (a b : Int),
      word = PRE ++ '{' :: (A ++ '.' :: '.' :: (B ++ '}' :: POST)) →
      plain ['{'] PRE = true → free_of ['{'] POST = true →
      accepted_endpoint long_max A '.' a → accepted_endpoint long_max B '}' b →
      expand_brace long_max word split =
        some ((integers_from_to a b).map fun value =>
          (PRE ++ wprintf_ld (sequence_sign A B) (sequence_width A B) value ++ POST,
            split.take PRE.length ++
              List.replicate (wprintf_ld (sequence_sign A B) (sequence_width A B) value).length
                false ++
              (split.drop (PRE.length + A.length + B.length + 4)).take POST.length))) ∧
    (∀ (PRE POST : List Char) (elems : List (List Char)),
      word = PRE ++ '{' :: (brace_list_body elems ++ POST) → 2 ≤ elems.length →
      plain ['{'] PRE = true → free_of ['{'] POST = true →
      (∀ e ∈ elems, plain ['{', ',', '}'] e = true) →
      ∃ out, expand_brace long_max word split = some out ∧
        out.map Prod.fst = elems.map (fun e => PRE ++ e ++ POST) ∧
        out.map Prod.snd = (element_flags split (PRE.length + 1) elems).map (fun f =>
          split.take PRE.length ++ f ++
            (split.drop (PRE.length + 1 + (brace_list_body elems).length)).take
              POST.length)) := by
  refine ⟨?_, ?_, ?_⟩
  · exact expand_brace_depth_in_step long_max (word.count '{' + 1) word split hlen
      (Nat.lt_succ_self _)
  · intro PRE A B POST a b hword hPRE hPOST hA hB
    rw [hword]
    exact expand_brace_sequence long_max PRE A B POST a b split hPRE hPOST hA hB
  · intro PRE POST elems hword hn hPRE hPOST helems
    rw [hword]
    exact expand_brace_list_parts long_max PRE POST elems split hn hPRE hPOST helems

/-! ## Theorems: field splitting -/

/-- The body of the inner loop of `fieldsplit` at a character. -/
theorem fieldsplit_loop_body (str ifs : List Char) (ch : Char) (sp : Bool)
    (rest : List (Char × Bool)) (son ns : Bool) (index si : Nat) (dest : List (List Char)) :
    fieldsplit_loop str ifs ((ch, sp) :: rest) (some (son, ns)) index si dest =
      match rest with
      | [] =>
        (index + 1, index + 1,
          if (if !iswspace ch then true else ns) = true ∧ si < index + 1 then
            (if !iswspace ch ∧ son = true then dest ++ [[]] else dest) ++ [[]]
          else (if !iswspace ch ∧ son = true then dest ++ [[]] else dest))
      | (ch', sp') :: _ =>
        if sp' = true ∧ ch' ∈ ifs then
          fieldsplit_loop str ifs rest
            (some (if !iswspace ch then true else son, if !iswspace ch then true else ns))
            (index + 1) si (if !iswspace ch ∧ son = true then dest ++ [[]] else dest)
        else
          fieldsplit_loop str ifs rest none (index + 1) (index + 1)
            (if !iswspace ch ∧ son = true then dest ++ [[]] else dest) := by
  cases rest with
  | nil => simp [fieldsplit_loop]
  | cons x t => obtain ⟨ch', sp'⟩ := x; simp [fieldsplit_loop]

/-- At a splittable character of IFS the outer loop of `fieldsplit` adds the
field read so far, if it is not empty, and enters the inner loop. -/
theorem fieldsplit_loop_enter (str ifs : List Char) (ch : Char)
    (rest : List (Char × Bool)) (index si : Nat) (dest : List (List Char))
    (h1 : ch ≠ '\\') (h2 : ch ∈ ifs) :
    fieldsplit_loop str ifs ((ch, true) :: rest) none index si dest =
      if si < index then
        fieldsplit_loop str ifs ((ch, true) :: rest) (some (false, false)) index si
          (dest ++ [(str.drop si).take (index - si)])
      else fieldsplit_loop str ifs ((ch, true) :: rest) (some (true, false)) index si dest := by
  cases rest with
  | nil => by_cases h : si < index <;> simp [fieldsplit_loop, h1, h2, h]
  | cons x t =>
    obtain ⟨ch', sp'⟩ := x
    by_cases h : si < index <;> simp [fieldsplit_loop, h1, h2, h]

/-- A character that is neither a backslash nor in IFS is passed over. -/
theorem fieldsplit_loop_other (str ifs : List Char) (ch : Char) (sp : Bool)
    (rest : List (Char × Bool)) (index si : Nat) (dest : List (List Char))
    (h1 : ch ≠ '\\') (h2 : ch ∉ ifs) :
    fieldsplit_loop str ifs ((ch, sp) :: rest) none index si dest =
      fieldsplit_loop str ifs rest none (index + 1) si dest := by
  cases rest with
  | nil => simp [fieldsplit_loop, h1, h2]
  | cons x t => obtain ⟨ch', sp'⟩ := x; simp [fieldsplit_loop, h1, h2]

/-- A token without backslash and character of IFS is passed over. -/
theorem fieldsplit_loop_token (str ifs : List Char) (tk rest : List (Char × Bool))
    (htk : ∀ x ∈ tk, x.1 ≠ '\\' ∧ x.1 ∉ ifs) :
    ∀ (index si : Nat) (dest : List (List Char)),
    fieldsplit_loop str ifs (tk ++ rest) none index si dest =
      fieldsplit_loop str ifs rest none (index + tk.length) si dest := by
  induction tk with
  | nil => intro index si dest; rfl
  | cons x t ih =>
    intro index si dest
    obtain ⟨ch, sp⟩ := x
    have hx := htk (ch, sp) (List.mem_cons_self _ _)
    rw [List.cons_append, fieldsplit_loop_other _ _ _ _ _ _ _ _ hx.1 hx.2,
      ih (fun y hy => htk y (List.mem_cons_of_mem _ hy))]
    congr 1
    simp only [List.length_cons]; omega

theorem separated_word_head (t : List (Char × Bool))
    (segs : List (List Char × List (Char × Bool))) :
    ∃ tail, separated_word t segs = t ++ tail := by
  cases segs with
  | nil => exact ⟨[], by simp [separated_word]⟩
  | cons s segs => obtain ⟨r, t'⟩ := s; exact ⟨_, rfl⟩

/-- A run of splittable white space of IFS is passed over by the inner loop
without a change of the fields, up to the token behind it. -/
theorem fieldsplit_loop_run (str ifs : List Char) (rest : List (Char × Bool))
    (x : Char × Bool) (hx : x.1 ∉ ifs) :
    ∀ (r : List Char), (∀ c ∈ r, c ∈ ifs ∧ iswspace c = true) →
    ∀ (c0 : Char), c0 ∈ ifs → iswspace c0 = true →
    ∀ (index si : Nat) (dest : List (List Char)) (son ns : Bool),
    fieldsplit_loop str ifs ((c0, true) :: ((r.map fun c => (c, true)) ++ x :: rest))
        (some (son, ns)) index si dest =
      fieldsplit_loop str ifs (x :: rest) none (index + 1 + r.length) (index + 1 + r.length)
        dest := by
  intro r
  induction r with
  | nil =>
    intro _ c0 _ hw index si dest son ns
    obtain ⟨ch, sp⟩ := x
    rw [fieldsplit_loop_body]
    simp only [List.map_nil, List.nil_append, hw, Bool.not_true, Bool.false_eq_true,
      false_and, if_false, List.length_nil, Nat.add_zero]
    rw [if_neg (fun h => hx h.2)]
  | cons c1 r ih =>
    intro hr c0 _ hw index si dest son ns
    have h1 := hr c1 (List.mem_cons_self _ _)
    rw [fieldsplit_loop_body]
    simp only [List.map_cons, List.cons_append, hw, Bool.not_true, Bool.false_eq_true,
      false_and, if_false, h1.1, and_self, if_true]
    rw [ih (fun c hc => hr c (List.mem_cons_of_mem _ hc)) c1 h1.1 h1.2]
    simp only [List.length_cons]
    congr 1 <;> omega

/-- The fields of a word of tokens separated by runs of splittable white space
of IFS, read from the start of a token. -/
theorem fieldsplit_loop_separated (str ifs : List Char) :
    ∀ (segs : List (List Char × List (Char × Bool))) (tk : List (Char × Bool))
      (pre : List Char) (dest : List (List Char)),
    str = pre ++ (separated_word tk segs).map Prod.fst →
    tk ≠ [] → token_chars ifs tk →
    (∀ s ∈ segs, s.1 ≠ [] ∧ (∀ c ∈ s.1, c ∈ ifs ∧ iswspace c = true) ∧
      s.2 ≠ [] ∧ token_chars ifs s.2) →
    (dest = [] → pre = []) →
    fieldsplit_finish str
        (fieldsplit_loop str ifs (separated_word tk segs) none pre.length pre.length dest) =
      some (dest ++ tk.map Prod.fst :: segs.map (fun s => s.2.map Prod.fst)) := by
  intro segs
  induction segs with
  | nil =>
    intro tk pre dest hstr hne htk _ hdest
    have h := fieldsplit_loop_token str ifs tk [] htk pre.length pre.length dest
    rw [List.append_nil] at h
    simp only [separated_word] at hstr ⊢
    rw [h]
    simp only [fieldsplit_loop, fieldsplit_finish, List.map_nil]
    have hlen : 0 < tk.length := List.length_pos.2 hne
    by_cases hd : dest = []
    · have hp := hdest hd
      subst hd; subst hp
      simp [hstr]
    · rw [if_neg hd, if_pos (by omega)]
      simp [hstr]
  | cons s segs ih =>
    intro tk pre dest hstr hne htk hsegs hdest
    obtain ⟨r, t⟩ := s
    obtain ⟨hr1, hr2, ht1, ht2⟩ := hsegs (r, t) (List.mem_cons_self _ _)
    have hlen : 0 < tk.length := List.length_pos.2 hne
    obtain ⟨tail, htail⟩ := separated_word_head t segs
    cases r with
    | nil => exact absurd rfl hr1
    | cons c0 r =>
      cases t with
      | nil => exact absurd rfl ht1
      | cons x t =>
        have hc0 := hr2 c0 (List.mem_cons_self _ _)
        have hc0b : c0 ≠ '\\' := by
          intro e; rw [e] at hc0; exact absurd hc0.2 (by decide)
        have hfield : (str.drop pre.length).take (pre.length + tk.length - pre.length) =
            tk.map Prod.fst := by
          rw [hstr]
          simp [separated_word]
        have hstr2 : str = (pre ++ tk.map Prod.fst ++ (c0 :: r)) ++
            (separated_word (x :: t) segs).map Prod.fst := by
          rw [hstr]
          simp [separated_word, Function.comp_def]
        have hih := ih (x :: t) (pre ++ tk.map Prod.fst ++ (c0 :: r))
          (dest ++ [tk.map Prod.fst]) hstr2 ht1 ht2
          (fun s hs => hsegs s (List.mem_cons_of_mem _ hs)) (by simp)
        have hidx : (pre ++ tk.map Prod.fst ++ (c0 :: r)).length =
            pre.length + tk.length + 1 + r.length := by
          simp only [List.length_append, List.length_map, List.length_cons]
          omega
        rw [hidx] at hih
        conv_lhs => rw [separated_word]
        rw [fieldsplit_loop_token str ifs tk _ htk, List.map_cons, List.cons_append,
          fieldsplit_loop_enter _ _ _ _ _ _ _ hc0b hc0.1, if_pos (by omega), hfield]
        rw [htail] at hih ⊢
        rw [List.cons_append] at hih ⊢
        rw [fieldsplit_loop_run str ifs (t ++ tail) x (ht2 x (List.mem_cons_self _ _)).2 r
          (fun c hc => hr2 c (List.mem_cons_of_mem _ hc)) c0 hc0.1 hc0.2, hih]
        simp

/-- C19: in `fieldsplit` a run of splittable IFS white space acts as a single
separator.  For a word made of non-empty tokens, which have neither a
character of IFS nor a backslash, separated by non-empty runs of splittable
white space of IFS, the result is exactly the list of the tokens in order; so
the value `a b` splits at a space of IFS into `a` and `b`. -/
theorem fieldsplit_whitespace_runs (ifs : List Char) (t0 : List (Char × Bool))
    (segs : List (List Char × List (Char × Bool)))
    (h0 : t0 ≠ [] ∧ token_chars ifs t0)
    (hsegs : ∀ s ∈ segs, s.1 ≠ [] ∧ (∀ c ∈ s.1, c ∈ ifs ∧ iswspace c = true) ∧
      s.2 ≠ [] ∧ token_chars ifs s.2) :
    fieldsplit ((separated_word t0 segs).map Prod.fst) ((separated_word t0 segs).map Prod.snd)
        ifs =
      some (t0.map Prod.fst :: segs.map (fun s => s.2.map Prod.fst)) ∧
    fieldsplit "a b".data [true, true, true] " ".data = some ["a".data, "b".data] := by
  refine ⟨?_, by decide⟩
  unfold fieldsplit
  have hz : ((separated_word t0 segs).map Prod.fst).zip ((separated_word t0 segs).map Prod.snd) =
      separated_word t0 segs := (List.zip_of_prod rfl rfl).symm
  rw [hz]
  have h := fieldsplit_loop_separated ((separated_word t0 segs).map Prod.fst) ifs segs t0 [] []
    rfl h0.1 h0.2 hsegs (fun _ => rfl)
  simpa using h

/-- At a splittable separator that is in IFS and neither white space nor a
backslash, the field `p` before it is added, be it empty or not, and the inner
loop goes on with both of its flags set. -/
theorem fieldsplit_loop_separator (str ifs : List Char) (c : Char)
    (hc1 : c ∈ ifs) (hc2 : iswspace c = false) (hc3 : c ≠ '\\')
    (rest : List (Char × Bool)) (mode : Option (Bool × Bool)) (index si : Nat)
    (dest : List (List Char)) (p : List Char)
    (hJ : (mode = none ∧ si ≤ index ∧ (si < index → (str.drop si).take (index - si) = p) ∧
        (¬ si < index → p = [])) ∨
      (mode = some (true, true) ∧ p = [] ∧ si ≤ index)) :
    fieldsplit_loop str ifs ((c, true) :: rest) mode index si dest =
      match rest with
      | [] => (index + 1, index + 1, dest ++ [p] ++ [[]])
      | (ch', sp') :: _ =>
        if sp' = true ∧ ch' ∈ ifs then
          fieldsplit_loop str ifs rest (some (true, true)) (index + 1) si (dest ++ [p])
        else fieldsplit_loop str ifs rest none (index + 1) (index + 1) (dest ++ [p]) := by
  rcases hJ with ⟨hm, hle, h1, h2⟩ | ⟨hm, hp, hle⟩
  · subst hm
    rw [fieldsplit_loop_enter _ _ _ _ _ _ _ hc3 hc1]
    by_cases hlt : si < index
    · rw [if_pos hlt, fieldsplit_loop_body, h1 hlt]
      cases rest with
      | nil => simp [hc2]; omega
      | cons x t => simp [hc2]
    · rw [if_neg hlt, fieldsplit_loop_body, h2 hlt]
      cases rest with
      | nil => simp [hc2]; omega
      | cons x t => simp [hc2]
  · subst hm; subst hp
    rw [fieldsplit_loop_body]
    cases rest with
    | nil => simp [hc2]; omega
    | cons x t => simp [hc2]

theorem drop_succ_of_drop_eq (str : List Char) (index : Nat) (c : Char) (tail : List Char)
    (h : str.drop index = c :: tail) : str.drop (index + 1) = tail := by
  have : str.drop (index + 1) = (str.drop index).drop 1 := by
    rw [List.drop_drop]
  rw [this, h]; rfl

/-- The fields of the rest of a word of tokens joined by a separator that is
not white space, read from a separator with the field `p` before it not yet
added. -/
theorem fieldsplit_loop_joined (str ifs : List Char) (c : Char)
    (hc1 : c ∈ ifs) (hc2 : iswspace c = false) (hc3 : c ≠ '\\') :
    ∀ (ts : List (List (Char × Bool))) (t : List (Char × Bool)) (p : List Char)
      (mode : Option (Bool × Bool)) (index si : Nat) (dest : List (List Char)),
    str.drop index = c :: (joined_word c t ts).map Prod.fst →
    token_chars ifs t → (∀ t' ∈ ts, token_chars ifs t') →
    ((mode = none ∧ si ≤ index ∧ (si < index → (str.drop si).take (index - si) = p) ∧
        (¬ si < index → p = [])) ∨
      (mode = some (true, true) ∧ p = [] ∧ si ≤ index)) →
    fieldsplit_finish str
        (fieldsplit_loop str ifs ((c, true) :: joined_word c t ts) mode index si dest) =
      some (dest ++ p :: t.map Prod.fst :: ts.map (fun t' => t'.map Prod.fst)) := by
  intro ts
  induction ts with
  | nil =>
    intro t p mode index si dest hstr ht _ hJ
    rw [fieldsplit_loop_separator str ifs c hc1 hc2 hc3 _ mode index si dest p hJ]
    simp only [joined_word] at hstr ⊢
    have hnext := drop_succ_of_drop_eq str index c _ hstr
    cases t with
    | nil => simp [fieldsplit_finish]
    | cons x t1 =>
      obtain ⟨ch, sp⟩ := x
      have hx := ht (ch, sp) (List.mem_cons_self _ _)
      simp only
      rw [if_neg (fun h => hx.2 h.2)]
      have htok := fieldsplit_loop_token str ifs ((ch, sp) :: t1) [] ht (index + 1) (index + 1)
        (dest ++ [p])
      rw [List.append_nil] at htok
      rw [htok]
      simp only [fieldsplit_loop, fieldsplit_finish]
      rw [if_neg (by simp), if_pos (by simp)]
      have hfield : (str.drop (index + 1)).take
          (index + 1 + ((ch, sp) :: t1).length - (index + 1)) = ((ch, sp) :: t1).map Prod.fst := by
        rw [hnext, Nat.add_sub_cancel_left, ← List.length_map ((ch, sp) :: t1) Prod.fst,
          List.take_length]
      rw [hfield]
      simp
  | cons t' ts ih =>
    intro t p mode index si dest hstr ht hts hJ
    rw [fieldsplit_loop_separator str ifs c hc1 hc2 hc3 _ mode index si dest p hJ]
    have ht' := hts t' (List.mem_cons_self _ _)
    have hts' : ∀ u ∈ ts, token_chars ifs u := fun u hu => hts u (List.mem_cons_of_mem _ hu)
    simp only [joined_word] at hstr ⊢
    have hnext := drop_succ_of_drop_eq str index c _ hstr
    cases t with
    | nil =>
      simp only [List.nil_append, hc1, and_self, if_true]
      rw [ih t' [] (some (true, true)) (index + 1) si (dest ++ [p])
        (by simpa using hnext) ht' hts' (Or.inr ⟨rfl, rfl, by
          rcases hJ with ⟨_, hle, _⟩ | ⟨_, _, hle⟩ <;> omega⟩)]
      simp
    | cons x t1 =>
      obtain ⟨ch, sp⟩ := x
      have hx := ht (ch, sp) (List.mem_cons_self _ _)
      simp only [List.cons_append]
      rw [if_neg (fun h => hx.2 h.2)]
      have htok := fieldsplit_loop_token str ifs ((ch, sp) :: t1)
        ((c, true) :: joined_word c t' ts) ht (index + 1) (index + 1) (dest ++ [p])
      rw [List.cons_append] at htok
      rw [htok]
      have hnext2 : str.drop (index + 1 + ((ch, sp) :: t1).length) =
          c :: (joined_word c t' ts).map Prod.fst := by
        have : str.drop (index + 1 + ((ch, sp) :: t1).length) =
            (str.drop (index + 1)).drop ((ch, sp) :: t1).length := by
          rw [List.drop_drop]
        rw [this, hnext, List.map_append, ← List.length_map ((ch, sp) :: t1) Prod.fst,
          List.drop_left]
        rfl
      have hfield : (str.drop (index + 1)).take
          (index + 1 + ((ch, sp) :: t1).length - (index + 1)) = ((ch, sp) :: t1).map Prod.fst := by
        rw [hnext, Nat.add_sub_cancel_left, List.map_append,
          ← List.length_map ((ch, sp) :: t1) Prod.fst, List.take_left]
      rw [ih t' (((ch, sp) :: t1).map Prod.fst) none (index + 1 + ((ch, sp) :: t1).length)
        (index + 1) (dest ++ [p]) hnext2 ht' hts' (Or.inl ⟨rfl, by omega, fun _ => hfield,
          fun h => absurd (by simp : index + 1 < index + 1 + ((ch, sp) :: t1).length) h⟩)]
      simp

/-- C20 (amended): in `fieldsplit` every splittable IFS character that is
neither white space nor the backslash produces a separator, and consecutive
ones create empty fields.  For tokens `t0..tn`, which have neither a character
of IFS nor a backslash, joined by such a character `c`, splitting
`t0 c t1 c ... c tn` yields `t0..tn`, the empty ones between adjacent
separators included. -/
theorem fieldsplit_nonspace_separator (ifs : List Char) (c : Char)
    (t0 : List (Char × Bool)) (ts : List (List (Char × Bool)))
    (hc1 : c ∈ ifs) (hc2 : iswspace c = false) (hc3 : c ≠ '\\')
    (h0 : token_chars ifs t0) (hts : ∀ t ∈ ts, token_chars ifs t) :
    fieldsplit ((joined_word c t0 ts).map Prod.fst) ((joined_word c t0 ts).map Prod.snd) ifs =
      some (t0.map Prod.fst :: ts.map (fun t => t.map Prod.fst)) := by
  unfold fieldsplit
  have hz : ((joined_word c t0 ts).map Prod.fst).zip ((joined_word c t0 ts).map Prod.snd) =
      joined_word c t0 ts := (List.zip_of_prod rfl rfl).symm
  rw [hz]
  cases ts with
  | nil =>
    have htok := fieldsplit_loop_token (t0.map Prod.fst) ifs t0 [] h0 0 0 []
    rw [List.append_nil] at htok
    simp only [joined_word]
    rw [htok]
    simp [fieldsplit_loop, fieldsplit_finish]
  | cons t ts =>
    simp only [joined_word]
    rw [fieldsplit_loop_token _ ifs t0 _ h0 0 0 []]
    have h := fieldsplit_loop_joined
      ((t0 ++ (c, true) :: joined_word c t ts).map Prod.fst) ifs c hc1 hc2 hc3 ts t
      (t0.map Prod.fst) none (0 + t0.length) 0 []
      (by simp)
      (hts t (List.mem_cons_self _ _)) (fun u hu => hts u (List.mem_cons_of_mem _ hu))
      (Or.inl ⟨rfl, by omega, fun _ => by simp, fun h => by
        have : t0.length = 0 := by omega
        simp [List.length_eq_zero.1 this]⟩)
    simpa using h

/-! ## Witnesses and counterexamples: brace expansion and field splitting -/

/-- Witness of C12 at the word `{3..-1}`: five words. -/
theorem expand_brace_sequence_count_witness :
    accepted_endpoint LONG_MAX_LP64 "3".data '.' 3 ∧
    accepted_endpoint LONG_MAX_LP64 "-1".data '}' (-1) ∧
    ∃ out, expand_brace LONG_MAX_LP64 "{3..-1}".data [] = some out ∧ out.length = 5 := by
  have hA : accepted_endpoint LONG_MAX_LP64 "3".data '.' 3 :=
    ⟨by decide, by decide, fun _ => rfl⟩
  have hB : accepted_endpoint LONG_MAX_LP64 "-1".data '}' (-1) :=
    ⟨by decide, by decide, fun _ => rfl⟩
  exact ⟨hA, hB, expand_brace_sequence_count LONG_MAX_LP64 "3".data "-1".data 3 (-1) [] hA hB⟩

/-- Witness of C15 at the word `{+1..2}`. -/
theorem expand_brace_sequence_plus_witness :
    ∃ out, expand_brace LONG_MAX_LP64 "{+1..2}".data [] = some out ∧
      out.map Prod.fst = ["+1".data, "+2".data] := by
  obtain ⟨⟨out, h1, h2⟩, -, -, -⟩ := expand_brace_sequence_plus LONG_MAX_LP64 "+1".data
    "2".data 1 2 []
    ⟨by decide, by decide, fun _ => rfl⟩ ⟨by decide, by decide, fun _ => rfl⟩
  exact ⟨out, h1, h2.trans (by decide)⟩

/-- Counterexample to C16 as stated: the elements `a\` and `b` contain no
unescaped brace or comma, but in the word `{a\,b}` the backslash that ends the
first element escapes the comma, and the word is not expanded. -/
theorem expand_brace_list_escaped_comma :
    (∀ e ∈ [['a', '\\'], ['b']], free_of ['{', ',', '}'] e = true) ∧
    '{' :: brace_list_body [['a', '\\'], ['b']] = ['{', 'a', '\\', ',', 'b', '}'] ∧
    expand_brace LONG_MAX_LP64 ['{', 'a', '\\', ',', 'b', '}'] [] =
      some [(['{', 'a', '\\', ',', 'b', '}'], [])] ∧
    ¬ ∃ out, expand_brace LONG_MAX_LP64 ('{' :: brace_list_body [['a', '\\'], ['b']]) [] =
        some out ∧
      out.map Prod.fst = [['a', '\\'], ['b']] := by
  refine ⟨by decide, by decide, by decide, ?_⟩
  rintro ⟨out, h1, h2⟩
  have h3 : expand_brace LONG_MAX_LP64 ('{' :: brace_list_body [['a', '\\'], ['b']]) [] =
      some [(['{', 'a', '\\', ',', 'b', '}'], [])] := by decide
  rw [h3] at h1
  simp only [Option.some.injEq] at h1
  rw [← h1] at h2
  exact absurd h2 (by decide)

/-- Witness of C16 (amended) at the word `x{a,b,c}y`. -/
theorem expand_brace_list_witness :
    ∃ out, expand_brace LONG_MAX_LP64 "x{a,b,c}y".data [] = some out ∧
      out.map Prod.fst = ["xay".data, "xby".data, "xcy".data] :=
  expand_brace_list LONG_MAX_LP64 "x".data "y".data ["a".data, "b".data, "c".data] []
    (by decide) (by decide) (by decide) (by decide)

/-- Witness of C18 at the word `a{b,c}` with alternating flags. -/
theorem expand_brace_flags_in_step_witness :
    "a{b,c}".data.length = [true, false, true, false, true, false].length ∧
    ∃ out, expand_brace LONG_MAX_LP64 "a{b,c}".data [true, false, true, false, true, false] =
        some out ∧
      ∀ w ∈ out, w.1.length = w.2.length ∧
        ∀ p ∈ w.1.zip w.2,
          p ∈ "a{b,c}".data.zip [true, false, true, false, true, false] ∨
            (p.1 ∈ number_chars ∧ p.2 = false) :=
  ⟨by decide, (expand_brace_flags_in_step LONG_MAX_LP64 "a{b,c}".data
    [true, false, true, false, true, false] (by decide)).1⟩

/-- Witness of C19 at the word `a  b` with the space as IFS. -/
theorem fieldsplit_whitespace_runs_witness :
    fieldsplit "a  b".data [true, true, true, true] " ".data = some ["a".data, "b".data] :=
  (fieldsplit_whitespace_runs " ".data [('a', true)] [([' ', ' '], [('b', true)])]
    ⟨by decide, by unfold token_chars; decide⟩
    (by unfold token_chars; decide)).1

/-- Counterexample to C20 as stated: with the backslash in IFS, the word `a\b`
is made of the tokens `a` and `b` joined by a splittable character of IFS
that is not white space, but `fieldsplit` reads the backslash as an escape and
returns the word as one field. -/
theorem fieldsplit_backslash_separator :
    '\\' ∈ ['\\'] ∧ iswspace '\\' = false ∧
    token_chars ['\\'] [('a', true)] ∧ token_chars ['\\'] [('b', true)] ∧
    joined_word '\\' [('a', true)] [[('b', true)]] = [('a', true), ('\\', true), ('b', true)] ∧
    fieldsplit ['a', '\\', 'b'] [true, true, true] ['\\'] = some [['a', '\\', 'b']] ∧
    fieldsplit ((joined_word '\\' [('a', true)] [[('b', true)]]).map Prod.fst)
        ((joined_word '\\' [('a', true)] [[('b', true)]]).map Prod.snd) ['\\'] ≠
      some [['a'], ['b']] := by
  refine ⟨by decide, by decide, by unfold token_chars; decide, by unfold token_chars; decide,
    by decide, by decide, by decide⟩

/-- Witness of C20 (amended) at the word `a::b` with the colon as IFS. -/
theorem fieldsplit_nonspace_separator_witness :
    fieldsplit "a::b".data [true, true, true, true] ":".data =
      some ["a".data, [], "b".data] :=
  fieldsplit_nonspace_separator ":".data ':' [('a', true)] [[], [('b', true)]]
    (by decide) (by decide) (by decide) (by unfold token_chars; decide)
    (by unfold token_chars; decide)

/-! ## Theorems: words that field splitting leaves whole -/

/-- Without a splittable character of IFS the loop of `fieldsplit` adds no
field and leaves `startindex` as it is. -/
theorem fieldsplit_loop_unsplit (str ifs : List Char) :
    ∀ (n : Nat) (z : List (Char × Bool)), z.length ≤ n →
    (∀ p ∈ z, ¬ (p.2 = true ∧ p.1 ∈ ifs)) →
    ∀ (index si : Nat) (dest : List (List Char)),
    ∃ final, fieldsplit_loop str ifs z none index si dest = (final, si, dest) := by
  intro n
  induction n with
  | zero =>
    intro z hn _ index si dest
    cases z with
    | nil => exact ⟨index, rfl⟩
    | cons x t => simp at hn
  | succ n ih =>
    intro z hn hz index si dest
    cases z with
    | nil => exact ⟨index, rfl⟩
    | cons x t =>
      obtain ⟨ch, sp⟩ := x
      simp only [List.length_cons, Nat.add_le_add_iff_right] at hn
      have hx := hz (ch, sp) (List.mem_cons_self _ _)
      have ht : ∀ p ∈ t, ¬ (p.2 = true ∧ p.1 ∈ ifs) :=
        fun p hp => hz p (List.mem_cons_of_mem _ hp)
      by_cases hb : ch = '\\'
      · subst hb
        cases t with
        | nil => exact ⟨index + 1, by simp [fieldsplit_loop]⟩
        | cons y t' =>
          simp only [List.length_cons] at hn
          obtain ⟨final, hfinal⟩ := ih t' (by omega)
            (fun p hp => ht p (List.mem_cons_of_mem _ hp)) (index + 2) si dest
          refine ⟨final, ?_⟩
          rw [← hfinal]
          cases t' <;> simp [fieldsplit_loop]
      · obtain ⟨final, hfinal⟩ := ih t hn ht (index + 1) si dest
        refine ⟨final, ?_⟩
        rw [← hfinal]
        have hx' : ¬ (sp = true ∧ ch ∈ ifs) := hx
        cases t <;> simp [fieldsplit_loop, hb, hx']

/-- A string in which every character is escaped is not split, whatever the
flags and IFS are. -/
theorem fieldsplit_loop_escaped (str ifs : List Char) :
    ∀ (s : List Char) (flags : List Bool) (index si : Nat) (dest : List (List Char)),
    ∃ final, fieldsplit_loop str ifs ((escape none s).zip flags) none index si dest =
      (final, si, dest) := by
  intro s
  induction s with
  | nil => intro flags index si dest; exact ⟨index, by simp [escape, fieldsplit_loop]⟩
  | cons c s ih =>
    intro flags index si dest
    have hesc : escape none (c :: s) = '\\' :: c :: escape none s := by simp [escape]
    rw [hesc]
    match flags with
    | [] => exact ⟨index, by simp [fieldsplit_loop]⟩
    | [f] => exact ⟨index + 1, by simp [fieldsplit_loop]⟩
    | f :: g :: flags' =>
      obtain ⟨final, hfinal⟩ := ih flags' (index + 2) si dest
      refine ⟨final, ?_⟩
      rw [← hfinal]
      simp only [List.zip_cons_cons]
      cases h : (escape none s).zip flags' <;> simp [fieldsplit_loop]

/-- C21: `fieldsplit` returns its input unchanged as exactly one field whenever
IFS is the empty string, and whenever no character of the word is both flagged
splittable and in IFS.  The fragment that `expand_word` yields for `"$x"` with
`x` set to `a b` has every character escaped and is one field under every IFS.
`fieldsplit_all` splits with space, tab and newline when IFS is not set. -/
theorem fieldsplit_unsplit :
    (∀ (str : List Char) (split : List Bool), fieldsplit str split [] = some [str]) ∧
    (∀ (str : List Char) (split : List Bool) (ifs : List Char),
      (∀ p ∈ str.zip split, ¬ (p.2 = true ∧ p.1 ∈ ifs)) →
      fieldsplit str split ifs = some [str]) ∧
    (expand_word LP64 sample_environment (quoted_param_word ['x']) tildetype_T.tt_single
        (store_with_x ['a', ' ', 'b']) =
      outcome.returns
        ({ ok := true, valuelist := [escape none ['a', ' ', 'b']],
           splitlist := [List.replicate 6 true] }, store_with_x ['a', ' ', 'b'])) ∧
    (∀ (s : List Char) (split : List Bool) (ifs : List Char),
      fieldsplit (escape none s) split ifs = some [escape none s]) ∧
    (∀ (valuelist : List (List Char)) (splitlist : List (List Bool)),
      fieldsplit_all none valuelist splitlist =
        fieldsplit_each [' ', '\t', '\n'] valuelist splitlist) ∧
    (∀ (ifs : List Char) (valuelist : List (List Char)) (splitlist : List (List Bool)),
      fieldsplit_all (some ifs) valuelist splitlist = fieldsplit_each ifs valuelist splitlist) ∧
    (∀ (ifs : List Char) (str : List Char) (split : List Bool),
      fieldsplit_each ifs [str] [split] = fieldsplit str split ifs) := by
  have hgen : ∀ (str : List Char) (split : List Bool) (ifs : List Char),
      (∀ p ∈ str.zip split, ¬ (p.2 = true ∧ p.1 ∈ ifs)) →
      fieldsplit str split ifs = some [str] := by
    intro str split ifs h
    obtain ⟨final, hfinal⟩ := fieldsplit_loop_unsplit str ifs (str.zip split).length
      (str.zip split) (le_refl _) h 0 0 []
    simp [fieldsplit, hfinal, fieldsplit_finish]
  refine ⟨?_, hgen, by decide, ?_, fun _ _ => rfl, fun _ _ _ => rfl, ?_⟩
  · intro str split
    exact hgen str split [] (fun p _ h => by simp at h)
  · intro s split ifs
    obtain ⟨final, hfinal⟩ := fieldsplit_loop_escaped (escape none s) ifs s split 0 0 []
    simp [fieldsplit, hfinal, fieldsplit_finish]
  · intro ifs str split
    simp only [fieldsplit_each]
    cases fieldsplit str split ifs <;> simp

/-- C22: in the inner loop `fieldsplit` splits at an escaped character.  The
value `a:\b` of `x` gives the word `$x` the fragment `a:\\b`, every character
flagged splittable.  With `:` and the backslash in IFS the inner loop, entered
at the colon, takes the escaping backslash and the escaped backslash after it
for separators: the fields are `a`, two empty fields and `b`, and the escaped
character is in none of them.  The outer loop does skip the escape: without
the colon in front, `a\\b` stays one field. -/
theorem fieldsplit_escaped_after_separator :
    expand_word LP64 sample_environment (param_word ['x']) tildetype_T.tt_single
        (store_with_x ['a', ':', '\\', 'b']) =
      outcome.returns
        ({ ok := true, valuelist := [['a', ':', '\\', '\\', 'b']],
           splitlist := [[true, true, true, true, true]] },
          store_with_x ['a', ':', '\\', 'b']) ∧
    fieldsplit ['a', ':', '\\', '\\', 'b'] [true, true, true, true, true] [':', '\\'] =
      some [['a'], [], [], ['b']] ∧
    fieldsplit ['a', '\\', '\\', 'b'] [true, true, true, true] [':', '\\'] =
      some [['a', '\\', '\\', 'b']] := by
  refine ⟨by decide, by decide, by decide⟩

/-! ## Theorems: word expansion -/

theorem escape_eq_nil (t : Option (List Char)) (s : List Char) : escape t s = [] ↔ s = [] := by
  cases s with
  | nil => simp [escape]
  | cons c s =>
    simp only [escape]
    split_ifs <;> simp

/-- The loop of `expand_word` over an array that is not empty, from an empty
`buf`: all strings but the last go to the lists, the last one stays in `buf`. -/
theorem expand_word_array_spec : ∀ (array : List (List Char)) (s : expand_word_state),
    array ≠ [] → s.buf = [] → s.sbuf = [] →
    expand_word_array array s =
      { s with buf := array.getLastD [],
               sbuf := List.replicate (array.getLastD []).length true,
               valuelist := s.valuelist ++ array.dropLast,
               splitlist := s.splitlist ++
                 array.dropLast.map (fun a => List.replicate a.length true) } := by
  intro array
  induction array with
  | nil => intro s h; exact absurd rfl h
  | cons a rest ih =>
    intro s _ hbuf hsbuf
    cases rest with
    | nil =>
      simp [expand_word_array, FILL_SBUF, hbuf, hsbuf]
    | cons b rest' =>
      rw [expand_word_array, ih _ (by simp) rfl rfl]
      · simp [FILL_SBUF, hbuf, hsbuf]
      · simp

/-- The plain expansion of a variable in double quotes: the strings of the
variable, joined if `concat`, with every character escaped. -/
theorem expand_param_plain_quoted {σ : Type} (lim : Limits) (env : environment σ) (st : σ)
    (name : List Char) (tilde : tildetype_T) (list : List (List Char)) (concat : Bool)
    (h : env.get_variable st name = (some list, concat)) :
    expand_param lim env (plain_param name) true tilde st =
      outcome.returns
        (some ((if concat = true then
            [joinwcsarray list (ifs_padding (env.getvar st VAR_IFS))] else list).map
          (escape none)), st) := by
  simp [expand_param, plain_param, plain_type, h, expand_param_finish]

/-- A `WT_STRING` unit that is one double quote: it toggles `indq` and sets
`force`. -/
theorem expand_word_string_unit_quote {σ : Type} (env : environment σ) (st : σ)
    (tilde : tildetype_T) (hasnext : Bool) (s : expand_word_state) :
    expand_word_string_unit env st tilde hasnext ['"'] s =
      outcome.returns { s with indq := !s.indq, force := true } := by
  have htilde : expand_tilde env st ['"'] hasnext tilde = none := rfl
  unfold expand_word_string_unit
  rw [htilde]
  simp [expand_word_string]

/-- The entries that `expand_word` adds for the word `"$@"`: one for each
positional parameter, every character escaped, but for an empty last parameter
after another one, which gets none. -/
theorem expand_word_quoted_at {σ : Type} (lim : Limits) (env : environment σ) (st : σ)
    (tilde : tildetype_T) (params : List (List Char))
    (h : env.get_variable st ['@'] = (some params, false)) :
    ∃ r, expand_word lim env quoted_at tilde st = outcome.returns (r, st) ∧ r.ok = true ∧
      r.valuelist =
        (if 2 ≤ params.length ∧ params.getLast? = some [] then params.dropLast
          else params).map (escape none) := by
  have hp := expand_param_plain_quoted lim env st ['@'] tilde params false h
  simp only [Bool.false_eq_true, if_false] at hp
  unfold expand_word quoted_at
  rw [expand_word_units, expand_word_string_unit_quote]
  simp only [expand_word_init, Bool.not_false]
  rw [expand_word_units, hp]
  simp only
  rw [expand_word_units, expand_word_string_unit_quote]
  simp only [expand_word_units]
  by_cases hnil : params = []
  · subst hnil
    simp [expand_word_finish]
  · have hne : List.map (escape none) params ≠ [] := by simpa using hnil
    rw [if_neg hne, expand_word_array_spec _ _ hne rfl rfl]
    refine ⟨_, rfl, ?_, ?_⟩
    · simp [expand_word_finish]
      split_ifs <;> rfl
    · obtain ⟨init, last, rfl⟩ : ∃ init last, params = init ++ [last] :=
        ⟨params.dropLast, params.getLast hnil, (List.dropLast_append_getLast hnil).symm⟩
      simp only [expand_word_finish, List.map_append, List.map_cons, List.map_nil,
        List.getLastD_concat, List.dropLast_concat, List.nil_append, List.length_append,
        List.length_cons, List.length_nil, List.length_map]
      have hlast? : (init ++ [last]).getLast? = some last := by simp
      rw [hlast?]
      by_cases hlast : last = []
      · subst hlast
        by_cases hinit : init.length = 0
        · have : ¬ (2 ≤ init.length + (0 + 1)) := by omega
          simp [hinit, this, escape]
        · have : 2 ≤ init.length + (0 + 1) := by omega
          simp [hinit, this, escape]
      · have hesc : escape none last ≠ [] := fun e => hlast ((escape_eq_nil none last).1 e)
        have hlen : (escape none last).length > 0 := List.length_pos.2 hesc
        have hne' : ¬ (some last = some ([] : List Char)) := by simpa using hlast
        simp [hlen, hne']

/-- C23: the word `"$@"` loses an empty last positional parameter.  With the
two parameters `a` and the empty string `expand_word` adds one entry, not two;
in general it adds the parameters in order, every character escaped, but
leaves out the last one when it is empty and not the only one.  Without
positional parameters it adds no entry, with one empty parameter one empty
entry. -/
theorem expand_word_quoted_at_trailing_empty :
    expand_word LP64 sample_environment quoted_at tildetype_T.tt_single
        (store_with_positional [['a'], []]) =
      outcome.returns
        ({ ok := true, valuelist := [['\\', 'a']], splitlist := [[true, true]] },
          store_with_positional [['a'], []]) ∧
    (∀ {σ : Type} (lim : Limits) (env : environment σ) (st : σ) (tilde : tildetype_T)
      (params : List (List Char)), env.get_variable st ['@'] = (some params, false) →
      ∃ r, expand_word lim env quoted_at tilde st = outcome.returns (r, st) ∧ r.ok = true ∧
        r.valuelist =
          (if 2 ≤ params.length ∧ params.getLast? = some [] then params.dropLast
            else params).map (escape none)) ∧
    expand_word LP64 sample_environment quoted_at tildetype_T.tt_single
        (store_with_positional []) =
      outcome.returns
        ({ ok := true, valuelist := [], splitlist := [] }, store_with_positional []) ∧
    expand_word LP64 sample_environment quoted_at tildetype_T.tt_single
        (store_with_positional [[]]) =
      outcome.returns
        ({ ok := true, valuelist := [[]], splitlist := [[]] }, store_with_positional [[]]) := by
  refine ⟨by decide, ?_, by decide, by decide⟩
  intro σ lim env st tilde params h
  exact expand_word_quoted_at lim env st tilde params h

/-- Outside double quotes the plain expansion of a variable that is not set,
has no string or is one empty string gives the empty array. -/
theorem expand_param_plain_empty {σ : Type} (lim : Limits) (env : environment σ) (st : σ)
    (name : List Char) (tilde : tildetype_T)
    (h : (env.get_variable st name).1 = none ∨ (env.get_variable st name).1 = some [] ∨
      (env.get_variable st name).1 = some [[]]) :
    expand_param lim env (plain_param name) false tilde st = outcome.returns (some [], st) := by
  rcases hv : env.get_variable st name with ⟨value, concat⟩
  rw [hv] at h
  simp only at h
  rcases h with h | h | h <;> subst h <;>
    cases concat <;>
    simp [expand_param, plain_param, plain_type, hv, expand_param_finish, joinwcsarray, escape]

/-- A word of unquoted plain expansions that all give the empty array leaves
`buf`, the lists and `force` as they are. -/
theorem expand_word_units_param_words {σ : Type} (lim : Limits) (env : environment σ) (st : σ)
    (tilde : tildetype_T) :
    ∀ (names : List (List Char)) (s : expand_word_state),
    (∀ name ∈ names, (env.get_variable st name).1 = none ∨
      (env.get_variable st name).1 = some [] ∨ (env.get_variable st name).1 = some [[]]) →
    s.indq = false →
    ∃ s', expand_word_units lim env (param_words names) tilde s st = outcome.returns (s', st) ∧
      s'.ok = s.ok ∧ s'.force = s.force ∧ s'.buf = s.buf ∧ s'.sbuf = s.sbuf ∧
      s'.valuelist = s.valuelist ∧ s'.splitlist = s.splitlist := by
  intro names
  induction names with
  | nil =>
    intro s _ _
    exact ⟨s, by simp [param_words, expand_word_units]⟩
  | cons name names ih =>
    intro s h hq
    have hp : expand_param lim env (plain_param name) s.indq tilde st =
        outcome.returns (some [], st) := by
      rw [hq]
      exact expand_param_plain_empty lim env st name tilde (h name (List.mem_cons_self _ _))
    obtain ⟨s', h1, h2⟩ := ih { s with suppress := true, first := false }
      (fun n hn => h n (List.mem_cons_of_mem _ hn)) hq
    refine ⟨s', ?_, h2⟩
    rw [param_words, expand_word_units, hp]
    simpa using h1

/-- The test of `PT_COLON` on a list whose only string does not start with a
character of first byte zero: the list is empty or holds one empty string. -/
theorem colon_tests_empty_iff {σ : Type} (env : environment σ) (list : List (List Char))
    (hbyte : ∀ c rest, list = [c :: rest] → env.wchar_first_byte c ≠ 0) :
    colon_tests_empty env list = true ↔ list = [] ∨ list = [[]] := by
  match list, hbyte with
  | [], _ => simp [colon_tests_empty]
  | [[]], _ => simp [colon_tests_empty]
  | [c :: rest], hbyte => simpa [colon_tests_empty] using hbyte c rest rfl
  | _ :: _ :: _, _ => simp [colon_tests_empty]

/-- The expansion of `subst_word` as the loop of `expand_param` runs it. -/
theorem subst_word_expansion_eq {σ : Type} (lim : Limits) (env : environment σ)
    (pe_subst : wordunit_T) (indq : Bool) (st : σ) :
    subst_word_expansion lim env pe_subst indq st =
      match expand_word_units lim env pe_subst tildetype_T.tt_single expand_word_init st with
      | outcome.returns (s2, st2) =>
        if (expand_word_finish s2).ok = true then
          outcome.returns
            (some (if indq = true then reescape_full_array (expand_word_finish s2).valuelist
              else (expand_word_finish s2).valuelist), st2)
        else outcome.returns (none, st2)
      | outcome.exits => outcome.exits
      | outcome.aborts => outcome.aborts := by
  unfold subst_word_expansion expand_word
  rcases expand_word_units lim env pe_subst tildetype_T.tt_single expand_word_init st
    with ⟨s2, st2⟩ | _ | _
  · by_cases h : (expand_word_finish s2).ok = true <;> simp [outcome.bind, h]
  · rfl
  · rfl

/-- The list and the flag `unset` that `expand_param` works with for a
reference that is not nested; the value is looked at through the cast to
`char *` only under `PT_COLON`. -/
theorem expand_param_unset_colon {σ : Type} (env : environment σ) (st : σ)
    (pe_type : paramexptype_T) (pe_name : List Char)
    (hbyte : pe_type.PT_COLON = true →
      ∀ c rest, (env.get_variable st pe_name).1 = some [c :: rest] →
        env.wchar_first_byte c ≠ 0) :
    ∀ list, (env.get_variable st pe_name).1 = some list →
      ((pe_type.PT_COLON = true ∧ colon_tests_empty env list = true) ↔
        counts_as_unset pe_type.PT_COLON (env.get_variable st pe_name).1) := by
  intro list hl
  by_cases hc : pe_type.PT_COLON = true
  · rw [colon_tests_empty_iff env list (fun c rest h => hbyte hc c rest (by rw [hl, h])), hl]
    simp [counts_as_unset]
  · rw [hl]
    simp [counts_as_unset, hc]

/-- C25 (amended): for a reference that is not nested, `expand_param` with
`PT_MINUS` returns the expansion of `subst_word` when the variable counts as
unset (it is not set, or, with `PT_COLON`, has no string or is one empty
string) and what the expansion without operator returns otherwise; with
`PT_PLUS` it returns the expansion of `subst_word` when the variable does not
count as unset, and when it does, what the expansion without operator returns,
which without `PT_NUMBER` is empty: no string outside double quotes, and inside
double quotes one empty string, or no string when the value is a list without
string that is not joined.  Set aside, under `PT_COLON`, is a value of one
string that starts with a character of first byte zero. -/
theorem expand_param_default_alt {σ : Type} (lim : Limits) (env : environment σ)
    (pe_type : paramexptype_T) (pe_name : List Char) (pe_nest pe_match pe_subst : wordunit_T)
    (indq : Bool) (tilde : tildetype_T) (st : σ)
    (hnest : pe_type.PT_NEST = false)
    (hbyte : pe_type.PT_COLON = true →
      ∀ c rest, (env.get_variable st pe_name).1 = some [c :: rest] →
        env.wchar_first_byte c ≠ 0) :
    (pe_type.op = paramexp_op.PT_MINUS →
      counts_as_unset pe_type.PT_COLON (env.get_variable st pe_name).1 →
      expand_param lim env (paramexp_T.mk pe_type pe_name pe_nest pe_match pe_subst) indq
          tilde st =
        subst_word_expansion lim env pe_subst indq st) ∧
    (pe_type.op = paramexp_op.PT_MINUS →
      ¬ counts_as_unset pe_type.PT_COLON (env.get_variable st pe_name).1 →
      expand_param lim env (paramexp_T.mk pe_type pe_name pe_nest pe_match pe_subst) indq
          tilde st =
        expand_param lim env
          (paramexp_T.mk { pe_type with op := paramexp_op.PT_NONE } pe_name pe_nest pe_match
            pe_subst) indq tilde st) ∧
    (pe_type.op = paramexp_op.PT_PLUS →
      ¬ counts_as_unset pe_type.PT_COLON (env.get_variable st pe_name).1 →
      expand_param lim env (paramexp_T.mk pe_type pe_name pe_nest pe_match pe_subst) indq
          tilde st =
        subst_word_expansion lim env pe_subst indq st) ∧
    (pe_type.op = paramexp_op.PT_PLUS →
      counts_as_unset pe_type.PT_COLON (env.get_variable st pe_name).1 →
      expand_param lim env (paramexp_T.mk pe_type pe_name pe_nest pe_match pe_subst) indq
          tilde st =
        expand_param lim env
          (paramexp_T.mk { pe_type with op := paramexp_op.PT_NONE } pe_name pe_nest pe_match
            pe_subst) indq tilde st) ∧
    (pe_type.op = paramexp_op.PT_PLUS →
      counts_as_unset pe_type.PT_COLON (env.get_variable st pe_name).1 →
      pe_type.PT_NUMBER = false →
      expand_param lim env (paramexp_T.mk pe_type pe_name pe_nest pe_match pe_subst) indq
          tilde st =
        outcome.returns
          (some (if indq = true ∧ env.get_variable st pe_name ≠ (some [], false) then [[]]
            else []), st)) := by
  have hflag := expand_param_unset_colon env st pe_type pe_name hbyte
  rcases hv : env.get_variable st pe_name with ⟨value, concat⟩
  rw [hv] at hflag
  simp only at hflag
  cases value with
  | none =>
    have hu : counts_as_unset pe_type.PT_COLON (none : Option (List (List Char))) := Or.inl rfl
    refine ⟨fun hop _ => ?_, fun _ hn => absurd hu hn, fun _ hn => absurd hu hn,
      fun hop _ => ?_, fun hop _ hnum => ?_⟩
    · rw [expand_param, subst_word_expansion_eq]
      simp only [hnest, hv, hop]
      simp
    · rw [expand_param, expand_param]
      simp only [hnest, hv, hop]
      simp
      rfl
    · rw [expand_param]
      simp only [hnest, hv, hop]
      cases concat <;> cases indq <;>
        simp [expand_param_finish, hnum, joinwcsarray, escape]
  | some list =>
    have hiff := hflag list rfl
    refine ⟨fun hop hu => ?_, fun hop hn => ?_, fun hop hn => ?_, fun hop hu => ?_,
      fun hop hu hnum => ?_⟩
    · rw [expand_param, subst_word_expansion_eq]
      simp only [hnest, hv, hop]
      simp [hiff.2 hu]
    · have hc : ¬ (pe_type.PT_COLON = true ∧ colon_tests_empty env list = true) :=
        fun h => hn (hiff.1 h)
      rw [expand_param, expand_param]
      simp only [hnest, hv, hop]
      simp [hc]
      rfl
    · have hc : ¬ (pe_type.PT_COLON = true ∧ colon_tests_empty env list = true) :=
        fun h => hn (hiff.1 h)
      rw [expand_param, subst_word_expansion_eq]
      simp only [hnest, hv, hop]
      simp [hc]
    · rw [expand_param, expand_param]
      simp only [hnest, hv, hop]
      simp [hiff.2 hu]
      rfl
    · have hl : list = [] ∨ list = [[]] := by
        rcases hu with h | ⟨_, h | h⟩
        · cases h
        · exact Or.inl (Option.some.inj h)
        · exact Or.inr (Option.some.inj h)
      rw [expand_param]
      simp only [hnest, hv, hop]
      rcases hl with hl | hl <;> subst hl <;> cases concat <;> cases indq <;>
        simp [hiff.2 hu, expand_param_finish, hnum, joinwcsarray, escape]

/-- A character other than the backslash is kept by `unescape`. -/
theorem unescape_cons_ne (c : Char) (s : List Char) (hc : c ≠ '\\') :
    unescape (c :: s) = c :: unescape s := by
  conv_lhs => unfold unescape
  split <;> simp_all

/-- The inverse of escaping: `unescape` gives back the string that `escape` was
applied to, when the backslash is among the characters that `escape`
escapes. -/
theorem unescape_escape (t : Option (List Char))
    (ht : ∀ chars, t = some chars → '\\' ∈ chars) (s : List Char) :
    unescape (escape t s) = s := by
  cases t with
  | none =>
    induction s with
    | nil => simp [escape, unescape]
    | cons c s ih => simp [escape, unescape, ih]
  | some chars =>
    have hb := ht chars rfl
    induction s with
    | nil => simp [escape, unescape]
    | cons c s ih =>
      by_cases hc : c ∈ chars
      · simp [escape, hc, unescape, ih]
      · have hne : c ≠ '\\' := fun h => hc (h ▸ hb)
        simp only [escape, hc, decide_False, Bool.false_eq_true, if_false]
        rw [unescape_cons_ne c _ hne, ih]

/-- `expand_single` through the loop over the units of the word. -/
theorem expand_single_eq {σ : Type} (lim : Limits) (env : environment σ) (arg : wordunit_T)
    (tilde : tildetype_T) (st : σ) :
    expand_single lim env arg tilde st =
      match expand_word_units lim env arg tilde expand_word_init st with
      | outcome.returns (s2, st2) =>
        match expand_single_finish env st2 (expand_word_finish s2) with
        | outcome.returns result => outcome.returns (result, st2)
        | outcome.exits => outcome.exits
        | outcome.aborts => outcome.aborts
      | outcome.exits => outcome.exits
      | outcome.aborts => outcome.aborts := by
  unfold expand_single expand_word
  rcases expand_word_units lim env arg tilde expand_word_init st with ⟨s2, st2⟩ | _ | _ <;> rfl

/-- What `expand_param` does with `PT_ASSIGN` once the flag `unset` is set for
a reference that is not nested. -/
theorem expand_param_assign_unset {σ : Type} (lim : Limits) (env : environment σ)
    (pe_type : paramexptype_T) (pe_name : List Char) (pe_nest pe_match pe_subst : wordunit_T)
    (indq : Bool) (tilde : tildetype_T) (st : σ)
    (hop : pe_type.op = paramexp_op.PT_ASSIGN) (hnest : pe_type.PT_NEST = false)
    (hu : counts_as_unset pe_type.PT_COLON (env.get_variable st pe_name).1) :
    expand_param lim env (paramexp_T.mk pe_type pe_name pe_nest pe_match pe_subst) indq
        tilde st =
      if env.is_name pe_name = false then outcome.returns (none, st)
      else
        match expand_single lim env pe_subst tildetype_T.tt_single st with
        | outcome.returns (none, st2) => outcome.returns (none, st2)
        | outcome.returns (some subst, st2) =>
          if (env.set_variable st2 pe_name (unescape subst)).2 = false then
            outcome.returns (none, (env.set_variable st2 pe_name (unescape subst)).1)
          else
            outcome.returns
              (some (expand_param_finish env
                (env.set_variable st2 pe_name (unescape subst)).1 pe_type indq
                [unescape subst] (env.get_variable st pe_name).2),
                (env.set_variable st2 pe_name (unescape subst)).1)
        | outcome.exits => outcome.exits
        | outcome.aborts => outcome.aborts := by
  rw [expand_single_eq]
  rcases hv : env.get_variable st pe_name with ⟨value, concat⟩
  rw [hv] at hu
  have key : ∀ list unset0, (value = none → unset0 = true) → (value = some list ∨ value = none) →
      (if pe_type.PT_COLON = true ∧ colon_tests_empty env (value.getD list) = true then true
        else unset0) = true := by
    intro list unset0 h0 hl
    rcases hu with h | ⟨hc, h | h⟩
    · simp [h0 h]
    · simp [show value = some [] from h, hc, colon_tests_empty]
    · simp [show value = some [[]] from h, hc, colon_tests_empty]
  rw [expand_param]
  cases value with
  | none =>
    have hk := key [[]] true (fun _ => rfl) (Or.inr rfl)
    simp only [Option.getD_none] at hk
    simp only [hnest, hv, hop]
    simp only [Bool.false_eq_true, if_false, hk, if_true]
    by_cases hn : env.is_name pe_name = false
    · simp [hn]
    · simp only [hn, if_false]
      rcases expand_word_units lim env pe_subst tildetype_T.tt_single expand_word_init st
        with ⟨s2, st2⟩ | _ | _
      · dsimp only
        rcases expand_single_finish env st2 (expand_word_finish s2) with (_ | subst) | _ | _ <;>
          simp
      · simp
      · simp
  | some list =>
    have hk := key list false (fun h => by cases h) (Or.inl rfl)
    simp only [Option.getD_some] at hk
    simp only [hnest, hv, hop]
    simp only [Bool.false_eq_true, if_false, hk, if_true]
    by_cases hn : env.is_name pe_name = false
    · simp [hn]
    · simp only [hn, if_false]
      rcases expand_word_units lim env pe_subst tildetype_T.tt_single expand_word_init st
        with ⟨s2, st2⟩ | _ | _
      · dsimp only
        rcases expand_single_finish env st2 (expand_word_finish s2) with (_ | subst) | _ | _ <;>
          simp
      · simp
      · simp

/-- The result of `expand_word` through the loop over the units of the
word. -/
theorem expand_word_returns {σ : Type} (lim : Limits) (env : environment σ) (w : wordunit_T)
    (tilde : tildetype_T) (st st1 : σ) (r : expand_word_result)
    (h : expand_word lim env w tilde st = outcome.returns (r, st1)) :
    ∃ s1, expand_word_units lim env w tilde expand_word_init st = outcome.returns (s1, st1) ∧
      expand_word_finish s1 = r := by
  unfold expand_word at h
  rcases hu : expand_word_units lim env w tilde expand_word_init st with ⟨s1, st2⟩ | _ | _
  · rw [hu] at h
    simp only [outcome.returns.injEq, Prod.mk.injEq] at h
    exact ⟨s1, by rw [h.2], h.1⟩
  · rw [hu] at h
    cases h
  · rw [hu] at h
    cases h

/-- C26 (amended): `expand_param` with `PT_ASSIGN` on a parameter that counts
as unset returns the null pointer without an assignment when the reference is
a nested expansion or the name is not a valid identifier, and also when the
expansion of `subst_word` or the assignment fails; otherwise it assigns the
expanded `subst_word`, unescaped, to the variable and returns that string in
escaped form as the single element, or no element when the string is empty and
the expansion is outside double quotes. -/
theorem expand_param_assign {σ : Type} (lim : Limits) (env : environment σ)
    (pe_type : paramexptype_T) (pe_name : List Char) (pe_nest pe_match pe_subst : wordunit_T)
    (indq : Bool) (tilde : tildetype_T) (st : σ)
    (hop : pe_type.op = paramexp_op.PT_ASSIGN) :
    (∀ r st1, pe_type.PT_NEST = true →
      expand_word lim env pe_nest tilde st = outcome.returns (r, st1) → r.ok = true →
      pe_type.PT_COLON = true →
      r.valuelist.map unescape = [] ∨ r.valuelist.map unescape = [[]] →
      expand_param lim env (paramexp_T.mk pe_type pe_name pe_nest pe_match pe_subst) indq
          tilde st = outcome.returns (none, st1)) ∧
    (pe_type.PT_NEST = false →
      counts_as_unset pe_type.PT_COLON (env.get_variable st pe_name).1 →
      env.is_name pe_name = false →
      expand_param lim env (paramexp_T.mk pe_type pe_name pe_nest pe_match pe_subst) indq
          tilde st = outcome.returns (none, st)) ∧
    (pe_type.PT_NEST = false →
      counts_as_unset pe_type.PT_COLON (env.get_variable st pe_name).1 →
      env.is_name pe_name = true →
      (∀ st2, expand_single lim env pe_subst tildetype_T.tt_single st =
          outcome.returns (none, st2) →
        expand_param lim env (paramexp_T.mk pe_type pe_name pe_nest pe_match pe_subst) indq
            tilde st = outcome.returns (none, st2)) ∧
      (∀ subst st2, expand_single lim env pe_subst tildetype_T.tt_single st =
          outcome.returns (some subst, st2) →
        ((env.set_variable st2 pe_name (unescape subst)).2 = false →
          expand_param lim env (paramexp_T.mk pe_type pe_name pe_nest pe_match pe_subst) indq
              tilde st =
            outcome.returns (none, (env.set_variable st2 pe_name (unescape subst)).1)) ∧
        ((env.set_variable st2 pe_name (unescape subst)).2 = true →
          pe_type.PT_NUMBER = false →
          expand_param lim env (paramexp_T.mk pe_type pe_name pe_nest pe_match pe_subst) indq
              tilde st =
            outcome.returns
              (some (if indq = false ∧ unescape subst = [] then []
                else [escape (if indq = true then none else some ESCAPED_CHARS)
                  (unescape subst)]),
                (env.set_variable st2 pe_name (unescape subst)).1) ∧
          unescape (escape (if indq = true then none else some ESCAPED_CHARS)
            (unescape subst)) = unescape subst))) := by
  refine ⟨?_, ?_, ?_⟩
  · intro r st1 hnest hw hok hcolon hl
    obtain ⟨s1, hs1, hr⟩ := expand_word_returns lim env pe_nest tilde st st1 r hw
    have hc : colon_tests_empty env (r.valuelist.map unescape) = true := by
      rcases hl with h | h <;> rw [h] <;> simp [colon_tests_empty]
    rw [expand_param]
    simp only [hnest, hs1, hr, hok, hop, hcolon, hc]
    simp [hc]
  · intro hnest hu hname
    rw [expand_param_assign_unset lim env pe_type pe_name pe_nest pe_match pe_subst indq tilde st
      hop hnest hu, if_pos hname]
  · intro hnest hu hname
    have h := expand_param_assign_unset lim env pe_type pe_name pe_nest pe_match pe_subst indq
      tilde st hop hnest hu
    rw [if_neg (by simp [hname])] at h
    refine ⟨fun st2 hs => ?_, fun subst st2 hs => ⟨fun hset => ?_, fun hset hnum => ⟨?_, ?_⟩⟩⟩
    · rw [h, hs]
    · rw [h, hs]
      simp [hset]
    · rw [h, hs]
      simp only [hset, Bool.true_eq_false, if_false]
      have hne : ∀ t, escape t (unescape subst) = [] ↔ unescape subst = [] := by
        intro t
        cases unescape subst with
        | nil => simp [escape]
        | cons c s => by_cases hc : (match t with
            | none => true
            | some chars => decide (c ∈ chars)) = true <;> simp [escape, hc]
      cases (env.get_variable st pe_name).2 <;> cases indq <;>
        simp [expand_param_finish, hnum, joinwcsarray, hne]
    · exact unescape_escape _ (by cases indq <;> simp [ESCAPED_CHARS]) _

/-- The loop over a `WT_STRING` unit at a character in front of which nothing
is left to skip stands at the `switch`. -/
theorem expand_word_string_skip_zero {σ : Type} (env : environment σ) (st : σ)
    (tilde : tildetype_T) (hasnext : Bool) (str : List Char) (s : expand_word_state) :
    expand_word_string env st tilde hasnext str (string_mode.skip 0) s =
    expand_word_string env st tilde hasnext str string_mode.normal s := by
  cases str with
  | nil =>
    conv_lhs => unfold expand_word_string
    conv_rhs => unfold expand_word_string
  | cons c str =>
    conv_lhs => unfold expand_word_string
    conv_rhs => unfold expand_word_string

/-- One step of the loop over a `WT_STRING` unit at the `switch`. -/
theorem expand_word_string_normal {σ : Type} (env : environment σ) (st : σ) (tilde : tildetype_T)
    (hasnext : Bool) (c : Char) (str : List Char) (s : expand_word_state) :
    expand_word_string env st tilde hasnext (c :: str) string_mode.normal s =
    if c = '"' then
      expand_word_string env st tilde hasnext str string_mode.normal
        { s with indq := !s.indq, force := true }
    else if c = '\'' ∧ s.indq = false then
      expand_word_string env st tilde hasnext str string_mode.quoted { s with force := true }
    else if c = '\\' ∧ ¬ (s.indq = true ∧
        (match str with
          | [] => false
          | c' :: _ => decide (c' ∉ ESCAPABLE_CHARS)) = true) then
      match str with
      | [] => outcome.returns (FILL_SBUF false { s with buf := s.buf ++ ['\\'] })
      | c' :: str' =>
        expand_word_string env st tilde hasnext str' string_mode.normal
          (FILL_SBUF false { s with buf := s.buf ++ ['\\', c'] })
    else if c = ':' ∧ s.indq = false ∧ tilde = tildetype_T.tt_multi then
      match expand_tilde env st str hasnext tilde with
      | some (home, n) =>
        expand_word_string env st tilde hasnext str (string_mode.skip n)
          (FILL_SBUF false { s with buf := s.buf ++ [':'] ++ escape (some ESCAPED_CHARS) home })
      | none =>
        expand_word_string env st tilde hasnext str string_mode.normal
          (FILL_SBUF false { s with buf := s.buf ++ [':'] })
    else
      expand_word_string env st tilde hasnext str string_mode.normal
        (FILL_SBUF false
          { s with buf := s.buf ++ (if s.indq = true then ['\\', c] else [c]) }) := by
  conv_lhs => unfold expand_word_string

/-- A property of the local variables that the steps of the loop over a
`WT_STRING` unit keep is kept by the loop. -/
theorem expand_word_string_keeps {σ : Type} (env : environment σ) (st : σ) (tilde : tildetype_T)
    (hasnext : Bool) (P : expand_word_state → Prop)
    (hfill : ∀ s c, P s → P (FILL_SBUF c s))
    (hbuf : ∀ (s : expand_word_state) b, P s → P { s with buf := s.buf ++ b })
    (hquote : ∀ (s : expand_word_state) q, P s → P { s with indq := q, force := true }) :
    ∀ (str : List Char) (mode : string_mode) (s s' : expand_word_state), P s →
    expand_word_string env st tilde hasnext str mode s = outcome.returns s' → P s' := by
  have main : ∀ (n : Nat) (str : List Char), str.length ≤ n →
      ∀ (mode : string_mode) (s s' : expand_word_state), P s →
      expand_word_string env st tilde hasnext str mode s = outcome.returns s' → P s' := by
    intro n
    induction n with
    | zero =>
      intro str hlen mode s s' hs h
      have hnil : str = [] := List.length_eq_zero.mp (Nat.le_zero.mp hlen)
      subst hnil
      cases mode <;> simp [expand_word_string] at h <;> rw [← h] <;> exact hs
    | succ n ih =>
      intro str hlen mode s s' hs h
      cases str with
      | nil => cases mode <;> simp [expand_word_string] at h <;> rw [← h] <;> exact hs
      | cons c str =>
        have hlen1 : str.length ≤ n := Nat.le_of_succ_le_succ hlen
        have hnormal : expand_word_string env st tilde hasnext (c :: str) string_mode.normal s =
            outcome.returns s' → P s' := by
          intro h
          rw [expand_word_string_normal] at h
          split_ifs at h with h1 h2 h3 h4
          · exact ih _ hlen1 _ _ _ (hquote s _ hs) h
          · exact ih _ hlen1 _ _ _ (hquote s s.indq hs) h
          · cases str with
            | nil =>
              simp only [outcome.returns.injEq] at h
              rw [← h]
              exact hfill _ _ (hbuf s _ hs)
            | cons c' str' =>
              simp only at h
              exact ih _ (Nat.le_of_succ_le hlen1) _ _ _ (hfill _ _ (hbuf s _ hs)) h
          · rcases ht : expand_tilde env st str hasnext tilde with _ | ⟨home, m⟩
            · rw [ht] at h
              exact ih _ hlen1 _ _ _ (hfill _ _ (hbuf s _ hs)) h
            · rw [ht] at h
              have hb := hbuf s ([':'] ++ escape (some ESCAPED_CHARS) home) hs
              rw [← List.append_assoc] at hb
              exact ih _ hlen1 _ _ _ (hfill _ _ hb) h
          all_goals exact ih _ hlen1 _ _ _ (hfill _ _ (hbuf s _ hs)) h
        cases mode with
        | normal => exact hnormal h
        | quoted =>
          have hq : expand_word_string env st tilde hasnext (c :: str) string_mode.quoted s =
              if c = '\'' then
                expand_word_string env st tilde hasnext str string_mode.normal
                  (FILL_SBUF false s)
              else
                expand_word_string env st tilde hasnext str string_mode.quoted
                  { s with buf := s.buf ++ ['\\', c] } := by
            conv_lhs => unfold expand_word_string
          rw [hq] at h
          split_ifs at h
          · exact ih _ hlen1 _ _ _ (hfill _ _ hs) h
          · exact ih _ hlen1 _ _ _ (hbuf s _ hs) h
        | skip m =>
          cases m with
          | zero =>
            rw [expand_word_string_skip_zero] at h
            exact hnormal h
          | succ m =>
            have hk : expand_word_string env st tilde hasnext (c :: str)
                (string_mode.skip (m + 1)) s =
                expand_word_string env st tilde hasnext str (string_mode.skip m) s := by
              conv_lhs => unfold expand_word_string
            rw [hk] at h
            exact ih _ hlen1 _ _ _ hs h
  intro str
  exact main str.length str (Nat.le_refl _)

/-- A `WT_STRING` unit leaves `ok` as it is. -/
theorem expand_word_string_unit_ok {σ : Type} (env : environment σ) (st : σ)
    (tilde : tildetype_T) (hasnext : Bool) (str : List Char) (s s' : expand_word_state)
    (h : expand_word_string_unit env st tilde hasnext str s = outcome.returns s') :
    s'.ok = s.ok := by
  have keep := expand_word_string_keeps env st tilde hasnext (fun x => x.ok = s.ok)
    (fun _ _ hx => hx) (fun _ _ hx => hx) (fun _ _ hx => hx)
  unfold expand_word_string_unit at h
  split_ifs at h
  · rcases ht : expand_tilde env st str hasnext tilde with _ | ⟨home, n⟩
    · rw [ht] at h
      dsimp only at h
      exact keep _ _ _ _ (by rfl) h
    · rw [ht] at h
      dsimp only at h
      exact keep _ _ _ _ (by rfl) h
  · exact keep _ _ _ _ rfl h

/-- The loop over the strings of an array leaves `ok` as it is. -/
theorem expand_word_array_ok : ∀ (array : List (List Char)) (s : expand_word_state),
    (expand_word_array array s).ok = s.ok := by
  intro array
  induction array with
  | nil => intro s; rfl
  | cons a rest ih =>
    intro s
    cases rest with
    | nil => rfl
    | cons b rest' =>
      rw [expand_word_array, ih]
      · rfl
      · simp

/-- Once `ok` is false it stays false to the end of the loop of `expand_word`
over the units. -/
theorem expand_word_units_ok_false {σ : Type} (lim : Limits) (env : environment σ) :
    ∀ (w : wordunit_T) (tilde : tildetype_T) (s : expand_word_state) (st : σ)
      (s' : expand_word_state) (st' : σ), s.ok = false →
      expand_word_units lim env w tilde s st = outcome.returns (s', st') → s'.ok = false
  | wordunit_T.null, tilde, s, st, s', st', hs, h => by
    simp only [expand_word_units, outcome.returns.injEq, Prod.mk.injEq] at h
    rw [← h.1]
    exact hs
  | wordunit_T.WT_STRING wu_string next, tilde, s, st, s', st', hs, h => by
    rw [expand_word_units] at h
    rcases hu : expand_word_string_unit env st tilde next.nonnull wu_string s with s1 | _ | _
    · rw [hu] at h
      dsimp only at h
      refine expand_word_units_ok_false lim env next tilde _ st s' st' ?_ h
      exact (expand_word_string_unit_ok env st tilde _ _ s s1 hu).trans hs
    · rw [hu] at h
      cases h
    · rw [hu] at h
      cases h
  | wordunit_T.WT_PARAM wu_param next, tilde, s, st, s', st', hs, h => by
    rw [expand_word_units] at h
    rcases hp : expand_param lim env wu_param s.indq tilde st with ⟨_ | array, st1⟩ | _ | _
    · rw [hp] at h
      dsimp only at h
      refine expand_word_units_ok_false lim env next tilde _ st1 s' st' ?_ h
      rfl
    · rw [hp] at h
      dsimp only at h
      refine expand_word_units_ok_false lim env next tilde _ st1 s' st' ?_ h
      split_ifs
      · exact hs
      · exact (expand_word_array_ok array _).trans hs
    · rw [hp] at h
      cases h
    · rw [hp] at h
      cases h
  | wordunit_T.WT_CMDSUB wu_cmdsub next, tilde, s, st, s', st', hs, h => by
    rw [expand_word_units] at h
    rcases hc : env.exec_command_substitution st wu_cmdsub with ⟨st1, _ | out⟩
    · rw [hc] at h
      dsimp only at h
      refine expand_word_units_ok_false lim env next tilde _ st1 s' st' ?_ h
      rfl
    · rw [hc] at h
      dsimp only at h
      refine expand_word_units_ok_false lim env next tilde _ st1 s' st' ?_ h
      exact hs
  | wordunit_T.WT_ARITH wu_arith next, tilde, s, st, s', st', hs, h => by
    rw [expand_word_units] at h
    refine expand_word_units_ok_false lim env next tilde _ st s' st' ?_ h
    rfl

/-- After a word with an arithmetic-substitution unit the loop of `expand_word`
ends with `ok` false. -/
theorem expand_word_units_has_arith {σ : Type} (lim : Limits) (env : environment σ) :
    ∀ (w : wordunit_T) (tilde : tildetype_T) (s : expand_word_state) (st : σ)
      (s' : expand_word_state) (st' : σ), w.has_arith = true →
      expand_word_units lim env w tilde s st = outcome.returns (s', st') → s'.ok = false
  | wordunit_T.null, tilde, s, st, s', st', hw, h => by
    simp [wordunit_T.has_arith] at hw
  | wordunit_T.WT_STRING wu_string next, tilde, s, st, s', st', hw, h => by
    rw [expand_word_units] at h
    rcases hu : expand_word_string_unit env st tilde next.nonnull wu_string s with s1 | _ | _
    · rw [hu] at h
      dsimp only at h
      exact expand_word_units_has_arith lim env next tilde _ st s' st' hw h
    · rw [hu] at h
      cases h
    · rw [hu] at h
      cases h
  | wordunit_T.WT_PARAM wu_param next, tilde, s, st, s', st', hw, h => by
    rw [expand_word_units] at h
    rcases hp : expand_param lim env wu_param s.indq tilde st with ⟨_ | array, st1⟩ | _ | _
    · rw [hp] at h
      dsimp only at h
      exact expand_word_units_has_arith lim env next tilde _ st1 s' st' hw h
    · rw [hp] at h
      dsimp only at h
      exact expand_word_units_has_arith lim env next tilde _ st1 s' st' hw h
    · rw [hp] at h
      cases h
    · rw [hp] at h
      cases h
  | wordunit_T.WT_CMDSUB wu_cmdsub next, tilde, s, st, s', st', hw, h => by
    rw [expand_word_units] at h
    rcases hc : env.exec_command_substitution st wu_cmdsub with ⟨st1, _ | out⟩
    · rw [hc] at h
      dsimp only at h
      exact expand_word_units_has_arith lim env next tilde _ st1 s' st' hw h
    · rw [hc] at h
      dsimp only at h
      exact expand_word_units_has_arith lim env next tilde _ st1 s' st' hw h
  | wordunit_T.WT_ARITH wu_arith next, tilde, s, st, s', st', _, h => by
    rw [expand_word_units] at h
    exact expand_word_units_ok_false lim env next tilde _ st s' st' rfl h

/-- Once `ok` is false it stays false to the end of the loop of
`expand_string` over the units. -/
theorem expand_string_units_ok_false {σ : Type} (lim : Limits) (env : environment σ)
    (esc : Bool) :
    ∀ (w : wordunit_T) (buf : List Char) (st : σ) (ok' : Bool) (buf' : List Char) (st' : σ),
      expand_string_units lim env esc w false buf st = outcome.returns (ok', buf', st') →
      ok' = false
  | wordunit_T.null, buf, st, ok', buf', st', h => by
    simp only [expand_string_units, outcome.returns.injEq, Prod.mk.injEq] at h
    exact h.1.symm
  | wordunit_T.WT_STRING wu_string next, buf, st, ok', buf', st', h => by
    rw [expand_string_units] at h
    exact expand_string_units_ok_false lim env esc next _ st ok' buf' st' h
  | wordunit_T.WT_PARAM wu_param next, buf, st, ok', buf', st', h => by
    rw [expand_string_units] at h
    rcases hp : expand_param lim env wu_param false tildetype_T.tt_none st
      with ⟨_ | array, st1⟩ | _ | _
    · rw [hp] at h
      dsimp only at h
      exact expand_string_units_ok_false lim env esc next _ st1 ok' buf' st' h
    · rw [hp] at h
      dsimp only at h
      exact expand_string_units_ok_false lim env esc next _ st1 ok' buf' st' h
    · rw [hp] at h
      cases h
    · rw [hp] at h
      cases h
  | wordunit_T.WT_CMDSUB wu_cmdsub next, buf, st, ok', buf', st', h => by
    rw [expand_string_units] at h
    rcases hc : env.exec_command_substitution st wu_cmdsub with ⟨st1, _ | out⟩
    · rw [hc] at h
      dsimp only at h
      exact expand_string_units_ok_false lim env esc next _ st1 ok' buf' st' h
    · rw [hc] at h
      dsimp only at h
      exact expand_string_units_ok_false lim env esc next _ st1 ok' buf' st' h
  | wordunit_T.WT_ARITH wu_arith next, buf, st, ok', buf', st', h => by
    rw [expand_string_units] at h
    exact expand_string_units_ok_false lim env esc next _ st ok' buf' st' h

/-- After a word with an arithmetic-substitution unit the loop of
`expand_string` ends with `ok` false. -/
theorem expand_string_units_has_arith {σ : Type} (lim : Limits) (env : environment σ)
    (esc : Bool) :
    ∀ (w : wordunit_T) (ok : Bool) (buf : List Char) (st : σ) (ok' : Bool) (buf' : List Char)
      (st' : σ), w.has_arith = true →
      expand_string_units lim env esc w ok buf st = outcome.returns (ok', buf', st') →
      ok' = false
  | wordunit_T.null, ok, buf, st, ok', buf', st', hw, h => by
    simp [wordunit_T.has_arith] at hw
  | wordunit_T.WT_STRING wu_string next, ok, buf, st, ok', buf', st', hw, h => by
    rw [expand_string_units] at h
    exact expand_string_units_has_arith lim env esc next ok _ st ok' buf' st' hw h
  | wordunit_T.WT_PARAM wu_param next, ok, buf, st, ok', buf', st', hw, h => by
    rw [expand_string_units] at h
    rcases hp : expand_param lim env wu_param false tildetype_T.tt_none st
      with ⟨_ | array, st1⟩ | _ | _
    · rw [hp] at h
      dsimp only at h
      exact expand_string_units_has_arith lim env esc next _ _ st1 ok' buf' st' hw h
    · rw [hp] at h
      dsimp only at h
      exact expand_string_units_has_arith lim env esc next _ _ st1 ok' buf' st' hw h
    · rw [hp] at h
      cases h
    · rw [hp] at h
      cases h
  | wordunit_T.WT_CMDSUB wu_cmdsub next, ok, buf, st, ok', buf', st', hw, h => by
    rw [expand_string_units] at h
    rcases hc : env.exec_command_substitution st wu_cmdsub with ⟨st1, _ | out⟩
    · rw [hc] at h
      dsimp only at h
      exact expand_string_units_has_arith lim env esc next _ _ st1 ok' buf' st' hw h
    · rw [hc] at h
      dsimp only at h
      exact expand_string_units_has_arith lim env esc next _ _ st1 ok' buf' st' hw h
  | wordunit_T.WT_ARITH wu_arith next, ok, buf, st, ok', buf', st', _, h => by
    rw [expand_string_units] at h
    exact expand_string_units_ok_false lim env esc next _ st ok' buf' st' h

/-- C27: for every word that has an arithmetic-substitution unit, whenever
`expand_word` returns it returns false, and whenever `expand_string` returns it
returns the null pointer; neither succeeds on such a word.  (In a shell that is
not interactive `expand_string` exits instead of returning.) -/
theorem expand_arith_fails {σ : Type} (lim : Limits) (env : environment σ) (w : wordunit_T)
    (tilde : tildetype_T) (esc : Bool) (st : σ) (hw : w.has_arith = true) :
    (∀ r st1, expand_word lim env w tilde st = outcome.returns (r, st1) → r.ok = false) ∧
    (∀ result st1, expand_string lim env w esc st = outcome.returns (result, st1) →
      result = none) ∧
    (env.is_interactive = false → ∀ x, expand_string lim env w esc st ≠ outcome.returns x) := by
  have hstring : ∀ ok' buf' st', expand_string_units lim env esc w true [] st =
      outcome.returns (ok', buf', st') → ok' = false :=
    fun ok' buf' st' h => expand_string_units_has_arith lim env esc w true [] st ok' buf' st' hw h
  refine ⟨?_, ?_, ?_⟩
  · intro r st1 h
    obtain ⟨s1, hs1, hr⟩ := expand_word_returns lim env w tilde st st1 r h
    have hok := expand_word_units_has_arith lim env w tilde _ st s1 st1 hw hs1
    rw [← hr]
    unfold expand_word_finish
    split_ifs <;> exact hok
  · intro result st1 h
    unfold expand_string at h
    rcases hu : expand_string_units lim env esc w true [] st with ⟨ok', buf', st'⟩ | _ | _
    · rw [hu] at h
      dsimp only at h
      rw [hstring ok' buf' st' hu] at h
      cases hint : env.is_interactive
      · simp [hint] at h
      · simp [hint] at h
        exact h.1.symm
    · rw [hu] at h
      cases h
    · rw [hu] at h
      cases h
  · intro hi x h
    unfold expand_string at h
    rcases hu : expand_string_units lim env esc w true [] st with ⟨ok', buf', st'⟩ | _ | _
    · rw [hu] at h
      dsimp only at h
      rw [hstring ok' buf' st' hu] at h
      simp [hi] at h
    · rw [hu] at h
      cases h
    · rw [hu] at h
      cases h

/-- After a character read at the `switch`, the loop over a `WT_STRING` unit
ends with `force` set or with something in `buf`, and it leaves the lists and
`suppress` as they are. -/
theorem expand_word_string_marks {σ : Type} (env : environment σ) (st : σ) (tilde : tildetype_T)
    (hasnext : Bool) (c : Char) (str : List Char) (s s' : expand_word_state)
    (h : expand_word_string env st tilde hasnext (c :: str) string_mode.normal s =
      outcome.returns s') :
    (s'.force = true ∨ s'.buf ≠ []) ∧ s'.valuelist = s.valuelist ∧ s'.suppress = s.suppress ∧
      s'.ok = s.ok := by
  have keep1 := expand_word_string_keeps env st tilde hasnext
    (fun x => x.force = true ∨ x.buf ≠ [])
    (fun _ _ hx => hx)
    (fun x b hx => hx.imp id (fun hb => by
      simp only [ne_eq, List.append_eq_nil, not_and]
      exact fun hn => absurd hn hb))
    (fun _ _ _ => Or.inl rfl)
  have keep2 := expand_word_string_keeps env st tilde hasnext
    (fun x => x.valuelist = s.valuelist ∧ x.suppress = s.suppress ∧ x.ok = s.ok)
    (fun _ _ hx => hx) (fun _ _ hx => hx) (fun _ _ hx => hx)
  refine ⟨?_, keep2 _ _ _ _ ⟨rfl, rfl, rfl⟩ h⟩
  rw [expand_word_string_normal] at h
  split_ifs at h with h1 h2 h3 h4
  · exact keep1 _ _ _ _ (Or.inl rfl) h
  · exact keep1 _ _ _ _ (Or.inl rfl) h
  · cases str with
    | nil =>
      simp only [outcome.returns.injEq] at h
      rw [← h]
      exact Or.inr (by simp [FILL_SBUF])
    | cons c' str' =>
      simp only at h
      exact keep1 _ _ _ _ (Or.inr (by simp [FILL_SBUF])) h
  · rcases ht : expand_tilde env st str hasnext tilde with _ | ⟨home, m⟩
    · rw [ht] at h
      exact keep1 _ _ _ _ (Or.inr (by simp [FILL_SBUF])) h
    · rw [ht] at h
      exact keep1 _ _ _ _ (Or.inr (by simp [FILL_SBUF])) h
  all_goals exact keep1 _ _ _ _ (Or.inr (by simp [FILL_SBUF])) h

/-- A word of one string that is not empty and does not start with a tilde
yields exactly one entry from `expand_word`. -/
theorem expand_word_string_word {σ : Type} (lim : Limits) (env : environment σ) (st st1 : σ)
    (tilde : tildetype_T) (str : List Char) (r : expand_word_result)
    (hne : str ≠ []) (htilde : str.head? ≠ some '~')
    (h : expand_word lim env (wordunit_T.WT_STRING str wordunit_T.null) tilde st =
      outcome.returns (r, st1)) :
    ∃ field, r.valuelist = [field] := by
  obtain ⟨s1, hs1, hr⟩ := expand_word_returns lim env _ tilde st st1 r h
  have hnone : expand_tilde env st str false tilde = none := by
    cases str with
    | nil => rfl
    | cons c rest =>
      unfold expand_tilde
      split
      · rename_i heq
        simp only [List.cons.injEq] at heq
        simp [heq.1] at htilde
      · rfl
  rw [expand_word_units] at hs1
  simp only [wordunit_T.nonnull, expand_word_string_unit, hnone] at hs1
  rw [show (if expand_word_init.first = true ∧ tilde ≠ tildetype_T.tt_none then
        expand_word_string env st tilde false str string_mode.normal expand_word_init
      else expand_word_string env st tilde false str string_mode.normal expand_word_init) =
      expand_word_string env st tilde false str string_mode.normal expand_word_init by
    split_ifs <;> rfl] at hs1
  rcases hu : expand_word_string env st tilde false str string_mode.normal expand_word_init
    with s2 | _ | _
  · rw [hu] at hs1
    simp only [expand_word_units, outcome.returns.injEq, Prod.mk.injEq] at hs1
    obtain ⟨c, rest, rfl⟩ : ∃ c rest, str = c :: rest := List.exists_cons_of_ne_nil hne
    have hm := expand_word_string_marks env st tilde false c rest expand_word_init s2 hu
    refine ⟨s2.buf, ?_⟩
    rw [← hr, ← hs1.1]
    unfold expand_word_finish
    have hcond : s2.buf.length > 0 ∨ (s2.valuelist.length = 0 ∧ s2.force = true ∧
        s2.suppress = false) := by
      rcases hm.1 with hf | hb
      · by_cases hb : s2.buf = []
        · exact Or.inr ⟨by simp [hm.2.1, expand_word_init], hf,
            by simp [hm.2.2.1, expand_word_init]⟩
        · exact Or.inl (List.length_pos.mpr hb)
      · exact Or.inl (List.length_pos.mpr hb)
    rw [if_pos hcond]
    simp [hm.2.1, expand_word_init]
  · rw [hu] at hs1
    cases hs1
  · rw [hu] at hs1
    cases hs1

/-- C24: a parameter expansion that gives no field undoes the quoting of an
empty word.  The words `""` and `''` yield exactly one empty entry from
`expand_word`, and so does `"$x"` for a variable `x` that is not set; every
word of one string (not starting with a tilde) yields exactly one entry, which
is empty when the string expands to the empty string; a word of unquoted plain
expansions of variables that are not set or empty yields no entry.  But the
word `""$x` with `x` not set, which has quoting and expands to the empty
string, yields no entry either: the expansion of `x` sets `suppress`. -/
theorem expand_word_empty_quotes_suppressed :
    expand_word LP64 sample_environment empty_quotes_then_x tildetype_T.tt_single empty_store =
      outcome.returns ({ ok := true, valuelist := [], splitlist := [] }, empty_store) ∧
    expand_word LP64 sample_environment (wordunit_T.WT_STRING ['"', '"'] wordunit_T.null)
        tildetype_T.tt_single empty_store =
      outcome.returns ({ ok := true, valuelist := [[]], splitlist := [[]] }, empty_store) ∧
    expand_word LP64 sample_environment (wordunit_T.WT_STRING ['\'', '\''] wordunit_T.null)
        tildetype_T.tt_single empty_store =
      outcome.returns ({ ok := true, valuelist := [[]], splitlist := [[]] }, empty_store) ∧
    expand_word LP64 sample_environment (quoted_param_word ['x']) tildetype_T.tt_single
        empty_store =
      outcome.returns ({ ok := true, valuelist := [[]], splitlist := [[]] }, empty_store) ∧
    (∀ {σ : Type} (lim : Limits) (env : environment σ) (st st1 : σ) (tilde : tildetype_T)
      (str : List Char) (r : expand_word_result),
      str ≠ [] → str.head? ≠ some '~' →
      expand_word lim env (wordunit_T.WT_STRING str wordunit_T.null) tilde st =
        outcome.returns (r, st1) →
      ∃ field, r.valuelist = [field]) ∧
    (∀ {σ : Type} (lim : Limits) (env : environment σ) (st : σ) (tilde : tildetype_T)
      (names : List (List Char)),
      (∀ name ∈ names, (env.get_variable st name).1 = none ∨
        (env.get_variable st name).1 = some [] ∨ (env.get_variable st name).1 = some [[]]) →
      expand_word lim env (param_words names) tilde st =
        outcome.returns ({ ok := true, valuelist := [], splitlist := [] }, st)) := by
  refine ⟨by decide, by decide, by decide, by decide,
    fun lim env st st1 tilde str r hne htilde h =>
      expand_word_string_word lim env st st1 tilde str r hne htilde h, ?_⟩
  intro σ lim env st tilde names h
  obtain ⟨s', h1, hok, hforce, hbuf, -, hv, hs⟩ :=
    expand_word_units_param_words lim env st tilde names expand_word_init h rfl
  unfold expand_word
  rw [h1]
  simp only [expand_word_init] at hok hforce hbuf hv hs
  simp [expand_word_finish, hok, hforce, hbuf, hv, hs]

/-- The strings put together by `joinwcsarray` are the strings with the padding
between them, in order. -/
theorem joinwcsarray_eq_intercalate (padding : List Char) :
    ∀ list : List (List Char), joinwcsarray list padding = padding.intercalate list := by
  intro list
  induction list with
  | nil => simp [joinwcsarray, List.intercalate]
  | cons s rest ih =>
    cases rest with
    | nil => simp [joinwcsarray, List.intercalate]
    | cons t rest' =>
      rw [joinwcsarray, ih]
      · simp [List.intercalate, List.append_assoc]
      · simp

/-- C28: when `expand_word` succeeds with the fragments `r.valuelist`,
`expand_single` returns the fragment if there is exactly one, and otherwise the
fragments concatenated in order with the first character of IFS between them,
a space if IFS is not set (nothing if IFS is empty). -/
theorem expand_single_fragments {σ : Type} (lim : Limits) (env : environment σ)
    (arg : wordunit_T) (tilde : tildetype_T) (st st1 : σ) (r : expand_word_result)
    (h : expand_word lim env arg tilde st = outcome.returns (r, st1)) (hok : r.ok = true) :
    (∀ fragment, r.valuelist = [fragment] →
      expand_single lim env arg tilde st = outcome.returns (some fragment, st1)) ∧
    (r.valuelist.length ≠ 1 →
      expand_single lim env arg tilde st =
        outcome.returns
          (some ((match env.getvar st1 VAR_IFS with
              | none => [' ']
              | some ifs => ifs.take 1).intercalate r.valuelist), st1)) := by
  have hpad : ifs_padding (env.getvar st1 VAR_IFS) =
      (match env.getvar st1 VAR_IFS with
        | none => [' ']
        | some ifs => ifs.take 1) := by
    rcases env.getvar st1 VAR_IFS with _ | ifs
    · rfl
    · cases ifs <;> rfl
  constructor
  · intro fragment hf
    unfold expand_single
    rw [h]
    simp [expand_single_finish, hok, hf]
  · intro hlen
    unfold expand_single
    rw [h]
    simp only [expand_single_finish, hok, Bool.true_eq_false, if_false, hlen, ne_eq,
      not_false_eq_true, if_true]
    rw [joinwcsarray_eq_intercalate, hpad]

/-! ## Theorems: the printf built-in -/

/-- Adding a state to the sum of two others. -/
theorem printf_state_add_assoc (s d e : printf_state) : (s.add d).add e = s.add (d.add e) := by
  simp [printf_state.add, Nat.add_assoc]

/-- Adding the state in which nothing has happened. -/
theorem printf_state_add_zero (s : printf_state) : s.add printf_state.zero = s := by
  simp [printf_state.add, printf_state.zero]

/-- What `printf_printf` does to the state does not depend on the state: it is
what it does to the state in which nothing has happened, added. -/
theorem printf_printf_shift {φ : Type} (lib : printf_library φ) (f : format_T)
    (arg : Option (List Char)) (s : printf_state) :
    printf_printf lib f arg s =
      ((printf_printf lib f arg printf_state.zero).1,
        s.add (printf_printf lib f arg printf_state.zero).2) := by
  cases f with
  | FT_NONE => simp [printf_printf, printf_state.add, printf_state.zero]
  | FT_RAW value => simp [printf_printf, printf_state.add, printf_state.zero]
  | FT_STRING convspec =>
    cases arg <;> simp only [printf_printf] <;>
      cases lib.sb_printf_string convspec _ <;>
      simp [sb_printf_result, printf_state.add, printf_state.zero]
  | FT_CHAR convspec =>
    cases arg with
    | none => simp [printf_printf, printf_state.add, printf_state.zero]
    | some a =>
      simp only [printf_printf]
      cases lib.sb_printf_char convspec _ <;>
        simp [sb_printf_result, printf_state.add, printf_state.zero]
  | FT_INT convspec =>
    simp only [printf_printf, printf_parse_integer]
    cases arg <;> split_ifs <;>
      cases lib.sb_printf_integer convspec _ <;>
      simp [sb_printf_result, printf_state.add, printf_state.zero]
  | FT_UINT convspec =>
    simp only [printf_printf, printf_parse_integer]
    cases arg <;> split_ifs <;>
      cases lib.sb_printf_integer convspec _ <;>
      simp [sb_printf_result, printf_state.add, printf_state.zero]
  | FT_FLOAT convspec =>
    simp only [printf_printf]
    cases arg <;> split_ifs <;>
      cases lib.sb_printf_float convspec _ <;>
      simp [sb_printf_result, printf_state.add, printf_state.zero]
  | FT_ECHO left width max =>
    cases arg <;> simp [printf_printf, printf_state.add, printf_state.zero]

/-- An item takes one argument when it is a conversion other than `%%` and an
argument is left, and none otherwise. -/
theorem printf_printf_xoptind {φ : Type} (lib : printf_library φ) (f : format_T)
    (arg : Option (List Char)) (s : printf_state) :
    (printf_printf lib f arg s).2.xoptind =
      s.xoptind + (if f.consumes = true ∧ arg.isSome = true then 1 else 0) := by
  cases f with
  | FT_NONE => simp [printf_printf, format_T.consumes]
  | FT_RAW value => simp [printf_printf, format_T.consumes]
  | FT_STRING convspec =>
    cases arg <;> simp only [printf_printf] <;>
      cases lib.sb_printf_string convspec _ <;>
      simp [sb_printf_result, format_T.consumes]
  | FT_CHAR convspec =>
    cases arg with
    | none => simp [printf_printf, format_T.consumes]
    | some a =>
      simp only [printf_printf]
      cases lib.sb_printf_char convspec _ <;> simp [sb_printf_result, format_T.consumes]
  | FT_INT convspec =>
    simp only [printf_printf, printf_parse_integer]
    cases arg <;> split_ifs <;>
      cases lib.sb_printf_integer convspec _ <;>
      simp_all [sb_printf_result, format_T.consumes]
  | FT_UINT convspec =>
    simp only [printf_printf, printf_parse_integer]
    cases arg <;> split_ifs <;>
      cases lib.sb_printf_integer convspec _ <;>
      simp_all [sb_printf_result, format_T.consumes]
  | FT_FLOAT convspec =>
    simp only [printf_printf]
    cases arg <;> split_ifs <;>
      cases lib.sb_printf_float convspec _ <;>
      simp_all [sb_printf_result, format_T.consumes]
  | FT_ECHO left width max =>
    cases arg <;> simp [printf_printf, format_T.consumes]

/-- An item that takes no argument does not look at the argument. -/
theorem printf_printf_ignores {φ : Type} (lib : printf_library φ) (f : format_T)
    (arg arg' : Option (List Char)) (s : printf_state) (hf : f.consumes = false) :
    printf_printf lib f arg s = printf_printf lib f arg' s := by
  cases f <;> simp [format_T.consumes] at hf <;> simp [printf_printf]

/-- A pass from the state `s` is the pass over the arguments left from the
state in which nothing has happened, added to `s`. -/
theorem printf_pass_shift {φ : Type} (lib : printf_library φ) (format : List format_T) :
    ∀ (argv : List (List Char)) (s : printf_state),
    printf_pass lib argv format s =
      ((printf_pass lib (argv.drop s.xoptind) format printf_state.zero).1,
        s.add (printf_pass lib (argv.drop s.xoptind) format printf_state.zero).2) := by
  induction format with
  | nil =>
    intro argv s
    simp [printf_pass, printf_state_add_zero]
  | cons f format ih =>
    intro argv s
    have harg : (argv.drop s.xoptind).get? printf_state.zero.xoptind = argv.get? s.xoptind := by
      simp [printf_state.zero, List.get?_eq_getElem?, List.getElem?_drop]
    rw [printf_pass, printf_pass, harg, printf_printf_shift lib f _ s]
    rcases hp : printf_printf lib f (argv.get? s.xoptind) printf_state.zero with ⟨r, d⟩
    cases r with
    | PR_OK =>
      simp only
      rw [ih argv (s.add d), ih (argv.drop s.xoptind) d, printf_state_add_assoc]
      have hdrop : List.drop (s.add d).xoptind argv =
          List.drop d.xoptind (List.drop s.xoptind argv) := by
        rw [List.drop_drop]
        simp [printf_state.add, Nat.add_comm]
      rw [hdrop]
    | PR_OK_END => simp
    | PR_ERROR => simp

/-- A pass looks at no more arguments than the format has conversions that
take one. -/
theorem printf_pass_take {φ : Type} (lib : printf_library φ) (argv : List (List Char))
    (k : Nat) (format : List format_T) :
    ∀ s : printf_state, s.xoptind + conversions format ≤ k →
    printf_pass lib (argv.take k) format s = printf_pass lib argv format s := by
  induction format with
  | nil =>
    intro s _
    simp [printf_pass]
  | cons f format ih =>
    intro s hk
    have hconv : conversions (f :: format) =
        conversions format + (if f.consumes = true then 1 else 0) := by
      simp [conversions, List.countP_cons]
    rw [hconv] at hk
    have hstep : printf_printf lib f ((argv.take k).get? s.xoptind) s =
        printf_printf lib f (argv.get? s.xoptind) s := by
      cases hf : f.consumes with
      | false => exact printf_printf_ignores lib f _ _ s hf
      | true =>
        rw [hf] at hk
        simp only [if_true] at hk
        have hlt : s.xoptind < k := by omega
        simp [List.get?_eq_getElem?, List.getElem?_take, hlt]
    rw [printf_pass, printf_pass, hstep]
    have hx := printf_printf_xoptind lib f (argv.get? s.xoptind) s
    rcases hp : printf_printf lib f (argv.get? s.xoptind) s with ⟨r, s1⟩
    rw [hp] at hx
    cases r with
    | PR_OK =>
      simp only
      apply ih
      simp only at hx
      rw [hx]
      split_ifs at hk ⊢ <;> simp_all <;> omega
    | PR_OK_END => simp
    | PR_ERROR => simp

/-- A pass that ends with `PR_OK` consumes one argument for each conversion
that takes one, as long as arguments are left. -/
theorem printf_pass_xoptind {φ : Type} (lib : printf_library φ) (argv : List (List Char))
    (format : List format_T) :
    ∀ s s1 : printf_state, s.xoptind ≤ argv.length →
    printf_pass lib argv format s = (printf_result_T.PR_OK, s1) →
    s1.xoptind = min (s.xoptind + conversions format) argv.length := by
  induction format with
  | nil =>
    intro s s1 hle h
    simp only [printf_pass, Prod.mk.injEq, true_and] at h
    rw [← h]
    simp [conversions, hle]
  | cons f format ih =>
    intro s s1 hle h
    have hconv : conversions (f :: format) =
        conversions format + (if f.consumes = true then 1 else 0) := by
      simp [conversions, List.countP_cons]
    rw [printf_pass] at h
    have hx := printf_printf_xoptind lib f (argv.get? s.xoptind) s
    rcases hp : printf_printf lib f (argv.get? s.xoptind) s with ⟨r, s2⟩
    rw [hp] at hx h
    simp only at hx
    cases r with
    | PR_OK =>
      simp only at h
      have hsome : (argv.get? s.xoptind).isSome = true ↔ s.xoptind < argv.length := by
        rw [List.get?_eq_getElem?]
        constructor
        · intro hs
          by_contra hn
          rw [List.getElem?_eq_none (Nat.le_of_not_lt hn)] at hs
          simp at hs
        · intro hlt
          rw [List.getElem?_eq_getElem hlt]
          rfl
      have hle2 : s2.xoptind ≤ argv.length := by
        rw [hx]
        split_ifs with hc
        · exact hsome.1 hc.2
        · exact hle
      rw [ih s2 s1 hle2 h, hx, hconv]
      by_cases hf : f.consumes = true
      · by_cases hlt : s.xoptind < argv.length
        · rw [if_pos ⟨hf, hsome.2 hlt⟩, if_pos hf]
          omega
        · rw [if_neg (fun hc => hlt (hsome.1 hc.2)), if_pos hf]
          omega
      · rw [if_neg (fun hc => hf hc.1), if_neg hf]
        rfl
    | PR_OK_END => simp at h
    | PR_ERROR => simp at h

/-- No more arguments than conversions: there is one group, with all of
them. -/
theorem argument_groups_last (k : Nat) (args : List (List Char))
    (hlen : args.length ≤ k) : argument_groups k args = [args.take k] := by
  have hcount : (if args = [] then 1 else (args.length + k - 1) / k) = 1 := by
    split_ifs with h
    · rfl
    · have hpos : 0 < args.length := List.length_pos.mpr h
      exact Nat.div_eq_of_lt_le (by omega) (by omega)
  unfold argument_groups
  rw [hcount]
  simp [List.range_succ]

/-- More arguments than conversions: the first group has the first `k`
arguments, and the other groups are those of the arguments after them. -/
theorem argument_groups_step (k : Nat) (args : List (List Char)) (hk : 1 ≤ k)
    (hlen : k < args.length) :
    argument_groups k args = args.take k :: argument_groups k (args.drop k) := by
  have h1 : args ≠ [] := by
    intro h
    rw [h] at hlen
    simp at hlen
  have h2 : args.drop k ≠ [] := by
    intro h
    have := congrArg List.length h
    simp at this
    omega
  have hcount : (args.length + k - 1) / k = ((args.drop k).length + k - 1) / k + 1 := by
    have hx : args.length + k - 1 = ((args.drop k).length + k - 1) + k := by
      simp
      omega
    rw [hx, Nat.add_div_right _ (by omega : 0 < k)]
  unfold argument_groups
  rw [if_neg h1, if_neg h2, hcount, List.range_succ_eq_map]
  simp only [List.map_cons, Nat.zero_mul, List.drop_zero, List.map_map, List.cons.injEq,
    true_and]
  apply List.map_congr_left
  intro i _
  simp only [Function.comp, List.drop_drop]
  congr 2
  rw [Nat.succ_mul]
  omega

/-- The loop of `printf_builtin` over the operands, when no application of the
format ends early: with enough passes it ends with `PR_OK` after one
application of the format to each group of the arguments left. -/
theorem printf_operands_groups {φ : Type} (lib : printf_library φ) (argv : List (List Char))
    (format : List format_T) (hk : 1 ≤ conversions format) :
    ∀ (fuel : Nat) (s : printf_state), s.xoptind ≤ argv.length →
    argv.length - s.xoptind + 1 ≤ fuel →
    (∀ group ∈ argument_groups (conversions format) (argv.drop s.xoptind),
      (apply_format lib format group).1 = printf_result_T.PR_OK) →
    printf_operands lib argv format fuel s =
      some (printf_result_T.PR_OK,
        (argument_groups (conversions format) (argv.drop s.xoptind)).foldl
          (fun acc group => acc.add (apply_format lib format group).2) s) := by
  intro fuel
  induction fuel with
  | zero =>
    intro s _ hfuel
    omega
  | succ fuel ih =>
    intro s hle hfuel hok
    have hpass : printf_pass lib argv format s =
        ((apply_format lib format ((argv.drop s.xoptind).take (conversions format))).1,
          s.add (apply_format lib format
            ((argv.drop s.xoptind).take (conversions format))).2) := by
      rw [printf_pass_shift lib format argv s,
        ← printf_pass_take lib (argv.drop s.xoptind) (conversions format) format
          printf_state.zero (by simp [printf_state.zero])]
      rfl
    have hx : ∀ d, apply_format lib format
        ((argv.drop s.xoptind).take (conversions format)) = (printf_result_T.PR_OK, d) →
        d.xoptind = min (conversions format) (argv.length - s.xoptind) := by
      intro d hd
      have := printf_pass_xoptind lib ((argv.drop s.xoptind).take (conversions format)) format
        printf_state.zero d (Nat.zero_le _) hd
      rw [this]
      simp [printf_state.zero]
    rw [printf_operands, hpass]
    by_cases hlen : (argv.drop s.xoptind).length ≤ conversions format
    · rw [argument_groups_last _ _ hlen] at hok ⊢
      have h0 := hok _ (List.mem_singleton_self _)
      rcases hd : apply_format lib format
        ((argv.drop s.xoptind).take (conversions format)) with ⟨r, d⟩
      rw [hd] at h0
      simp only at h0
      subst h0
      have hdx := hx d hd
      simp only [List.length_drop] at hlen
      have hstop : ¬ ((s.add d).xoptind < argv.length ∧ (s.add d).xoptind ≠ s.xoptind) := by
        simp only [printf_state.add, hdx]
        omega
      simp only [hstop, if_false, List.foldl_cons, List.foldl_nil]
      rw [hd]
    · have hlen1 : conversions format < (argv.drop s.xoptind).length := Nat.lt_of_not_le hlen
      rw [argument_groups_step _ _ hk hlen1] at hok ⊢
      have h0 := hok _ (List.mem_cons_self _ _)
      rcases hd : apply_format lib format
        ((argv.drop s.xoptind).take (conversions format)) with ⟨r, d⟩
      rw [hd] at h0
      simp only at h0
      subst h0
      have hdx := hx d hd
      simp only [List.length_drop] at hlen1
      have hgo : (s.add d).xoptind < argv.length ∧ (s.add d).xoptind ≠ s.xoptind := by
        simp only [printf_state.add, hdx]
        omega
      have hdrop : List.drop (conversions format) (List.drop s.xoptind argv) =
          List.drop (s.add d).xoptind argv := by
        rw [List.drop_drop]
        congr 1
        simp only [printf_state.add, hdx]
        omega
      rw [hdrop] at hok ⊢
      simp only [List.foldl_cons]
      rw [if_pos hgo, ih (s.add d) (Nat.le_of_lt hgo.1)
        (by simp only [printf_state.add, hdx] at hgo ⊢; omega)
        (fun group hg => hok group (List.mem_cons_of_mem _ hg)), hd]

/-- The buffer and the error count after the applications of the format to the
groups: the outputs one after the other, and the sum of the counts. -/
theorem printf_groups_foldl {φ : Type} (lib : printf_library φ) (format : List format_T) :
    ∀ (groups : List (List (List Char))) (s : printf_state),
    (groups.foldl (fun acc group => acc.add (apply_format lib format group).2) s).buf =
      s.buf ++ (groups.map (fun group => (apply_format lib format group).2.buf)).flatten ∧
    (groups.foldl (fun acc group => acc.add (apply_format lib format group).2) s).errors =
      s.errors + (groups.map (fun group => (apply_format lib format group).2.errors)).sum := by
  intro groups
  induction groups with
  | nil =>
    intro s
    simp
  | cons group groups ih =>
    intro s
    simp only [List.foldl_cons, List.map_cons, List.flatten_cons, List.sum_cons]
    rw [(ih _).1, (ih _).2]
    simp [printf_state.add, Nat.add_assoc]

/-- C29 (amended): for a format with `k >= 1` argument-consuming conversions
and `n` arguments, when no application of the format is ended early (by the
escape `\c` in the argument of a `%b` conversion) or fails, the output of
printf is the concatenation of the applications of the format to the
`ceil(n/k)` groups of the next `k` arguments (one application when `n = 0`),
and the exit status is success if no application has printed an error
message. -/
theorem printf_reapplies_format {φ : Type} (lib : printf_library φ) (lim : Limits)
    (format : List Char) (args : List (List Char)) (items : List format_T)
    (hparse : printf_parse_format lib lim format = some items)
    (hk : 1 ≤ conversions items)
    (hok : ∀ group ∈ argument_groups (conversions items) args,
      (apply_format lib items group).1 = printf_result_T.PR_OK) :
    printf_builtin lib lim (format :: args) =
      some
        { status :=
            if ((argument_groups (conversions items) args).map
                (fun group => (apply_format lib items group).2.errors)).sum = 0
            then exit_status.Exit_SUCCESS else exit_status.Exit_FAILURE,
          stdout :=
            ((argument_groups (conversions items) args).map
              (fun group => (apply_format lib items group).2.buf)).flatten } ∧
    (argument_groups (conversions items) args).length =
      (if args = [] then 1 else (args.length + conversions items - 1) / conversions items) ∧
    ∀ i, i < (argument_groups (conversions items) args).length →
      (argument_groups (conversions items) args)[i]? =
        some ((args.drop (i * conversions items)).take (conversions items)) := by
  refine ⟨?_, by simp [argument_groups], ?_⟩
  · have hloop := printf_operands_groups lib (format :: args) items hk
      ((format :: args).length + 1) { xoptind := 1, buf := [], errors := 0 }
      (by simp) (by simp) (by simpa using hok)
    have hfold := printf_groups_foldl lib items
      (argument_groups (conversions items) args) { xoptind := 1, buf := [], errors := 0 }
    simp only [List.drop_succ_cons, List.drop_zero] at hloop
    simp only [printf_builtin, hparse, hloop, hfold.1, hfold.2]
    simp
  · intro i hi
    simp only [argument_groups, List.length_map, List.length_range] at hi
    simp [argument_groups, List.getElem?_map, List.getElem?_range hi]

/-- A pass over a format without argument-consuming conversions appends the
literal text and consumes nothing. -/
theorem printf_pass_literal {φ : Type} (lib : printf_library φ) (argv : List (List Char)) :
    ∀ (format : List format_T) (s : printf_state), conversions format = 0 →
    printf_pass lib argv format s =
      (printf_result_T.PR_OK, { s with buf := s.buf ++ literal_text format }) := by
  intro format
  induction format with
  | nil =>
    intro s _
    simp [printf_pass, literal_text]
  | cons f format ih =>
    intro s h
    have hcons : f.consumes = false ∧ conversions format = 0 := by
      cases hf : f.consumes <;> simp_all [conversions, List.countP_cons]
    cases f <;> simp [format_T.consumes] at hcons <;>
      simp [printf_pass, printf_printf, ih _ hcons, literal_text]

/-- A pass never moves `xoptind` back. -/
theorem printf_pass_mono {φ : Type} (lib : printf_library φ) (argv : List (List Char)) :
    ∀ (format : List format_T) (s : printf_state),
    s.xoptind ≤ (printf_pass lib argv format s).2.xoptind := by
  intro format
  induction format with
  | nil =>
    intro s
    simp [printf_pass]
  | cons f format ih =>
    intro s
    have hx := printf_printf_xoptind lib f (argv.get? s.xoptind) s
    rw [printf_pass]
    rcases hp : printf_printf lib f (argv.get? s.xoptind) s with ⟨r, s1⟩
    rw [hp] at hx
    simp only at hx
    have hle : s.xoptind ≤ s1.xoptind := by
      rw [hx]
      exact Nat.le_add_right _ _
    cases r with
    | PR_OK => exact Nat.le_trans hle (ih s1)
    | PR_OK_END => exact hle
    | PR_ERROR => exact hle

/-- The loop of `printf_builtin` over the operands ends: one more pass than
arguments are left is enough, and more passes give the same result. -/
theorem printf_operands_total {φ : Type} (lib : printf_library φ) (argv : List (List Char))
    (format : List format_T) :
    ∀ (n : Nat) (s : printf_state), argv.length - s.xoptind ≤ n →
    ∃ r, ∀ fuel, n + 1 ≤ fuel → printf_operands lib argv format fuel s = some r := by
  intro n
  induction n with
  | zero =>
    intro s hn
    have hmono := printf_pass_mono lib argv format s
    rcases hp : printf_pass lib argv format s with ⟨r0, s1⟩
    rw [hp] at hmono
    simp only at hmono
    refine ⟨(r0, s1), fun fuel hfuel => ?_⟩
    obtain ⟨fuel', rfl⟩ : ∃ fuel', fuel = fuel' + 1 := ⟨fuel - 1, by omega⟩
    rw [printf_operands, hp]
    cases r0 with
    | PR_OK =>
      simp only
      rw [if_neg (by omega)]
    | PR_OK_END => rfl
    | PR_ERROR => rfl
  | succ n ih =>
    intro s hn
    have hmono := printf_pass_mono lib argv format s
    rcases hp : printf_pass lib argv format s with ⟨r0, s1⟩
    rw [hp] at hmono
    simp only at hmono
    by_cases hgo : r0 = printf_result_T.PR_OK ∧ s1.xoptind < argv.length ∧
        s1.xoptind ≠ s.xoptind
    · obtain ⟨r, hr⟩ := ih s1 (by omega)
      refine ⟨r, fun fuel hfuel => ?_⟩
      obtain ⟨fuel', rfl⟩ : ∃ fuel', fuel = fuel' + 1 := ⟨fuel - 1, by omega⟩
      rw [printf_operands, hp, hgo.1]
      simp only
      rw [if_pos hgo.2]
      exact hr fuel' (by omega)
    · refine ⟨(r0, s1), fun fuel hfuel => ?_⟩
      obtain ⟨fuel', rfl⟩ : ∃ fuel', fuel = fuel' + 1 := ⟨fuel - 1, by omega⟩
      rw [printf_operands, hp]
      cases r0 with
      | PR_OK =>
        simp only
        rw [if_neg (fun h => hgo ⟨rfl, h⟩)]
      | PR_OK_END => rfl
      | PR_ERROR => rfl

/-- A format without `%` and backslash, of characters that are one byte each,
is parsed to its own text as the one literal item. -/
theorem printf_parse_format_plain {φ : Type} (lib : printf_library φ) (lim : Limits) :
    ∀ (format buf : List Char),
    (∀ c ∈ format, c ≠ '%' ∧ c ≠ '\\' ∧ lib.wcrtomb c = some [c]) →
    printf_parse_format_loop lib lim format 0 buf = some (MAKE_STRING (buf ++ format)) := by
  intro format
  induction format with
  | nil =>
    intro buf _
    simp [printf_parse_format_loop]
  | cons c format ih =>
    intro buf h
    have hc := h c (List.mem_cons_self _ _)
    have hrest := ih (buf ++ [c]) (fun d hd => h d (List.mem_cons_of_mem _ hd))
    simp only [List.append_assoc, List.singleton_append] at hrest
    simp [printf_parse_format_loop, hc.1, hc.2.1, hc.2.2, hrest]

/-- C30: for a format without argument-consuming conversion, whatever the
number of arguments, printf makes one pass and writes the literal text of the
format once, as `printf 'hello%%\n' x y` does, and a format without `%` and
backslash is written as it is; and for every format and
argument list the loop over the operands ends, with a result that does not
depend on the bound on the passes once that is above the number of arguments
left, so that `printf_builtin` always gives a result. -/
theorem printf_terminates :
    (∀ {φ : Type} (lib : printf_library φ) (lim : Limits) (format : List Char)
      (args : List (List Char)) (items : List format_T),
      printf_parse_format lib lim format = some items → conversions items = 0 →
      printf_builtin lib lim (format :: args) =
        some { status := exit_status.Exit_SUCCESS, stdout := literal_text items } ∧
      ∀ s, printf_operands lib (format :: args) items 1 s =
        some (printf_result_T.PR_OK, { s with buf := s.buf ++ literal_text items })) ∧
    (∀ {φ : Type} (lib : printf_library φ) (lim : Limits) (format : List Char)
      (args : List (List Char)),
      (∀ c ∈ format, c ≠ '%' ∧ c ≠ '\\' ∧ lib.wcrtomb c = some [c]) →
      printf_builtin lib lim (format :: args) =
        some { status := exit_status.Exit_SUCCESS, stdout := format }) ∧
    (∀ {φ : Type} (lib : printf_library φ) (argv : List (List Char)) (items : List format_T)
      (s : printf_state),
      ∃ r, ∀ fuel, argv.length - s.xoptind + 1 ≤ fuel →
        printf_operands lib argv items fuel s = some r) ∧
    (∀ {φ : Type} (lib : printf_library φ) (lim : Limits) (operands : List (List Char)),
      (printf_builtin lib lim operands).isSome = true) ∧
    printf_builtin sample_library LP64
        [['h', 'e', 'l', 'l', 'o', '%', '%', '\\', 'n'], ['x'], ['y']] =
      some { status := exit_status.Exit_SUCCESS,
             stdout := ['h', 'e', 'l', 'l', 'o', '%', '\n'] } := by
  have hone : ∀ {φ : Type} (lib : printf_library φ) (argv : List (List Char))
      (items : List format_T), conversions items = 0 → ∀ fuel s,
      printf_operands lib argv items (fuel + 1) s =
        some (printf_result_T.PR_OK, { s with buf := s.buf ++ literal_text items }) := by
    intro φ lib argv items hconv fuel s
    rw [printf_operands, printf_pass_literal lib _ items s hconv]
    simp
  refine ⟨?_, ?_, ?_, ?_, by decide⟩
  · intro φ lib lim format args items hparse hconv
    refine ⟨?_, hone lib _ items hconv 0⟩
    simp only [printf_builtin, hparse, hone lib _ items hconv]
    simp
  · intro φ lib lim format args hplain
    have hparse : printf_parse_format lib lim format = some (MAKE_STRING format) := by
      simpa using printf_parse_format_plain lib lim format [] hplain
    have hconv : conversions (MAKE_STRING format) = 0 := by
      unfold MAKE_STRING
      split_ifs <;> simp [conversions, format_T.consumes]
    have htext : literal_text (MAKE_STRING format) = format := by
      unfold MAKE_STRING
      split_ifs with h
      · simp [literal_text]
      · have hnil : format = [] := by
          cases format with
          | nil => rfl
          | cons c rest => simp at h
        simp [literal_text, hnil]
    simp only [printf_builtin, hparse, hone lib _ _ hconv]
    simp [htext]
  · intro φ lib argv items s
    exact printf_operands_total lib argv items (argv.length - s.xoptind) s (Nat.le_refl _)
  · intro φ lib lim operands
    cases operands with
    | nil => rfl
    | cons format args =>
      simp only [printf_builtin]
      cases printf_parse_format lib lim format with
      | none => rfl
      | some items =>
        obtain ⟨r, hr⟩ := printf_operands_total lib (format :: args) items
          ((format :: args).length - 1) { xoptind := 1, buf := [], errors := 0 } (by simp)
        have h := hr ((format :: args).length + 1) (by simp)
        simp only [h]
        rcases r with ⟨r0, s1⟩
        cases r0 <;> rfl

/-! ## Witnesses and counterexamples: word expansion and the printf built-in -/

/-- The expansion `${x:-def}` outside double quotes with `x` not set gives the
one string `def`.  With `x` not set, `${x:+w}` gives one empty string inside
double quotes and no string outside; and with no positional parameter
`${@:+w}` gives no string inside double quotes either.  With `x` set to `a`,
`${x:-def}` gives `a` and `${x:+w}` gives `w`. -/
theorem expand_param_default_alt_witness :
    expand_param LP64 sample_environment
        (operator_param paramexp_op.PT_MINUS true ['x'] ['d', 'e', 'f']) false
        tildetype_T.tt_single empty_store =
      outcome.returns (some [['d', 'e', 'f']], empty_store) ∧
    expand_param LP64 sample_environment
        (operator_param paramexp_op.PT_PLUS true ['x'] ['w']) true
        tildetype_T.tt_single empty_store =
      outcome.returns (some [[]], empty_store) ∧
    expand_param LP64 sample_environment
        (operator_param paramexp_op.PT_PLUS true ['x'] ['w']) false
        tildetype_T.tt_single empty_store =
      outcome.returns (some [], empty_store) ∧
    expand_param LP64 sample_environment
        (operator_param paramexp_op.PT_PLUS true ['@'] ['w']) true
        tildetype_T.tt_single empty_store =
      outcome.returns (some [], empty_store) ∧
    expand_param LP64 sample_environment
        (operator_param paramexp_op.PT_MINUS true ['x'] ['d', 'e', 'f']) false
        tildetype_T.tt_single (store_with_x ['a']) =
      outcome.returns (some [['a']], store_with_x ['a']) ∧
    expand_param LP64 sample_environment
        (operator_param paramexp_op.PT_PLUS true ['x'] ['w']) false
        tildetype_T.tt_single (store_with_x ['a']) =
      outcome.returns (some [['w']], store_with_x ['a']) :=
  ⟨((expand_param_default_alt LP64 sample_environment
        (operator_type paramexp_op.PT_MINUS true)
        ['x'] wordunit_T.null wordunit_T.null (string_word ['d', 'e', 'f']) false
        tildetype_T.tt_single empty_store rfl
        (fun _ c rest h => by simp [sample_environment, empty_store] at h)).1 rfl
      (Or.inl (by decide))).trans (by decide),
    ((expand_param_default_alt LP64 sample_environment
        (operator_type paramexp_op.PT_PLUS true)
        ['x'] wordunit_T.null wordunit_T.null (string_word ['w']) true
        tildetype_T.tt_single empty_store rfl
        (fun _ c rest h => by simp [sample_environment, empty_store] at h)).2.2.2.2 rfl
      (Or.inl (by decide)) rfl).trans (by decide),
    ((expand_param_default_alt LP64 sample_environment
        (operator_type paramexp_op.PT_PLUS true)
        ['x'] wordunit_T.null wordunit_T.null (string_word ['w']) false
        tildetype_T.tt_single empty_store rfl
        (fun _ c rest h => by simp [sample_environment, empty_store] at h)).2.2.2.2 rfl
      (Or.inl (by decide)) rfl).trans (by decide),
    ((expand_param_default_alt LP64 sample_environment
        (operator_type paramexp_op.PT_PLUS true)
        ['@'] wordunit_T.null wordunit_T.null (string_word ['w']) true
        tildetype_T.tt_single empty_store rfl
        (fun _ c rest h => by simp [sample_environment, empty_store] at h)).2.2.2.2 rfl
      (Or.inr ⟨rfl, Or.inl (by decide)⟩) rfl).trans (by decide),
    ((expand_param_default_alt LP64 sample_environment
        (operator_type paramexp_op.PT_MINUS true)
        ['x'] wordunit_T.null wordunit_T.null (string_word ['d', 'e', 'f']) false
        tildetype_T.tt_single (store_with_x ['a']) rfl
        (fun _ c rest h => by
          simp [sample_environment, store_with_x] at h
          rw [← h.1]
          decide)).2.1 rfl
      (by unfold counts_as_unset; decide)).trans (by decide),
    ((expand_param_default_alt LP64 sample_environment
        (operator_type paramexp_op.PT_PLUS true)
        ['x'] wordunit_T.null wordunit_T.null (string_word ['w']) false
        tildetype_T.tt_single (store_with_x ['a']) rfl
        (fun _ c rest h => by
          simp [sample_environment, store_with_x] at h
          rw [← h.1]
          decide)).2.2.1 rfl
      (by unfold counts_as_unset; decide)).trans (by decide)⟩

/-- With no positional parameter the variable `@` is set and is not a single
empty string: its plain expansion gives no string.  Yet `${@:-def}` gives the
expansion `def` of the word, not the value. -/
theorem expand_param_default_empty_list :
    (sample_environment.get_variable empty_store ['@']).1 = some [] ∧
    expand_param LP64 sample_environment (plain_param ['@']) false tildetype_T.tt_single
        empty_store = outcome.returns (some [], empty_store) ∧
    expand_param LP64 sample_environment
        (operator_param paramexp_op.PT_MINUS true ['@'] ['d', 'e', 'f']) false
        tildetype_T.tt_single empty_store =
      outcome.returns (some [['d', 'e', 'f']], empty_store) := by
  decide

/-- The expansion `${x=abc}` outside double quotes with `x` not set assigns
`abc` to `x` and gives the one string `abc`. -/
theorem expand_param_assign_witness :
    expand_param LP64 sample_environment
        (operator_param paramexp_op.PT_ASSIGN false ['x'] ['a', 'b', 'c']) false
        tildetype_T.tt_single empty_store =
      outcome.returns (some [['a', 'b', 'c']], store_with_x ['a', 'b', 'c']) :=
  ((((expand_param_assign LP64 sample_environment (operator_type paramexp_op.PT_ASSIGN false)
      ['x'] wordunit_T.null wordunit_T.null (string_word ['a', 'b', 'c']) false
      tildetype_T.tt_single empty_store rfl).2.2 rfl (Or.inl (by decide)) (by decide)).2
    ['a', 'b', 'c'] empty_store (by decide)).2 (by decide) rfl).1.trans (by decide)

/-- The expansion `${x=}` outside double quotes with `x` not set: the name is a
valid identifier and the reference is not nested, the empty string is assigned
to `x`, and the result has no element. -/
theorem expand_param_assign_empty :
    sample_environment.is_name ['x'] = true ∧
    (sample_environment.get_variable empty_store ['x']).1 = none ∧
    expand_param LP64 sample_environment
        (paramexp_T.mk (operator_type paramexp_op.PT_ASSIGN false) ['x'] wordunit_T.null
          wordunit_T.null wordunit_T.null) false tildetype_T.tt_single empty_store =
      outcome.returns (some [], store_with_x []) := by
  decide

/-- The word `$((1+1))` in the interactive sample shell: `expand_word` returns
false and `expand_string` the null pointer. -/
theorem expand_arith_fails_witness :
    (∃ r st1, expand_word LP64 sample_environment arith_word tildetype_T.tt_single
        empty_store = outcome.returns (r, st1) ∧ r.ok = false) ∧
    (∃ st1, expand_string LP64 sample_environment arith_word true empty_store =
        outcome.returns (none, st1)) :=
  ⟨⟨{ ok := false, valuelist := [], splitlist := [] }, empty_store, by decide,
      (expand_arith_fails LP64 sample_environment arith_word tildetype_T.tt_single true
        empty_store (by decide)).1 { ok := false, valuelist := [], splitlist := [] }
        empty_store (by decide)⟩,
    ⟨empty_store, by decide⟩⟩

/-- The word `"$@"` with the positional parameters `a` and `b` and a colon as
IFS: `expand_single` joins the two fragments, in which every character is
escaped, with the colon. -/
theorem expand_single_fragments_witness :
    expand_single LP64 sample_environment quoted_at tildetype_T.tt_single colon_ifs_store =
      outcome.returns (some ['\\', 'a', ':', '\\', 'b'], colon_ifs_store) :=
  ((expand_single_fragments LP64 sample_environment quoted_at tildetype_T.tt_single
      colon_ifs_store colon_ifs_store
      { ok := true, valuelist := [['\\', 'a'], ['\\', 'b']],
        splitlist := [[true, true], [true, true]] }
      (by decide) rfl).2 (by decide)).trans (by decide)

/-- The two examples `printf "%s\n" a b c` and `printf "%d " 1 2 3`: the format
is applied three times. -/
theorem printf_reapplies_format_witness :
    printf_builtin sample_library LP64 [['%', 's', '\\', 'n'], ['a'], ['b'], ['c']] =
      some { status := exit_status.Exit_SUCCESS,
             stdout := ['a', '\n', 'b', '\n', 'c', '\n'] } ∧
    printf_builtin sample_library LP64 [['%', 'd', ' '], ['1'], ['2'], ['3']] =
      some { status := exit_status.Exit_SUCCESS,
             stdout := ['1', ' ', '2', ' ', '3', ' '] } :=
  ⟨(printf_reapplies_format sample_library LP64 ['%', 's', '\\', 'n'] [['a'], ['b'], ['c']]
      [format_T.FT_STRING ['%', 'l', 's'], format_T.FT_RAW ['\n']]
      (by decide) (by decide) (by decide)).1.trans (by decide),
    (printf_reapplies_format sample_library LP64 ['%', 'd', ' '] [['1'], ['2'], ['3']]
      [format_T.FT_INT ['%', 'j', 'd'], format_T.FT_RAW [' ']]
      (by decide) (by decide) (by decide)).1.trans (by decide)⟩

/-- The command `printf "%b" 'a\c' b`: the format has one argument-consuming
conversion and there are two arguments, so two applications of the format, to
`a\c` and to `b`, which give `a` and `b`; but printf writes `a` only, the
escape `\c` ends the output. -/
theorem printf_escape_c_stops :
    printf_parse_format sample_library LP64 ['%', 'b'] =
      some [format_T.FT_ECHO false 0 LP64.ULONG_MAX] ∧
    conversions [format_T.FT_ECHO false 0 LP64.ULONG_MAX] = 1 ∧
    argument_groups 1 [['a', '\\', 'c'], ['b']] = [[['a', '\\', 'c']], [['b']]] ∧
    ((argument_groups 1 [['a', '\\', 'c'], ['b']]).map
      (fun group => (apply_format sample_library [format_T.FT_ECHO false 0 LP64.ULONG_MAX]
        group).2.buf)).flatten = ['a', 'b'] ∧
    printf_builtin sample_library LP64 [['%', 'b'], ['a', '\\', 'c'], ['b']] =
      some { status := exit_status.Exit_SUCCESS, stdout := ['a'] } := by
  decide

/-! ## Theorems: escaping -/

/-- One step of `unescape` at an escape. -/
theorem unescape_cons_esc (c : Char) (s : List Char) :
    unescape ('\\' :: c :: s) = c :: unescape s := by
  rw [unescape]

/-- One step of `reescape` at an escape. -/
theorem reescape_cons_esc (c : Char) (s : List Char) :
    reescape ('\\' :: c :: s) = '\\' :: c :: reescape s := by
  rw [reescape]

/-- One step of `reescape` at a character that is not escaped. -/
theorem reescape_cons_ne (c : Char) (s : List Char) (hc : c ≠ '\\') :
    reescape (c :: s) = '\\' :: c :: reescape s := by
  conv_lhs => unfold reescape
  split <;> simp_all

/-- C38: `unescape` undoes `escape`.  For every string `s`,
`unescape (escape s t) = s` when `t` is the null pointer (every character is
escaped) and when `t` contains the backslash, as `ESCAPED_CHARS` does.  The
condition on `t` is needed: escaping a backslash and `a` with the set `{`
leaves them as they are, and `unescape` then drops the backslash. -/
theorem unescape_undoes_escape :
    (∀ s : List Char, unescape (escape none s) = s) ∧
    (∀ (t s : List Char), '\\' ∈ t → unescape (escape (some t) s) = s) ∧
    (∀ s : List Char, unescape (escape (some ESCAPED_CHARS) s) = s) ∧
    unescape (escape (some ['{']) ['\\', 'a']) = ['a'] := by
  refine ⟨fun s => unescape_escape none (fun _ h => by cases h) s,
    fun t s ht => unescape_escape (some t) (fun chars h => by cases h; exact ht) s,
    fun s => unescape_escape (some ESCAPED_CHARS)
      (fun chars h => by cases h; simp [ESCAPED_CHARS]) s, by decide⟩

/-- The result of `reescape` unescapes to what its argument unescapes to. -/
theorem unescape_reescape : ∀ s : List Char, unescape (reescape s) = unescape s := by
  intro s
  induction s using list_two_step with
  | h0 => rfl
  | h1 a =>
    by_cases ha : a = '\\'
    · subst ha
      rfl
    · rw [reescape_cons_ne a [] ha, unescape_cons_esc, unescape_cons_ne a [] ha]
      rfl
  | h2 a b l ihl ihb =>
    by_cases ha : a = '\\'
    · subst ha
      rw [reescape_cons_esc, unescape_cons_esc, unescape_cons_esc, ihl]
    · rw [reescape_cons_ne a _ ha, unescape_cons_esc, unescape_cons_ne a _ ha, ihb]

/-- Every character of the result of `reescape` at an even position is a
backslash. -/
theorem reescape_even : ∀ (s : List Char) (i : Nat), i % 2 = 0 →
    i < (reescape s).length → (reescape s)[i]? = some '\\' := by
  intro s
  induction s using list_two_step with
  | h0 =>
    intro i _ hi
    simp [reescape] at hi
  | h1 a =>
    intro i hmod hi
    by_cases ha : a = '\\'
    · subst ha
      have h1 : reescape ['\\'] = ['\\'] := rfl
      rw [h1] at hi ⊢
      simp only [List.length_singleton, Nat.lt_one_iff] at hi
      subst hi
      rfl
    · have h1 : reescape [a] = ['\\', a] := by rw [reescape_cons_ne a [] ha]; rfl
      rw [h1] at hi ⊢
      simp only [List.length_cons, List.length_nil] at hi
      have h0 : i = 0 := by omega
      subst h0
      rfl
  | h2 a b l ihl ihb =>
    intro i hmod hi
    have key : ∀ r : List Char, (∀ j, j % 2 = 0 → j < r.length → r[j]? = some '\\') →
        i < ('\\' :: a :: r).length → ('\\' :: a :: r)[i]? = some '\\' := by
      intro r hr hlen
      match i, hmod, hlen with
      | 0, _, _ => rfl
      | 1, hm, _ => simp at hm
      | j + 2, hm, hl =>
        simp only [List.getElem?_cons_succ]
        exact hr j (by omega) (by simpa using hl)
    by_cases ha : a = '\\'
    · subst ha
      rw [reescape_cons_esc] at hi ⊢
      match i, hmod, hi with
      | 0, _, _ => rfl
      | 1, hm, _ => simp at hm
      | j + 2, hm, hl =>
        simp only [List.getElem?_cons_succ]
        exact ihl j (by omega) (by simpa using hl)
    · rw [reescape_cons_ne a _ ha] at hi ⊢
      exact key _ ihb hi

/-- Applying `reescape` twice is applying it once. -/
theorem reescape_idempotent : ∀ s : List Char, reescape (reescape s) = reescape s := by
  intro s
  induction s using list_two_step with
  | h0 => rfl
  | h1 a =>
    by_cases ha : a = '\\'
    · subst ha
      rfl
    · rw [reescape_cons_ne a [] ha, reescape_cons_esc]
      rfl
  | h2 a b l ihl ihb =>
    by_cases ha : a = '\\'
    · subst ha
      rw [reescape_cons_esc, reescape_cons_esc, ihl]
    · rw [reescape_cons_ne a _ ha, reescape_cons_esc, ihb]

/-- C39: `reescape` changes only the escaping, not the content.  For every
string `s`, `unescape (reescape s) = unescape s`, every character of
`reescape s` at an even position is a backslash, and
`reescape (reescape s) = reescape s`; the string `a\{` with one escape becomes
`\a\{`. -/
theorem reescape_keeps_content :
    (∀ s : List Char, unescape (reescape s) = unescape s) ∧
    (∀ (s : List Char) (i : Nat), i % 2 = 0 → i < (reescape s).length →
      (reescape s)[i]? = some '\\') ∧
    (∀ s : List Char, reescape (reescape s) = reescape s) ∧
    reescape ['a', '\\', '{'] = ['\\', 'a', '\\', '{'] := by
  exact ⟨unescape_reescape, reescape_even, reescape_idempotent, by decide⟩

/-! ## Theorems: removing the matching tail -/

/-- The loop of `match_tail_longest_each` calls the matcher only at indices
that its guard `minlen + index <= len` admits. -/
theorem tail_search_up_probes_guard {σ : Type} (env : environment σ) (pattern : List Char)
    (minlen len : Nat) :
    ∀ (rest : List Char) (index : Nat),
    ∀ i ∈ tail_search_up_probes env pattern minlen len rest index, minlen + i ≤ len := by
  intro rest
  induction rest with
  | nil =>
    intro index i hi
    rw [tail_search_up_probes] at hi
    split_ifs at hi with hg
    · simp at hi
      omega
    · simp at hi
  | cons c rest ih =>
    intro index i hi
    rw [tail_search_up_probes] at hi
    split_ifs at hi with hg
    · simp only [List.mem_cons] at hi
      rcases hi with hi | hi
      · omega
      · rcases hm : env.wfnmatchl pattern (c :: rest) env.shopt_nocaseglob wfnmtype.WFNM_WHOLE
          minlen with _ | _ | m <;> rw [hm] at hi
        · simp at hi
        · exact ih (index + 1) i hi
        · simp at hi
    · simp at hi

/-- The loop of `match_tail_shortest_each` calls the matcher at the index it
starts with and at smaller ones. -/
theorem tail_search_down_probes_le {σ : Type} (env : environment σ) (pattern : List Char)
    (minlen : Nat) (str : List Char) :
    ∀ (index : Nat), ∀ i ∈ tail_search_down_probes env pattern minlen str index, i ≤ index := by
  intro index
  induction index with
  | zero =>
    intro i hi
    simp [tail_search_down_probes] at hi
    omega
  | succ index ih =>
    intro i hi
    rw [tail_search_down_probes] at hi
    split_ifs at hi with hout
    · simp at hi
      omega
    · rcases hm : env.wfnmatchl pattern (str.drop (index + 1)) env.shopt_nocaseglob
        wfnmtype.WFNM_WHOLE minlen with _ | _ | m <;> rw [hm] at hi
      · simp at hi
        omega
      · simp only [List.mem_cons] at hi
        rcases hi with hi | hi
        · omega
        · exact Nat.le_succ_of_le (ih i hi)
      · simp at hi
        omega

/-- The first index at which the loop of `match_tail_shortest_each` calls the
matcher is the index it starts with. -/
theorem tail_search_down_probes_head {σ : Type} (env : environment σ) (pattern : List Char)
    (minlen : Nat) (str : List Char) (index : Nat) :
    (tail_search_down_probes env pattern minlen str index).head? = some index := by
  cases index with
  | zero => rfl
  | succ index => rw [tail_search_down_probes]; rfl

/-- The index at which the loop of `match_tail_shortest_each` finds a match is
one of the indices at which it calls the matcher. -/
theorem tail_search_down_found_mem {σ : Type} (env : environment σ) (pattern : List Char)
    (minlen : Nat) (str : List Char) :
    ∀ (index i : Nat),
    tail_search_down env pattern minlen str index = some (tail_search.found i) →
    i ∈ tail_search_down_probes env pattern minlen str index := by
  intro index
  induction index with
  | zero =>
    intro i h
    rw [tail_search_down] at h
    rcases hm : env.wfnmatchl pattern str env.shopt_nocaseglob wfnmtype.WFNM_WHOLE minlen
      with _ | _ | m <;> rw [hm] at h <;> simp at h
    subst h
    simp [tail_search_down_probes]
  | succ index ih =>
    intro i h
    rw [tail_search_down] at h
    rw [tail_search_down_probes]
    split_ifs at h with hout
    rw [if_neg hout]
    rcases hm : env.wfnmatchl pattern (str.drop (index + 1)) env.shopt_nocaseglob
      wfnmtype.WFNM_WHOLE minlen with _ | _ | m <;> rw [hm] at h
    · simp at h
    · exact List.mem_cons_of_mem _ (ih i h)
    · simp only [Option.some.injEq, tail_search.found.injEq] at h
      subst h
      exact List.mem_cons_self _ _

/-- The loop of `match_tail_shortest_each` comes to no result when it starts at
an index beyond the end of the string. -/
theorem tail_search_down_outside {σ : Type} (env : environment σ) (pattern : List Char)
    (minlen : Nat) (str : List Char) (index : Nat) (h : str.length < index) :
    tail_search_down env pattern minlen str index = none := by
  cases index with
  | zero => omega
  | succ index => rw [tail_search_down, if_pos h]

/-- The value of `len - minlen` in the arithmetic of `size_t`: the difference
when `minlen` is not above `len`, and otherwise the difference wrapped
around. -/
theorem match_tail_shortest_start_eq (lim : Limits) (len minlen : Nat)
    (hlen : len ≤ lim.SIZE_MAX) (hmin : minlen ≤ lim.SIZE_MAX) :
    match_tail_shortest_start lim len minlen =
      if minlen ≤ len then len - minlen else lim.SIZE_MAX + 1 - (minlen - len) := by
  unfold match_tail_shortest_start
  have h1 : minlen % (lim.SIZE_MAX + 1) = minlen := Nat.mod_eq_of_lt (by omega)
  rw [h1]
  split_ifs with h
  · by_cases h0 : minlen = 0
    · subst h0
      simp only [Nat.sub_zero, Nat.add_mod_right]
      exact Nat.mod_eq_of_lt (by omega)
    · have h2 : len + (lim.SIZE_MAX + 1 - minlen) = (len - minlen) + (lim.SIZE_MAX + 1) := by
        omega
      rw [h2, Nat.add_mod_right]
      exact Nat.mod_eq_of_lt (by omega)
  · have h2 : len + (lim.SIZE_MAX + 1 - minlen) = lim.SIZE_MAX + 1 - (minlen - len) := by
      omega
    rw [h2]
    exact Nat.mod_eq_of_lt (by omega)

/-- C36: `match_tail_shortest_each` starts at the index `len - minlen` without
a guard.  The loop of `match_tail_longest_each` calls the matcher only at
indices with `minlen + index <= len`, and so does the loop of
`match_tail_shortest_each` when `minlen <= len`.  But when `minlen > len` the
subtraction wraps around: the first index handed to the matcher is
`SIZE_MAX + 1 - (minlen - len)`, beyond the end of the string; for a string of
length 1 and `minlen = 3` on an LP64 machine it is `2 ^ 64 - 2`.  The read at
that index is outside the string, and the function comes to no result. -/
theorem match_tail_shortest_probes_outside :
    (∀ {σ : Type} (env : environment σ) (pattern : List Char) (minlen : Nat) (str : List Char),
      ∀ i ∈ tail_search_up_probes env pattern minlen str.length str 0,
        minlen + i ≤ str.length) ∧
    (∀ {σ : Type} (lim : Limits) (env : environment σ) (pattern : List Char) (minlen : Nat)
      (str : List Char), minlen ≤ str.length → str.length ≤ lim.SIZE_MAX →
      ∀ i ∈ tail_search_down_probes env pattern minlen str
          (match_tail_shortest_start lim str.length minlen),
        minlen + i ≤ str.length) ∧
    (∀ {σ : Type} (lim : Limits) (env : environment σ) (pattern : List Char) (minlen : Nat)
      (str : List Char), str.length < minlen → minlen ≤ lim.SIZE_MAX →
      (tail_search_down_probes env pattern minlen str
          (match_tail_shortest_start lim str.length minlen)).head? =
        some (lim.SIZE_MAX + 1 - (minlen - str.length)) ∧
      str.length < lim.SIZE_MAX + 1 - (minlen - str.length)) ∧
    (∀ {σ : Type} (lim : Limits) (env : environment σ) (pattern : List Char) (minlen : Nat)
      (str : List Char) (slist : List (List Char)),
      match_tail_shortest_loop lim env pattern minlen (str :: slist) =
        match tail_search_down env pattern minlen str
            (match_tail_shortest_start lim str.length minlen) with
        | none => none
        | some tail_search.error => some (str :: slist)
        | some tail_search.nomatch =>
          (match_tail_shortest_loop lim env pattern minlen slist).map (fun rest => str :: rest)
        | some (tail_search.found index) =>
          (match_tail_shortest_loop lim env pattern minlen slist).map
            (fun rest => str.take index :: rest)) ∧
    (∀ {σ : Type} (env : environment σ) (pattern : List Char) (minlen : Nat) (str : List Char)
      (index i : Nat),
      tail_search_down env pattern minlen str index = some (tail_search.found i) →
      i ∈ tail_search_down_probes env pattern minlen str index) ∧
    (∀ {σ : Type} (lim : Limits) (env : environment σ) (pattern : List Char) (minlen : Nat)
      (str : List Char) (slist : List (List Char)), str.length < minlen →
      minlen ≤ lim.SIZE_MAX →
      tail_search_down env pattern minlen str
          (match_tail_shortest_start lim str.length minlen) = none ∧
      match_tail_shortest_loop lim env pattern minlen (str :: slist) = none) ∧
    prefix_environment.shortest_match_length ['a', 'b', 'c'] false = 3 ∧
    (tail_search_down_probes prefix_environment ['a', 'b', 'c'] 3 ['a']
        (match_tail_shortest_start LP64 1 3)).head? = some (2 ^ 64 - 2) ∧
    match_tail_shortest_each LP64 prefix_environment [['a']] ['a', 'b', 'c'] = none := by
  have hout : ∀ {σ : Type} (lim : Limits) (env : environment σ) (pattern : List Char)
      (minlen : Nat) (str : List Char) (slist : List (List Char)), str.length < minlen →
      minlen ≤ lim.SIZE_MAX →
      tail_search_down env pattern minlen str
          (match_tail_shortest_start lim str.length minlen) = none ∧
      match_tail_shortest_loop lim env pattern minlen (str :: slist) = none := by
    intro σ lim env pattern minlen str slist hlt hmin
    have h : tail_search_down env pattern minlen str
        (match_tail_shortest_start lim str.length minlen) = none := by
      apply tail_search_down_outside
      rw [match_tail_shortest_start_eq lim _ _ (by omega) hmin, if_neg (by omega)]
      omega
    refine ⟨h, ?_⟩
    unfold match_tail_shortest_start at h
    rw [match_tail_shortest_loop, h]
  refine ⟨fun env pattern minlen str => tail_search_up_probes_guard env pattern minlen _ str 0,
    ?_, ?_, fun lim env pattern minlen str slist => rfl,
    fun env pattern minlen str index i h =>
      tail_search_down_found_mem env pattern minlen str index i h, hout, by decide, ?_,
    (hout LP64 prefix_environment ['a', 'b', 'c'] 3 ['a'] [] (by decide) (by decide)).2⟩
  · intro σ lim env pattern minlen str hmin hlen i hi
    have hle := tail_search_down_probes_le env pattern minlen str _ i hi
    rw [match_tail_shortest_start_eq lim _ _ hlen (by omega), if_pos hmin] at hle
    omega
  · intro σ lim env pattern minlen str hlt hmin
    rw [tail_search_down_probes_head,
      match_tail_shortest_start_eq lim _ _ (by omega) hmin, if_neg (by omega)]
    exact ⟨rfl, by omega⟩
  · rw [tail_search_down_probes_head]
    rfl

/-- The loop of `match_tail_longest_each` at the end of the string. -/
theorem tail_search_up_nil {σ : Type} (env : environment σ) (pattern : List Char)
    (minlen len index : Nat) :
    tail_search_up env pattern minlen len [] index =
      if minlen + index ≤ len then
        match env.wfnmatchl pattern [] env.shopt_nocaseglob wfnmtype.WFNM_WHOLE minlen with
        | wfnm_result.WFNM_ERROR => tail_search.error
        | wfnm_result.matched _ => tail_search.found index
        | wfnm_result.WFNM_NOMATCH => tail_search.nomatch
      else tail_search.nomatch := by
  rw [tail_search_up]

/-- One round of the loop of `match_tail_longest_each`. -/
theorem tail_search_up_cons {σ : Type} (env : environment σ) (pattern : List Char)
    (minlen len index : Nat) (c : Char) (rest : List Char) :
    tail_search_up env pattern minlen len (c :: rest) index =
      if minlen + index ≤ len then
        match env.wfnmatchl pattern (c :: rest) env.shopt_nocaseglob wfnmtype.WFNM_WHOLE
            minlen with
        | wfnm_result.WFNM_ERROR => tail_search.error
        | wfnm_result.matched _ => tail_search.found index
        | wfnm_result.WFNM_NOMATCH => tail_search_up env pattern minlen len rest (index + 1)
      else tail_search.nomatch := by
  rw [tail_search_up]

/-- The search of `match_tail_longest_each` from `index` on, for a matcher that
reports no error and finds no match in a string shorter than `minlen`: it
finds the first index from `index` on whose tail matches. -/
theorem tail_search_up_find {σ : Type} (env : environment σ) (pattern : List Char)
    (minlen : Nat) (str : List Char)
    (herr : ∀ s, env.wfnmatchl pattern s env.shopt_nocaseglob wfnmtype.WFNM_WHOLE minlen ≠
      wfnm_result.WFNM_ERROR)
    (hmin : ∀ s : List Char, s.length < minlen →
      env.wfnmatchl pattern s env.shopt_nocaseglob wfnmtype.WFNM_WHOLE minlen =
        wfnm_result.WFNM_NOMATCH) :
    ∀ (n index : Nat) (rest : List Char), rest = str.drop index → index + n = str.length + 1 →
    tail_search_up env pattern minlen str.length rest index =
      match (List.range' index n).find? (fun i =>
          match env.wfnmatchl pattern (str.drop i) env.shopt_nocaseglob wfnmtype.WFNM_WHOLE
              minlen with
          | wfnm_result.matched _ => true
          | _ => false) with
      | some i => tail_search.found i
      | none => tail_search.nomatch := by
  intro n
  induction n with
  | zero =>
    intro index rest hrest hn
    have hnil : rest = [] := by
      rw [hrest]
      exact List.drop_eq_nil_of_le (by omega)
    subst hnil
    rw [tail_search_up_nil, if_neg (by omega)]
    rfl
  | succ n ih =>
    intro index rest hrest hn
    have hlen : rest.length = str.length - index := by rw [hrest, List.length_drop]
    have hnone : ¬ minlen + index ≤ str.length → ∀ i, index ≤ i →
        env.wfnmatchl pattern (str.drop i) env.shopt_nocaseglob wfnmtype.WFNM_WHOLE minlen =
          wfnm_result.WFNM_NOMATCH := by
      intro hg i hi
      apply hmin
      rw [List.length_drop]
      omega
    have hall : ¬ minlen + index ≤ str.length → (List.range' (index + 1) n).find? (fun i =>
        match env.wfnmatchl pattern (str.drop i) env.shopt_nocaseglob wfnmtype.WFNM_WHOLE
            minlen with
        | wfnm_result.matched _ => true
        | _ => false) = none := by
      intro hg
      rw [List.find?_eq_none]
      intro i hi
      rw [List.mem_range'_1] at hi
      simp [hnone hg i (by omega)]
    rw [List.range'_succ, List.find?_cons]
    cases rest with
    | nil =>
      have hn0 : n = 0 := by
        simp only [List.length_nil] at hlen
        omega
      subst hn0
      rw [tail_search_up_nil, hrest]
      by_cases hg : minlen + index ≤ str.length
      · rw [if_pos hg]
        rcases hm : env.wfnmatchl pattern (str.drop index) env.shopt_nocaseglob
          wfnmtype.WFNM_WHOLE minlen with _ | _ | m
        · exact absurd hm (herr _)
        · rfl
        · rfl
      · rw [if_neg hg]
        simp only [hnone hg index (Nat.le_refl _)]
        rfl
    | cons c rest' =>
      have hnext : rest' = str.drop (index + 1) := by
        rw [← List.drop_drop, ← hrest]
        rfl
      rw [tail_search_up_cons, hrest]
      by_cases hg : minlen + index ≤ str.length
      · rw [if_pos hg]
        rcases hm : env.wfnmatchl pattern (str.drop index) env.shopt_nocaseglob
          wfnmtype.WFNM_WHOLE minlen with _ | _ | m
        · exact absurd hm (herr _)
        · simp only
          exact ih (index + 1) rest' hnext (by omega)
        · rfl
      · rw [if_neg hg]
        simp only [hnone hg index (Nat.le_refl _)]
        rw [hall hg]

/-- The search of `match_tail_shortest_each` from an index inside the string
down, for a matcher that reports no error: it finds the last index up to
`index` whose tail matches. -/
theorem tail_search_down_find {σ : Type} (env : environment σ) (pattern : List Char)
    (minlen : Nat) (str : List Char)
    (herr : ∀ s, env.wfnmatchl pattern s env.shopt_nocaseglob wfnmtype.WFNM_WHOLE minlen ≠
      wfnm_result.WFNM_ERROR) :
    ∀ index : Nat, index ≤ str.length →
    tail_search_down env pattern minlen str index =
      some (match (List.range (index + 1)).reverse.find? (fun i =>
          match env.wfnmatchl pattern (str.drop i) env.shopt_nocaseglob wfnmtype.WFNM_WHOLE
              minlen with
          | wfnm_result.matched _ => true
          | _ => false) with
      | some i => tail_search.found i
      | none => tail_search.nomatch) := by
  intro index
  induction index with
  | zero =>
    intro _
    rw [tail_search_down]
    rcases hm : env.wfnmatchl pattern str env.shopt_nocaseglob wfnmtype.WFNM_WHOLE minlen
      with _ | _ | m
    · exact absurd hm (herr _)
    · simp [List.range_succ, hm]
    · simp [List.range_succ, hm]
  | succ index ih =>
    intro hin
    rw [tail_search_down, if_neg (by omega), List.range_succ, List.reverse_append,
      List.reverse_singleton, List.singleton_append, List.find?_cons]
    rcases hm : env.wfnmatchl pattern (str.drop (index + 1)) env.shopt_nocaseglob
      wfnmtype.WFNM_WHOLE minlen with _ | _ | m
    · exact absurd hm (herr _)
    · simp only
      exact ih (by omega)
    · simp only

/-- A search over a list finds nothing new in a front part on which the test
fails everywhere. -/
theorem find_skip_failing {α : Type} (p : α → Bool) (front back : List α)
    (h : ∀ x ∈ front, p x = false) : (front ++ back).find? p = back.find? p := by
  induction front with
  | nil => rfl
  | cons x front ih =>
    rw [List.cons_append, List.find?_cons, h x (List.mem_cons_self _ _)]
    exact ih (fun y hy => h y (List.mem_cons_of_mem _ hy))

/-- The indices up to `b`, from the largest one down, are those above `a`
followed by the indices up to `a`. -/
theorem range_reverse_split (a b : Nat) (h : a ≤ b) :
    (List.range (b + 1)).reverse =
      ((List.range' (a + 1) (b - a)).reverse) ++ (List.range (a + 1)).reverse := by
  rw [← List.reverse_append, List.range_eq_range', List.range_eq_range']
  congr 1
  have h1 := List.range'_append_1 0 (a + 1) (b - a)
  rw [Nat.zero_add] at h1
  rw [h1]
  congr 1
  omega

/-- The search of `match_tail_longest_each` in one string cuts it as
`truncate_at_first` does. -/
theorem tail_search_up_truncates {σ : Type} (env : environment σ) (pattern : List Char)
    (str : List Char)
    (herr : ∀ s, env.wfnmatchl pattern s env.shopt_nocaseglob wfnmtype.WFNM_WHOLE
      (env.shortest_match_length pattern env.shopt_nocaseglob) ≠ wfnm_result.WFNM_ERROR)
    (hmin : ∀ s : List Char,
      s.length < env.shortest_match_length pattern env.shopt_nocaseglob →
      env.wfnmatchl pattern s env.shopt_nocaseglob wfnmtype.WFNM_WHOLE
        (env.shortest_match_length pattern env.shopt_nocaseglob) =
        wfnm_result.WFNM_NOMATCH) :
    (match tail_search_up env pattern (env.shortest_match_length pattern env.shopt_nocaseglob)
        str.length str 0 with
      | tail_search.error => none
      | tail_search.nomatch => some str
      | tail_search.found index => some (str.take index)) =
      some (truncate_at_first (whole_match env pattern) str) := by
  rw [tail_search_up_find env pattern _ str herr hmin (str.length + 1) 0 str rfl (by omega)]
  unfold truncate_at_first
  rw [List.range_eq_range']
  have hp : (fun i => whole_match env pattern (str.drop i)) = (fun i =>
      match env.wfnmatchl pattern (str.drop i) env.shopt_nocaseglob wfnmtype.WFNM_WHOLE
          (env.shortest_match_length pattern env.shopt_nocaseglob) with
      | wfnm_result.matched _ => true
      | _ => false) := by
    funext i
    rfl
  rw [hp]
  cases List.find? _ (List.range' 0 (str.length + 1)) <;> rfl

/-- The search of `match_tail_shortest_each` in one string that is not shorter
than the minimum length of a match cuts it as `truncate_at_last` does. -/
theorem tail_search_down_truncates {σ : Type} (lim : Limits) (env : environment σ)
    (pattern : List Char) (str : List Char)
    (herr : ∀ s, env.wfnmatchl pattern s env.shopt_nocaseglob wfnmtype.WFNM_WHOLE
      (env.shortest_match_length pattern env.shopt_nocaseglob) ≠ wfnm_result.WFNM_ERROR)
    (hmin : ∀ s : List Char,
      s.length < env.shortest_match_length pattern env.shopt_nocaseglob →
      env.wfnmatchl pattern s env.shopt_nocaseglob wfnmtype.WFNM_WHOLE
        (env.shortest_match_length pattern env.shopt_nocaseglob) =
        wfnm_result.WFNM_NOMATCH)
    (hlen : str.length ≤ lim.SIZE_MAX)
    (hle : env.shortest_match_length pattern env.shopt_nocaseglob ≤ str.length) :
    (match tail_search_down env pattern
        (env.shortest_match_length pattern env.shopt_nocaseglob) str
        (match_tail_shortest_start lim str.length
          (env.shortest_match_length pattern env.shopt_nocaseglob)) with
      | none => none
      | some tail_search.error => none
      | some tail_search.nomatch => some str
      | some (tail_search.found index) => some (str.take index)) =
      some (truncate_at_last (whole_match env pattern) str) := by
  rw [match_tail_shortest_start_eq lim _ _ hlen (by omega), if_pos hle,
    tail_search_down_find env pattern _ str herr _ (Nat.sub_le _ _)]
  unfold truncate_at_last
  have hp : (fun i => whole_match env pattern (str.drop i)) = (fun i =>
      match env.wfnmatchl pattern (str.drop i) env.shopt_nocaseglob wfnmtype.WFNM_WHOLE
          (env.shortest_match_length pattern env.shopt_nocaseglob) with
      | wfnm_result.matched _ => true
      | _ => false) := by
    funext i
    rfl
  rw [hp, range_reverse_split _ _ (Nat.sub_le str.length
    (env.shortest_match_length pattern env.shopt_nocaseglob)), find_skip_failing]
  · cases List.find? _ (List.range (str.length -
      env.shortest_match_length pattern env.shopt_nocaseglob + 1)).reverse <;> rfl
  · intro i hi
    rw [List.mem_reverse, List.mem_range'_1] at hi
    beta_reduce
    rw [hmin _ (by rw [List.length_drop]; omega)]

/-- The matcher of `prefix_environment` reports no error. -/
theorem prefix_environment_no_error (pattern s : List Char) (type : wfnmtype) (minlen : Nat) :
    prefix_environment.wfnmatchl pattern s prefix_environment.shopt_nocaseglob type minlen ≠
      wfnm_result.WFNM_ERROR := by
  unfold prefix_environment
  simp only
  split_ifs <;> simp

/-- The matcher of `prefix_environment` finds no match in a string shorter than
the pattern. -/
theorem prefix_environment_short (pattern s : List Char) (type : wfnmtype) (minlen : Nat)
    (h : s.length < pattern.length) :
    prefix_environment.wfnmatchl pattern s prefix_environment.shopt_nocaseglob type minlen =
      wfnm_result.WFNM_NOMATCH := by
  unfold prefix_environment
  simp only
  rw [if_neg]
  intro hp
  have := (List.isPrefixOf_iff_prefix.mp hp).length_le
  omega

/-- A string is cut by `truncate_at_first` at the smallest index whose suffix
satisfies the test, and is kept if no suffix does. -/
theorem truncate_at_first_spec (p : List Char → Bool) (str : List Char) :
    (∀ i : Nat, i ≤ str.length → p (str.drop i) = true →
      (∀ j : Nat, j < i → p (str.drop j) = false) → truncate_at_first p str = str.take i) ∧
    ((∀ i : Nat, i ≤ str.length → p (str.drop i) = false) → truncate_at_first p str = str) := by
  constructor
  · intro i hi hp hj
    unfold truncate_at_first
    have hsplit : List.range (str.length + 1) =
        List.range' 0 i ++ List.range' i (str.length + 1 - i) := by
      have h1 := List.range'_append_1 0 i (str.length + 1 - i)
      rw [Nat.zero_add] at h1
      rw [List.range_eq_range', h1]
      congr 1
      omega
    rw [hsplit, find_skip_failing]
    · have hs : str.length + 1 - i = (str.length - i) + 1 := by omega
      rw [hs, List.range'_succ, List.find?_cons, hp]
    · intro j hjm
      rw [List.mem_range'_1] at hjm
      exact hj j (by omega)
  · intro h
    unfold truncate_at_first
    have : (List.range (str.length + 1)).find? (fun i => p (str.drop i)) = none := by
      rw [List.find?_eq_none]
      intro i hi
      rw [List.mem_range] at hi
      simp [h i (by omega)]
    rw [this]

/-- A string is cut by `truncate_at_last` at the largest index whose suffix
satisfies the test, and is kept if no suffix does. -/
theorem truncate_at_last_spec (p : List Char → Bool) (str : List Char) :
    (∀ i : Nat, i ≤ str.length → p (str.drop i) = true →
      (∀ j : Nat, i < j → j ≤ str.length → p (str.drop j) = false) →
      truncate_at_last p str = str.take i) ∧
    ((∀ i : Nat, i ≤ str.length → p (str.drop i) = false) → truncate_at_last p str = str) := by
  constructor
  · intro i hi hp hj
    unfold truncate_at_last
    rw [range_reverse_split i str.length hi, find_skip_failing]
    · rw [List.range_succ, List.reverse_append, List.reverse_singleton, List.singleton_append,
        List.find?_cons, hp]
    · intro j hjm
      rw [List.mem_reverse, List.mem_range'_1] at hjm
      exact hj j (by omega) (by omega)
  · intro h
    unfold truncate_at_last
    have : (List.range (str.length + 1)).reverse.find? (fun i => p (str.drop i)) = none := by
      rw [List.find?_eq_none]
      intro i hi
      rw [List.mem_reverse, List.mem_range] at hi
      simp [h i (by omega)]
    rw [this]

/-- The outer loop of `match_tail_longest_each` cuts every string as
`truncate_at_first` does. -/
theorem match_tail_longest_loop_map {σ : Type} (env : environment σ) (pattern : List Char)
    (herr : ∀ s, env.wfnmatchl pattern s env.shopt_nocaseglob wfnmtype.WFNM_WHOLE
      (env.shortest_match_length pattern env.shopt_nocaseglob) ≠ wfnm_result.WFNM_ERROR)
    (hmin : ∀ s : List Char,
      s.length < env.shortest_match_length pattern env.shopt_nocaseglob →
      env.wfnmatchl pattern s env.shopt_nocaseglob wfnmtype.WFNM_WHOLE
        (env.shortest_match_length pattern env.shopt_nocaseglob) =
        wfnm_result.WFNM_NOMATCH)
    (slist : List (List Char)) :
    match_tail_longest_loop env pattern
        (env.shortest_match_length pattern env.shopt_nocaseglob) slist =
      slist.map (truncate_at_first (whole_match env pattern)) := by
  induction slist with
  | nil => rfl
  | cons str slist ih =>
    have h := tail_search_up_truncates env pattern str herr hmin
    rw [match_tail_longest_loop, List.map_cons, ih]
    rcases hs : tail_search_up env pattern
      (env.shortest_match_length pattern env.shopt_nocaseglob) str.length str 0 with _ | _ | i
    · rw [hs] at h
      simp at h
    · rw [hs] at h
      simp only [Option.some.injEq] at h
      simp only [← h]
    · rw [hs] at h
      simp only [Option.some.injEq] at h
      simp only [← h]

/-- The outer loop of `match_tail_shortest_each` cuts every string as
`truncate_at_last` does, when no string is shorter than the minimum length of
a match. -/
theorem match_tail_shortest_loop_map {σ : Type} (lim : Limits) (env : environment σ)
    (pattern : List Char)
    (herr : ∀ s, env.wfnmatchl pattern s env.shopt_nocaseglob wfnmtype.WFNM_WHOLE
      (env.shortest_match_length pattern env.shopt_nocaseglob) ≠ wfnm_result.WFNM_ERROR)
    (hmin : ∀ s : List Char,
      s.length < env.shortest_match_length pattern env.shopt_nocaseglob →
      env.wfnmatchl pattern s env.shopt_nocaseglob wfnmtype.WFNM_WHOLE
        (env.shortest_match_length pattern env.shopt_nocaseglob) =
        wfnm_result.WFNM_NOMATCH)
    (slist : List (List Char)) (hlen : ∀ str ∈ slist, str.length ≤ lim.SIZE_MAX)
    (hle : ∀ str ∈ slist,
      env.shortest_match_length pattern env.shopt_nocaseglob ≤ str.length) :
    match_tail_shortest_loop lim env pattern
        (env.shortest_match_length pattern env.shopt_nocaseglob) slist =
      some (slist.map (truncate_at_last (whole_match env pattern))) := by
  induction slist with
  | nil => rfl
  | cons str slist ih =>
    have h := tail_search_down_truncates lim env pattern str herr hmin
      (hlen str (List.mem_cons_self _ _)) (hle str (List.mem_cons_self _ _))
    unfold match_tail_shortest_start at h
    rw [match_tail_shortest_loop, List.map_cons,
      ih (fun s hs => hlen s (List.mem_cons_of_mem _ hs))
        (fun s hs => hle s (List.mem_cons_of_mem _ hs))]
    rcases hs : tail_search_down env pattern
      (env.shortest_match_length pattern env.shopt_nocaseglob) str
      ((str.length + (lim.SIZE_MAX + 1 -
        env.shortest_match_length pattern env.shopt_nocaseglob % (lim.SIZE_MAX + 1))) %
        (lim.SIZE_MAX + 1)) with _ | r
    · rw [hs] at h
      simp at h
    · rcases r with _ | _ | i
      · rw [hs] at h
        simp at h
      · rw [hs] at h
        simp only [Option.some.injEq] at h
        simp only [Option.map_some', ← h]
      · rw [hs] at h
        simp only [Option.some.injEq] at h
        simp only [Option.map_some', ← h]

/-- The outer loop of `match_tail_shortest_each` comes to no result when some
string is shorter than the minimum length of a match: the search in that
string starts outside it. -/
theorem match_tail_shortest_loop_outside {σ : Type} (lim : Limits) (env : environment σ)
    (pattern : List Char)
    (herr : ∀ s, env.wfnmatchl pattern s env.shopt_nocaseglob wfnmtype.WFNM_WHOLE
      (env.shortest_match_length pattern env.shopt_nocaseglob) ≠ wfnm_result.WFNM_ERROR)
    (hmax : env.shortest_match_length pattern env.shopt_nocaseglob ≤ lim.SIZE_MAX)
    (slist : List (List Char)) (hlen : ∀ str ∈ slist, str.length ≤ lim.SIZE_MAX)
    (hshort : ∃ str ∈ slist,
      str.length < env.shortest_match_length pattern env.shopt_nocaseglob) :
    match_tail_shortest_loop lim env pattern
        (env.shortest_match_length pattern env.shopt_nocaseglob) slist = none := by
  induction slist with
  | nil =>
    obtain ⟨str, hmem, -⟩ := hshort
    simp at hmem
  | cons str slist ih =>
    rw [match_tail_shortest_loop]
    by_cases hs : str.length < env.shortest_match_length pattern env.shopt_nocaseglob
    · have h : tail_search_down env pattern
          (env.shortest_match_length pattern env.shopt_nocaseglob) str
          (match_tail_shortest_start lim str.length
            (env.shortest_match_length pattern env.shopt_nocaseglob)) = none := by
        apply tail_search_down_outside
        rw [match_tail_shortest_start_eq lim _ _ (hlen str (List.mem_cons_self _ _)) hmax,
          if_neg (by omega)]
        omega
      unfold match_tail_shortest_start at h
      rw [h]
    · have hrest : match_tail_shortest_loop lim env pattern
          (env.shortest_match_length pattern env.shopt_nocaseglob) slist = none := by
        apply ih (fun s hs => hlen s (List.mem_cons_of_mem _ hs))
        obtain ⟨t, hmem, ht⟩ := hshort
        rcases List.mem_cons.1 hmem with e | hmem
        · rw [e] at ht
          exact absurd ht hs
        · exact ⟨t, hmem, ht⟩
      have hfind := tail_search_down_find env pattern
        (env.shortest_match_length pattern env.shopt_nocaseglob) str herr
        (match_tail_shortest_start lim str.length
          (env.shortest_match_length pattern env.shopt_nocaseglob))
        (by
          rw [match_tail_shortest_start_eq lim _ _ (hlen str (List.mem_cons_self _ _)) hmax,
            if_pos (by omega)]
          omega)
      unfold match_tail_shortest_start at hfind
      rw [hfind, hrest]
      cases List.find? _ _ <;> rfl

/-- C37: given a whole-string matcher that reports no error and finds no match
in a string shorter than the minimum length of a match, with lengths in the
range of `size_t`.  `match_tail_longest_each` cuts each element at the smallest
index whose suffix matches, and leaves an element with no matching suffix
unchanged.  `match_tail_shortest_each` cuts each element at the largest such
index, and leaves an element with no matching suffix unchanged, when no element
is shorter than the minimum length of a match; when some element is shorter,
the function reads outside that element and comes to no result, where the
element should be left unchanged. -/
theorem match_tail_each_truncates {σ : Type} (lim : Limits) (env : environment σ)
    (slist : List (List Char)) (pattern : List Char)
    (herr : ∀ s, env.wfnmatchl pattern s env.shopt_nocaseglob wfnmtype.WFNM_WHOLE
      (env.shortest_match_length pattern env.shopt_nocaseglob) ≠ wfnm_result.WFNM_ERROR)
    (hmin : ∀ s : List Char,
      s.length < env.shortest_match_length pattern env.shopt_nocaseglob →
      env.wfnmatchl pattern s env.shopt_nocaseglob wfnmtype.WFNM_WHOLE
        (env.shortest_match_length pattern env.shopt_nocaseglob) =
        wfnm_result.WFNM_NOMATCH)
    (hmax : env.shortest_match_length pattern env.shopt_nocaseglob ≤ lim.SIZE_MAX)
    (hlen : ∀ str ∈ slist, str.length ≤ lim.SIZE_MAX) :
    match_tail_longest_each env slist pattern =
      slist.map (truncate_at_first (whole_match env pattern)) ∧
    ((∀ str ∈ slist, env.shortest_match_length pattern env.shopt_nocaseglob ≤ str.length) →
      match_tail_shortest_each lim env slist pattern =
        some (slist.map (truncate_at_last (whole_match env pattern)))) ∧
    ((∃ str ∈ slist, str.length < env.shortest_match_length pattern env.shopt_nocaseglob) →
      match_tail_shortest_each lim env slist pattern = none) ∧
    (∀ str : List Char,
      (∀ i : Nat, i ≤ str.length → whole_match env pattern (str.drop i) = true →
        (∀ j : Nat, j < i → whole_match env pattern (str.drop j) = false) →
        truncate_at_first (whole_match env pattern) str = str.take i) ∧
      (∀ i : Nat, i ≤ str.length → whole_match env pattern (str.drop i) = true →
        (∀ j : Nat, i < j → j ≤ str.length → whole_match env pattern (str.drop j) = false) →
        truncate_at_last (whole_match env pattern) str = str.take i) ∧
      ((∀ i : Nat, i ≤ str.length → whole_match env pattern (str.drop i) = false) →
        truncate_at_first (whole_match env pattern) str = str ∧
        truncate_at_last (whole_match env pattern) str = str)) :=
  ⟨match_tail_longest_loop_map env pattern herr hmin slist,
    fun hle => match_tail_shortest_loop_map lim env pattern herr hmin slist hlen hle,
    fun hshort => match_tail_shortest_loop_outside lim env pattern herr hmax slist hlen hshort,
    fun str =>
      ⟨(truncate_at_first_spec _ str).1, (truncate_at_last_spec _ str).1,
        fun h => ⟨(truncate_at_first_spec _ str).2 h, (truncate_at_last_spec _ str).2 h⟩⟩⟩

/-- With the pattern `ab*` the longest matching tail of `xabab` is `abab` and
the shortest is `ab`; `xyz` has no matching tail and is kept.  With the pattern
`abc*`, whose matches have three characters at least, the one character `a`
has no matching tail and is kept by `match_tail_longest_each`, while
`match_tail_shortest_each` reads outside it. -/
theorem match_tail_each_truncates_sample :
    match_tail_longest_each prefix_environment ["xabab".data, "xyz".data] "ab".data =
      ["x".data, "xyz".data] ∧
    match_tail_shortest_each LP64 prefix_environment ["xabab".data, "xyz".data] "ab".data =
      some ["xab".data, "xyz".data] ∧
    match_tail_longest_each prefix_environment ["a".data] "abc".data = ["a".data] ∧
    match_tail_shortest_each LP64 prefix_environment ["a".data] "abc".data = none := by
  have h := match_tail_each_truncates LP64 prefix_environment ["xabab".data, "xyz".data]
    "ab".data (fun s => prefix_environment_no_error _ s _ _)
    (fun s hs => prefix_environment_short _ s _ _ hs) (by decide) (by decide)
  have k := match_tail_each_truncates LP64 prefix_environment ["a".data]
    "abc".data (fun s => prefix_environment_no_error _ s _ _)
    (fun s hs => prefix_environment_short _ s _ _ hs) (by decide) (by decide)
  refine ⟨?_, ?_, ?_, ?_⟩
  · rw [h.1]
    decide
  · rw [h.2.1 (by decide)]
    decide
  · rw [k.1]
    decide
  · exact k.2.2.1 ⟨"a".data, by decide, by decide⟩

/-! ## Theorems: the assertion of field splitting -/

/-- A white-space character is not a backslash. -/
theorem iswspace_ne_backslash (c : Char) (h : iswspace c = true) : c ≠ '\\' := by
  intro hc
  subst hc
  revert h
  decide

/-- The inner loop of `fieldsplit` passes over a run of splittable white space
of IFS without adding a field, and leaves `startindex` behind the run, where
the text goes on with a character that is not a splittable character of IFS
or ends. -/
theorem fieldsplit_loop_spaces (str ifs : List Char) (z : List (Char × Bool))
    (hz : ∀ p, z.head? = some p → ¬ (p.2 = true ∧ p.1 ∈ ifs)) :
    ∀ (r : List Char), (∀ c ∈ r, c ∈ ifs ∧ iswspace c = true) →
    ∀ (c0 : Char), c0 ∈ ifs → iswspace c0 = true →
    ∀ (index si : Nat) (dest : List (List Char)) (son : Bool),
    fieldsplit_loop str ifs ((c0, true) :: ((r.map fun c => (c, true)) ++ z))
        (some (son, false)) index si dest =
      fieldsplit_loop str ifs z none (index + 1 + r.length) (index + 1 + r.length) dest := by
  intro r
  induction r with
  | nil =>
    intro _ c0 _ hw index si dest son
    rw [fieldsplit_loop_body]
    cases z with
    | nil =>
      simp [hw, fieldsplit_loop]
    | cons x rest =>
      obtain ⟨ch, sp⟩ := x
      simp only [List.map_nil, List.nil_append, hw, Bool.not_true, Bool.false_eq_true,
        false_and, if_false, List.length_nil, Nat.add_zero]
      rw [if_neg (hz (ch, sp) rfl)]
  | cons c1 r ih =>
    intro hr c0 _ hw index si dest son
    have h1 := hr c1 (List.mem_cons_self _ _)
    rw [fieldsplit_loop_body]
    simp only [List.map_cons, List.cons_append, hw, Bool.not_true, Bool.false_eq_true,
      false_and, if_false, h1.1, and_self, if_true]
    rw [ih (fun c hc => hr c (List.mem_cons_of_mem _ hc)) c1 h1.1 h1.2]
    simp only [List.length_cons]
    congr 1 <;> omega

/-- A word that starts with a run of splittable white space of IFS and has no
splittable character of IFS after the run: the loop of `fieldsplit` adds no
field and leaves `startindex` behind the run. -/
theorem fieldsplit_loop_leading_spaces (str ifs : List Char) (c0 : Char) (r : List Char)
    (z : List (Char × Bool)) (h0 : c0 ∈ ifs) (hw : iswspace c0 = true)
    (hr : ∀ c ∈ r, c ∈ ifs ∧ iswspace c = true)
    (hz : ∀ p ∈ z, ¬ (p.2 = true ∧ p.1 ∈ ifs)) :
    ∃ final, fieldsplit_loop str ifs ((c0, true) :: ((r.map fun c => (c, true)) ++ z))
      none 0 0 [] = (final, 1 + r.length, []) := by
  rw [fieldsplit_loop_enter _ _ _ _ _ _ _ (iswspace_ne_backslash c0 hw) h0,
    if_neg (Nat.lt_irrefl 0),
    fieldsplit_loop_spaces str ifs z
      (fun p hp => hz p (List.mem_of_mem_head? hp)) r hr c0 h0 hw]
  obtain ⟨final, hfinal⟩ := fieldsplit_loop_unsplit str ifs z.length z (Nat.le_refl _) hz
    (0 + 1 + r.length) (0 + 1 + r.length) []
  refine ⟨final, ?_⟩
  rw [hfinal, Nat.zero_add]

/-- C35: the assertion `startindex == 0` of `fieldsplit` does not hold on
every input.  For the word of a space and `a`, all of it splittable, with IFS
of space, tab and newline the scan adds no field and ends with `startindex`
1, so the assertion fails; the same for a word of two spaces, which consists
only of splittable white space of IFS, where `startindex` ends as 2.  The
expansion of `$x` hands such a word to `fieldsplit` when the variable `x` has
the value of a space and `a`: brace expansion leaves the word as it is, and the
call of `expand_word_and_split` aborts.  The assertion fails for every word that starts
with a run of splittable white space of IFS and has no splittable character of
IFS after the run. -/
theorem fieldsplit_assertion_fails :
    fieldsplit_loop [' ', 'a'] [' ', '\t', '\n'] ([' ', 'a'].zip [true, true]) none 0 0 [] =
      (2, 1, []) ∧
    fieldsplit [' ', 'a'] [true, true] [' ', '\t', '\n'] = none ∧
    fieldsplit_loop [' ', ' '] [' ', '\t', '\n'] ([' ', ' '].zip [true, true]) none 0 0 [] =
      (2, 2, []) ∧
    fieldsplit [' ', ' '] [true, true] [' ', '\t', '\n'] = none ∧
    expand_brace_each LONG_MAX_LP64 [[' ', 'a']] [[true, true]] =
      some [([' ', 'a'], [true, true])] ∧
    expand_word_and_split LP64 LONG_MAX_LP64 sample_environment true (param_word ['x'])
      (store_with_x [' ', 'a']) = outcome.aborts ∧
    (∀ (ifs : List Char) (c0 : Char) (r : List Char) (z : List (Char × Bool)),
      c0 ∈ ifs → iswspace c0 = true → (∀ c ∈ r, c ∈ ifs ∧ iswspace c = true) →
      (∀ p ∈ z, ¬ (p.2 = true ∧ p.1 ∈ ifs)) →
      fieldsplit (c0 :: (r ++ z.map Prod.fst))
        (true :: (List.replicate r.length true ++ z.map Prod.snd)) ifs = none) := by
  refine ⟨by decide, by decide, by decide, by decide, by decide, by decide, ?_⟩
  intro ifs c0 r z h0 hw hr hz
  have hzip : (c0 :: (r ++ z.map Prod.fst)).zip
      (true :: (List.replicate r.length true ++ z.map Prod.snd)) =
      (c0, true) :: ((r.map fun c => (c, true)) ++ z) := by
    rw [List.zip_cons_cons, List.zip_append (by simp)]
    congr 2
    · clear hr
      induction r with
      | nil => rfl
      | cons c r ih => simp [List.replicate_succ, ih]
    · exact (List.zip_of_prod rfl rfl).symm
  obtain ⟨final, hfinal⟩ := fieldsplit_loop_leading_spaces
    (c0 :: (r ++ z.map Prod.fst)) ifs c0 r z h0 hw hr hz
  unfold fieldsplit
  rw [hzip, hfinal]
  simp [fieldsplit_finish]

/-! ## Theorems: flags of a conversion specification -/

/-- The scan of `printf_parse_percent` over the flags, the width and the
precision of a conversion specification finds these parts: the flags are the
longest run of flag characters, the width the digits after them and the
precision a period with the digits after it. -/
theorem printf_parse_percent_scan (flags width precision : List Char) (c : Char)
    (rest : List Char)
    (hflags : ∀ f ∈ flags, f ∈ ['#', '0', '-', '+', ' '])
    (hwidth : ∀ d ∈ width, iswdigit d = true) (hzero : width.head? ≠ some '0')
    (hprecision : precision = [] ∨
      ∃ digits, precision = '.' :: digits ∧ ∀ d ∈ digits, iswdigit d = true)
    (hc1 : iswdigit c = false) (hc2 : c ≠ '.') (hc3 : c ∉ ['#', '0', '-', '+', ' ']) :
    (flags ++ width ++ precision ++ c :: rest).takeWhile
        (fun c => decide (c ∈ ['#', '0', '-', '+', ' '])) = flags ∧
    (width ++ precision ++ c :: rest).takeWhile iswdigit = width ∧
    (if (precision ++ c :: rest).head? = some '.' then
        '.' :: ((precision ++ c :: rest).drop 1).takeWhile iswdigit
      else []) = precision := by
  have hnd : iswdigit '.' = false := by decide
  have hnf : ('.' : Char) ∉ ['#', '0', '-', '+', ' '] := by decide
  have hdf : ∀ d : Char, iswdigit d = true → d ≠ '0' → d ∉ ['#', '0', '-', '+', ' '] := by
    intro d hd h0 hm
    simp only [List.mem_cons, List.mem_singleton, List.not_mem_nil, or_false] at hm
    rcases hm with h | h | h | h | h
    · subst h; revert hd; decide
    · exact h0 h
    · subst h; revert hd; decide
    · subst h; revert hd; decide
    · subst h; revert hd; decide
  refine ⟨?_, ?_, ?_⟩
  · rw [List.append_assoc, List.append_assoc, List.takeWhile_append_of_pos
      (fun f hf => by simpa using hflags f hf)]
    have hstop : (width ++ (precision ++ c :: rest)).takeWhile
        (fun c => decide (c ∈ ['#', '0', '-', '+', ' '])) = [] := by
      cases width with
      | nil =>
        rcases hprecision with hp | ⟨digits, hp, _⟩
        · rw [hp, List.nil_append, List.nil_append, List.takeWhile_cons_of_neg]
          simpa using hc3
        · rw [hp, List.nil_append, List.cons_append, List.takeWhile_cons_of_neg]
          simp
      | cons d width =>
        rw [List.cons_append, List.takeWhile_cons_of_neg]
        have hd := hdf d (hwidth d (List.mem_cons_self _ _)) (fun h => hzero (by rw [h]; rfl))
        simpa using hd
    rw [hstop, List.append_nil]
  · rw [List.append_assoc, List.takeWhile_append_of_pos hwidth]
    have hstop : (precision ++ c :: rest).takeWhile iswdigit = [] := by
      rcases hprecision with hp | ⟨digits, hp, _⟩
      · rw [hp, List.nil_append, List.takeWhile_cons_of_neg]
        simp [hc1]
      · rw [hp, List.cons_append, List.takeWhile_cons_of_neg]
        simp [hnd]
    rw [hstop, List.append_nil]
  · rcases hprecision with hp | ⟨digits, hp, hdigits⟩
    · rw [hp, List.nil_append, List.head?_cons, if_neg]
      intro h
      exact hc2 (Option.some.inj h)
    · rw [hp, List.cons_append, List.head?_cons, if_pos rfl, List.drop_one, List.tail_cons,
        List.takeWhile_append_of_pos hdigits, List.takeWhile_cons_of_neg (by simp [hc1]),
        List.append_nil]

/-- C31: `printf_parse_percent` returns the null pointer for a conversion
specification that carries the flag `#` with the specifier `d`, `i` or `u`, or
the flag `0` with the specifier `c`, `s` or `b`, and it accepts these
specifiers when the flags have neither `#` nor `0`: the result is then the
item of the specifier, and the format advances over the whole
specification. -/
theorem printf_parse_percent_flags (lim : Limits) (flags width precision : List Char)
    (c : Char) (rest : List Char)
    (hflags : ∀ f ∈ flags, f ∈ ['#', '0', '-', '+', ' '])
    (hwidth : ∀ d ∈ width, iswdigit d = true) (hzero : width.head? ≠ some '0')
    (hprecision : precision = [] ∨
      ∃ digits, precision = '.' :: digits ∧ ∀ d ∈ digits, iswdigit d = true)
    (hc : c ∈ ['d', 'i', 'u', 'c', 's', 'b']) :
    ('#' ∈ flags → c ∈ ['d', 'i', 'u'] →
      printf_parse_percent lim ('%' :: (flags ++ width ++ precision ++ c :: rest)) = none) ∧
    ('0' ∈ flags → c ∈ ['c', 's', 'b'] →
      printf_parse_percent lim ('%' :: (flags ++ width ++ precision ++ c :: rest)) = none) ∧
    ('#' ∉ flags → '0' ∉ flags →
      printf_parse_percent lim ('%' :: (flags ++ width ++ precision ++ c :: rest)) =
        some
          (if c = 'd' ∨ c = 'i' then
              format_T.FT_INT ('%' :: (flags ++ width ++ precision) ++ ['j', c])
            else if c = 'u' then
              format_T.FT_UINT ('%' :: (flags ++ width ++ precision) ++ ['j', c])
            else if c = 'c' then
              format_T.FT_CHAR ('%' :: (flags ++ width ++ precision) ++ ['l', c])
            else if c = 's' then
              format_T.FT_STRING ('%' :: (flags ++ width ++ precision) ++ ['l', c])
            else printf_parse_percent_b lim ('%' :: (flags ++ width ++ precision)),
            ('%' :: (flags ++ width ++ precision ++ [c])).length)) := by
  have hc1 : iswdigit c = false := by
    simp only [List.mem_cons, List.mem_singleton, List.not_mem_nil, or_false] at hc
    rcases hc with h | h | h | h | h | h <;> subst h <;> decide
  have hc2 : c ≠ '.' := by
    simp only [List.mem_cons, List.mem_singleton, List.not_mem_nil, or_false] at hc
    rcases hc with h | h | h | h | h | h <;> subst h <;> decide
  have hc3 : c ∉ ['#', '0', '-', '+', ' '] := by
    simp only [List.mem_cons, List.mem_singleton, List.not_mem_nil, or_false] at hc
    rcases hc with h | h | h | h | h | h <;> subst h <;> decide
  obtain ⟨h1, h2, h3⟩ := printf_parse_percent_scan flags width precision c rest hflags hwidth
    hzero hprecision hc1 hc2 hc3
  have hd1 : (flags ++ width ++ precision ++ c :: rest).drop flags.length =
      width ++ precision ++ c :: rest := by
    rw [List.append_assoc, List.append_assoc, List.drop_left]
    simp
  have hd2 : (width ++ precision ++ c :: rest).drop width.length = precision ++ c :: rest := by
    rw [List.append_assoc, List.drop_left]
  have hd3 : (precision ++ c :: rest).drop precision.length = c :: rest := List.drop_left _ _
  unfold printf_parse_percent
  simp only [List.drop_succ_cons, List.drop_zero, h1, hd1, h2, hd2, h3, hd3, List.head?_cons]
  simp only [List.mem_cons, List.mem_singleton, List.not_mem_nil, or_false] at hc
  refine ⟨?_, ?_, ?_⟩
  · intro hh hm
    simp only [List.mem_cons, List.mem_singleton, List.not_mem_nil, or_false] at hm
    rcases hm with h | h | h <;> subst h <;> simp [hh]
  · intro hz hm
    simp only [List.mem_cons, List.mem_singleton, List.not_mem_nil, or_false] at hm
    rcases hm with h | h | h <;> subst h <;> simp [hz]
  · intro hh hz
    rcases hc with h | h | h | h | h | h <;> subst h <;> simp [hh, hz] <;> omega

/-- The flags of sample conversion specifications: `%#d` and `%0s` are
rejected, `%-5.3d` and `%-5s` are accepted. -/
theorem printf_parse_percent_flags_sample :
    printf_parse_percent LP64 ['%', '#', 'd'] = none ∧
    printf_parse_percent LP64 ['%', '0', 's'] = none ∧
    printf_parse_percent LP64 ['%', '-', '5', '.', '3', 'd', 'x'] =
      some (format_T.FT_INT ['%', '-', '5', '.', '3', 'j', 'd'], 6) ∧
    printf_parse_percent LP64 ['%', '-', '5', 's'] =
      some (format_T.FT_STRING ['%', '-', '5', 'l', 's'], 4) := by
  have h1 := (printf_parse_percent_flags LP64 ['#'] [] [] 'd' [] (by decide) (by decide)
    (by decide) (Or.inl rfl) (by decide)).1 (by decide) (by decide)
  exact ⟨h1, by decide, by decide, by decide⟩

/-! ## Theorems: numeric arguments of printf -/

/-- The functions `wcstoimax` and `wcstoumax` convert a text without a number at
its start to zero and consume nothing. -/
theorem wcstoimax_no_number (intmax_max uintmax_max : Nat) (arg : List Char)
    (h : (scan_numeral arg).digits = []) :
    wcstoimax intmax_max arg = { value := 0, consumed := 0, range_error := false } ∧
    wcstoumax uintmax_max arg = { value := 0, consumed := 0, range_error := false } := by
  constructor
  · unfold wcstoimax wcstol
    simp only [h, if_true]
  · unfold wcstoumax
    simp only [h, if_true]

/-- The functions `wcstoimax` and `wcstoumax` convert the text `0` to zero. -/
theorem wcstoimax_zero (intmax_max uintmax_max : Nat) :
    wcstoimax intmax_max ['0'] = { value := 0, consumed := 1, range_error := false } ∧
    wcstoumax uintmax_max ['0'] = { value := 0, consumed := 1, range_error := false } := by
  have hs : scan_numeral ['0'] = { negative := false, base := 8, skipped := 0, digits := ['0'] } := by
    decide
  constructor
  · unfold wcstoimax wcstol
    simp [hs, digit_value]
  · unfold wcstoumax
    simp [hs, digit_value]

/-- C32: for a numeric conversion a missing argument is converted as zero, and
a malformed numeric argument produces the value of the number at its start
while a diagnostic is emitted: an empty argument and an argument that does not
start with a number give zero, and an argument with characters left over
after the number gives the value that `wcstoimax` or `wcstoumax` converted,
which is zero only if the number is.  The argument is one that the code reads
as a number, which is one that does not start with a quote character. -/
theorem printf_parse_integer_malformed {φ : Type} (lib : printf_library φ) (is_signed : Bool)
    (s : printf_state) :
    printf_parse_integer lib none is_signed s = (0, s) ∧
    printf_parse_integer lib (some []) is_signed s =
      (0, { s with xoptind := s.xoptind + 1, errors := s.errors + 1 }) ∧
    (∀ arg : List Char, arg.head? ≠ some '"' → arg.head? ≠ some '\'' →
      (scan_numeral arg).digits = [] →
      printf_parse_integer lib (some arg) is_signed s =
        (0, { s with xoptind := s.xoptind + 1, errors := s.errors + 1 })) ∧
    (∀ arg : List Char, arg.head? ≠ some '"' → arg.head? ≠ some '\'' →
      (if is_signed = true then wcstoimax lib.INTMAX_MAX arg
        else wcstoumax lib.UINTMAX_MAX arg).consumed ≠ arg.length →
      printf_parse_integer lib (some arg) is_signed s =
        (((if is_signed = true then wcstoimax lib.INTMAX_MAX arg
            else wcstoumax lib.UINTMAX_MAX arg).value %
            ((lib.UINTMAX_MAX : Int) + 1)).toNat,
          { s with xoptind := s.xoptind + 1, errors := s.errors + 1 })) ∧
    printf_parse_integer sample_library (some ['1', '2', 'a', 'b', 'c']) true
        { xoptind := 1, buf := [], errors := 0 } =
      (12, { xoptind := 2, buf := [], errors := 1 }) := by
  have hempty : ∀ arg : List Char, arg.head? ≠ some '"' → arg.head? ≠ some '\'' →
      (scan_numeral arg).digits = [] →
      printf_parse_integer lib (some arg) is_signed s =
        (0, { s with xoptind := s.xoptind + 1, errors := s.errors + 1 }) := by
    intro arg h1 h2 hd
    have hz := wcstoimax_no_number lib.INTMAX_MAX lib.UINTMAX_MAX arg hd
    unfold printf_parse_integer
    simp only [Option.isSome_some, if_true, Option.getD_some]
    rw [if_neg (by simp [h1, h2])]
    cases is_signed
    · simp only [Bool.false_eq_true, if_false, hz.2]
      by_cases ha : arg = []
      · simp [ha]
      · have : ¬ (0 = arg.length) := fun h => ha (List.length_eq_zero.mp h.symm)
        simp [ha, this]
    · simp only [if_true, hz.1]
      by_cases ha : arg = []
      · simp [ha]
      · have : ¬ (0 = arg.length) := fun h => ha (List.length_eq_zero.mp h.symm)
        simp [ha, this]
  refine ⟨?_, ?_, hempty, ?_, by decide⟩
  · have hz := wcstoimax_zero lib.INTMAX_MAX lib.UINTMAX_MAX
    unfold printf_parse_integer
    cases is_signed <;> simp [hz.1, hz.2]
  · exact hempty [] (by simp) (by simp) (by decide)
  · intro arg h1 h2 hleft
    unfold printf_parse_integer
    simp only [Option.isSome_some, if_true, Option.getD_some]
    rw [if_neg (by simp [h1, h2])]
    simp only [hleft, ne_eq, not_false_eq_true, or_true, if_true]

/-- The argument `12abc` of `%d` is printed as 12, not as zero, and the
diagnostic makes the exit status a failure. -/
theorem printf_leftover_value :
    printf_parse_integer sample_library (some ['1', '2', 'a', 'b', 'c']) true
        { xoptind := 1, buf := [], errors := 0 } ≠
      (0, { xoptind := 2, buf := [], errors := 1 }) ∧
    printf_builtin sample_library LP64 [['%', 'd'], ['1', '2', 'a', 'b', 'c']] =
      some { status := exit_status.Exit_FAILURE, stdout := ['1', '2'] } := by
  constructor
  · decide
  · decide

/-! ## Theorems: the escape `\c` in an argument of `%b` -/

/-- A pass over items in front of an item and those after it: when the items in
front end with `PR_OK`, the pass goes on with the item. -/
theorem printf_pass_append {φ : Type} (lib : printf_library φ) (argv : List (List Char))
    (post : List format_T) :
    ∀ (pre : List format_T) (s s1 : printf_state),
    printf_pass lib argv pre s = (printf_result_T.PR_OK, s1) →
    printf_pass lib argv (pre ++ post) s = printf_pass lib argv post s1 := by
  intro pre
  induction pre with
  | nil =>
    intro s s1 h
    simp only [printf_pass, Prod.mk.injEq, true_and] at h
    rw [List.nil_append, h]
  | cons f pre ih =>
    intro s s1 h
    rw [printf_pass] at h
    rw [List.cons_append, printf_pass]
    rcases hp : printf_printf lib f (argv.get? s.xoptind) s with ⟨r, s2⟩
    rw [hp] at h
    cases r with
    | PR_OK =>
      simp only at h ⊢
      exact ih s2 s1 h
    | PR_OK_END => simp at h
    | PR_ERROR => simp at h

/-- A pass ends at an item `%b` whose argument has the escape `\c`: the items
after it are not applied. -/
theorem printf_pass_end {φ : Type} (lib : printf_library φ) (argv : List (List Char))
    (pre post : List format_T) (left : Bool) (width max : Nat) (s s1 : printf_state)
    (text : List Char)
    (hpre : printf_pass lib argv pre s = (printf_result_T.PR_OK, s1))
    (hesc : echo_parse_escape lib ((argv.get? s1.xoptind).getD []) =
      (printf_result_T.PR_OK_END, text)) :
    printf_pass lib argv (pre ++ format_T.FT_ECHO left width max :: post) s =
      (printf_result_T.PR_OK_END,
        { s1 with
          xoptind := s1.xoptind + 1,
          buf := s1.buf ++
            (printf_print_escape lib left width max ((argv.get? s1.xoptind).getD [])).2 }) := by
  have hsome : (argv.get? s1.xoptind).isSome = true := by
    cases ha : argv.get? s1.xoptind with
    | none =>
      rw [ha] at hesc
      simp [echo_parse_escape, echo_parse_escape_loop] at hesc
    | some a => rfl
  rw [printf_pass_append lib argv _ pre s s1 hpre, printf_pass]
  simp only [printf_printf, hsome, if_true]
  have h1 : (printf_print_escape lib left width max ((argv.get? s1.xoptind).getD [])).1 =
      printf_result_T.PR_OK_END := by
    simp only [printf_print_escape, hesc]
  rw [h1]

/-- The loop of `printf_builtin` ends with the pass that ends with `PR_OK_END`,
after the passes before it. -/
theorem printf_operands_end {φ : Type} (lib : printf_library φ) (argv : List (List Char))
    (format : List format_T) (s s2 : printf_state)
    (hend : printf_pass lib argv format s = (printf_result_T.PR_OK_END, s2)) :
    ∀ (n : Nat) (s0 : printf_state),
    printf_complete_passes lib argv format n s0 = some s →
    ∀ k : Nat, printf_operands lib argv format (n + 1 + k) s0 =
      some (printf_result_T.PR_OK_END, s2) := by
  intro n
  induction n with
  | zero =>
    intro s0 h k
    simp only [printf_complete_passes, Option.some.injEq] at h
    subst h
    rw [show 0 + 1 + k = k + 1 by omega, printf_operands, hend]
  | succ n ih =>
    intro s0 h k
    rw [printf_complete_passes] at h
    rw [show n + 1 + 1 + k = (n + 1 + k) + 1 by omega, printf_operands]
    rcases hp : printf_pass lib argv format s0 with ⟨r, s1⟩
    rw [hp] at h
    cases r with
    | PR_OK =>
      simp only at h ⊢
      by_cases hc : s1.xoptind < argv.length ∧ s1.xoptind ≠ s0.xoptind
      · rw [if_pos hc] at h ⊢
        exact ih s1 h k
      · rw [if_neg hc] at h
        simp at h
    | PR_OK_END => simp at h
    | PR_ERROR => simp at h

/-- The passes of the loop of `printf_builtin` do not move `xoptind` back. -/
theorem printf_complete_passes_mono {φ : Type} (lib : printf_library φ)
    (argv : List (List Char)) (format : List format_T) :
    ∀ (n : Nat) (s0 s : printf_state),
    printf_complete_passes lib argv format n s0 = some s → s0.xoptind ≤ s.xoptind := by
  intro n
  induction n with
  | zero =>
    intro s0 s h
    simp only [printf_complete_passes, Option.some.injEq] at h
    rw [h]
  | succ n ih =>
    intro s0 s h
    rw [printf_complete_passes] at h
    have hmono := printf_pass_mono lib argv format s0
    rcases hp : printf_pass lib argv format s0 with ⟨r, s1⟩
    rw [hp] at h hmono
    cases r with
    | PR_OK =>
      simp only at h hmono
      by_cases hc : s1.xoptind < argv.length ∧ s1.xoptind ≠ s0.xoptind
      · rw [if_pos hc] at h
        exact Nat.le_trans hmono (ih s1 s h)
      · rw [if_neg hc] at h
        simp at h
    | PR_OK_END => simp at h
    | PR_ERROR => simp at h

/-- A pass that ends with `PR_OK` in front of the end of the arguments reads
only the arguments in front of the place where it ends. -/
theorem printf_pass_agree {φ : Type} (lib : printf_library φ) (argv argv' : List (List Char))
    (format : List format_T) (s s1 : printf_state) (k : Nat)
    (hpass : printf_pass lib argv format s = (printf_result_T.PR_OK, s1))
    (hlt : s1.xoptind < argv.length) (hk : s1.xoptind ≤ k)
    (htake : argv'.take k = argv.take k) :
    printf_pass lib argv' format s = (printf_result_T.PR_OK, s1) := by
  have hmono := printf_pass_mono lib argv format s
  rw [hpass] at hmono
  simp only at hmono
  have hx := printf_pass_xoptind lib argv format s s1 (by omega) hpass
  have hle : s.xoptind + conversions format ≤ k := by omega
  rw [← printf_pass_take lib argv' k format s hle, htake, printf_pass_take lib argv k format s hle]
  exact hpass

/-- The passes of the loop of `printf_builtin` in front of a place before the
end of the arguments read only the arguments in front of that place. -/
theorem printf_complete_passes_agree {φ : Type} (lib : printf_library φ)
    (argv argv' : List (List Char)) (format : List format_T) (s : printf_state) (k : Nat)
    (hk : s.xoptind ≤ k) (hlen : s.xoptind < argv'.length)
    (htake : argv'.take k = argv.take k) :
    ∀ (n : Nat) (s0 : printf_state),
    printf_complete_passes lib argv format n s0 = some s →
    printf_complete_passes lib argv' format n s0 = some s := by
  intro n
  induction n with
  | zero =>
    intro s0 h
    exact h
  | succ n ih =>
    intro s0 h
    rw [printf_complete_passes] at h
    rw [printf_complete_passes]
    rcases hp : printf_pass lib argv format s0 with ⟨r, s1⟩
    rw [hp] at h
    cases r with
    | PR_OK =>
      simp only at h
      by_cases hc : s1.xoptind < argv.length ∧ s1.xoptind ≠ s0.xoptind
      · rw [if_pos hc] at h
        have hm := printf_complete_passes_mono lib argv format n s1 s h
        rw [printf_pass_agree lib argv argv' format s0 s1 k hp hc.1 (by omega) htake]
        simp only
        rw [if_pos ⟨by omega, hc.2⟩]
        exact ih s1 h
      · rw [if_neg hc] at h
        simp at h
    | PR_OK_END => simp at h
    | PR_ERROR => simp at h

/-- The result of `printf_builtin` when a pass ends with `PR_OK_END`: the buffer
is printed, and the exit status tells whether an error message was counted. -/
theorem printf_builtin_end {φ : Type} (lib : printf_library φ) (lim : Limits)
    (format : List Char) (args : List (List Char)) (items : List format_T) (n : Nat)
    (s s2 : printf_state)
    (hparse : printf_parse_format lib lim format = some items)
    (hpasses : printf_complete_passes lib (format :: args) items n
      { xoptind := 1, buf := [], errors := 0 } = some s)
    (hend : printf_pass lib (format :: args) items s = (printf_result_T.PR_OK_END, s2)) :
    printf_builtin lib lim (format :: args) =
      some { status := if s2.errors = 0 then exit_status.Exit_SUCCESS
               else exit_status.Exit_FAILURE,
             stdout := s2.buf } := by
  obtain ⟨r, hr⟩ := printf_operands_total lib (format :: args) items args.length
    { xoptind := 1, buf := [], errors := 0 } (by simp)
  have h1 := printf_operands_end lib (format :: args) items s s2 hend n _ hpasses
    (args.length + 1)
  have h2 := hr (n + 1 + (args.length + 1)) (by omega)
  rw [h1] at h2
  have h3 := hr ((format :: args).length + 1) (by simp)
  rw [← h2] at h3
  unfold printf_builtin
  simp only [hparse, h3]

/-- One round of the loop of `echo_parse_escape`. -/
theorem echo_parse_escape_loop_cons {φ : Type} (lib : printf_library φ) (c : Char) (s : List Char) :
    echo_parse_escape_loop lib (c :: s) 0 =
      if c ≠ '\\' then
        match lib.wcrtomb c with
        | none => (printf_result_T.PR_ERROR, [])
        | some bytes => sb_append bytes (echo_parse_escape_loop lib s 0)
      else
        match s with
        | [] =>
          match lib.wcrtomb c with
          | none => (printf_result_T.PR_ERROR, [])
          | some bytes => sb_append bytes (echo_parse_escape_loop lib s 0)
        | 'c' :: _ => (printf_result_T.PR_OK_END, [])
        | '0' :: digits =>
          sb_append [TO_CHAR (octal_value (octal_run 3 digits))]
            (echo_parse_escape_loop lib s (1 + (octal_run 3 digits).length))
        | e :: _ =>
          match echo_escape_char e with
          | some x =>
            match lib.wcrtomb x with
            | none => (printf_result_T.PR_ERROR, [])
            | some bytes => sb_append bytes (echo_parse_escape_loop lib s 1)
          | none =>
            match lib.wcrtomb c with
            | none => (printf_result_T.PR_ERROR, [])
            | some bytes => sb_append bytes (echo_parse_escape_loop lib s 0) := by
  rfl

/-- A character other than a backslash is appended by the loop of
`echo_parse_escape`. -/
theorem echo_parse_escape_loop_normal {φ : Type} (lib : printf_library φ) (c : Char) (s : List Char)
    (hc : c ≠ '\\') :
    echo_parse_escape_loop lib (c :: s) 0 =
      match lib.wcrtomb c with
      | none => (printf_result_T.PR_ERROR, [])
      | some bytes => sb_append bytes (echo_parse_escape_loop lib s 0) := by
  rw [echo_parse_escape_loop_cons, if_pos hc]

/-- The loop of `echo_parse_escape` ends at the escape `\c`. -/
theorem echo_parse_escape_loop_c {φ : Type} (lib : printf_library φ) (s : List Char) :
    echo_parse_escape_loop lib ('\\' :: 'c' :: s) 0 = (printf_result_T.PR_OK_END, []) := by
  rfl

/-- The scan of `echo_parse_escape` ends at the escape `\c` after a text without
backslash: the text is produced and what follows the escape is not read. -/
theorem echo_parse_escape_c {φ : Type} (lib : printf_library φ) (rest : List Char) :
    ∀ a : List Char, (∀ c ∈ a, c ≠ '\\' ∧ lib.wcrtomb c = some [c]) →
    echo_parse_escape lib (a ++ '\\' :: 'c' :: rest) = (printf_result_T.PR_OK_END, a) := by
  intro a
  induction a with
  | nil =>
    intro _
    rfl
  | cons c a ih =>
    intro h
    have hc := h c (List.mem_cons_self _ _)
    have hrest := ih (fun d hd => h d (List.mem_cons_of_mem _ hd))
    unfold echo_parse_escape at hrest ⊢
    rw [List.cons_append, echo_parse_escape_loop_normal lib c _ hc.1, hc.2, hrest]
    rfl

/-- C33: when the scan of the argument of a `%b` conversion ends at the escape
`\c`, printf prints what was produced before the `\c`, the text of the
argument in the width and precision of the conversion, and ignores the rest of
that argument, the rest of the format and all remaining arguments.  The exit
status is success if no diagnostic was counted before, and failure
otherwise. -/
theorem printf_escape_c_ends {φ : Type} (lib : printf_library φ) (lim : Limits)
    (format : List Char) (args : List (List Char)) (pre post : List format_T)
    (left : Bool) (width max : Nat) (n : Nat) (s s1 : printf_state) (text : List Char)
    (hparse : printf_parse_format lib lim format =
      some (pre ++ format_T.FT_ECHO left width max :: post))
    (hpasses : printf_complete_passes lib (format :: args)
      (pre ++ format_T.FT_ECHO left width max :: post) n
      { xoptind := 1, buf := [], errors := 0 } = some s)
    (hpre : printf_pass lib (format :: args) pre s = (printf_result_T.PR_OK, s1))
    (hesc : echo_parse_escape lib (((format :: args).get? s1.xoptind).getD []) =
      (printf_result_T.PR_OK_END, text)) :
    printf_builtin lib lim (format :: args) =
      some { status := if s1.errors = 0 then exit_status.Exit_SUCCESS
               else exit_status.Exit_FAILURE,
             stdout := s1.buf ++
               (printf_print_escape lib left width max
                 (((format :: args).get? s1.xoptind).getD [])).2 } ∧
    (printf_print_escape lib left width max (((format :: args).get? s1.xoptind).getD [])).2 =
      (if width ≤ (if max < text.length then text.take max else text).length then
        (if max < text.length then text.take max else text)
      else if left = true then
        (if max < text.length then text.take max else text) ++
          List.replicate (width - (if max < text.length then text.take max else text).length) ' '
      else
        List.replicate (width - (if max < text.length then text.take max else text).length) ' ' ++
          (if max < text.length then text.take max else text)) ∧
    (∀ args' : List (List Char),
      (format :: args').take (s1.xoptind + 1) = (format :: args).take (s1.xoptind + 1) →
      printf_builtin lib lim (format :: args') = printf_builtin lib lim (format :: args)) ∧
    (∀ a rest : List Char, (∀ c ∈ a, c ≠ '\\' ∧ lib.wcrtomb c = some [c]) →
      echo_parse_escape lib (a ++ '\\' :: 'c' :: rest) = (printf_result_T.PR_OK_END, a)) := by
  have hlt : s1.xoptind < (format :: args).length := by
    by_contra hn
    rw [List.get?_eq_none.mpr (Nat.le_of_not_lt hn)] at hesc
    simp [echo_parse_escape, echo_parse_escape_loop] at hesc
  have hmain := printf_builtin_end lib lim format args _ n s _ hparse hpasses
    (printf_pass_end lib (format :: args) pre post left width max s s1 text hpre hesc)
  refine ⟨hmain, ?_, ?_, fun a rest h => echo_parse_escape_c lib rest a h⟩
  · simp only [printf_print_escape, hesc]
  · intro args' htake
    have hmono := printf_pass_mono lib (format :: args) pre s
    rw [hpre] at hmono
    simp only at hmono
    have hlen' : s1.xoptind < (format :: args').length := by
      have h := congrArg List.length htake
      rw [List.length_take, List.length_take] at h
      omega
    have harg : (format :: args').get? s1.xoptind = (format :: args).get? s1.xoptind := by
      have h := congrArg (fun l => l.get? s1.xoptind) htake
      simp only [List.get?_eq_getElem?] at h ⊢
      rw [List.getElem?_take_of_lt (Nat.lt_succ_self _),
        List.getElem?_take_of_lt (Nat.lt_succ_self _)] at h
      exact h
    have hpasses' := printf_complete_passes_agree lib (format :: args) (format :: args') _ s
      (s1.xoptind + 1) (by omega) (by omega) htake n _ hpasses
    have hpre' := printf_pass_agree lib (format :: args) (format :: args') pre s s1
      (s1.xoptind + 1) hpre hlt (by omega) htake
    have hmain' := printf_builtin_end lib lim format args' _ n s _ hparse hpasses'
      (printf_pass_end lib (format :: args') pre post left width max s s1 text hpre'
        (by rw [harg]; exact hesc))
    rw [hmain', hmain, harg]

/-- The command `printf "%b" 'a\cbc' d` prints `a` and returns success. -/
theorem printf_escape_c_ends_sample :
    printf_builtin sample_library LP64 [['%', 'b'], ['a', '\\', 'c', 'b', 'c'], ['d']] =
      some { status := exit_status.Exit_SUCCESS, stdout := ['a'] } :=
  (printf_escape_c_ends sample_library LP64 ['%', 'b'] [['a', '\\', 'c', 'b', 'c'], ['d']]
    [] [] false 0 LP64.ULONG_MAX 0 { xoptind := 1, buf := [], errors := 0 }
    { xoptind := 1, buf := [], errors := 0 } ['a']
    (by decide) (by decide) (by decide) (by decide)).1.trans (by decide)

/-- The command `printf '%d%b' x 'a\c'` prints `0a` and returns failure: the
diagnostic for the argument `x` was counted before the escape `\c`. -/
theorem printf_escape_c_failure :
    printf_builtin sample_library LP64 [['%', 'd', '%', 'b'], ['x'], ['a', '\\', 'c']] =
      some { status := exit_status.Exit_FAILURE, stdout := ['0', 'a'] } := by
  decide

/-! ## Theorems: the echo built-in -/

/-- The option letter `n` sets `nonewline`. -/
theorem echo_fold_nonewline (letters : List Char) :
    ∀ n : Bool, letters.foldl (fun n opt => if opt = 'n' then true else n) n =
      (n || decide ('n' ∈ letters)) := by
  induction letters with
  | nil => intro n; simp
  | cons c letters ih =>
    intro n
    rw [List.foldl_cons, ih]
    by_cases hc : c = 'n'
    · simp [hc]
    · have : ¬ 'n' = c := fun h => hc h.symm
      simp [hc, this]

/-- The last of the option letters `e` and `E` sets `escape`. -/
theorem echo_fold_escape (e : Bool) (letters : List Char) :
    letters.foldl (fun e opt => if opt = 'e' then true else if opt = 'E' then false else e) e =
      echo_escape_setting e letters := by
  induction letters using List.reverseRecOn with
  | nil => rfl
  | append_singleton letters c ih =>
    rw [List.foldl_append, List.foldl_cons, List.foldl_nil, ih]
    unfold echo_escape_setting
    rw [List.reverse_append, List.reverse_singleton, List.singleton_append, List.find?_cons]
    by_cases h1 : c = 'e'
    · simp [h1]
    · by_cases h2 : c = 'E'
      · simp [h2]
      · simp [h1, h2]

/-- The shape of an option of echo. -/
theorem echo_option_argument_shape (arg : List Char) (h : echo_option_argument arg = true) :
    ∃ c letters, arg = '-' :: c :: letters ∧
      ∀ x ∈ c :: letters, decide (x ∈ ['n', 'e', 'E']) = true := by
  unfold echo_option_argument at h
  split at h
  · rename_i c letters
    exact ⟨c, letters, rfl, List.all_eq_true.mp h⟩
  · exact Bool.noConfusion h

/-- An argument that is an option is passed over by the loop of
`echo_parse_options`, which applies its letters. -/
theorem echo_parse_options_option (arg : List Char) (args : List (List Char))
    (nonewline escape : Bool) (h : echo_option_argument arg = true) :
    echo_parse_options (arg :: args) nonewline escape =
      echo_parse_options args
        ((arg.drop 1).foldl (fun n opt => if opt = 'n' then true else n) nonewline)
        ((arg.drop 1).foldl
          (fun e opt => if opt = 'e' then true else if opt = 'E' then false else e) escape) := by
  obtain ⟨c, letters, harg, hall⟩ := echo_option_argument_shape arg h
  subst harg
  have hdrop : (c :: letters).dropWhile (fun c => decide (c ∈ ['n', 'e', 'E'])) = [] :=
    List.dropWhile_eq_nil_iff.mpr hall
  rw [echo_parse_options]
  simp only [List.head?_cons, ne_eq, not_true_eq_false, if_false, List.drop_succ_cons,
    List.drop_zero, hdrop]

/-- An argument that is neither an option nor a lone `-` ends the loop of
`echo_parse_options`. -/
theorem echo_parse_options_operand (arg : List Char) (args : List (List Char))
    (nonewline escape : Bool) (h1 : echo_option_argument arg = false) (h2 : arg ≠ ['-']) :
    echo_parse_options (arg :: args) nonewline escape = (nonewline, escape, arg :: args) := by
  rw [echo_parse_options]
  by_cases hh : arg.head? ≠ some '-'
  · rw [if_pos hh]
  · rw [if_neg hh, if_pos]
    match arg, h1, h2, hh with
    | [], _, _, hh => simp at hh
    | [c], _, h2, hh =>
      simp only [List.head?_cons, ne_eq, Option.some.injEq, not_not] at hh
      subst hh
      exact absurd rfl h2
    | c :: d :: letters, h1, _, hh =>
      simp only [List.head?_cons, ne_eq, Option.some.injEq, not_not] at hh
      subst hh
      intro hnil
      have hall := List.dropWhile_eq_nil_iff.mp hnil
      have : echo_option_argument ('-' :: d :: letters) = true := by
        unfold echo_option_argument
        exact List.all_eq_true.mpr hall
      rw [this] at h1
      exact Bool.noConfusion h1

/-- The loop of `echo_parse_options` over options in front of the other
arguments. -/
theorem echo_parse_options_letters (operands : List (List Char))
    (hhead : ∀ a, operands.head? = some a → echo_option_argument a = false ∧ a ≠ ['-']) :
    ∀ (opts : List (List Char)) (nonewline escape : Bool),
    (∀ o ∈ opts, echo_option_argument o = true) →
    echo_parse_options (opts ++ operands) nonewline escape =
      ((echo_option_letters opts).foldl (fun n opt => if opt = 'n' then true else n) nonewline,
        (echo_option_letters opts).foldl
          (fun e opt => if opt = 'e' then true else if opt = 'E' then false else e) escape,
        operands) := by
  intro opts
  induction opts with
  | nil =>
    intro nonewline escape _
    cases operands with
    | nil => rfl
    | cons a rest =>
      have h := hhead a rfl
      exact echo_parse_options_operand a rest nonewline escape h.1 h.2
  | cons o opts ih =>
    intro nonewline escape h
    rw [List.cons_append, echo_parse_options_option o _ _ _ (h o (List.mem_cons_self _ _)),
      ih _ _ (fun x hx => h x (List.mem_cons_of_mem _ hx))]
    simp [echo_option_letters, List.foldl_append]

/-- Texts joined with spaces, one text after the other. -/
theorem echo_joined_cons (a b : List Char) (texts : List (List Char)) :
    echo_joined [] = [] ∧ echo_joined [a] = a ∧
    echo_joined (a :: b :: texts) = a ++ [' '] ++ echo_joined (b :: texts) := by
  refine ⟨rfl, ?_, ?_⟩
  · simp [echo_joined, List.intercalate]
  · simp [echo_joined, List.intercalate, List.intersperse]

/-- One round of the loop of `echo_builtin` over the arguments. -/
theorem echo_arguments_cons {φ : Type} (lib : printf_library φ) (escape : Bool)
    (arg : List Char) (args : List (List Char)) :
    echo_arguments lib escape (arg :: args) =
      match echo_argument lib escape arg with
      | (printf_result_T.PR_ERROR, _) => none
      | (printf_result_T.PR_OK_END, bytes) => some (true, bytes)
      | (printf_result_T.PR_OK, bytes) =>
        match args with
        | [] => some (false, bytes)
        | _ :: _ =>
          match lib.wcrtomb ' ' with
          | none => none
          | some space =>
            match echo_arguments lib escape args with
            | none => none
            | some (ended, more) => some (ended, bytes ++ space ++ more) := by
  rfl

/-- The loop of `echo_builtin` over arguments that are all read without an end:
their texts are joined with single spaces. -/
theorem echo_arguments_all {φ : Type} (lib : printf_library φ) (escape : Bool)
    (hsp : lib.wcrtomb ' ' = some [' ']) :
    ∀ operands : List (List Char),
    (∀ a ∈ operands, (echo_argument lib escape a).1 = printf_result_T.PR_OK) →
    echo_arguments lib escape operands =
      some (false, echo_joined (operands.map fun a => (echo_argument lib escape a).2)) := by
  intro operands
  induction operands with
  | nil => intro _; rfl
  | cons a rest ih =>
    intro h
    have ha := h a (List.mem_cons_self _ _)
    have hrest := ih (fun x hx => h x (List.mem_cons_of_mem _ hx))
    rw [echo_arguments_cons]
    rcases hr : echo_argument lib escape a with ⟨r, bytes⟩
    rw [hr] at ha
    simp only at ha
    subst ha
    have hb : (echo_argument lib escape a).2 = bytes := by rw [hr]
    cases rest with
    | nil => simp [(echo_joined_cons bytes [] []).2.1, hb]
    | cons b rest =>
      simp only [hsp, hrest, List.map_cons, hb]
      rw [(echo_joined_cons bytes _ _).2.2]

/-- The loop of `echo_builtin` ends at the first argument whose scan ends at
the escape `\c`: the texts up to it are joined, the arguments after it are not
read. -/
theorem echo_arguments_end {φ : Type} (lib : printf_library φ) (escape : Bool)
    (hsp : lib.wcrtomb ' ' = some [' ']) (arg : List Char) (post : List (List Char))
    (harg : (echo_argument lib escape arg).1 = printf_result_T.PR_OK_END) :
    ∀ pre : List (List Char),
    (∀ a ∈ pre, (echo_argument lib escape a).1 = printf_result_T.PR_OK) →
    echo_arguments lib escape (pre ++ arg :: post) =
      some (true, echo_joined ((pre ++ [arg]).map fun a => (echo_argument lib escape a).2)) := by
  intro pre
  induction pre with
  | nil =>
    intro _
    rw [List.nil_append, echo_arguments_cons]
    rcases hr : echo_argument lib escape arg with ⟨r, bytes⟩
    rw [hr] at harg
    simp only at harg
    subst harg
    have hb : (echo_argument lib escape arg).2 = bytes := by rw [hr]
    simp [hb, (echo_joined_cons bytes [] []).2.1]
  | cons a pre ih =>
    intro h
    have ha := h a (List.mem_cons_self _ _)
    have hrest := ih (fun x hx => h x (List.mem_cons_of_mem _ hx))
    rw [List.cons_append, echo_arguments_cons]
    rcases hr : echo_argument lib escape a with ⟨r, bytes⟩
    rw [hr] at ha
    simp only at ha
    subst ha
    have hb : (echo_argument lib escape a).2 = bytes := by rw [hr]
    cases hp : pre ++ arg :: post with
    | nil => simp at hp
    | cons b rest =>
      rw [hp] at hrest
      simp only [hsp, hrest, List.cons_append, List.map_cons, hb]
      cases hq : pre ++ [arg] with
      | nil => simp at hq
      | cons b' rest' =>
        rw [List.map_cons, (echo_joined_cons bytes _ _).2.2]

/-- An argument of characters that convert to themselves is appended as it is
when escape sequences are not read. -/
theorem echo_argument_literal {φ : Type} (lib : printf_library φ) :
    ∀ arg : List Char, (∀ c ∈ arg, lib.wcrtomb c = some [c]) →
    echo_argument lib false arg = (printf_result_T.PR_OK, arg) := by
  intro arg h
  have hcat : sb_wcscat lib arg = some arg := by
    induction arg with
    | nil => rfl
    | cons c arg ih =>
      rw [sb_wcscat, h c (List.mem_cons_self _ _), ih (fun d hd => h d (List.mem_cons_of_mem _ hd))]
      rfl
  simp [echo_argument, hcat]

/-- An argument without backslash, of characters that convert to themselves,
is appended as it is when escape sequences are read. -/
theorem echo_argument_plain {φ : Type} (lib : printf_library φ) :
    ∀ arg : List Char, (∀ c ∈ arg, c ≠ '\\' ∧ lib.wcrtomb c = some [c]) →
    echo_argument lib true arg = (printf_result_T.PR_OK, arg) := by
  intro arg h
  have hscan : echo_parse_escape_loop lib arg 0 = (printf_result_T.PR_OK, arg) := by
    induction arg with
    | nil => rfl
    | cons c arg ih =>
      have hc := h c (List.mem_cons_self _ _)
      rw [echo_parse_escape_loop_normal lib c _ hc.1, hc.2,
        ih (fun d hd => h d (List.mem_cons_of_mem _ hd))]
      rfl
  simp [echo_argument, echo_parse_escape, hscan]

/-- The values that the first letter of `$ECHO_STYLE` gives to `escape`,
`noption` and `eoption`. -/
theorem echo_style_flags_table (rest : List Char) :
    echo_style_flags none = (true, false, false) ∧
    echo_style_flags (some []) = (true, false, false) ∧
    echo_style_flags (some ('S' :: rest)) = (true, false, false) ∧
    echo_style_flags (some ('X' :: rest)) = (true, false, false) ∧
    echo_style_flags (some ('B' :: rest)) = (false, true, false) ∧
    echo_style_flags (some ('G' :: rest)) = (false, true, true) ∧
    echo_style_flags (some ('Z' :: rest)) = (true, true, true) ∧
    echo_style_flags (some ('D' :: rest)) = (true, true, false) ∧
    echo_style_flags (some ('R' :: rest)) = (false, false, false) := by
  refine ⟨?_, ?_, ?_, ?_, ?_, ?_, ?_, ?_, ?_⟩ <;> rfl

/-- C34: echo joins its arguments that follow the options with single spaces
and appends a newline unless a recognised `-n` or an escape `\c` suppresses
it; the escape `\c` also ends the output, so that the rest of its argument
and the arguments after it are not printed.  Which options are recognised
depends only on the first letter of `$ECHO_STYLE`: with S, X and by default
escapes are read and there are no options; with B `-n` as the first argument
is the only option and escapes are not read; with G and Z the leading arguments
made of `-` and the letters `n`, `e` and `E` are options, escapes being off
at first with G and on with Z; with D `-n` as the first argument is the only
option and escapes are read; with R there are neither options nor escapes.
An argument that is not a recognised option is printed with the arguments
after it.  The arguments are taken to have no lone `-` where an option can
stand in the styles G and Z. -/
theorem echo_joins_operands {φ : Type} (lib : printf_library φ)
    (hsp : lib.wcrtomb ' ' = some [' ']) (hnl : lib.wcrtomb '\n' = some ['\n']) :
    (∀ (c : Char) (rest rest' : List Char) (args : List (List Char)),
      echo_builtin lib (some (c :: rest)) args = echo_builtin lib (some (c :: rest')) args) ∧
    (∀ rest : List Char,
      echo_style_flags none = (true, false, false) ∧
      echo_style_flags (some []) = (true, false, false) ∧
      echo_style_flags (some ('S' :: rest)) = (true, false, false) ∧
      echo_style_flags (some ('X' :: rest)) = (true, false, false) ∧
      echo_style_flags (some ('B' :: rest)) = (false, true, false) ∧
      echo_style_flags (some ('G' :: rest)) = (false, true, true) ∧
      echo_style_flags (some ('Z' :: rest)) = (true, true, true) ∧
      echo_style_flags (some ('D' :: rest)) = (true, true, false) ∧
      echo_style_flags (some ('R' :: rest)) = (false, false, false)) ∧
    (∀ (style : Option (List Char)) (args : List (List Char)),
      (echo_style_flags style).2.1 = false → (echo_style_flags style).2.2 = false →
      echo_options style args = (false, (echo_style_flags style).1, args)) ∧
    (∀ (style : Option (List Char)) (args : List (List Char)),
      (echo_style_flags style).2.1 = true → (echo_style_flags style).2.2 = false →
      echo_options style (['-', 'n'] :: args) = (true, (echo_style_flags style).1, args) ∧
      (args.head? ≠ some ['-', 'n'] →
        echo_options style args = (false, (echo_style_flags style).1, args))) ∧
    (∀ (style : Option (List Char)) (opts operands : List (List Char)),
      (echo_style_flags style).2.2 = true →
      (∀ o ∈ opts, echo_option_argument o = true) →
      (∀ a, operands.head? = some a → echo_option_argument a = false ∧ a ≠ ['-']) →
      echo_options style (opts ++ operands) =
        (decide ('n' ∈ echo_option_letters opts),
          echo_escape_setting (echo_style_flags style).1 (echo_option_letters opts),
          operands)) ∧
    (∀ (nonewline escape : Bool) (operands : List (List Char)),
      (∀ a ∈ operands, (echo_argument lib escape a).1 = printf_result_T.PR_OK) →
      echo_print lib nonewline escape operands =
        { status := exit_status.Exit_SUCCESS,
          stdout := echo_joined (operands.map fun a => (echo_argument lib escape a).2) ++
            (if nonewline = true then [] else ['\n']) }) ∧
    (∀ (nonewline escape : Bool) (pre : List (List Char)) (arg : List Char)
        (post : List (List Char)),
      (∀ a ∈ pre, (echo_argument lib escape a).1 = printf_result_T.PR_OK) →
      (echo_argument lib escape arg).1 = printf_result_T.PR_OK_END →
      echo_print lib nonewline escape (pre ++ arg :: post) =
        { status := exit_status.Exit_SUCCESS,
          stdout := echo_joined ((pre ++ [arg]).map fun a => (echo_argument lib escape a).2) }) ∧
    (∀ arg : List Char, (∀ c ∈ arg, lib.wcrtomb c = some [c]) →
      echo_argument lib false arg = (printf_result_T.PR_OK, arg)) ∧
    (∀ arg : List Char, (∀ c ∈ arg, c ≠ '\\' ∧ lib.wcrtomb c = some [c]) →
      echo_argument lib true arg = (printf_result_T.PR_OK, arg)) ∧
    (∀ a rest : List Char, (∀ c ∈ a, c ≠ '\\' ∧ lib.wcrtomb c = some [c]) →
      echo_argument lib true (a ++ '\\' :: 'c' :: rest) = (printf_result_T.PR_OK_END, a)) := by
  refine ⟨?_, echo_style_flags_table, ?_, ?_, ?_, ?_, ?_, echo_argument_literal lib,
    echo_argument_plain lib, ?_⟩
  · intro c rest rest' args
    rfl
  · intro style args h1 h2
    simp [echo_options, h1, h2]
  · intro style args h1 h2
    constructor
    · simp [echo_options, h1, h2]
    · intro hn
      simp [echo_options, h1, h2, hn]
  · intro style opts operands h2 hopts hhead
    unfold echo_options
    simp only [h2, if_true]
    rw [echo_parse_options_letters operands hhead opts false _ hopts, echo_fold_nonewline,
      echo_fold_escape, Bool.false_or]
  · intro nonewline escape operands h
    unfold echo_print
    rw [echo_arguments_all lib escape hsp operands h]
    cases nonewline <;> simp [hnl]
  · intro nonewline escape pre arg post hpre harg
    unfold echo_print
    rw [echo_arguments_end lib escape hsp arg post harg pre hpre]
  · intro a rest h
    have := echo_parse_escape_c lib rest a h
    simp [echo_argument, this]

/-- The commands `echo -n x` in the style BSD, which prints `x` without a
newline, `echo -ne 'x\ty' z` in the style GNU and `echo -n x` by default, which
prints `-n x` and a newline. -/
theorem echo_joins_operands_sample :
    echo_builtin sample_library (some ['B', 'S', 'D']) [['-', 'n'], ['x']] =
      { status := exit_status.Exit_SUCCESS, stdout := ['x'] } ∧
    echo_options (some ['G', 'N', 'U']) [['-', 'n', 'e'], ['x', '\\', 't', 'y'], ['z']] =
      (true, true, [['x', '\\', 't', 'y'], ['z']]) ∧
    echo_builtin sample_library (some ['G', 'N', 'U'])
        [['-', 'n', 'e'], ['x', '\\', 't', 'y'], ['z']] =
      { status := exit_status.Exit_SUCCESS, stdout := ['x', '\t', 'y', ' ', 'z'] } ∧
    echo_builtin sample_library none [['-', 'n'], ['x']] =
      { status := exit_status.Exit_SUCCESS, stdout := ['-', 'n', ' ', 'x', '\n'] } := by
  have h := echo_joins_operands sample_library (by decide) (by decide)
  refine ⟨by decide, ?_, by decide, by decide⟩
  exact (h.2.2.2.2.1 (some ['G', 'N', 'U']) [['-', 'n', 'e']] [['x', '\\', 't', 'y'], ['z']]
    (by decide) (by decide) (by decide)).trans (by decide)

/-- The command `echo 'a\c' b` prints `a` only: the argument `b` is not joined
to the output. -/
theorem echo_escape_c_ends_output :
    echo_builtin sample_library none [['a', '\\', 'c'], ['b']] =
      { status := exit_status.Exit_SUCCESS, stdout := ['a'] } ∧
    echo_builtin sample_library none [['a', '\\', 'c'], ['b']] ≠
      { status := exit_status.Exit_SUCCESS, stdout := ['a', ' ', 'b'] } := by
  constructor <;> decide

/-- In the style GNU a lone `-` in front of the other arguments is passed over
as an option without letters, against the help text of echo, which knows no
option but `-n`, `-e` and `-E`. -/
theorem echo_lone_dash :
    echo_builtin sample_library (some ['G', 'N', 'U']) [['-']] =
      { status := exit_status.Exit_SUCCESS, stdout := ['\n'] } ∧
    echo_builtin sample_library (some ['G', 'N', 'U']) [['-'], ['x']] =
      { status := exit_status.Exit_SUCCESS, stdout := ['x', '\n'] } := by
  constructor <;> decide

/-! ## Theorems: brace expansion ends -/

theorem unescaped_braces_cons_ne (a : Char) (rest : List Char) (ha : a ≠ '\\') :
    unescaped_braces (a :: rest) = (if a = '{' then 1 else 0) + unescaped_braces rest := by
  cases rest <;> simp [unescaped_braces, *]

theorem unescaped_braces_cons_esc (b : Char) (rest : List Char) :
    unescaped_braces ('\\' :: b :: rest) = unescaped_braces rest := by
  cases rest <;> simp [unescaped_braces]

/-- Behind a text of whole escapes the unescaped braces are counted as in a
word of their own. -/
theorem unescaped_braces_append (p q : List Char) (hp : plain [] p = true) :
    unescaped_braces (p ++ q) = unescaped_braces p + unescaped_braces q := by
  revert hp
  apply plain_induction [] (P := fun p =>
    unescaped_braces (p ++ q) = unescaped_braces p + unescaped_braces q)
  · simp [unescaped_braces]
  · intro b l _ ih
    simp only [List.cons_append]
    rw [unescaped_braces_cons_esc, unescaped_braces_cons_esc, ih]
  · intro a l ha _ _ ih
    simp only [List.cons_append]
    rw [unescaped_braces_cons_ne _ _ ha, unescaped_braces_cons_ne _ _ ha, ih]
    omega

/-- A text without backslash and opening brace has no unescaped brace. -/
theorem unescaped_braces_of_chars (s : List Char) (h : ∀ c ∈ s, c ≠ '\\' ∧ c ≠ '{') :
    unescaped_braces s = 0 := by
  induction s with
  | nil => rfl
  | cons a t ih =>
    have ha := h a (List.mem_cons_self _ _)
    rw [unescaped_braces_cons_ne _ _ ha.1, ih (fun c hc => h c (List.mem_cons_of_mem _ hc))]
    simp [ha.2]

/-- There are no more unescaped braces than braces. -/
theorem unescaped_braces_le_count : ∀ s : List Char, unescaped_braces s ≤ s.count '{' := by
  intro s
  induction s using list_two_step with
  | h0 => simp [unescaped_braces]
  | h1 a =>
    by_cases ha : a = '\\'
    · subst ha
      simp [unescaped_braces]
    · rw [unescaped_braces_cons_ne _ _ ha]
      by_cases hb : a = '{'
      · subst hb
        simp [unescaped_braces]
      · simp [unescaped_braces, hb]
  | h2 a b l ih2 ih1 =>
    by_cases ha : a = '\\'
    · subst ha
      rw [unescaped_braces_cons_esc]
      have h1 : l.count '{' ≤ ('\\' :: b :: l).count '{' := by
        rw [List.count_cons, List.count_cons]
        omega
      omega
    · rw [unescaped_braces_cons_ne _ _ ha]
      by_cases hb : a = '{'
      · subst hb
        rw [List.count_cons_self]
        simp only [if_true]
        omega
      · rw [List.count_cons_of_ne (fun h => hb h.symm)]
        simp only [hb, if_false]
        omega

/-- The text in front of an index that ends whole escapes, with a character
other than a backslash behind it: the text up to behind the character ends
whole escapes too. -/
theorem plain_take_succ (word : List Char) (c : Nat) (a : Char)
    (hv : plain [] (word.take c) = true) (hget : word[c]? = some a) (ha : a ≠ '\\') :
    plain [] (word.take (c + 1)) = true := by
  rw [List.take_succ, hget, plain_append _ _ _ hv]
  simp only [Option.toList]
  rw [plain_cons_ne _ _ _ ha]
  simp [plain]

/-- The text in front of an index that ends whole escapes, with a backslash and
a character behind it: the text up to behind the two ends whole escapes. -/
theorem plain_take_esc (word : List Char) (c : Nat)
    (hv : plain [] (word.take c) = true) (hget : word[c]? = some '\\')
    (hlen : c + 1 < word.length) :
    plain [] (word.take (c + 2)) = true := by
  rw [List.take_succ, List.take_succ, hget, List.getElem?_eq_getElem hlen, List.append_assoc,
    plain_append _ _ _ hv]
  simp only [Option.toList, List.singleton_append]
  rw [plain_cons_esc]
  rfl

/-- The text in front of an index that ends whole escapes, with characters
other than backslashes behind it: the text up to behind them ends whole
escapes. -/
theorem plain_take_run (word : List Char) (c : Nat) (hv : plain [] (word.take c) = true) :
    ∀ n : Nat, (∀ k : Nat, k < n → ∃ ch, word[c + k]? = some ch ∧ ch ≠ '\\') →
    plain [] (word.take (c + n)) = true := by
  intro n
  induction n with
  | zero => intro _; exact hv
  | succ n ih =>
    intro h
    obtain ⟨ch, hch, hne⟩ := h n (Nat.lt_succ_self _)
    exact plain_take_succ word (c + n) ch (ih (fun k hk => h k (Nat.lt_succ_of_lt hk))) hch hne

/-- The part of a word between two indices that end whole escapes is made of
whole escapes, and its unescaped braces are those of the word up to the second
index that are not in the word up to the first. -/
theorem plain_segment (word : List Char) (p e : Nat) (hp : plain [] (word.take p) = true)
    (he : plain [] (word.take e) = true) (hpe : p ≤ e) :
    plain [] ((word.drop p).take (e - p)) = true ∧
    unescaped_braces (word.take e) =
      unescaped_braces (word.take p) + unescaped_braces ((word.drop p).take (e - p)) := by
  have hsplit : word.take e = word.take p ++ (word.drop p).take (e - p) := by
    have h := List.take_add word p (e - p)
    rw [show p + (e - p) = e by omega] at h
    exact h
  constructor
  · rw [hsplit, plain_append _ _ _ hp] at he
    exact he
  · rw [hsplit, unescaped_braces_append _ _ hp]

/-- The unescaped braces of a word up to an index that ends whole escapes are
among those of the word up to a later index. -/
theorem unescaped_braces_take_mono (word : List Char) (i j : Nat)
    (hi : plain [] (word.take i) = true) (hij : i ≤ j) :
    unescaped_braces (word.take i) ≤ unescaped_braces (word.take j) := by
  have hsplit : word.take j = word.take i ++ (word.drop i).take (j - i) := by
    have h := List.take_add word i (j - i)
    rw [show i + (j - i) = j by omega] at h
    exact h
  rw [hsplit, unescaped_braces_append _ _ hi]
  omega

/-- An opening brace behind a text of whole escapes is unescaped. -/
theorem unescaped_braces_take_brace (word : List Char) (c : Nat)
    (hv : plain [] (word.take c) = true) (hget : word[c]? = some '{') :
    unescaped_braces (word.take (c + 1)) = unescaped_braces (word.take c) + 1 := by
  rw [List.take_succ, hget, unescaped_braces_append _ _ hv]
  simp [unescaped_braces]

/-- A word put together from the text before an unescaped opening brace, a
text of whole escapes and the text of the word from a later index on has fewer
unescaped braces than the word, if the text put in has no more of them than
the part of the word that it stands for. -/
theorem unescaped_braces_assembled (word : List Char) (c last : Nat) (mid : List Char)
    (hv : plain [] (word.take c) = true) (hlast : plain [] (word.take last) = true)
    (hmid : plain [] mid = true)
    (hless : unescaped_braces (word.take c) + unescaped_braces mid <
      unescaped_braces (word.take last)) :
    unescaped_braces (word.take c ++ mid ++ word.drop last) < unescaped_braces word := by
  have hword : unescaped_braces word =
      unescaped_braces (word.take last) + unescaped_braces (word.drop last) := by
    conv_lhs => rw [← List.take_append_drop last word]
    rw [unescaped_braces_append _ _ hlast]
  have hpm : plain [] (word.take c ++ mid) = true := by
    rw [plain_append _ _ _ hv]
    exact hmid
  rw [unescaped_braces_append _ _ hpm, unescaped_braces_append _ _ hv, hword]
  omega

/-- The entries that the element scan of `expand_brace` adds to `elemlist`
stand behind a comma or closing brace that ends whole escapes of the word. -/
theorem scan_elements_boundaries (word : List Char) : ∀ (n : Nat) (rest : List Char),
    rest.length ≤ n → ∀ (c nest : Nat) (el elemlist : List Nat),
    word.drop c = rest → plain [] (word.take c) = true →
    scan_elements rest c nest el = some elemlist →
    (∀ x ∈ el, plain [] (word.take (x - 1)) = true ∧ plain [] (word.take x) = true) →
    ∀ x ∈ elemlist, plain [] (word.take (x - 1)) = true ∧ plain [] (word.take x) = true := by
  intro n
  induction n with
  | zero =>
    intro rest hn c nest el elemlist _ _ h
    cases rest with
    | nil => simp [scan_elements] at h
    | cons a t => simp at hn
  | succ n ih =>
    intro rest hn c nest el elemlist hdrop hv h hel
    cases rest with
    | nil => simp [scan_elements] at h
    | cons a t =>
      simp only [List.length_cons, Nat.add_le_add_iff_right] at hn
      have hget : word[c]? = some a := by
        have := congrArg List.head? hdrop
        rw [List.head?_drop] at this
        simpa using this
      have hnext : word.drop (c + 1) = t := by
        rw [← List.drop_drop, hdrop]; rfl
      by_cases ha : a = '\\'
      · subst ha
        cases t with
        | nil => rw [scan_elements_backslash] at h; simp at h
        | cons b t' =>
          rw [scan_elements_cons_esc] at h
          simp only [List.length_cons] at hn
          have hlen : c + 1 < word.length := by
            have := congrArg List.length hdrop
            simp only [List.length_drop, List.length_cons] at this
            omega
          refine ih t' (by omega) (c + 2) nest el elemlist ?_
            (plain_take_esc word c hv hget hlen) h hel
          rw [← List.drop_drop, hdrop]; rfl
      · have hv1 := plain_take_succ word c a hv hget ha
        have hel1 : ∀ x ∈ el ++ [c + 1],
            plain [] (word.take (x - 1)) = true ∧ plain [] (word.take x) = true := by
          intro x hx
          rcases List.mem_append.1 hx with hx | hx
          · exact hel x hx
          · simp only [List.mem_singleton] at hx
            subst hx
            exact ⟨by simpa using hv, hv1⟩
        rw [scan_elements_cons_ne _ _ _ _ _ ha] at h
        split_ifs at h with h1 h2 h3 h4 h5 h6
        · exact ih t hn (c + 1) (nest + 1) el elemlist hnext hv1 h hel
        · exact ih t hn (c + 1) nest (el ++ [c + 1]) elemlist hnext hv1 h hel1
        · exact ih t hn (c + 1) nest el elemlist hnext hv1 h hel
        · exact ih t hn (c + 1) (nest - 1) el elemlist hnext hv1 h hel
        · simp only [Option.some.injEq] at h
          subst h
          exact hel1
        · exact ih t hn (c + 1) nest el elemlist hnext hv1 h hel

/-- Every word that the loop of `expand_brace` over the elements hands to the
recursive calls has fewer unescaped braces than the word. -/
theorem list_words_unescaped (word : List Char) (split : List Bool) (c last : Nat)
    (hv : plain [] (word.take c) = true) (hbrace : word[c]? = some '{')
    (hlast : plain [] (word.take last) = true) :
    ∀ elemlist : List Nat, elemlist.Pairwise (· < ·) →
      (∀ x ∈ elemlist, c < x ∧ x ≤ last ∧
        plain [] (word.take (x - 1)) = true ∧ plain [] (word.take x) = true) →
      ∀ w ∈ list_words word split c last elemlist,
        unescaped_braces w.1 < unescaped_braces word := by
  intro elemlist
  induction elemlist with
  | nil => intro _ _ w hw; simp [list_words] at hw
  | cons p t ih =>
    intro hp hb w hw
    cases t with
    | nil => simp [list_words] at hw
    | cons q t' =>
      rw [list_words, List.mem_cons] at hw
      rw [List.pairwise_cons] at hp
      rcases hw with hw | hw
      · subst hw
        have hpq := hp.1 q (List.mem_cons_self _ _)
        have h1 := hb p (List.mem_cons_self _ _)
        have h2 := hb q (List.mem_cons_of_mem _ (List.mem_cons_self _ _))
        have hseg := plain_segment word p (q - 1) h1.2.2.2 h2.2.2.1 (by omega)
        rw [show q - 1 - p = q - p - 1 by omega] at hseg
        have hb1 := unescaped_braces_take_brace word c hv hbrace
        have hm1 := unescaped_braces_take_mono word (c + 1) p
          (plain_take_succ word c '{' hv hbrace (by decide)) (by omega)
        have hm2 := unescaped_braces_take_mono word (q - 1) last h2.2.2.1 (by omega)
        exact unescaped_braces_assembled word c last _ hv hlast hseg.1 (by omega)
      · exact ih hp.2 (fun x hx => hb x (List.mem_cons_of_mem _ hx)) w hw

/-- When `tryexpand_brace_sequence` succeeds, the text after the opening brace
is made of characters of numerals and dots up to a closing brace, and every
word handed to the recursive calls is the text before the opening brace, a
number and the text after that closing brace. -/
theorem tryexpand_brace_sequence_shape (long_max : Nat) (word : List Char) (split : List Bool)
    (c : Nat) (ws : List (List Char × List Bool))
    (h : tryexpand_brace_sequence long_max word split (c + 1) = some ws) :
    ∃ m : Nat, (∀ i : Nat, i < m → ∃ ch, (word.drop (c + 1))[i]? = some ch ∧
        (wcs_numeric ch = true ∨ ch = '.')) ∧
      (word.drop (c + 1))[m]? = some '}' ∧
      ∀ w ∈ ws, ∃ number : List Char, (∀ x ∈ number, x ∈ number_chars) ∧
        w.1 = word.take c ++ number ++ word.drop (c + 1 + m + 1) := by
  unfold tryexpand_brace_sequence at h
  simp only at h
  cases hdot : wcschr (word.drop (c + 1)) '.' with
  | none => rw [hdot] at h; simp at h
  | some d =>
    rw [hdot] at h
    simp only at h
    by_cases h1 : d = 0
    · rw [if_pos h1] at h; simp at h
    rw [if_neg h1] at h
    by_cases h2 : (wcstol long_max (word.drop (c + 1))).range_error = true ∨
        (wcstol long_max (word.drop (c + 1))).consumed ≠ d ∨
        (word.drop (c + 1)).getD (d + 1) (Char.ofNat 0) ≠ '.'
    · rw [if_pos h2] at h; simp at h
    rw [if_neg h2] at h
    cases hbr : wcschr (word.drop (c + 1 + d + 2)) '}' with
    | none => rw [hbr] at h; simp at h
    | some b =>
      rw [hbr] at h
      simp only at h
      by_cases h3 : b = 0
      · rw [if_pos h3] at h; simp at h
      rw [if_neg h3] at h
      by_cases h4 : (wcstol long_max (word.drop (c + 1 + d + 2))).range_error = true ∨
          (wcstol long_max (word.drop (c + 1 + d + 2))).consumed ≠ b
      · rw [if_pos h4] at h; simp at h
      rw [if_neg h4] at h
      simp only [Option.some.injEq, Nat.add_sub_cancel] at h
      simp only [not_or, not_not, Bool.not_eq_true] at h2 h4
      obtain ⟨-, hc1, hdot2⟩ := h2
      obtain ⟨-, hc2⟩ := h4
      have hdrop : word.drop (c + 1 + d + 2) = (word.drop (c + 1)).drop (d + 2) := by
        rw [List.drop_drop]; congr 1
      refine ⟨d + 2 + b, ?_, ?_, ?_⟩
      · intro i hi
        by_cases hi1 : i < d
        · obtain ⟨ch, hch, hnum⟩ := wcstol_consumed_numeric long_max (word.drop (c + 1)) i
            (by rw [hc1]; exact hi1)
          exact ⟨ch, hch, Or.inl hnum⟩
        · by_cases hi2 : i = d
          · subst hi2
            exact ⟨'.', wcschr_some _ _ _ hdot, Or.inr rfl⟩
          · by_cases hi3 : i = d + 1
            · subst hi3
              refine ⟨'.', ?_, Or.inr rfl⟩
              rw [List.getD_eq_getElem?_getD] at hdot2
              cases hg : (word.drop (c + 1))[d + 1]? with
              | none =>
                rw [hg] at hdot2
                simp at hdot2
              | some x =>
                rw [hg] at hdot2
                simp at hdot2
                rw [hdot2]
            · obtain ⟨ch, hch, hnum⟩ := wcstol_consumed_numeric long_max
                (word.drop (c + 1 + d + 2)) (i - (d + 2)) (by rw [hc2]; omega)
              refine ⟨ch, ?_, Or.inl hnum⟩
              rw [hdrop, List.getElem?_drop] at hch
              have : d + 2 + (i - (d + 2)) = i := by omega
              rw [this] at hch
              exact hch
      · have := wcschr_some _ _ _ hbr
        rw [hdrop, List.getElem?_drop] at this
        exact this
      · intro w hw
        rw [← h] at hw
        obtain ⟨value, -, rfl⟩ := List.mem_map.1 hw
        refine ⟨_, ?_, by
          simp only
          rw [show c + 1 + (d + 2 + b) + 1 = c + 1 + d + 2 + b + 1 by omega]⟩
        exact fun x hx => wprintf_ld_mem _ _ _ x hx

/-- Every word that `tryexpand_brace_sequence` hands to the recursive calls has
fewer unescaped braces than the word. -/
theorem tryexpand_brace_sequence_unescaped (long_max : Nat) (word : List Char)
    (split : List Bool) (c : Nat) (ws : List (List Char × List Bool))
    (hv : plain [] (word.take c) = true) (hbrace : word[c]? = some '{')
    (h : tryexpand_brace_sequence long_max word split (c + 1) = some ws) :
    ∀ w ∈ ws, unescaped_braces w.1 < unescaped_braces word := by
  obtain ⟨m, hbody, hclose, hws⟩ := tryexpand_brace_sequence_shape long_max word split c ws h
  have hv1 := plain_take_succ word c '{' hv hbrace (by decide)
  have hrun : plain [] (word.take (c + 1 + (m + 1))) = true := by
    apply plain_take_run word (c + 1) hv1
    intro k hk
    by_cases hkm : k < m
    · obtain ⟨ch, hch, hnum⟩ := hbody k hkm
      rw [List.getElem?_drop] at hch
      refine ⟨ch, hch, ?_⟩
      rcases hnum with hnum | hnum
      · intro hc
        subst hc
        revert hnum
        decide
      · rw [hnum]
        decide
    · have hk' : k = m := by omega
      subst hk'
      rw [List.getElem?_drop] at hclose
      exact ⟨'}', hclose, by decide⟩
  intro w hw
  obtain ⟨number, hnum, hw1⟩ := hws w hw
  have hchars : ∀ x ∈ number, x ≠ '\\' ∧ x ≠ '{' := by
    intro x hx
    have := hnum x hx
    constructor
    · intro hc
      subst hc
      revert this
      decide
    · intro hc
      subst hc
      revert this
      decide
  rw [hw1, show c + 1 + m + 1 = c + 1 + (m + 1) by omega]
  have hb1 := unescaped_braces_take_brace word c hv hbrace
  have hm1 := unescaped_braces_take_mono word (c + 1) (c + 1 + (m + 1)) hv1 (by omega)
  refine unescaped_braces_assembled word c _ number hv hrun
    (plain_of_chars [] number (fun x hx => ⟨(hchars x hx).1, List.not_mem_nil x⟩)) ?_
  rw [unescaped_braces_of_chars number hchars]
  omega

/-- The last entry of a list that is not empty is one of its entries. -/
theorem getLastD_mem_of_ne_nil (l : List Nat) (h : l ≠ []) : l.getLastD 0 ∈ l := by
  rw [List.getLastD_eq_getLast?]
  cases hl : l.getLast? with
  | none => exact absurd (List.getLast?_eq_none_iff.mp hl) h
  | some z => exact List.mem_of_getLast?_eq_some hl

/-- Every word that a step of `expand_brace` hands to the recursive calls has
fewer unescaped braces than the word. -/
theorem find_brace_unescaped (long_max : Nat) (word : List Char) (split : List Bool) :
    ∀ (n : Nat) (rest : List Char), rest.length ≤ n → ∀ (c : Nat), word.drop c = rest →
    plain [] (word.take c) = true →
    ∀ words, find_brace long_max word split rest c = brace_step.expand words →
    ∀ w ∈ words, unescaped_braces w.1 < unescaped_braces word := by
  intro n
  induction n with
  | zero =>
    intro rest hn c _ _ words h
    cases rest with
    | nil => simp [find_brace] at h
    | cons a t => simp at hn
  | succ n ih =>
    intro rest hn c hdrop hv words h
    cases rest with
    | nil => simp [find_brace] at h
    | cons a t =>
      simp only [List.length_cons, Nat.add_le_add_iff_right] at hn
      have hget : word[c]? = some a := by
        have := congrArg List.head? hdrop
        rw [List.head?_drop] at this
        simpa using this
      have hnext : word.drop (c + 1) = t := by
        rw [← List.drop_drop, hdrop]; rfl
      by_cases ha : a = '\\'
      · subst ha
        cases t with
        | nil => rw [find_brace_backslash] at h; simp at h
        | cons b t' =>
          rw [find_brace_cons_esc] at h
          simp only [List.length_cons] at hn
          have hlen : c + 1 < word.length := by
            have := congrArg List.length hdrop
            simp only [List.length_drop, List.length_cons] at this
            omega
          refine ih t' (by omega) (c + 2) ?_ (plain_take_esc word c hv hget hlen) words h
          rw [← List.drop_drop, hdrop]; rfl
      · have hv1 := plain_take_succ word c a hv hget ha
        by_cases hb : a = '{'
        · subst hb
          rw [find_brace_cons_brace] at h
          by_cases hemp : t.isEmpty = true
          · rw [if_pos hemp] at h; simp at h
          rw [if_neg hemp] at h
          cases hseq : tryexpand_brace_sequence long_max word split (c + 1) with
          | some ws =>
            rw [hseq] at h
            simp only [brace_step.expand.injEq] at h
            subst h
            exact tryexpand_brace_sequence_unescaped long_max word split c ws hv hget hseq
          | none =>
            rw [hseq] at h
            simp only at h
            cases hscan : scan_elements t (c + 1) 0 [c + 1] with
            | none =>
              rw [hscan] at h
              exact ih t hn (c + 1) hnext hv1 words h
            | some elemlist =>
              rw [hscan] at h
              simp only [brace_step.expand.injEq] at h
              subst h
              obtain ⟨hp, more, hmore, hgt⟩ := scan_elements_sorted t.length t (le_refl _)
                (c + 1) 0 [c + 1] elemlist hscan (List.pairwise_singleton _ _) (by simp)
              have hbound := scan_elements_boundaries word t.length t (le_refl _) (c + 1) 0
                [c + 1] elemlist hnext hv1 hscan (by
                  intro x hx
                  simp only [List.mem_singleton] at hx
                  subst hx
                  exact ⟨by simpa using hv, hv1⟩)
              have hhead : elemlist.headD 0 - 1 = c := by rw [hmore]; simp
              have hlastmem : elemlist.getLastD 0 ∈ elemlist :=
                getLastD_mem_of_ne_nil elemlist (by rw [hmore]; simp)
              rw [hhead]
              apply list_words_unescaped word split c _ hv hget (hbound _ hlastmem).2 elemlist hp
              intro x hx
              refine ⟨?_, pairwise_lt_le_getLastD elemlist hp x hx, hbound x hx⟩
              rw [hmore] at hx
              rcases List.mem_append.1 hx with hx | hx
              · simp only [List.mem_singleton] at hx; omega
              · have := hgt x hx; omega
        · rw [find_brace_cons_other _ _ _ _ _ _ ha hb] at h
          exact ih t hn (c + 1) hnext hv1 words h

/-- The results of the recursive calls are put together when each call
returns. -/
theorem concat_results_returns (f : List Char × List Bool → Option (List (List Char × List Bool)))
    (ws : List (List Char × List Bool)) (h : ∀ w ∈ ws, ∃ r, f w = some r) :
    ∃ out, concat_results (ws.map f) = some out := by
  induction ws with
  | nil => exact ⟨[], rfl⟩
  | cons w t ih =>
    obtain ⟨r, hr⟩ := h w (List.mem_cons_self _ _)
    obtain ⟨out, hout⟩ := ih (fun x hx => h x (List.mem_cons_of_mem _ hx))
    exact ⟨r ++ out, by simp [concat_results, hr, hout]⟩

/-- With a depth above the number of its unescaped braces `expand_brace`
returns. -/
theorem expand_brace_depth_returns (long_max : Nat) : ∀ (depth : Nat) (word : List Char)
    (split : List Bool), unescaped_braces word < depth →
    ∃ out, expand_brace_depth long_max depth word split = some out := by
  intro depth
  induction depth with
  | zero => intro word split h; omega
  | succ depth ih =>
    intro word split hcount
    rw [expand_brace_depth]
    cases hfind : find_brace long_max word split word 0 with
    | literal => exact ⟨[(word, split)], rfl⟩
    | expand words =>
      simp only
      have hstep := find_brace_unescaped long_max word split word.length word (le_refl _) 0
        rfl rfl words hfind
      exact concat_results_returns (fun w => expand_brace_depth long_max depth w.1 w.2) words
        (fun w hw => ih w.1 w.2 (by have := hstep w hw; omega))

/-- A depth above the number of the unescaped braces of the word is as good as
any greater one: the result of `expand_brace` does not depend on it. -/
theorem expand_brace_depth_stable (long_max : Nat) (k : Nat) : ∀ (depth : Nat)
    (word : List Char) (split : List Bool), unescaped_braces word < depth →
    expand_brace_depth long_max (depth + k) word split =
      expand_brace_depth long_max depth word split := by
  intro depth
  induction depth with
  | zero => intro word split h; omega
  | succ depth ih =>
    intro word split hcount
    rw [show depth + 1 + k = (depth + k) + 1 by omega, expand_brace_depth, expand_brace_depth]
    cases hfind : find_brace long_max word split word 0 with
    | literal => rfl
    | expand words =>
      simp only
      have hstep := find_brace_unescaped long_max word split word.length word (le_refl _) 0
        rfl rfl words hfind
      congr 1
      apply List.map_congr_left
      intro w hw
      exact ih w.1 w.2 (by have := hstep w hw; omega)

/-- The index that `escaped_wcspbrk` finds holds a character of `accept`. -/
theorem escaped_wcspbrk_some (accept : List Char) :
    ∀ (s : List Char) (i : Nat), escaped_wcspbrk s accept = some i →
    ∃ a, a ∈ accept ∧ s.drop i = a :: s.drop (i + 1) := by
  intro s
  induction s using list_two_step with
  | h0 => intro i h; simp [escaped_wcspbrk] at h
  | h1 a =>
    intro i h
    by_cases ha : a = '\\'
    · subst ha; simp [escaped_wcspbrk] at h
    · rw [escaped_wcspbrk_cons_ne _ _ _ ha] at h
      by_cases hm : a ∈ accept
      · rw [if_pos hm] at h
        simp only [Option.some.injEq] at h
        subst h
        exact ⟨a, hm, rfl⟩
      · rw [if_neg hm] at h
        simp [escaped_wcspbrk] at h
  | h2 a b l ih2 ih1 =>
    intro i h
    by_cases ha : a = '\\'
    · subst ha
      rw [escaped_wcspbrk_cons_esc] at h
      simp only [Option.map_eq_some'] at h
      obtain ⟨j, hj, rfl⟩ := h
      obtain ⟨x, hx, hd⟩ := ih2 j hj
      exact ⟨x, hx, by simpa using hd⟩
    · rw [escaped_wcspbrk_cons_ne _ _ _ ha] at h
      by_cases hm : a ∈ accept
      · rw [if_pos hm] at h
        simp only [Option.some.injEq] at h
        subst h
        exact ⟨a, hm, rfl⟩
      · rw [if_neg hm] at h
        simp only [Option.map_eq_some'] at h
        obtain ⟨j, hj, rfl⟩ := h
        obtain ⟨x, hx, hd⟩ := ih1 j hj
        exact ⟨x, hx, by simpa using hd⟩

/-- A restart of the scan of `expand_brace`: when the opening brace that the
search from the index `c` finds, at `c + i`, starts neither a sequence nor a
list, the search goes on from the index behind that brace. -/
theorem find_brace_restart (long_max : Nat) (word : List Char) (split : List Bool)
    (rest : List Char) (c i : Nat) (hfound : escaped_wcspbrk rest ['{'] = some i)
    (hseq : tryexpand_brace_sequence long_max word split (c + i + 1) = none)
    (hscan : scan_elements (rest.drop (i + 1)) (c + i + 1) 0 [c + i + 1] = none) :
    find_brace long_max word split rest c =
      find_brace long_max word split (rest.drop (i + 1)) (c + i + 1) := by
  obtain ⟨a, ha, hd⟩ := escaped_wcspbrk_some ['{'] rest i hfound
  simp only [List.mem_singleton] at ha
  subst ha
  have h := find_brace_search long_max word split rest c
  rw [hfound] at h
  simp only at h
  rw [h, hd, find_brace_cons_brace, hseq, hscan]
  simp only
  split_ifs with hemp
  · rw [List.isEmpty_iff] at hemp
    rw [hemp]
    rfl
  · rfl

/-- C40: `expand_brace` terminates on every input word.  Each recursive call
receives a word with strictly fewer unescaped opening braces, so that the
function returns with every depth of recursion above the number of the
unescaped opening braces of the word, with a result that does not depend on
the depth; and each restart of the scan begins behind the opening brace that
the scan before it has found, which is strictly further right in the word. -/
theorem expand_brace_terminates (long_max : Nat) (word : List Char) (split : List Bool) :
    (∃ out, expand_brace long_max word split = some out) ∧
    (∀ depth : Nat, unescaped_braces word < depth →
      expand_brace_depth long_max depth word split = expand_brace long_max word split) ∧
    (∀ words, find_brace long_max word split word 0 = brace_step.expand words →
      ∀ w ∈ words, unescaped_braces w.1 < unescaped_braces word) ∧
    (∀ (rest : List Char) (c i : Nat), escaped_wcspbrk rest ['{'] = some i →
      tryexpand_brace_sequence long_max word split (c + i + 1) = none →
      scan_elements (rest.drop (i + 1)) (c + i + 1) 0 [c + i + 1] = none →
      c < c + i + 1 ∧
      find_brace long_max word split rest c =
        find_brace long_max word split (rest.drop (i + 1)) (c + i + 1)) := by
  have hle := unescaped_braces_le_count word
  have hstable : ∀ depth : Nat, unescaped_braces word < depth →
      expand_brace_depth long_max depth word split = expand_brace long_max word split := by
    intro depth hd
    unfold expand_brace
    have h1 := expand_brace_depth_stable long_max (word.count '{' + 1) depth word split hd
    have h2 := expand_brace_depth_stable long_max depth (word.count '{' + 1) word split
      (by omega)
    rw [← h1, ← h2, Nat.add_comm]
  refine ⟨?_, hstable, ?_, ?_⟩
  · exact expand_brace_depth_returns long_max (word.count '{' + 1) word split (by omega)
  · intro words h
    exact find_brace_unescaped long_max word split word.length word (le_refl _) 0 rfl rfl
      words h
  · intro rest c i hfound hseq hscan
    exact ⟨by omega, find_brace_restart long_max word split rest c i hfound hseq hscan⟩

/-! ## Theorems: the endpoints of a sequence read as decimal integers -/

/-- Endpoints written with a leading zero are read as octal numerals, against
the comment above `tryexpand_brace_sequence`, which gives `{01..05}` as its
example of a sequence of numbers: the word `{08..10}` is not expanded, and the
word `{010..012}` gives `008 009 010`. -/
theorem expand_brace_sequence_octal :
    integer_text "08".data = some 8 ∧ integer_text "10".data = some 10 ∧
    (expand_brace LONG_MAX_LP64 "{08..10}".data []).map (fun out => out.map Prod.fst) =
      some ["{08..10}".data] ∧
    integer_text "010".data = some 10 ∧ integer_text "012".data = some 12 ∧
    (expand_brace LONG_MAX_LP64 "{010..012}".data []).map (fun out => out.map Prod.fst) =
      some ["008".data, "009".data, "010".data] := by
  refine ⟨by decide, by decide, by decide, by decide, by decide, by decide⟩

end Yash
